import Mathlib

/-!
# goon: a shallow embedding of `src/goon.c`

The interpreter of the goon configuration language is embedded function by
function.  Conventions of the embedding:

* a C string is the list of its characters before the terminating NUL
  (`List Char`), so `strlen` is `List.length` and `strcmp(a, b) == 0` is `a = b`;
* a `Goon_Value *` is a term of `Goon_Value`, whose constructor `NULL` is the
  null pointer; values are never mutated once the literal that builds them has
  been parsed, so sharing by pointer is sharing by value;
* a `while` loop is a recursive function named after the function it lives in;
  the loops of the tokenizer run on the distance to the end of the input, the
  mutually recursive parse functions run on an explicit `fuel`;
* a function that mutates `*lex`, `*ctx` or `*p` returns the new state;
* allocation failure (`malloc`, `realloc`, `strdup` returning NULL) is not modelled.
-/

namespace Goon

/-! ## Tokens and the lexer state -/

/-- The enum `Token_Type`. -/
inductive Token_Type where
  | TOK_EOF
  | TOK_LBRACE
  | TOK_RBRACE
  | TOK_LBRACKET
  | TOK_RBRACKET
  | TOK_LPAREN
  | TOK_RPAREN
  | TOK_SEMICOLON
  | TOK_COMMA
  | TOK_EQUALS
  | TOK_COLON
  | TOK_QUESTION
  | TOK_SPREAD
  | TOK_DOT
  | TOK_INT
  | TOK_STRING
  | TOK_IDENT
  | TOK_TRUE
  | TOK_FALSE
  | TOK_LET
  | TOK_IF
  | TOK_THEN
  | TOK_ELSE
  | TOK_IMPORT
  deriving DecidableEq, Repr

open Token_Type

/-- The struct `Token`.  The two members of the union `data` are kept as two
fields: `integer` is only read when `type` is `TOK_INT`, `string` only when it
is `TOK_STRING` or `TOK_IDENT`; `string = none` is the NULL pointer. -/
structure Token where
  type : Token_Type
  integer : Int
  string : Option (List Char)
  deriving DecidableEq, Repr

/-- The struct `Lexer`; `error = none` is the NULL pointer. -/
structure Lexer where
  src : List Char
  pos : Nat
  len : Nat
  current : Token
  error : Option (List Char)
  deriving DecidableEq, Repr

/-- The character `lex->src[i]`; the byte at index `len` is the terminating NUL. -/
def Lexer.src_at (lex : Lexer) (i : Nat) : Char :=
  lex.src.getD i (Char.ofNat 0)

/-- The double quote character. -/
def DQUOTE : Char := Char.ofNat 34

/-- The backslash character. -/
def BACKSLASH : Char := Char.ofNat 92

/-- Wrap-around of a mathematical integer into the range of `int64_t`. -/
def wrap64 (x : Int) : Int :=
  (x + 9223372036854775808) % 18446744073709551616 - 9223372036854775808

def lexer_init (src : List Char) : Lexer :=
  { src := src
    pos := 0
    len := src.length
    current := { type := TOK_EOF, integer := 0, string := none }
    error := none }

/-- The `isalpha` of the C locale. -/
def isalpha (c : Char) : Bool :=
  (65 ≤ c.toNat && c.toNat ≤ 90) || (97 ≤ c.toNat && c.toNat ≤ 122)

/-- The `isdigit` of the C locale. -/
def isdigit (c : Char) : Bool :=
  48 ≤ c.toNat && c.toNat ≤ 57

/-- The `isalnum` of the C locale. -/
def isalnum (c : Char) : Bool :=
  isalpha c || isdigit c

def is_ident_start (c : Char) : Bool :=
  isalpha c || c = '_'

def is_ident_char (c : Char) : Bool :=
  isalnum c || c = '_'

/-- The inner loop of `lexer_skip_whitespace` that skips a `//` comment. -/
def lexer_skip_whitespace_line : Nat → Lexer → Lexer
  | 0, lex => lex
  | n + 1, lex =>
    if lex.pos < lex.len ∧ lex.src_at lex.pos ≠ '\n' then
      lexer_skip_whitespace_line n { lex with pos := lex.pos + 1 }
    else lex

/-- The inner loop of `lexer_skip_whitespace` that skips a block comment. -/
def lexer_skip_whitespace_block : Nat → Lexer → Lexer
  | 0, lex => lex
  | n + 1, lex =>
    if lex.pos + 1 < lex.len then
      if lex.src_at lex.pos = '*' ∧ lex.src_at (lex.pos + 1) = '/' then
        { lex with pos := lex.pos + 2 }
      else lexer_skip_whitespace_block n { lex with pos := lex.pos + 1 }
    else lex

/-- The outer loop of `lexer_skip_whitespace`; every turn moves `pos` forward,
so `len - pos` turns are enough. -/
def lexer_skip_whitespace_loop : Nat → Lexer → Lexer
  | 0, lex => lex
  | n + 1, lex =>
    if lex.pos < lex.len then
      let c := lex.src_at lex.pos
      if c = ' ' ∨ c = '\t' ∨ c = '\n' ∨ c = '\r' then
        lexer_skip_whitespace_loop n { lex with pos := lex.pos + 1 }
      else if c = '/' ∧ lex.pos + 1 < lex.len ∧ lex.src_at (lex.pos + 1) = '/' then
        let lex1 := { lex with pos := lex.pos + 2 }
        lexer_skip_whitespace_loop n (lexer_skip_whitespace_line (lex1.len - lex1.pos) lex1)
      else if c = '/' ∧ lex.pos + 1 < lex.len ∧ lex.src_at (lex.pos + 1) = '*' then
        let lex1 := { lex with pos := lex.pos + 2 }
        lexer_skip_whitespace_loop n (lexer_skip_whitespace_block (lex1.len - lex1.pos) lex1)
      else lex
    else lex

def lexer_skip_whitespace (lex : Lexer) : Lexer :=
  lexer_skip_whitespace_loop (lex.len - lex.pos) lex

/-- The `switch` of `lexer_next` that decodes the character after a backslash. -/
def lexer_next_escape (ch : Char) : Char :=
  if ch = 'n' then '\n'
  else if ch = 't' then '\t'
  else if ch = 'r' then '\r'
  else if ch = BACKSLASH then BACKSLASH
  else if ch = DQUOTE then DQUOTE
  else if ch = '$' then '$'
  else ch

/-- The loop of `lexer_next` that reads the body of a string literal into `buf`. -/
def lexer_next_string : Nat → Lexer → List Char → Lexer × List Char
  | 0, lex, buf => (lex, buf)
  | n + 1, lex, buf =>
    if lex.pos < lex.len ∧ lex.src_at lex.pos ≠ DQUOTE then
      let ch := lex.src_at lex.pos
      if ch = BACKSLASH ∧ lex.pos + 1 < lex.len then
        let lex1 := { lex with pos := lex.pos + 1 }
        let ch1 := lexer_next_escape (lex1.src_at lex1.pos)
        lexer_next_string n { lex1 with pos := lex1.pos + 1 } (buf ++ [ch1])
      else
        lexer_next_string n { lex with pos := lex.pos + 1 } (buf ++ [ch])
    else (lex, buf)

/-- The loop of `lexer_next` that accumulates the decimal digits of an integer
literal in an `int64_t`. -/
def lexer_next_digits : Nat → Lexer → Int → Lexer × Int
  | 0, lex, val => (lex, val)
  | n + 1, lex, val =>
    if lex.pos < lex.len ∧ isdigit (lex.src_at lex.pos) then
      lexer_next_digits n { lex with pos := lex.pos + 1 }
        (wrap64 (val * 10 + ((lex.src_at lex.pos).toNat - 48 : Int)))
    else (lex, val)

/-- The loop of `lexer_next` that runs over the characters of an identifier. -/
def lexer_next_ident : Nat → Lexer → Lexer
  | 0, lex => lex
  | n + 1, lex =>
    if lex.pos < lex.len ∧ is_ident_char (lex.src_at lex.pos) then
      lexer_next_ident n { lex with pos := lex.pos + 1 }
    else lex

/-- The function `strdup_range(lex->src + start, len)`. -/
def strdup_range (src : List Char) (start len : Nat) : List Char :=
  (src.drop start).take len

/-- Sets `lex->current.type` and advances `pos` by `k`. -/
def Lexer.emit (lex : Lexer) (t : Token_Type) (k : Nat) : Lexer :=
  { lex with current := { lex.current with type := t }, pos := lex.pos + k }

/-- The function `lexer_next`: the returned flag is the C return value. -/
def lexer_next (lex0 : Lexer) : Bool × Lexer :=
  let lex00 : Lexer :=
    if lex0.current.type = TOK_STRING ∨ lex0.current.type = TOK_IDENT then
      { lex0 with current := { lex0.current with string := none } }
    else lex0
  let lex := lexer_skip_whitespace lex00
  if lex.pos ≥ lex.len then
    (true, lex.emit TOK_EOF 0)
  else
    let c := lex.src_at lex.pos
    if c = '{' then (true, lex.emit TOK_LBRACE 1)
    else if c = '}' then (true, lex.emit TOK_RBRACE 1)
    else if c = '[' then (true, lex.emit TOK_LBRACKET 1)
    else if c = ']' then (true, lex.emit TOK_RBRACKET 1)
    else if c = '(' then (true, lex.emit TOK_LPAREN 1)
    else if c = ')' then (true, lex.emit TOK_RPAREN 1)
    else if c = ';' then (true, lex.emit TOK_SEMICOLON 1)
    else if c = ',' then (true, lex.emit TOK_COMMA 1)
    else if c = '=' then (true, lex.emit TOK_EQUALS 1)
    else if c = ':' then (true, lex.emit TOK_COLON 1)
    else if c = '?' then (true, lex.emit TOK_QUESTION 1)
    else if c = '.' ∧ lex.pos + 2 < lex.len ∧
        lex.src_at (lex.pos + 1) = '.' ∧ lex.src_at (lex.pos + 2) = '.' then
      (true, lex.emit TOK_SPREAD 3)
    else if c = '.' then (true, lex.emit TOK_DOT 1)
    else if c = DQUOTE then
      let lex1 := { lex with pos := lex.pos + 1 }
      let r := lexer_next_string (lex1.len - lex1.pos) lex1 []
      let lex2 := r.1
      if lex2.pos ≥ lex2.len then
        (false, { lex2 with error := some "unterminated string".toList })
      else
        (true, { lex2 with
                  pos := lex2.pos + 1
                  current := { lex2.current with type := TOK_STRING, string := some r.2 } })
    else if isdigit c ∨ (c = '-' ∧ lex.pos + 1 < lex.len ∧ isdigit (lex.src_at (lex.pos + 1))) then
      let sign : Int := if c = '-' then -1 else 1
      let lex1 := if c = '-' then { lex with pos := lex.pos + 1 } else lex
      let r := lexer_next_digits (lex1.len - lex1.pos) lex1 0
      let lex2 := r.1
      (true, { lex2 with
                current := { lex2.current with type := TOK_INT, integer := wrap64 (r.2 * sign) } })
    else if is_ident_start c then
      let start := lex.pos
      let lex1 := lexer_next_ident (lex.len - lex.pos) lex
      let ident := strdup_range lex1.src start (lex1.pos - start)
      if ident = "true".toList then (true, lex1.emit TOK_TRUE 0)
      else if ident = "false".toList then (true, lex1.emit TOK_FALSE 0)
      else if ident = "let".toList then (true, lex1.emit TOK_LET 0)
      else if ident = "if".toList then (true, lex1.emit TOK_IF 0)
      else if ident = "then".toList then (true, lex1.emit TOK_THEN 0)
      else if ident = "else".toList then (true, lex1.emit TOK_ELSE 0)
      else if ident = "import".toList then (true, lex1.emit TOK_IMPORT 0)
      else
        (true, { lex1 with
                  current := { lex1.current with type := TOK_IDENT, string := some ident } })
    else
      (false, { lex with error := some "unexpected character".toList })

/-! ## Values, records, lists and the environment -/

/-- A `Goon_Value *`: the null pointer, or a pointer to a value of one of the
seven kinds of `Goon_Type`.  A list holds its `len` items in order; a record
holds its chain of `Goon_Record_Field` nodes from the head, each a key and a
value pointer; a builtin holds the index of a host function. -/
inductive Goon_Value where
  | NULL
  | nil
  | bool (boolean : Bool)
  | int (integer : Int)
  | string (string : List Char)
  | list (items : List Goon_Value)
  | record (fields : List (List Char × Goon_Value))
  | builtin (fn : Nat)

instance : Inhabited Goon_Value := ⟨.NULL⟩

/-- The test `val == NULL`. -/
def Goon_Value.isNull : Goon_Value → Bool
  | .NULL => true
  | _ => false

/-- The struct `Goon_Ctx`: the chain of `Goon_Binding` nodes from the head, the
last error message and the path of the file being loaded.  The allocation
registries `values` and `fields` and `userdata` carry no behaviour. -/
structure Goon_Ctx where
  env : List (List Char × Goon_Value)
  error : Option (List Char)
  base_path : Option (List Char)

/-- What the interpreter takes from outside the repository: the functions the
host registers (function `fn` applied to the context and the argument array),
the `dirname` of libc, and the file system as seen by `fopen` and `fread`
(`none` when the file cannot be opened).  Host functions are taken to read the
context without changing it. -/
structure Host where
  builtin : Nat → Goon_Ctx → List Goon_Value → Goon_Value
  dirname : List Char → List Char
  fopen : List Char → Option (List Char)

/-- The text `snprintf` produces for the conversion `%ld`. -/
def snprintf_ld (i : Int) : List Char :=
  if i < 0 then '-' :: Nat.toDigits 10 i.natAbs else Nat.toDigits 10 i.natAbs

def goon_is_nil (val : Goon_Value) : Bool :=
  match val with
  | .NULL => true
  | .nil => true
  | _ => false

def goon_is_list (val : Goon_Value) : Bool :=
  match val with
  | .list _ => true
  | _ => false

def goon_is_record (val : Goon_Value) : Bool :=
  match val with
  | .record _ => true
  | _ => false

def goon_to_bool (val : Goon_Value) : Bool :=
  match val with
  | .NULL => false
  | .bool b => b
  | .nil => false
  | _ => true

def goon_to_int (val : Goon_Value) : Int :=
  match val with
  | .int i => i
  | _ => 0

def goon_list_push (list item : Goon_Value) : Goon_Value :=
  match list with
  | .list items => .list (items ++ [item])
  | other => other

def goon_list_len (list : Goon_Value) : Nat :=
  match list with
  | .list items => items.length
  | _ => 0

def goon_list_get (list : Goon_Value) (index : Nat) : Goon_Value :=
  match list with
  | .list items => items.getD index .NULL
  | _ => .NULL

/-- The `while` loop of `goon_record_set`: the chain with the value of the first
field named `key` replaced, or `none` when the loop falls through. -/
def goon_record_set_loop (key : List Char) (value : Goon_Value) :
    List (List Char × Goon_Value) → Option (List (List Char × Goon_Value))
  | [] => none
  | f :: next =>
    if f.1 = key then some ((f.1, value) :: next)
    else (goon_record_set_loop key value next).map (fun rest => f :: rest)

def goon_record_set (record : Goon_Value) (key : List Char) (value : Goon_Value) : Goon_Value :=
  match record with
  | .record fields =>
    match goon_record_set_loop key value fields with
    | some fields1 => .record fields1
    | none => .record ((key, value) :: fields)
  | other => other

/-- The `while` loop of `goon_record_get`. -/
def goon_record_get_loop (key : List Char) : List (List Char × Goon_Value) → Goon_Value
  | [] => .NULL
  | f :: next => if f.1 = key then f.2 else goon_record_get_loop key next

def goon_record_get (record : Goon_Value) (key : List Char) : Goon_Value :=
  match record with
  | .record fields => goon_record_get_loop key fields
  | _ => .NULL

def goon_record_fields (record : Goon_Value) : List (List Char × Goon_Value) :=
  match record with
  | .record fields => fields
  | _ => []

/-- The `while` loop of `lookup`. -/
def lookup_loop (name : List Char) : List (List Char × Goon_Value) → Goon_Value
  | [] => .NULL
  | b :: next => if b.1 = name then b.2 else lookup_loop name next

def lookup (ctx : Goon_Ctx) (name : List Char) : Goon_Value :=
  lookup_loop name ctx.env

/-- The `while` loop of `define`. -/
def define_loop (name : List Char) (value : Goon_Value) :
    List (List Char × Goon_Value) → Option (List (List Char × Goon_Value))
  | [] => none
  | b :: next =>
    if b.1 = name then some ((b.1, value) :: next)
    else (define_loop name value next).map (fun rest => b :: rest)

def define (ctx : Goon_Ctx) (name : List Char) (value : Goon_Value) : Goon_Ctx :=
  match define_loop name value ctx.env with
  | some env1 => { ctx with env := env1 }
  | none => { ctx with env := (name, value) :: ctx.env }

def goon_create : Goon_Ctx :=
  { env := [], error := none, base_path := none }

def goon_register (ctx : Goon_Ctx) (name : List Char) (fn : Nat) : Goon_Ctx :=
  define ctx name (.builtin fn)

/-! ## String interpolation -/

/-- The inner loop of `interpolate_string` that looks for the closing brace. -/
def interpolate_string_scan : Nat → List Char → Nat → Nat
  | 0, _, i => i
  | n + 1, str, i =>
    if i < str.length ∧ str.getD i (Char.ofNat 0) ≠ '}' then
      interpolate_string_scan n str (i + 1)
    else i

/-- The text `insert` that `interpolate_string` appends for a looked-up value;
empty when `val` is NULL or `insert` stays NULL. -/
def interpolate_string_insert (val : Goon_Value) : List Char :=
  match val with
  | .string s => s
  | .int i => snprintf_ld i
  | .bool b => if b then "true".toList else "false".toList
  | _ => []

/-- The outer loop of `interpolate_string`, from index `i` with `buf` built so far. -/
def interpolate_string_loop (ctx : Goon_Ctx) : Nat → List Char → Nat → List Char → List Char
  | 0, _, _, buf => buf
  | n + 1, str, i, buf =>
    if i < str.length then
      if str.getD i (Char.ofNat 0) = '$' ∧ i + 1 < str.length ∧
          str.getD (i + 1) (Char.ofNat 0) = '{' then
        let var_start := i + 2
        let j := interpolate_string_scan (str.length - var_start) str var_start
        if j < str.length then
          let var_name := strdup_range str var_start (j - var_start)
          let val := lookup ctx var_name
          interpolate_string_loop ctx n str (j + 1) (buf ++ interpolate_string_insert val)
        else
          interpolate_string_loop ctx n str j buf
      else
        interpolate_string_loop ctx n str (i + 1) (buf ++ [str.getD i (Char.ofNat 0)])
    else buf

def interpolate_string (ctx : Goon_Ctx) (str : List Char) : Goon_Value :=
  .string (interpolate_string_loop ctx str.length str 0 [])

/-! ## The parser, which evaluates as it parses -/

/-- The struct `Parser`: the context and the lexer its two pointers point to. -/
structure Parser where
  ctx : Goon_Ctx
  lex : Lexer

/-- How a call of a parse function ends: it returns, it dereferences a null
pointer (`strdup(NULL)`, `strlen(NULL)`), or the fuel of the embedding runs out
before it has returned. -/
inductive Outcome (α : Type) where
  | ret (a : α)
  | crash
  | timeout

/-- Sequencing: continue with the returned value, pass on a crash or a timeout. -/
def Outcome.bind {α β : Type} (o : Outcome α) (k : α → Outcome β) : Outcome β :=
  match o with
  | .ret a => k a
  | .crash => .crash
  | .timeout => .timeout

/-- The statement `return NULL;`. -/
def Parser.ret_null (p : Parser) : Outcome (Goon_Value × Parser) :=
  .ret (.NULL, p)

/-- The statements `p->lex->error = strdup(msg); return NULL;`. -/
def Parser.fail (p : Parser) (msg : List Char) : Outcome (Goon_Value × Parser) :=
  .ret (.NULL, { p with lex := { p.lex with error := some msg } })

/-- The statement `if (!lexer_next(p->lex)) return NULL;` followed by `k`. -/
def Parser.advance (p : Parser) (k : Parser → Outcome (Goon_Value × Parser)) :
    Outcome (Goon_Value × Parser) :=
  if (lexer_next p.lex).1 then k { p with lex := (lexer_next p.lex).2 }
  else .ret (.NULL, { p with lex := (lexer_next p.lex).2 })

/-- The type of the current token, `p->lex->current.type`. -/
def Parser.tok (p : Parser) : Token_Type :=
  p.lex.current.type

/-- The file name an import opens: `path` taken relative to the directory of
`base_path` unless it is absolute or there is no base path, cut to the 1023
characters of `full_path`, with `.goon` appended when it does not end in it. -/
def parse_import_path (host : Host) (base_path : Option (List Char)) (path : List Char) :
    List Char :=
  let full_path : List Char :=
    match base_path with
    | some base =>
      if path.head? = some '.' then (host.dirname base ++ '/' :: path).take 1023
      else if path.head? ≠ some '/' then (host.dirname base ++ '/' :: path).take 1023
      else path.take 1023
    | none => path.take 1023
  let plen := full_path.length
  if plen < 5 ∨ full_path.drop (plen - 5) ≠ ".goon".toList then
    full_path ++ (".goon".toList).take (1024 - plen - 1)
  else full_path

/-- The spread loop of `parse_record`: every field of the chain is set on `record`. -/
def parse_record_spread (record : Goon_Value) :
    List (List Char × Goon_Value) → Goon_Value
  | [] => record
  | f :: next => parse_record_spread (goon_record_set record f.1 f.2) next

/-- The spread loop of `parse_list`: every item is pushed on `list`. -/
def parse_list_spread (list : Goon_Value) : List Goon_Value → Goon_Value
  | [] => list
  | item :: rest => parse_list_spread (goon_list_push list item) rest

mutual

/-- The `while` loop of `parse_record` and the statements after it. -/
def parse_record_loop (host : Host) :
    Nat → Parser → Goon_Value → Outcome (Goon_Value × Parser)
  | 0, _, _ => .timeout
  | fuel + 1, p, record =>
    if p.tok ≠ TOK_RBRACE ∧ p.tok ≠ TOK_EOF then
      if p.tok = TOK_SPREAD then
        p.advance fun p1 =>
        (parse_expr host fuel p1).bind fun r =>
        let spread_val := r.1
        let p2 := r.2
        let record1 :=
          match spread_val with
          | .record fields => parse_record_spread record fields
          | _ => record
        if p2.tok = TOK_COMMA then
          p2.advance fun p3 => parse_record_loop host fuel p3 record1
        else if p2.tok = TOK_SEMICOLON then
          p2.advance fun p3 => parse_record_loop host fuel p3 record1
        else parse_record_loop host fuel p2 record1
      else if p.tok ≠ TOK_IDENT then
        p.fail "expected field name".toList
      else
        match p.lex.current.string with
        | none => .crash
        | some key =>
          p.advance fun p1 =>
          let k : Parser → Outcome (Goon_Value × Parser) := fun p2 =>
            if p2.tok ≠ TOK_EQUALS then
              p2.fail "expected = after field name".toList
            else
              p2.advance fun p3 =>
              (parse_expr host fuel p3).bind fun r =>
              let value := r.1
              let p4 := r.2
              if value.isNull then p4.ret_null
              else
                let record1 := goon_record_set record key value
                if p4.tok = TOK_SEMICOLON then
                  p4.advance fun p5 => parse_record_loop host fuel p5 record1
                else if p4.tok = TOK_COMMA then
                  p4.advance fun p5 => parse_record_loop host fuel p5 record1
                else parse_record_loop host fuel p4 record1
          if p1.tok = TOK_COLON then
            p1.advance fun p2 => p2.advance k
          else k p1
    else if p.tok ≠ TOK_RBRACE then
      p.fail "expected \x7d".toList
    else
      p.advance fun p1 => .ret (record, p1)

def parse_record (host : Host) : Nat → Parser → Outcome (Goon_Value × Parser)
  | 0, _ => .timeout
  | fuel + 1, p =>
    let record := Goon_Value.record []
    p.advance fun p1 => parse_record_loop host fuel p1 record

/-- The `while` loop of `parse_list` and the statements after it. -/
def parse_list_loop (host : Host) :
    Nat → Parser → Goon_Value → Outcome (Goon_Value × Parser)
  | 0, _, _ => .timeout
  | fuel + 1, p, list =>
    if p.tok ≠ TOK_RBRACKET ∧ p.tok ≠ TOK_EOF then
      let k : Goon_Value × Parser → Outcome (Goon_Value × Parser) := fun s =>
        if s.2.tok = TOK_COMMA then
          s.2.advance fun p3 => parse_list_loop host fuel p3 s.1
        else parse_list_loop host fuel s.2 s.1
      if p.tok = TOK_SPREAD then
        p.advance fun p1 =>
        (parse_expr host fuel p1).bind fun r =>
        let spread_val := r.1
        match spread_val with
        | .list items => k (parse_list_spread list items, r.2)
        | _ => k (list, r.2)
      else
        (parse_expr host fuel p).bind fun r =>
        let item := r.1
        if item.isNull then r.2.ret_null
        else k (goon_list_push list item, r.2)
    else if p.tok ≠ TOK_RBRACKET then
      p.fail "expected ]".toList
    else
      p.advance fun p1 => .ret (list, p1)

def parse_list (host : Host) : Nat → Parser → Outcome (Goon_Value × Parser)
  | 0, _ => .timeout
  | fuel + 1, p =>
    let list := Goon_Value.list []
    p.advance fun p1 => parse_list_loop host fuel p1 list

/-- The `while` loop of `parse_import` over the imported file, with the value
of `result` so far. -/
def parse_import_loop (host : Host) :
    Nat → Parser → Goon_Value → Outcome (Goon_Value × Parser)
  | 0, _, _ => .timeout
  | fuel + 1, ip, result =>
    if ip.tok ≠ TOK_EOF then
      (parse_expr host fuel ip).bind fun r =>
      if r.1.isNull then .ret (r.1, r.2)
      else parse_import_loop host fuel r.2 r.1
    else .ret (result, ip)

def parse_import (host : Host) : Nat → Parser → Outcome (Goon_Value × Parser)
  | 0, _ => .timeout
  | fuel + 1, p =>
    p.advance fun p1 =>
    if p1.tok ≠ TOK_LPAREN then p1.fail "expected ( after import".toList
    else
      p1.advance fun p2 =>
      if p2.tok ≠ TOK_STRING then p2.fail "expected string path in import".toList
      else
        match p2.lex.current.string with
        | none => .crash
        | some path =>
          p2.advance fun p3 =>
          if p3.tok ≠ TOK_RPAREN then p3.fail "expected ) after import path".toList
          else
            p3.advance fun p4 =>
            let full_path := parse_import_path host p4.ctx.base_path path
            match host.fopen full_path with
            | none => p4.fail "could not open import file".toList
            | some source =>
              let old_base := p4.ctx.base_path
              let ctx1 := { p4.ctx with base_path := some full_path }
              let import_lex := lexer_init source
              if (lexer_next import_lex).1 then
                (parse_import_loop host fuel
                    { ctx := ctx1, lex := (lexer_next import_lex).2 } .NULL).bind fun r =>
                .ret (r.1, { ctx := { r.2.ctx with base_path := old_base }, lex := p4.lex })
              else
                .ret (.NULL, { ctx := { ctx1 with base_path := old_base }, lex := p4.lex })

/-- The `while` loop of `parse_call` and the statements after it; `args` holds
the `argc` values collected so far. -/
def parse_call_loop (host : Host) :
    Nat → Parser → Goon_Value → List Goon_Value → Outcome (Goon_Value × Parser)
  | 0, _, _, _ => .timeout
  | fuel + 1, p, fn, args =>
    if p.tok ≠ TOK_RPAREN ∧ p.tok ≠ TOK_EOF ∧ args.length < 16 then
      (parse_expr host fuel p).bind fun r =>
      let args1 := args ++ [r.1]
      if r.2.tok = TOK_COMMA then
        r.2.advance fun p2 => parse_call_loop host fuel p2 fn args1
      else parse_call_loop host fuel r.2 fn args1
    else if p.tok ≠ TOK_RPAREN then
      p.fail "expected )".toList
    else
      p.advance fun p1 =>
      match fn with
      | .builtin f => .ret (host.builtin f p1.ctx args, p1)
      | _ => .ret (.nil, p1)

def parse_call (host : Host) : Nat → Parser → List Char → Outcome (Goon_Value × Parser)
  | 0, _, _ => .timeout
  | fuel + 1, p, name =>
    let fn := lookup p.ctx name
    p.advance fun p1 => parse_call_loop host fuel p1 fn []

/-- The `while` loop of the field chain in `parse_primary` and the `return`
after it. -/
def parse_primary_fields (host : Host) :
    Nat → Parser → Goon_Value → Outcome (Goon_Value × Parser)
  | 0, _, _ => .timeout
  | fuel + 1, p, val =>
    if p.tok = TOK_DOT then
      p.advance fun p1 =>
      if p1.tok ≠ TOK_IDENT then p1.fail "expected field name after .".toList
      else
        match p1.lex.current.string with
        | none => .crash
        | some field =>
          let val1 := goon_record_get val field
          p1.advance fun p2 => parse_primary_fields host fuel p2 val1
    else .ret (if val.isNull then .nil else val, p)

def parse_primary (host : Host) : Nat → Parser → Outcome (Goon_Value × Parser)
  | 0, _ => .timeout
  | fuel + 1, p =>
    let tok := p.lex.current
    match tok.type with
    | TOK_INT =>
      let val := Goon_Value.int tok.integer
      p.advance fun p1 => .ret (val, p1)
    | TOK_STRING =>
      match tok.string with
      | none => .crash
      | some str =>
        let val := interpolate_string p.ctx str
        p.advance fun p1 => .ret (val, p1)
    | TOK_TRUE =>
      let val := Goon_Value.bool true
      p.advance fun p1 => .ret (val, p1)
    | TOK_FALSE =>
      let val := Goon_Value.bool false
      p.advance fun p1 => .ret (val, p1)
    | TOK_IDENT =>
      match tok.string with
      | none => .crash
      | some name =>
        p.advance fun p1 =>
        if p1.tok = TOK_LPAREN then parse_call host fuel p1 name
        else if p1.tok = TOK_DOT then
          let val := lookup p1.ctx name
          parse_primary_fields host fuel p1 val
        else
          let val := lookup p1.ctx name
          .ret (if val.isNull then .nil else val, p1)
    | TOK_LBRACE => parse_record host fuel p
    | TOK_LBRACKET => parse_list host fuel p
    | TOK_IMPORT => parse_import host fuel p
    | TOK_LPAREN =>
      p.advance fun p1 =>
      (parse_expr host fuel p1).bind fun r =>
      let val := r.1
      if r.2.tok ≠ TOK_RPAREN then r.2.fail "expected )".toList
      else r.2.advance fun p3 => .ret (val, p3)
    | _ => p.ret_null

def parse_expr (host : Host) : Nat → Parser → Outcome (Goon_Value × Parser)
  | 0, _ => .timeout
  | fuel + 1, p =>
    if p.tok = TOK_LET then
      p.advance fun p1 =>
      if p1.tok ≠ TOK_IDENT then p1.fail "expected identifier after let".toList
      else
        match p1.lex.current.string with
        | none => .crash
        | some name =>
          p1.advance fun p2 =>
          let k : Parser → Outcome (Goon_Value × Parser) := fun p3 =>
            if p3.tok ≠ TOK_EQUALS then p3.fail "expected = in let binding".toList
            else
              p3.advance fun p4 =>
              (parse_expr host fuel p4).bind fun r =>
              let value := r.1
              if value.isNull then r.2.ret_null
              else
                let p5 : Parser := { r.2 with ctx := define r.2.ctx name value }
                if p5.tok = TOK_SEMICOLON then
                  p5.advance fun p6 => .ret (value, p6)
                else .ret (value, p5)
          if p2.tok = TOK_COLON then
            p2.advance fun p3 => p3.advance k
          else k p2
    else if p.tok = TOK_IF then
      p.advance fun p1 =>
      (parse_expr host fuel p1).bind fun rc =>
      let cond := rc.1
      if cond.isNull then rc.2.ret_null
      else if rc.2.tok ≠ TOK_THEN then rc.2.fail "expected 'then' after if condition".toList
      else
        rc.2.advance fun p2 =>
        (parse_expr host fuel p2).bind fun rt =>
        let then_val := rt.1
        if then_val.isNull then rt.2.ret_null
        else if rt.2.tok ≠ TOK_ELSE then rt.2.fail "expected 'else' after then branch".toList
        else
          rt.2.advance fun p3 =>
          (parse_expr host fuel p3).bind fun re =>
          let else_val := re.1
          if else_val.isNull then re.2.ret_null
          else .ret (if goon_to_bool cond then then_val else else_val, re.2)
    else
      (parse_primary host fuel p).bind fun rv =>
      let val := rv.1
      if val.isNull then rv.2.ret_null
      else if rv.2.tok = TOK_QUESTION then
        rv.2.advance fun p1 =>
        (parse_expr host fuel p1).bind fun rt =>
        let then_val := rt.1
        if then_val.isNull then rt.2.ret_null
        else if rt.2.tok ≠ TOK_COLON then rt.2.fail "expected : in ternary".toList
        else
          rt.2.advance fun p2 =>
          (parse_expr host fuel p2).bind fun re =>
          let else_val := re.1
          if else_val.isNull then re.2.ret_null
          else .ret (if goon_to_bool val then then_val else else_val, re.2)
      else .ret (val, rv.2)

end

/-! ## Loading a source -/

/-- The `while` loop of `goon_load_string` and the `return true` after it.  The
result is the returned flag, the context and the static variable `last_result`. -/
def goon_load_string_loop (host : Host) :
    Nat → Parser → Goon_Value → Outcome (Bool × Goon_Ctx × Goon_Value)
  | 0, _, _ => .timeout
  | fuel + 1, p, last_result =>
    if p.tok ≠ TOK_EOF then
      (parse_expr host fuel p).bind fun r =>
      let expr := r.1
      if expr.isNull then
        match r.2.lex.error with
        | some e => .ret (false, { r.2.ctx with error := some e }, last_result)
        | none => .ret (false, r.2.ctx, last_result)
      else goon_load_string_loop host fuel r.2 expr
    else .ret (true, p.ctx, last_result)

/-- The function `goon_load_string`; `last_result` is the static variable of
that name as it stands before the call. -/
def goon_load_string (host : Host) (fuel : Nat) (ctx : Goon_Ctx) (last_result : Goon_Value)
    (source : List Char) : Outcome (Bool × Goon_Ctx × Goon_Value) :=
  let lex := lexer_init source
  if (lexer_next lex).1 then
    goon_load_string_loop host fuel { ctx := ctx, lex := (lexer_next lex).2 } .NULL
  else
    .ret (false, { ctx with error := (lexer_next lex).2.error }, last_result)

/-- The function `goon_load_file`. -/
def goon_load_file (host : Host) (fuel : Nat) (ctx : Goon_Ctx) (last_result : Goon_Value)
    (path : List Char) : Outcome (Bool × Goon_Ctx × Goon_Value) :=
  match host.fopen path with
  | none => .ret (false, { ctx with error := some "could not open file".toList }, last_result)
  | some source =>
    goon_load_string host fuel { ctx with base_path := some path } last_result source

def goon_get_error (ctx : Goon_Ctx) : Option (List Char) :=
  ctx.error

/-- The function `goon_eval_result`: it returns the static `last_result`. -/
def goon_eval_result (last_result : Goon_Value) : Goon_Value :=
  last_result

/-! ## Rendering as JSON -/

/-- The text `json_escape_string` appends for one character. -/
def json_escape_char (c : Char) : List Char :=
  if c = DQUOTE then [BACKSLASH, DQUOTE]
  else if c = BACKSLASH then [BACKSLASH, BACKSLASH]
  else if c = '\n' then [BACKSLASH, 'n']
  else if c = '\r' then [BACKSLASH, 'r']
  else if c = '\t' then [BACKSLASH, 't']
  else [c]

/-- The `while` loop of `json_escape_string`. -/
def json_escape_string_loop : List Char → List Char
  | [] => []
  | c :: str => json_escape_char c ++ json_escape_string_loop str

/-- The text `json_escape_string` appends to the string builder. -/
def json_escape_string (str : List Char) : List Char :=
  DQUOTE :: json_escape_string_loop str ++ [DQUOTE]

/-- The text `append_indent` appends to the string builder. -/
def append_indent (indent : Int) (depth : Nat) : List Char :=
  if indent ≤ 0 then [] else List.replicate (indent * depth).toNat ' '

mutual

/-- The text `value_to_json` appends to the string builder. -/
def value_to_json : Goon_Value → Int → Nat → List Char
  | .NULL, _, _ => "null".toList
  | .nil, _, _ => "null".toList
  | .bool b, _, _ => if b then "true".toList else "false".toList
  | .int i, _, _ => snprintf_ld i
  | .string s, _, _ => json_escape_string s
  | .list items, indent, depth =>
    '[' :: (if indent > 0 ∧ items.length > 0 then ['\n'] else [])
      ++ value_to_json_items items indent depth
      ++ (if indent > 0 ∧ items.length > 0 then append_indent indent depth else [])
      ++ [']']
  | .record fields, indent, depth =>
    '{' :: (if indent > 0 ∧ fields.length > 0 then ['\n'] else [])
      ++ value_to_json_fields fields indent depth
      ++ (if indent > 0 ∧ fields.length > 0 then append_indent indent depth else [])
      ++ ['}']
  | .builtin _, _, _ => "null".toList

/-- The `for` loop of `value_to_json` over the items of a list, from the item
at the head of the argument on. -/
def value_to_json_items : List Goon_Value → Int → Nat → List Char
  | [], _, _ => []
  | item :: rest, indent, depth =>
    (if indent > 0 then append_indent indent (depth + 1) else [])
      ++ value_to_json item indent (depth + 1)
      ++ (if rest.length > 0 then [','] else [])
      ++ (if indent > 0 then ['\n'] else [])
      ++ value_to_json_items rest indent depth

/-- The `while` loop of `value_to_json` over the field chain of a record. -/
def value_to_json_fields : List (List Char × Goon_Value) → Int → Nat → List Char
  | [], _, _ => []
  | (key, value) :: next, indent, depth =>
    (if indent > 0 then append_indent indent (depth + 1) else [])
      ++ json_escape_string key
      ++ [':']
      ++ (if indent > 0 then [' '] else [])
      ++ value_to_json value indent (depth + 1)
      ++ (if next.length > 0 then [','] else [])
      ++ (if indent > 0 then ['\n'] else [])
      ++ value_to_json_fields next indent depth

end

def goon_to_json (val : Goon_Value) : List Char :=
  value_to_json val 0 0

def goon_to_json_pretty (val : Goon_Value) (indent : Int) : List Char :=
  value_to_json val indent 0

/-! ## Definitions used to state the properties -/

/-- The order of approximation by fuel: `o` is below `o1` when the run that
gave `o` ran out of fuel or gave the same outcome as the run that gave `o1`. -/
def Outcome.Below {α : Type} (o o1 : Outcome α) : Prop :=
  o = .timeout ∨ o = o1

/-- All twelve parse functions give at fuel `fuel + 1` what they give at `fuel`,
unless they run out of fuel there. -/
def ParseBelow (host : Host) (fuel : Nat) : Prop :=
  (∀ p r, (parse_record_loop host fuel p r).Below (parse_record_loop host (fuel + 1) p r)) ∧
  (∀ p, (parse_record host fuel p).Below (parse_record host (fuel + 1) p)) ∧
  (∀ p r, (parse_list_loop host fuel p r).Below (parse_list_loop host (fuel + 1) p r)) ∧
  (∀ p, (parse_list host fuel p).Below (parse_list host (fuel + 1) p)) ∧
  (∀ p r, (parse_import_loop host fuel p r).Below (parse_import_loop host (fuel + 1) p r)) ∧
  (∀ p, (parse_import host fuel p).Below (parse_import host (fuel + 1) p)) ∧
  (∀ p f a, (parse_call_loop host fuel p f a).Below (parse_call_loop host (fuel + 1) p f a)) ∧
  (∀ p n, (parse_call host fuel p n).Below (parse_call host (fuel + 1) p n)) ∧
  (∀ p v, (parse_primary_fields host fuel p v).Below
    (parse_primary_fields host (fuel + 1) p v)) ∧
  (∀ p, (parse_primary host fuel p).Below (parse_primary host (fuel + 1) p)) ∧
  (∀ p, (parse_expr host fuel p).Below (parse_expr host (fuel + 1) p))

/-- With enough fuel the call returns `a`. -/
def Returns {α : Type} (f : Nat → Outcome α) (a : α) : Prop :=
  ∃ fuel0, ∀ fuel, fuel0 ≤ fuel → f fuel = .ret a

/-- The tokenizer delivers the token after the current one without an error. -/
def Parser.lexes (p : Parser) : Prop :=
  (lexer_next p.lex).1 = true

instance (p : Parser) : Decidable p.lexes :=
  inferInstanceAs (Decidable ((lexer_next p.lex).1 = true))

/-- The parser state once the tokenizer has moved to the next token. -/
def Parser.next (p : Parser) : Parser :=
  { p with lex := (lexer_next p.lex).2 }

/-- The expression that starts at the current token of `p` evaluates
successfully: `parse_expr` returns the non-null value `v` and leaves the parser
in state `q`. -/
def Evals (host : Host) (p : Parser) (v : Goon_Value) (q : Parser) : Prop :=
  v.isNull = false ∧ ∃ fuel, parse_expr host fuel p = .ret (v, q)

/-- The primary expression that starts at the current token of `p` evaluates
successfully: `parse_primary` returns the non-null value `v` and leaves the
parser in state `q`. -/
def EvalsPrimary (host : Host) (p : Parser) (v : Goon_Value) (q : Parser) : Prop :=
  v.isNull = false ∧ ∃ fuel, parse_primary host fuel p = .ret (v, q)

/-- The top-level expressions from state `p` on evaluate successfully one after
the other to the values `vs`, in source order, each starting in the state the
one before it left, and the last leaves state `q`. -/
inductive Exprs (host : Host) : Parser → List Goon_Value → Parser → Prop where
  | nil (p : Parser) : Exprs host p [] p
  | cons {p p1 q : Parser} {v : Goon_Value} {vs : List Goon_Value} :
      p.tok ≠ TOK_EOF → Evals host p v p1 → Exprs host p1 vs q → Exprs host p (v :: vs) q

/-- A host that registers no function and offers no file. -/
def no_host : Host :=
  { builtin := fun _ _ _ => .NULL, dirname := fun _ => ['.'], fopen := fun _ => none }

/-- The parser state in which `goon_load_string` enters its loop when the first
token of `src` is read without an error. -/
def Parser.start (ctx : Goon_Ctx) (src : List Char) : Parser :=
  { ctx := ctx, lex := (lexer_next (lexer_init src)).2 }

/-- The parser state after an optional comma. -/
def Parser.skip_comma (p : Parser) : Parser :=
  if p.tok = TOK_COMMA then p.next else p

/-- The parser state after an optional comma or semicolon. -/
def Parser.skip_separator (p : Parser) : Parser :=
  if p.tok = TOK_COMMA ∨ p.tok = TOK_SEMICOLON then p.next else p

/-- An entry of a list literal with the value its expression evaluated to: a
plain expression or a spread `...e`. -/
inductive List_Entry where
  | item (value : Goon_Value)
  | spread (value : Goon_Value)

/-- What an entry contributes to the list: the one value of a plain expression,
the items of a spread list in their stored order, nothing for any other spread. -/
def List_Entry.items : List_Entry → List Goon_Value
  | .item value => [value]
  | .spread (.list items) => items
  | .spread _ => []

/-- From state `p`, at the first entry of a list literal, the entries `es` are
read in source order, each expression evaluating successfully and each entry
followed by an optional comma, up to state `q` at the closing bracket. -/
inductive ListEntries (host : Host) : Parser → List List_Entry → Parser → Prop where
  | done {p : Parser} : p.tok = TOK_RBRACKET → ListEntries host p [] p
  | item {p p1 q : Parser} {v : Goon_Value} {es : List List_Entry} :
      Evals host p v p1 → (p1.tok = TOK_COMMA → p1.lexes) →
      ListEntries host p1.skip_comma es q → ListEntries host p (.item v :: es) q
  | spread {p p1 q : Parser} {v : Goon_Value} {es : List List_Entry} :
      p.tok = TOK_SPREAD → p.lexes → Evals host p.next v p1 →
      (p1.tok = TOK_COMMA → p1.lexes) →
      ListEntries host p1.skip_comma es q → ListEntries host p (.spread v :: es) q

/-- An optional type annotation lies between `p` and `pe`: `pe` is `p` itself,
or `p` is at a colon and `pe` is two tokens further, past the colon and the
one-token type. -/
def Parser.skips_annotation (p pe : Parser) : Prop :=
  pe = p ∨ (p.tok = TOK_COLON ∧ p.lexes ∧ p.next.lexes ∧ pe = p.next.next)

/-- An entry of a record literal with the value its expression evaluated to: an
explicit field `key = e` or a spread `...e`. -/
inductive Record_Entry where
  | field (key : List Char) (value : Goon_Value)
  | spread (value : Goon_Value)

/-- The fields an entry sets on the record, in the order it sets them: the one
field of an explicit field, the fields of a spread record in chain order,
nothing for any other spread. -/
def Record_Entry.sets : Record_Entry → List (List Char × Goon_Value)
  | .field key value => [(key, value)]
  | .spread (.record fields) => fields
  | .spread _ => []

/-- From state `p`, at the first entry of a record literal, the entries `es`
are read in source order, each expression evaluating successfully and each
entry followed by an optional comma or semicolon, up to state `q` at the
closing brace. -/
inductive RecordEntries (host : Host) : Parser → List Record_Entry → Parser → Prop where
  | done {p : Parser} : p.tok = TOK_RBRACE → RecordEntries host p [] p
  | field {p pe p1 q : Parser} {key : List Char} {v : Goon_Value} {es : List Record_Entry} :
      p.tok = TOK_IDENT → p.lex.current.string = some key → p.lexes →
      p.next.skips_annotation pe → pe.tok = TOK_EQUALS → pe.lexes →
      Evals host pe.next v p1 →
      (p1.tok = TOK_COMMA ∨ p1.tok = TOK_SEMICOLON → p1.lexes) →
      RecordEntries host p1.skip_separator es q → RecordEntries host p (.field key v :: es) q
  | spread {p p1 q : Parser} {v : Goon_Value} {es : List Record_Entry} :
      p.tok = TOK_SPREAD → p.lexes → Evals host p.next v p1 →
      (p1.tok = TOK_COMMA ∨ p1.tok = TOK_SEMICOLON → p1.lexes) →
      RecordEntries host p1.skip_separator es q → RecordEntries host p (.spread v :: es) q

/-! ### Equality tests, for evaluation -/

mutual

/-- The two pointers point to equal values. -/
def Goon_Value.same : Goon_Value → Goon_Value → Bool
  | .NULL, .NULL => true
  | .nil, .nil => true
  | .bool a, .bool b => a == b
  | .int a, .int b => a == b
  | .string a, .string b => a == b
  | .list a, .list b => Goon_Value.same_items a b
  | .record a, .record b => Goon_Value.same_fields a b
  | .builtin a, .builtin b => a == b
  | _, _ => false

/-- The two item arrays are equal. -/
def Goon_Value.same_items : List Goon_Value → List Goon_Value → Bool
  | [], [] => true
  | a :: as, b :: bs => Goon_Value.same a b && Goon_Value.same_items as bs
  | _, _ => false

/-- The two chains of fields, or of bindings, are equal. -/
def Goon_Value.same_fields :
    List (List Char × Goon_Value) → List (List Char × Goon_Value) → Bool
  | [], [] => true
  | (k, a) :: as, (j, b) :: bs => k == j && Goon_Value.same a b && Goon_Value.same_fields as bs
  | _, _ => false

end

/-- The two contexts are equal. -/
def Goon_Ctx.same (a b : Goon_Ctx) : Bool :=
  Goon_Value.same_fields a.env b.env && a.error == b.error && a.base_path == b.base_path

/-- The two parser states are equal. -/
def Parser.same (a b : Parser) : Bool :=
  a.ctx.same b.ctx && a.lex == b.lex

/-- A parse function returned, with this value and this parser state. -/
def Outcome.returned (o : Outcome (Goon_Value × Parser)) (v : Goon_Value) (q : Parser) : Bool :=
  match o with
  | .ret r => r.1.same v && r.2.same q
  | _ => false

/-- The function `goon_load_string` returned, with this flag, this context and
this `last_result`. -/
def Outcome.loaded (o : Outcome (Bool × Goon_Ctx × Goon_Value)) (b : Bool) (ctx : Goon_Ctx)
    (v : Goon_Value) : Bool :=
  match o with
  | .ret r => r.1 == b && r.2.1.same ctx && r.2.2.same v
  | _ => false

/-! ### A record literal with spreads, step by step -/

/-- The source `{k=1, ...{k=2}; ...7}`. -/
def spread_demo_src : List Char := "\x7bk=1, ...\x7bk=2\x7d; ...7\x7d".toList

/-- The parser at the opening brace of `spread_demo_src`, in a fresh context. -/
def spread_demo_open : Parser := Parser.start goon_create spread_demo_src

/-- The parser after the first entry, `k=1`. -/
def spread_demo_1 : Parser := spread_demo_open.next.next.next.next

/-- The parser after the second entry, the spread of `{k=2}`. -/
def spread_demo_2 : Parser := Parser.next^[6] spread_demo_1.skip_separator

/-- The parser after the third entry, the spread of `7`. -/
def spread_demo_3 : Parser := spread_demo_2.skip_separator.next.next

/-- The parser at the closing brace. -/
def spread_demo_close : Parser := spread_demo_3.skip_separator

/-! ### A conditional and a ternary, step by step -/

/-- The parser at the `if` of the source `if 0 then 7 else 9`, in a fresh context. -/
def if_demo : Parser := Parser.start goon_create "if 0 then 7 else 9".toList

/-- The parser at the condition of the source `0 ? 7 : 9`, in a fresh context. -/
def ternary_demo : Parser := Parser.start goon_create "0 ? 7 : 9".toList

/-! ### Strings with placeholders -/

/-- The text contains no placeholder opening, a dollar sign directly followed by
an opening brace. -/
def no_marker : List Char → Bool
  | [] => true
  | c :: rest => !(c = '$' && rest.head? = some '{') && no_marker rest

/-- The string made of the pieces `(text, name)`, each a text followed by the
placeholder for `name`, and of a last text. -/
def placeholders_source : List (List Char × List Char) → List Char → List Char
  | [], last => last
  | (text, name) :: rest, last =>
    text ++ '$' :: '{' :: name ++ '}' :: placeholders_source rest last

/-- The text that stands for the value bound to `name`: a string verbatim, an
integer in base 10, a boolean as `true` or `false`, and nothing when the name
is unbound or bound to a value of another kind. -/
def placeholder_text (ctx : Goon_Ctx) (name : List Char) : List Char :=
  match lookup ctx name with
  | .string s => s
  | .int i => snprintf_ld i
  | .bool true => "true".toList
  | .bool false => "false".toList
  | _ => []

/-- The string made of the same texts, with each placeholder replaced by the
text of the value bound to its name. -/
def placeholders_value (ctx : Goon_Ctx) : List (List Char × List Char) → List Char → List Char
  | [], last => last
  | (text, name) :: rest, last =>
    text ++ placeholder_text ctx name ++ placeholders_value ctx rest last

/-- Some `${` of the text has no closing brace anywhere after it. -/
def dangling (s : List Char) : Prop :=
  ∃ pre tail : List Char, s = pre ++ '$' :: '{' :: tail ∧ '}' ∉ tail

/-! ### JSON text -/

/-- The number a text of decimal digits denotes. -/
def decimal_value (text : List Char) : Nat :=
  text.foldl (fun value c => 10 * value + (c.toNat - 48)) 0

/-- The text without its space and newline characters. -/
def strip_layout (text : List Char) : List Char :=
  text.filter (fun c => c ≠ ' ' ∧ c ≠ '\n')

mutual

/-- No string and no record key of the value contains a space character. -/
def no_space : Goon_Value → Bool
  | .string s => !s.contains ' '
  | .list items => no_space_items items
  | .record fields => no_space_fields fields
  | _ => true

/-- No string and no record key of the items contains a space character. -/
def no_space_items : List Goon_Value → Bool
  | [] => true
  | item :: rest => no_space item && no_space_items rest

/-- No key, and no string or record key of the values, contains a space character. -/
def no_space_fields : List (List Char × Goon_Value) → Bool
  | [] => true
  | (key, value) :: next => !key.contains ' ' && no_space value && no_space_fields next

end

/-! ### Field chains, calls and imports -/

/-- From state `p`, at the first `.` of a field chain, the field names `fs` are
read in source order, each an identifier after a `.`, up to state `q` at the
first token after the chain. -/
inductive FieldChain : Parser → List (List Char) → Parser → Prop where
  | done {p : Parser} : p.tok ≠ TOK_DOT → FieldChain p [] p
  | field {p p1 p2 q : Parser} {f : List Char} {fs : List (List Char)} :
      p.tok = TOK_DOT → p.lexes → p1 = p.next → p1.tok = TOK_IDENT →
      p1.lex.current.string = some f → p1.lexes → p2 = p1.next →
      FieldChain p2 fs q → FieldChain p (f :: fs) q

/-- The value a null pointer is replaced by at the end of `parse_primary`:
`val ? val : goon_nil(p->ctx)`. -/
def Goon_Value.or_nil (val : Goon_Value) : Goon_Value :=
  if val.isNull then .nil else val

/-- The parser at the `let` of the source `let k = 9`, in a fresh context. -/
def let_demo : Parser := Parser.start goon_create "let k = 9".toList

/-- The parser at the identifier `nope` of the source `nope.a`, in a fresh context. -/
def chain_demo : Parser := Parser.start goon_create "nope.a".toList

/-- From state `p`, at the first argument of a call, the argument expressions
are read in source order, each evaluating successfully and each followed by an
optional comma; their values are `vs` and the last leaves state `q`. -/
inductive CallArgs (host : Host) : Parser → List Goon_Value → Parser → Prop where
  | nil (p : Parser) : CallArgs host p [] p
  | cons {p p1 q : Parser} {v : Goon_Value} {vs : List Goon_Value} :
      p.tok ≠ TOK_RPAREN → Evals host p v p1 → (p1.tok = TOK_COMMA → p1.lexes) →
      CallArgs host p1.skip_comma vs q → CallArgs host p (v :: vs) q

/-- A host for the examples.  Its one function, number 0, returns the list of
the arguments it is called with.  It offers two files: `lib.goon` holds
`let shared = 2; [shared, own]` and `bad.goon` holds `let 1`. -/
def demo_host : Host :=
  { builtin := fun _ _ args => .list args
    dirname := fun _ => ['.']
    fopen := fun path =>
      if path = "lib.goon".toList then some "let shared = 2; [shared, own]".toList
      else if path = "bad.goon".toList then some "let 1".toList
      else none }

/-- A fresh context in which the host has registered its function 0 as `f`. -/
def demo_ctx : Goon_Ctx := goon_register goon_create "f".toList 0

/-- The parser at the identifier of the source `f(7, 8)`, with `f` registered. -/
def call_demo : Parser := Parser.start demo_ctx "f(7, 8)".toList

/-- The parser after the first argument, at the comma. -/
def call_demo_1 : Parser := call_demo.next.next.next

/-- The parser after the second argument. -/
def call_demo_2 : Parser := call_demo_1.skip_comma.next

/-- The parser at the closing parenthesis. -/
def call_demo_close : Parser := call_demo_2.skip_comma

/-- Reads `k` arguments of a call from state `p` as `CallArgs` describes it,
each with `fuel` for its expression: their values and the state after them, or
`none` when one of the first `k` arguments is missing or does not evaluate. -/
def read_args (host : Host) (fuel : Nat) : Nat → Parser → Option (List Goon_Value × Parser)
  | 0, p => some ([], p)
  | k + 1, p =>
    if p.tok = TOK_RPAREN then none
    else
      match parse_expr host fuel p with
      | .ret (v, p1) =>
        if v.isNull then none
        else if p1.tok = TOK_COMMA ∧ ¬ p1.lexes then none
        else (read_args host fuel k p1.skip_comma).map fun r => (v :: r.1, r.2)
      | _ => none

/-- Reads `k` top-level expressions from state `p` as `Exprs` describes it, each
with `fuel`: their values and the state after them, or `none` when one of the
first `k` expressions is missing or does not evaluate. -/
def read_exprs (host : Host) (fuel : Nat) : Nat → Parser → Option (List Goon_Value × Parser)
  | 0, p => some ([], p)
  | k + 1, p =>
    if p.tok = TOK_EOF then none
    else
      match parse_expr host fuel p with
      | .ret (v, p1) =>
        if v.isNull then none
        else (read_exprs host fuel k p1).map fun r => (v :: r.1, r.2)
      | _ => none

/-- The values read are `vs` and the state after them is `q`. -/
def read_gives (o : Option (List Goon_Value × Parser)) (vs : List Goon_Value)
    (q : Parser) : Bool :=
  match o with
  | some r => Goon_Value.same_items r.1 vs && r.2.same q
  | none => false

/-- The source `f(1, 2, ..., 17)`, a call with seventeen arguments. -/
def many_args_src : List Char :=
  "f(1, 2, 3, 4, 5, 6, 7, 8, 9, 10, 11, 12, 13, 14, 15, 16, 17)".toList

/-- The parser at the identifier of `many_args_src`, with `f` registered. -/
def many_args_demo : Parser := Parser.start demo_ctx many_args_src

/-- The parser at the seventeenth argument of `many_args_src`. -/
def many_args_demo_17 : Parser := Parser.next^[34] many_args_demo

/-- The parser at the `import` of the source `import("lib")`, in a fresh context. -/
def import_demo : Parser := Parser.start goon_create "import(\"lib\")".toList

/-- The parser at the first token of the file `lib.goon` of `demo_host`, as
the import of `import_demo` starts on it. -/
def import_demo_file : Parser :=
  Parser.start
    { import_demo.ctx with
      base_path := some (parse_import_path demo_host import_demo.ctx.base_path "lib".toList) }
    "let shared = 2; [shared, own]".toList

/-- The parser at the end of the file, once its two expressions are evaluated. -/
def import_demo_end : Parser :=
  { ctx := define import_demo_file.ctx "shared".toList (.int 2)
    lex := (Parser.next^[10] import_demo_file).lex }

/-! ### JSON text as a source -/

/-- The unread input of the tokenizer is `rest`: the characters of `src` from
`pos` on, with `len` the length of `src`. -/
def Lexer.Rest (lex : Lexer) (rest : List Char) : Prop :=
  lex.len = lex.src.length ∧ lex.src.drop lex.pos = rest

/-- What may follow a value in compact JSON text: the end of the input, a
comma or a closing bracket. -/
def delimited (rest : List Char) : Prop :=
  rest = [] ∨ rest.head? = some ',' ∨ rest.head? = some ']'

mutual

/-- The value is built from booleans, integers in the range of `int64_t`,
strings without a placeholder opening, lists of such values and records
without fields. -/
def json_loadable : Goon_Value → Bool
  | .bool _ => true
  | .int i => decide (-9223372036854775808 ≤ i ∧ i < 9223372036854775808)
  | .string s => no_marker s
  | .list items => json_loadable_items items
  | .record fields => fields.isEmpty
  | _ => false

/-- Every item is `json_loadable`. -/
def json_loadable_items : List Goon_Value → Bool
  | [] => true
  | item :: rest => json_loadable item && json_loadable_items rest

end

/-! ### The names bound in the environment -/

/-- The names bound in the environment, from the head of the chain. -/
def Goon_Ctx.names (ctx : Goon_Ctx) : List (List Char) :=
  ctx.env.map Prod.fst

/-- If the call returns, every name of `ks` is bound in the context it leaves. -/
def Outcome.Keeps (o : Outcome (Goon_Value × Parser)) (ks : List (List Char)) : Prop :=
  ∀ r, o = .ret r → ks ⊆ r.2.ctx.names

/-- All eleven parse functions, run with `fuel`, leave bound every name that was
bound when they were called. -/
def ParseKeeps (host : Host) (fuel : Nat) : Prop :=
  (∀ ks p r, ks ⊆ p.ctx.names → (parse_record_loop host fuel p r).Keeps ks) ∧
  (∀ ks p, ks ⊆ p.ctx.names → (parse_record host fuel p).Keeps ks) ∧
  (∀ ks p r, ks ⊆ p.ctx.names → (parse_list_loop host fuel p r).Keeps ks) ∧
  (∀ ks p, ks ⊆ p.ctx.names → (parse_list host fuel p).Keeps ks) ∧
  (∀ ks p r, ks ⊆ p.ctx.names → (parse_import_loop host fuel p r).Keeps ks) ∧
  (∀ ks p, ks ⊆ p.ctx.names → (parse_import host fuel p).Keeps ks) ∧
  (∀ ks p f a, ks ⊆ p.ctx.names → (parse_call_loop host fuel p f a).Keeps ks) ∧
  (∀ ks p n, ks ⊆ p.ctx.names → (parse_call host fuel p n).Keeps ks) ∧
  (∀ ks p v, ks ⊆ p.ctx.names → (parse_primary_fields host fuel p v).Keeps ks) ∧
  (∀ ks p, ks ⊆ p.ctx.names → (parse_primary host fuel p).Keeps ks) ∧
  (∀ ks p, ks ⊆ p.ctx.names → (parse_expr host fuel p).Keeps ks)

/-! ### Sources whose untaken branch binds a name -/

/-- The parser at the start of the source `if true then 1 else let x = 2`, in a
fresh context. -/
def branch_demo : Parser :=
  Parser.start goon_create "if true then 1 else let x = 2".toList

/-- The state after the `else` branch of `branch_demo`: the input is read to
its end and `x` is bound to 2. -/
def branch_demo_end : Parser :=
  { ctx := define goon_create "x".toList (.int 2),
    lex := branch_demo.next.next.next.next.next.next.next.next.next.lex }

/-- The parser at the start of the source `true ? 1 : let x = 2`, in a fresh
context. -/
def branch_ternary_demo : Parser :=
  Parser.start goon_create "true ? 1 : let x = 2".toList

/-- The state after the second branch of `branch_ternary_demo`. -/
def branch_ternary_demo_end : Parser :=
  { ctx := define goon_create "x".toList (.int 2),
    lex := branch_ternary_demo.next.next.next.next.next.next.next.next.lex }

/-- The parser at the start of the one-token source `foo`, in a fresh context. -/
def unbound_demo : Parser := Parser.start goon_create "foo".toList

/-! ### String literals as the specification words them -/

/-- The character that a backslash pair stands for, by the table of the
specification: `n`, `t` and `r` give newline, tab and carriage return, every
other character (backslash, double quote and dollar among them) gives itself. -/
def spec_escape (c : Char) : Char :=
  if c = 'n' then '\n'
  else if c = 't' then '\t'
  else if c = 'r' then '\r'
  else c

/-- The text is the body of a terminated string literal: every double quote in
it is the second character of a backslash pair, and so is whatever follows a
backslash, so the body does not end in the middle of a pair. -/
def spec_string_body : List Char → Bool
  | [] => true
  | [c] => c ≠ DQUOTE && c ≠ BACKSLASH
  | c :: e :: rest =>
    if c = BACKSLASH then spec_string_body rest
    else c ≠ DQUOTE && spec_string_body (e :: rest)

/-- The body of a string literal with each backslash pair decoded and every
other character copied. -/
def spec_decode_body : List Char → List Char
  | [] => []
  | [c] => [c]
  | c :: e :: rest =>
    if c = BACKSLASH then spec_escape e :: spec_decode_body rest
    else c :: spec_decode_body (e :: rest)

/-- The parser at the string token of the source `"\${k}"`, written with
an escaped dollar sign, in a context that binds `k` to 5. -/
def escaped_demo : Parser :=
  Parser.start (define goon_create "k".toList (.int 5))
    [DQUOTE, BACKSLASH, '$', '{', 'k', '}', DQUOTE]

/-- The parser at the string token of the source `"${k}"`, in the same
context. -/
def unescaped_demo : Parser :=
  Parser.start (define goon_create "k".toList (.int 5)) [DQUOTE, '$', '{', 'k', '}', DQUOTE]

/-! ### Progress of the tokenizer -/

/-- The tokenizer state `W` comes from `L` by moving `pos` forward only: the
source, its length, the current token and the error are the same, `pos` has not
gone back, and it is within `len` if it was. -/
def Lexer.Moves (L W : Lexer) : Prop :=
  W.src = L.src ∧ W.len = L.len ∧ W.current = L.current ∧ W.error = L.error ∧
    L.pos ≤ W.pos ∧ (L.pos ≤ L.len → W.pos ≤ W.len)

/-- What is left to read: the characters from `pos` to `len`, and one more
while the current token is not the end of the input. -/
def Lexer.left (L : Lexer) : Nat :=
  (L.len - L.pos) + (if L.current.type = TOK_EOF then 0 else 1)

/-- The state after `k` calls of `lexer_next`. -/
def lexer_next_iterate : Nat → Lexer → Lexer
  | 0, L => L
  | k + 1, L => lexer_next_iterate k (lexer_next L).2

/-- The facts about one call of `lexer_next`, with result `R`, that the progress
of the parser rests on: the source and its length stay, `pos` does not go back
and stays within `len`, a token other than the end of the input moves it, a
failed call leaves the type of the current token, and the keyword token IMPORT
is met only in a source that holds the word. -/
def Lexer.Next (L : Lexer) (R : Bool × Lexer) : Prop :=
  R.2.src = L.src ∧ R.2.len = L.len ∧ L.pos ≤ R.2.pos ∧
    (L.pos ≤ L.len → R.2.pos ≤ R.2.len) ∧
    (R.1 = true → R.2.current.type ≠ TOK_EOF → L.pos < R.2.pos) ∧
    (R.1 = false → R.2.current.type = L.current.type) ∧
    (R.1 = true → R.2.current.type = TOK_IMPORT → "import".toList <:+: L.src)

/-- The state of a parser that stays within its source and, unless `S` holds,
meets no import: `pos` is within `len`, and either `S` holds, or the source does
not hold the word `import` and the current token is not the keyword.  With `S`
true this says only that `pos` is within `len`; with `S` the statement that the
host has no file to open, it describes a run that performs no import. -/
def Parser.Good (S : Prop) (p : Parser) : Prop :=
  p.lex.pos ≤ p.lex.len ∧
    (S ∨ (¬ "import".toList <:+: p.lex.src ∧ p.lex.current.type ≠ TOK_IMPORT))

/-- If the call returns, the state it leaves is `Good`, at most `m` is left to
read, and less than `m` when `strict` is set and the value is not null. -/
def Outcome.Lands (S : Prop) (o : Outcome (Goon_Value × Parser)) (m : Nat)
    (strict : Bool) : Prop :=
  ∀ r, o = .ret r → r.2.Good S ∧ r.2.lex.left ≤ m ∧
    (strict = true → r.1.isNull = false → r.2.lex.left < m)

/-- All eleven parse functions, run with `fuel` from a `Good` state, leave a
`Good` state in which no more is left to read than before; a value that
`parse_primary` or `parse_expr` returns, and whatever a function returns that
starts by moving past its first token, has consumed at least one token. -/
def ParseLands (S : Prop) (host : Host) (fuel : Nat) : Prop :=
  (∀ p r, p.Good S → (parse_record_loop host fuel p r).Lands S p.lex.left false) ∧
  (∀ p, p.Good S → p.tok ≠ TOK_EOF → (parse_record host fuel p).Lands S p.lex.left true) ∧
  (∀ p r, p.Good S → (parse_list_loop host fuel p r).Lands S p.lex.left false) ∧
  (∀ p, p.Good S → p.tok ≠ TOK_EOF → (parse_list host fuel p).Lands S p.lex.left true) ∧
  (∀ p r, p.Good S → (parse_import_loop host fuel p r).Lands S p.lex.left false) ∧
  (∀ p, p.Good S → p.tok ≠ TOK_EOF → (parse_import host fuel p).Lands S p.lex.left true) ∧
  (∀ p f a, p.Good S → (parse_call_loop host fuel p f a).Lands S p.lex.left false) ∧
  (∀ p n, p.Good S → p.tok ≠ TOK_EOF → (parse_call host fuel p n).Lands S p.lex.left true) ∧
  (∀ p v, p.Good S → (parse_primary_fields host fuel p v).Lands S p.lex.left false) ∧
  (∀ p, p.Good S → (parse_primary host fuel p).Lands S p.lex.left true) ∧
  (∀ p, p.Good S → (parse_expr host fuel p).Lands S p.lex.left true)

/-- The parse functions, run from a `Good` state with fuel in proportion to
what is left to read, do not run out of fuel: each returns or crashes.  The
argument loop of a call gets one unit more for each argument slot that is still
free, since it may turn without reading a token. -/
def ParseHalts (S : Prop) (host : Host) (fuel : Nat) : Prop :=
  (∀ p r, p.Good S → 20 * p.lex.left + 1 ≤ fuel →
    parse_record_loop host fuel p r ≠ .timeout) ∧
  (∀ p, p.Good S → p.tok ≠ TOK_EOF → 20 * p.lex.left + 1 ≤ fuel →
    parse_record host fuel p ≠ .timeout) ∧
  (∀ p r, p.Good S → 20 * p.lex.left + 4 ≤ fuel →
    parse_list_loop host fuel p r ≠ .timeout) ∧
  (∀ p, p.Good S → p.tok ≠ TOK_EOF → 20 * p.lex.left + 1 ≤ fuel →
    parse_list host fuel p ≠ .timeout) ∧
  (∀ p, p.Good S → p.lex.current.type = TOK_IMPORT → 1 ≤ fuel →
    parse_import host fuel p ≠ .timeout) ∧
  (∀ p f a, p.Good S → 20 * p.lex.left + 3 + (16 - a.length) ≤ fuel →
    parse_call_loop host fuel p f a ≠ .timeout) ∧
  (∀ p n, p.Good S → p.tok ≠ TOK_EOF → 20 * p.lex.left + 1 ≤ fuel →
    parse_call host fuel p n ≠ .timeout) ∧
  (∀ p v, p.Good S → 20 * p.lex.left + 1 ≤ fuel →
    parse_primary_fields host fuel p v ≠ .timeout) ∧
  (∀ p, p.Good S → 20 * p.lex.left + 2 ≤ fuel → parse_primary host fuel p ≠ .timeout) ∧
  (∀ p, p.Good S → 20 * p.lex.left + 3 ≤ fuel → parse_expr host fuel p ≠ .timeout)

/-- The tokenizer state `W` reads the same source as `L` and has not gone back. -/
def Lexer.Behind (L W : Lexer) : Prop :=
  W.src = L.src ∧ W.len = L.len ∧ L.pos ≤ W.pos

/-- If the call returns, the tokenizer it leaves reads the same source as `L`
and stands at or after the position of `L`. -/
def Outcome.Ahead (o : Outcome (Goon_Value × Parser)) (L : Lexer) : Prop :=
  ∀ r, o = .ret r → L.Behind r.2.lex

/-- All eleven parse functions, run with `fuel`, leave the tokenizer on the
same source, at or after the position where they found it. -/
def ParseAhead (host : Host) (fuel : Nat) : Prop :=
  (∀ L p r, L.Behind p.lex → (parse_record_loop host fuel p r).Ahead L) ∧
  (∀ L p, L.Behind p.lex → (parse_record host fuel p).Ahead L) ∧
  (∀ L p r, L.Behind p.lex → (parse_list_loop host fuel p r).Ahead L) ∧
  (∀ L p, L.Behind p.lex → (parse_list host fuel p).Ahead L) ∧
  (∀ L p r, L.Behind p.lex → (parse_import_loop host fuel p r).Ahead L) ∧
  (∀ L p, L.Behind p.lex → (parse_import host fuel p).Ahead L) ∧
  (∀ L p f a, L.Behind p.lex → (parse_call_loop host fuel p f a).Ahead L) ∧
  (∀ L p n, L.Behind p.lex → (parse_call host fuel p n).Ahead L) ∧
  (∀ L p v, L.Behind p.lex → (parse_primary_fields host fuel p v).Ahead L) ∧
  (∀ L p, L.Behind p.lex → (parse_primary host fuel p).Ahead L) ∧
  (∀ L p, L.Behind p.lex → (parse_expr host fuel p).Ahead L)

/-- The text holds no `*/`, the sequence that closes a block comment. -/
def no_close : List Char → Bool
  | [] => true
  | c :: rest => !(c = '*' && rest.head? = some '/') && no_close rest

/-! ### A record literal with a spread after a repeated key, step by step -/

/-- The source `{a=1, a=2, ...{a=3}}`. -/
def override_demo_src : List Char := "\x7ba=1, a=2, ...\x7ba=3\x7d\x7d".toList

/-- The parser at the opening brace of `override_demo_src`, in a fresh context. -/
def override_demo_open : Parser := Parser.start goon_create override_demo_src

/-- The parser after the first entry, `a=1`. -/
def override_demo_1 : Parser := override_demo_open.next.next.next.next

/-- The parser after the second entry, `a=2`. -/
def override_demo_2 : Parser := Parser.next^[3] override_demo_1.skip_separator

/-- The parser after the third entry, the spread of `{a=3}`. -/
def override_demo_3 : Parser := Parser.next^[6] override_demo_2.skip_separator

/-- The parser at the closing brace of the literal. -/
def override_demo_close : Parser := override_demo_3.skip_separator

/-! ### Calls with seventeen arguments inside another expression -/

/-- The source `f(f(1, 2, ..., 17)`: a call with seventeen arguments as the
argument of a call that is closed by the parenthesis of the inner one. -/
def nested_args_src : List Char :=
  "f(f(1, 2, 3, 4, 5, 6, 7, 8, 9, 10, 11, 12, 13, 14, 15, 16, 17)".toList

/-- The source `g(f(1, 2, ..., 17)`, whose outer name `g` is not bound. -/
def unbound_args_src : List Char :=
  "g(f(1, 2, 3, 4, 5, 6, 7, 8, 9, 10, 11, 12, 13, 14, 15, 16, 17)".toList

/-- The source `{...f(1, 2, ..., 17)}`: a call with seventeen arguments as the
operand of a spread in a record literal. -/
def spread_args_src : List Char :=
  "\x7b...f(1, 2, 3, 4, 5, 6, 7, 8, 9, 10, 11, 12, 13, 14, 15, 16, 17)\x7d".toList

/-- The source `[f(1, 2, ..., 17)]`: a call with seventeen arguments as a list
item. -/
def item_args_src : List Char :=
  "[f(1, 2, 3, 4, 5, 6, 7, 8, 9, 10, 11, 12, 13, 14, 15, 16, 17)]".toList

/-- The parser at the inner call of `nested_args_src`, with `f` registered. -/
def nested_args_demo : Parser := (Parser.start demo_ctx nested_args_src).next.next

/-- The parser at the seventeenth argument of the inner call of
`nested_args_src`. -/
def nested_args_demo_17 : Parser := Parser.next^[34] nested_args_demo

/-! ## The equality tests are sound -/

mutual

theorem same_eq : ∀ a b : Goon_Value, Goon_Value.same a b = true → a = b
  | .NULL, b => by cases b <;> simp [Goon_Value.same]
  | .nil, b => by cases b <;> simp [Goon_Value.same]
  | .bool x, b => by cases b <;> simp [Goon_Value.same]
  | .int x, b => by cases b <;> simp [Goon_Value.same]
  | .string x, b => by cases b <;> simp [Goon_Value.same]
  | .builtin x, b => by cases b <;> simp [Goon_Value.same]
  | .list x, b => by
    cases b <;>
      simp only [Goon_Value.same, Bool.false_eq_true, false_implies, Goon_Value.list.injEq]
    exact same_items_eq x _
  | .record x, b => by
    cases b <;>
      simp only [Goon_Value.same, Bool.false_eq_true, false_implies, Goon_Value.record.injEq]
    exact same_fields_eq x _

theorem same_items_eq : ∀ a b : List Goon_Value, Goon_Value.same_items a b = true → a = b
  | [], b => by cases b <;> simp [Goon_Value.same_items]
  | x :: xs, b => by
    cases b with
    | nil => simp [Goon_Value.same_items]
    | cons y ys =>
      simp only [Goon_Value.same_items, Bool.and_eq_true, List.cons.injEq]
      intro h
      exact ⟨same_eq x y h.1, same_items_eq xs ys h.2⟩

theorem same_fields_eq :
    ∀ a b : List (List Char × Goon_Value), Goon_Value.same_fields a b = true → a = b
  | [], b => by cases b <;> simp [Goon_Value.same_fields]
  | (k, x) :: xs, b => by
    cases b with
    | nil => simp [Goon_Value.same_fields]
    | cons y ys =>
      obtain ⟨j, y⟩ := y
      simp only [Goon_Value.same_fields, Bool.and_eq_true, List.cons.injEq, Prod.mk.injEq,
        beq_iff_eq]
      intro h
      exact ⟨⟨h.1.1, same_eq x y h.1.2⟩, same_fields_eq xs ys h.2⟩

end

theorem ctx_same_eq {a b : Goon_Ctx} (h : a.same b = true) : a = b := by
  unfold Goon_Ctx.same at h
  simp only [Bool.and_eq_true, beq_iff_eq] at h
  cases a
  cases b
  simp only [Goon_Ctx.mk.injEq]
  exact ⟨same_fields_eq _ _ h.1.1, h.1.2, h.2⟩

theorem parser_same_eq {a b : Parser} (h : a.same b = true) : a = b := by
  unfold Parser.same at h
  simp only [Bool.and_eq_true, beq_iff_eq] at h
  cases a
  cases b
  simp only [Parser.mk.injEq]
  exact ⟨ctx_same_eq h.1, h.2⟩

/-- A successful test `returned` gives the equation it tests. -/
theorem of_returned {o : Outcome (Goon_Value × Parser)} {v : Goon_Value} {q : Parser}
    (h : o.returned v q = true) : o = .ret (v, q) := by
  unfold Outcome.returned at h
  cases o with
  | ret r =>
    simp only [Bool.and_eq_true] at h
    obtain ⟨r1, r2⟩ := r
    dsimp only at h
    rw [same_eq _ _ h.1, parser_same_eq h.2]
  | crash => cases h
  | timeout => cases h

/-- A successful test `loaded` gives the equation it tests. -/
theorem of_loaded {o : Outcome (Bool × Goon_Ctx × Goon_Value)} {b : Bool} {ctx : Goon_Ctx}
    {v : Goon_Value} (h : o.loaded b ctx v = true) : o = .ret (b, ctx, v) := by
  unfold Outcome.loaded at h
  cases o with
  | ret r =>
    simp only [Bool.and_eq_true, beq_iff_eq] at h
    obtain ⟨r1, r2, r3⟩ := r
    dsimp only at h
    rw [h.1.1, ctx_same_eq h.1.2, same_eq _ _ h.2]
  | crash => cases h
  | timeout => cases h

/-! ## More fuel never changes an outcome -/

theorem below_refl {α : Type} (o : Outcome α) : o.Below o := Or.inr rfl

theorem below_timeout {α : Type} (o : Outcome α) : (Outcome.timeout).Below o := Or.inl rfl

theorem below_bind {α β : Type} {o o1 : Outcome α} {k k1 : α → Outcome β}
    (h : o.Below o1) (hk : ∀ a, (k a).Below (k1 a)) : (o.bind k).Below (o1.bind k1) := by
  rcases h with h | h
  · subst h; exact Or.inl rfl
  · subst h
    cases o with
    | ret a => exact hk a
    | crash => exact Or.inr rfl
    | timeout => exact Or.inl rfl

theorem below_advance {p : Parser} {k k1 : Parser → Outcome (Goon_Value × Parser)}
    (hk : ∀ q, (k q).Below (k1 q)) : (p.advance k).Below (p.advance k1) := by
  unfold Parser.advance
  split
  · exact hk _
  · exact Or.inr rfl

theorem below_ite {α : Type} (c : Prop) [Decidable c] {a a1 b b1 : Outcome α}
    (ha : a.Below a1) (hb : b.Below b1) :
    (if c then a else b).Below (if c then a1 else b1) := by
  split
  · exact ha
  · exact hb

theorem below_ret {α : Type} {o o1 : Outcome α} {a : α} (h : o.Below o1) (ho : o = .ret a) :
    o1 = .ret a := by
  rcases h with h | h
  · rw [h] at ho; cases ho
  · rw [← h]; exact ho

theorem parseBelow_zero (host : Host) : ParseBelow host 0 := by
  refine ⟨?_, ?_, ?_, ?_, ?_, ?_, ?_, ?_, ?_, ?_, ?_⟩ <;> intros <;> exact Or.inl rfl

theorem parseBelow_succ (host : Host) (fuel : Nat) (ih : ParseBelow host fuel) :
    ParseBelow host (fuel + 1) := by
  obtain ⟨h1, h2, h3, h4, h5, h6, h7, h8, h9, h10, h11⟩ := ih
  refine ⟨?_, ?_, ?_, ?_, ?_, ?_, ?_, ?_, ?_, ?_, ?_⟩
  · intro p r
    rw [parse_record_loop, parse_record_loop]
    repeat' first
      | with_reducible exact below_refl _
      | with_reducible exact h1 _ _
      | with_reducible exact h11 _
      | with_reducible apply below_advance
      | with_reducible apply below_bind
      | with_reducible apply below_ite
      | intro _
      | split
  · intro p
    rw [parse_record, parse_record]
    repeat' first
      | with_reducible exact h1 _ _
      | with_reducible apply below_advance
      | intro _
  · intro p r
    rw [parse_list_loop, parse_list_loop]
    repeat' first
      | with_reducible exact below_refl _
      | with_reducible exact h3 _ _
      | with_reducible exact h11 _
      | with_reducible apply below_advance
      | with_reducible apply below_bind
      | with_reducible apply below_ite
      | intro _
      | split
      | dsimp only
  · intro p
    rw [parse_list, parse_list]
    repeat' first
      | with_reducible exact h3 _ _
      | with_reducible apply below_advance
      | intro _
  · intro p r
    rw [parse_import_loop, parse_import_loop]
    repeat' first
      | with_reducible exact below_refl _
      | with_reducible exact h5 _ _
      | with_reducible exact h11 _
      | with_reducible apply below_bind
      | with_reducible apply below_ite
      | intro _
  · intro p
    rw [parse_import, parse_import]
    repeat' first
      | with_reducible exact below_refl _
      | with_reducible exact h5 _ _
      | with_reducible apply below_advance
      | with_reducible apply below_bind
      | with_reducible apply below_ite
      | intro _
      | split
      | dsimp only
  · intro p f a
    rw [parse_call_loop, parse_call_loop]
    repeat' first
      | with_reducible exact below_refl _
      | with_reducible exact h7 _ _ _
      | with_reducible exact h11 _
      | with_reducible apply below_advance
      | with_reducible apply below_bind
      | with_reducible apply below_ite
      | intro _
  · intro p n
    rw [parse_call, parse_call]
    repeat' first
      | with_reducible exact h7 _ _ _
      | with_reducible apply below_advance
      | intro _
  · intro p v
    rw [parse_primary_fields, parse_primary_fields]
    repeat' first
      | with_reducible exact below_refl _
      | with_reducible exact h9 _ _
      | with_reducible apply below_advance
      | with_reducible apply below_ite
      | intro _
      | split
  · intro p
    rw [parse_primary, parse_primary]
    repeat' first
      | with_reducible exact below_refl _
      | with_reducible exact h2 _
      | with_reducible exact h4 _
      | with_reducible exact h6 _
      | with_reducible exact h8 _ _
      | with_reducible exact h9 _ _
      | with_reducible exact h11 _
      | with_reducible apply below_advance
      | with_reducible apply below_bind
      | with_reducible apply below_ite
      | intro _
      | split
  · intro p
    rw [parse_expr, parse_expr]
    repeat' first
      | with_reducible exact below_refl _
      | with_reducible exact h10 _
      | with_reducible exact h11 _
      | with_reducible apply below_advance
      | with_reducible apply below_bind
      | with_reducible apply below_ite
      | intro _
      | split

theorem parseBelow (host : Host) (fuel : Nat) : ParseBelow host fuel := by
  induction fuel with
  | zero => exact parseBelow_zero host
  | succ n ih => exact parseBelow_succ host n ih

theorem ret_of_below {α : Type} {f : Nat → Outcome α} (hf : ∀ n, (f n).Below (f (n + 1)))
    {n m : Nat} {a : α} (h : f n = .ret a) (hle : n ≤ m) : f m = .ret a := by
  induction hle with
  | refl => exact h
  | step _ ih => exact below_ret (hf _) ih

theorem parse_expr_below (host : Host) (fuel : Nat) (p : Parser) :
    (parse_expr host fuel p).Below (parse_expr host (fuel + 1) p) :=
  (parseBelow host fuel).2.2.2.2.2.2.2.2.2.2 p

theorem parse_expr_mono (host : Host) {n m : Nat} {p : Parser} {a : Goon_Value × Parser}
    (h : parse_expr host n p = .ret a) (hle : n ≤ m) : parse_expr host m p = .ret a :=
  ret_of_below (f := fun k => parse_expr host k p) (fun k => parse_expr_below host k p) h hle

theorem parse_primary_mono (host : Host) {n m : Nat} {p : Parser} {a : Goon_Value × Parser}
    (h : parse_primary host n p = .ret a) (hle : n ≤ m) : parse_primary host m p = .ret a :=
  ret_of_below (f := fun k => parse_primary host k p)
    (fun k => (parseBelow host k).2.2.2.2.2.2.2.2.2.1 p) h hle

theorem parse_list_loop_mono (host : Host) {n m : Nat} {p : Parser} {l : Goon_Value}
    {a : Goon_Value × Parser}
    (h : parse_list_loop host n p l = .ret a) (hle : n ≤ m) :
    parse_list_loop host m p l = .ret a :=
  ret_of_below (f := fun k => parse_list_loop host k p l)
    (fun k => (parseBelow host k).2.2.1 p l) h hle

theorem parse_record_loop_mono (host : Host) {n m : Nat} {p : Parser} {r : Goon_Value}
    {a : Goon_Value × Parser}
    (h : parse_record_loop host n p r = .ret a) (hle : n ≤ m) :
    parse_record_loop host m p r = .ret a :=
  ret_of_below (f := fun k => parse_record_loop host k p r)
    (fun k => (parseBelow host k).1 p r) h hle

theorem goon_load_string_loop_below (host : Host) (fuel : Nat) :
    ∀ p last, (goon_load_string_loop host fuel p last).Below
      (goon_load_string_loop host (fuel + 1) p last) := by
  induction fuel with
  | zero => intro p last; exact Or.inl rfl
  | succ n ih =>
    intro p last
    rw [goon_load_string_loop, goon_load_string_loop]
    repeat' first
      | with_reducible exact below_refl _
      | with_reducible exact ih _ _
      | with_reducible exact parse_expr_below host _ _
      | with_reducible apply below_bind
      | with_reducible apply below_ite
      | intro _

theorem goon_load_string_loop_mono (host : Host) {n m : Nat} {p : Parser} {last : Goon_Value}
    {a : Bool × Goon_Ctx × Goon_Value}
    (h : goon_load_string_loop host n p last = .ret a) (hle : n ≤ m) :
    goon_load_string_loop host m p last = .ret a :=
  ret_of_below (f := fun k => goon_load_string_loop host k p last)
    (fun k => goon_load_string_loop_below host k p last) h hle

theorem goon_load_string_mono (host : Host) {n m : Nat} {ctx : Goon_Ctx} {last : Goon_Value}
    {src : List Char} {a : Bool × Goon_Ctx × Goon_Value}
    (h : goon_load_string host n ctx last src = .ret a) (hle : n ≤ m) :
    goon_load_string host m ctx last src = .ret a := by
  unfold goon_load_string at h ⊢
  dsimp only at h ⊢
  split
  · rename_i hl
    rw [if_pos hl] at h
    exact goon_load_string_loop_mono host h hle
  · rename_i hl
    rw [if_neg hl] at h
    exact h

/-- An evaluation at one amount of fuel gives the result at every larger amount. -/
theorem goon_load_string_returns (host : Host) {n : Nat} {ctx : Goon_Ctx} {last : Goon_Value}
    {src : List Char} {a : Bool × Goon_Ctx × Goon_Value}
    (h : goon_load_string host n ctx last src = .ret a) :
    Returns (fun fuel => goon_load_string host fuel ctx last src) a :=
  ⟨n, fun _ hle => goon_load_string_mono host h hle⟩

theorem evals_mono (host : Host) {p q : Parser} {v : Goon_Value} (h : Evals host p v q) :
    ∃ fuel0, ∀ fuel, fuel0 ≤ fuel → parse_expr host fuel p = .ret (v, q) := by
  obtain ⟨_, n, hn⟩ := h
  exact ⟨n, fun _ hle => parse_expr_mono host hn hle⟩

theorem advance_eq {p : Parser} (h : p.lexes)
    (k : Parser → Outcome (Goon_Value × Parser)) : p.advance k = k p.next := by
  unfold Parser.advance Parser.next
  unfold Parser.lexes at h
  rw [if_pos h]

theorem getLastD_cons {α : Type} (v last : α) (vs : List α) :
    (v :: vs).getLastD last = vs.getLastD v := by
  cases vs <;> rfl

theorem load_loop_exprs (host : Host) {p q : Parser} {vs : List Goon_Value}
    (h : Exprs host p vs q) (hq : q.tok = TOK_EOF) :
    ∀ last, Returns (fun fuel => goon_load_string_loop host fuel p last)
      (true, q.ctx, vs.getLastD last) := by
  induction h with
  | nil p =>
    intro last
    refine ⟨1, fun fuel hle => ?_⟩
    obtain ⟨n, rfl⟩ : ∃ n, fuel = n + 1 := ⟨fuel - 1, by omega⟩
    dsimp only
    rw [goon_load_string_loop]
    simp [hq]
  | @cons p p1 q v vs hp hv _ ih =>
    intro last
    obtain ⟨n1, h1⟩ := evals_mono host hv
    obtain ⟨n2, h2⟩ := ih hq v
    refine ⟨max n1 n2 + 1, fun fuel hle => ?_⟩
    obtain ⟨n, rfl⟩ : ∃ n, fuel = n + 1 := ⟨fuel - 1, by omega⟩
    dsimp only
    rw [goon_load_string_loop]
    have h2n := h2 n (by omega)
    dsimp only at h2n
    rw [if_pos hp, h1 n (by omega)]
    simp only [Outcome.bind, hv.1]
    rw [h2n, getLastD_cons]
    rfl

/-- An evaluation of a successful load, made with `last_result` null, gives the
result for every earlier `last_result` and every larger amount of fuel. -/
theorem loaded_true (host : Host) {n : Nat} {ctx c : Goon_Ctx} {src : List Char}
    {v : Goon_Value}
    (h : (goon_load_string host n ctx .NULL src).loaded true c v = true) (last : Goon_Value) :
    Returns (fun fuel => goon_load_string host fuel ctx last src) (true, c, v) := by
  have e := of_loaded h
  apply goon_load_string_returns host (n := n)
  unfold goon_load_string at e ⊢
  dsimp only at e ⊢
  split
  · rename_i hl
    rw [if_pos hl] at e
    exact e
  · rename_i hl
    rw [if_neg hl] at e
    cases e

/-! ## The environment -/

theorem lookup_loop_define_loop_some (name : List Char) (value : Goon_Value) :
    ∀ (env env1 : List (List Char × Goon_Value)), define_loop name value env = some env1 →
      lookup_loop name env1 = value := by
  intro env
  induction env with
  | nil => intro env1 h; simp [define_loop] at h
  | cons b next ih =>
    intro env1 h
    rw [define_loop] at h
    by_cases hb : b.1 = name
    · rw [if_pos hb] at h
      cases h
      simp [lookup_loop, hb]
    · rw [if_neg hb] at h
      cases hd : define_loop name value next with
      | none => rw [hd] at h; cases h
      | some rest =>
        rw [hd] at h
        cases h
        simp [lookup_loop, hb, ih rest hd]

theorem lookup_define (ctx : Goon_Ctx) (name : List Char) (value : Goon_Value) :
    lookup (define ctx name value) name = value := by
  unfold define lookup
  cases hd : define_loop name value ctx.env with
  | none => simp [lookup_loop]
  | some env1 => exact lookup_loop_define_loop_some name value _ _ hd

/-! ## C10: the result of a program -/

theorem parse_expr_let (host : Host) {p pe q : Parser} {name : List Char} {v : Goon_Value}
    (hlet : p.tok = TOK_LET) (hl1 : p.lexes) (hid : p.next.tok = TOK_IDENT)
    (hname : p.next.lex.current.string = some name) (hl2 : p.next.lexes)
    (hpe : pe = p.next.next ∨
      (p.next.next.tok = TOK_COLON ∧ p.next.next.lexes ∧ p.next.next.next.lexes ∧
        pe = p.next.next.next.next))
    (heq : pe.tok = TOK_EQUALS) (hl3 : pe.lexes) (hv : Evals host pe.next v q)
    (hsemi : q.tok = TOK_SEMICOLON → q.lexes) :
    ∃ fuel0, ∀ fuel, fuel0 ≤ fuel → parse_expr host fuel p =
      .ret (v, if q.tok = TOK_SEMICOLON then { q with ctx := define q.ctx name v }.next
              else { q with ctx := define q.ctx name v }) := by
  obtain ⟨n, hn⟩ := evals_mono host hv
  refine ⟨n + 1, fun fuel hle => ?_⟩
  obtain ⟨m, rfl⟩ : ∃ m, fuel = m + 1 := ⟨fuel - 1, by omega⟩
  have hk : (if pe.tok ≠ TOK_EQUALS then pe.fail "expected = in let binding".toList
      else pe.advance fun p4 => (parse_expr host m p4).bind fun r =>
        if r.1.isNull then r.2.ret_null
        else
          if ({ r.2 with ctx := define r.2.ctx name r.1 } : Parser).tok = TOK_SEMICOLON then
            ({ r.2 with ctx := define r.2.ctx name r.1 } : Parser).advance
              fun p6 => .ret (r.1, p6)
          else .ret (r.1, { r.2 with ctx := define r.2.ctx name r.1 })) =
      .ret (v, if q.tok = TOK_SEMICOLON then { q with ctx := define q.ctx name v }.next
              else { q with ctx := define q.ctx name v }) := by
    rw [if_neg (not_not.mpr heq), advance_eq hl3, hn m (by omega)]
    simp only [Outcome.bind, hv.1]
    by_cases hs : q.tok = TOK_SEMICOLON
    · have hs' : ({ q with ctx := define q.ctx name v } : Parser).tok = TOK_SEMICOLON := hs
      have hlq : ({ q with ctx := define q.ctx name v } : Parser).lexes := hsemi hs
      simp only [hs', hs, if_true, advance_eq hlq]
      rfl
    · have hs' : ¬ ({ q with ctx := define q.ctx name v } : Parser).tok = TOK_SEMICOLON := hs
      simp only [hs', hs, if_false]
      rfl
  rw [parse_expr, if_pos hlet, advance_eq hl1, if_neg (not_not.mpr hid), hname]
  dsimp only
  rw [advance_eq hl2]
  rcases hpe with rfl | ⟨hc, hl2a, hl2b, rfl⟩
  · have hnc : ¬ p.next.next.tok = TOK_COLON := by rw [heq]; decide
    rw [if_neg hnc]
    exact hk
  · rw [if_pos hc, advance_eq hl2a, advance_eq hl2b]
    exact hk

/-- C10: when the top-level expressions of a source evaluate successfully one
after the other (`Exprs`: each is parsed in the state, bindings included, that
the one before it left) up to the end of input, `goon_load_string` returns true
with the context the last one left, and `last_result`, which is what
`goon_eval_result` returns, is the value of the last expression.  A `let`
expression, with or without a type annotation, returns the value of its
right-hand side and binds the name to it.  In a fresh context, with a host that
registers no function, the sources `let x = 1; let y = 2;` and `1 2 3` load
with results 2 and 3. -/
theorem C10_result_is_last_top_level_expression (host : Host) :
    (∀ (ctx : Goon_Ctx) (last : Goon_Value) (src : List Char) (vs : List Goon_Value)
        (q : Parser) (hne : vs ≠ []),
        (lexer_next (lexer_init src)).1 = true →
        Exprs host { ctx := ctx, lex := (lexer_next (lexer_init src)).2 } vs q →
        q.tok = TOK_EOF →
        Returns (fun fuel => goon_load_string host fuel ctx last src)
          (true, q.ctx, vs.getLast hne) ∧
        goon_eval_result (vs.getLast hne) = vs.getLast hne) ∧
    (∀ (p pe q : Parser) (name : List Char) (v : Goon_Value),
        p.tok = TOK_LET → p.lexes → p.next.tok = TOK_IDENT →
        p.next.lex.current.string = some name → p.next.lexes →
        (pe = p.next.next ∨
          (p.next.next.tok = TOK_COLON ∧ p.next.next.lexes ∧ p.next.next.next.lexes ∧
            pe = p.next.next.next.next)) →
        pe.tok = TOK_EQUALS → pe.lexes →
        Evals host pe.next v q →
        (q.tok = TOK_SEMICOLON → q.lexes) →
        Returns (fun fuel => parse_expr host fuel p)
          (v, if q.tok = TOK_SEMICOLON then { q with ctx := define q.ctx name v }.next
              else { q with ctx := define q.ctx name v }) ∧
        lookup (define q.ctx name v) name = v) ∧
    (∀ last, Returns
      (fun fuel =>
        goon_load_string no_host fuel goon_create last "let x = 1; let y = 2;".toList)
      (true, { env := [("y".toList, .int 2), ("x".toList, .int 1)], error := none,
               base_path := none }, .int 2)) ∧
    (∀ last, Returns
      (fun fuel => goon_load_string no_host fuel goon_create last "1 2 3".toList)
      (true, goon_create, .int 3)) := by
  refine ⟨?_, ?_, ?_, ?_⟩
  · intro ctx last src vs q hne hlex hex hq
    refine ⟨?_, rfl⟩
    obtain ⟨n, hn⟩ := load_loop_exprs host hex hq .NULL
    refine ⟨n, fun fuel hle => ?_⟩
    have h := hn fuel hle
    dsimp only at h ⊢
    unfold goon_load_string
    dsimp only
    rw [if_pos hlex, h]
    cases vs with
    | nil => exact absurd rfl hne
    | cons v vs => rfl
  · intro p pe q name v hlet hl1 hid hname hl2 hpe heq hl3 hv hsemi
    exact ⟨parse_expr_let host hlet hl1 hid hname hl2 hpe heq hl3 hv hsemi,
      lookup_define _ _ _⟩
  · exact loaded_true no_host (n := 20) (by decide!)
  · exact loaded_true no_host (n := 20) (by decide!)

/-- The source `7 8` meets the hypotheses of the first part of C10, and the
`let` at the head of `let x : int = 5;` those of the second. -/
theorem C10_result_is_last_top_level_expression_witness :
    (Exprs no_host { ctx := goon_create, lex := (lexer_next (lexer_init "7 8".toList)).2 }
        [.int 7, .int 8]
        { ctx := goon_create,
          lex := { src := "7 8".toList, pos := 3, len := 3,
                   current := { type := TOK_EOF, integer := 8, string := none },
                   error := none } } ∧
      Returns (fun fuel => goon_load_string no_host fuel goon_create .NULL "7 8".toList)
        (true, goon_create, .int 8)) ∧
    (Evals no_host
        { ctx := goon_create,
          lex := { src := "let x : int = 5;".toList, pos := 15, len := 16,
                   current := { type := TOK_INT, integer := 5, string := none },
                   error := none } }
        (.int 5)
        { ctx := goon_create,
          lex := { src := "let x : int = 5;".toList, pos := 16, len := 16,
                   current := { type := TOK_SEMICOLON, integer := 5, string := none },
                   error := none } } ∧
      Returns
        (fun fuel => parse_expr no_host fuel
          { ctx := goon_create, lex := (lexer_next (lexer_init "let x : int = 5;".toList)).2 })
        (.int 5,
          { ctx := { env := [("x".toList, .int 5)], error := none, base_path := none },
            lex := { src := "let x : int = 5;".toList, pos := 16, len := 16,
                     current := { type := TOK_EOF, integer := 5, string := none },
                     error := none } }) ∧
      lookup (define goon_create "x".toList (.int 5)) "x".toList = .int 5) :=
  have hex : Exprs no_host
      { ctx := goon_create, lex := (lexer_next (lexer_init "7 8".toList)).2 }
      [.int 7, .int 8]
      { ctx := goon_create,
        lex := { src := "7 8".toList, pos := 3, len := 3,
                 current := { type := TOK_EOF, integer := 8, string := none },
                 error := none } } :=
    Exprs.cons (by decide) ⟨rfl, 3, rfl⟩ (Exprs.cons (by decide) ⟨rfl, 3, rfl⟩ (Exprs.nil _))
  have hev : Evals no_host
      { ctx := goon_create,
        lex := { src := "let x : int = 5;".toList, pos := 15, len := 16,
                 current := { type := TOK_INT, integer := 5, string := none },
                 error := none } }
      (.int 5)
      { ctx := goon_create,
        lex := { src := "let x : int = 5;".toList, pos := 16, len := 16,
                 current := { type := TOK_SEMICOLON, integer := 5, string := none },
                 error := none } } := ⟨rfl, 3, rfl⟩
  ⟨⟨hex, ((C10_result_is_last_top_level_expression no_host).1 goon_create .NULL
      "7 8".toList [.int 7, .int 8] _ (by simp) rfl hex rfl).1⟩,
   ⟨hev, (C10_result_is_last_top_level_expression no_host).2.1
      { ctx := goon_create, lex := (lexer_next (lexer_init "let x : int = 5;".toList)).2 }
      _ _ "x".toList (.int 5) rfl rfl rfl rfl rfl (Or.inr ⟨rfl, rfl, rfl, rfl⟩) rfl rfl
      hev (fun _ => rfl)⟩⟩

/-! ## C4: truthiness and the choice of a branch -/

theorem parse_expr_if (host : Host) {p pc pa pb : Parser} {c a b : Goon_Value}
    (hif : p.tok = TOK_IF) (hl1 : p.lexes) (hc : Evals host p.next c pc)
    (hthen : pc.tok = TOK_THEN) (hl2 : pc.lexes) (ha : Evals host pc.next a pa)
    (helse : pa.tok = TOK_ELSE) (hl3 : pa.lexes) (hb : Evals host pa.next b pb) :
    ∃ fuel0, ∀ fuel, fuel0 ≤ fuel →
      parse_expr host fuel p = .ret (if goon_to_bool c then a else b, pb) := by
  obtain ⟨n1, h1⟩ := evals_mono host hc
  obtain ⟨n2, h2⟩ := evals_mono host ha
  obtain ⟨n3, h3⟩ := evals_mono host hb
  refine ⟨n1 + n2 + n3 + 1, fun fuel hle => ?_⟩
  obtain ⟨m, rfl⟩ : ∃ m, fuel = m + 1 := ⟨fuel - 1, by omega⟩
  have hnl : ¬ p.tok = TOK_LET := by rw [hif]; decide
  rw [parse_expr, if_neg hnl, if_pos hif, advance_eq hl1, h1 m (by omega)]
  simp only [Outcome.bind, hc.1]
  rw [if_neg (by decide), if_neg (not_not.mpr hthen), advance_eq hl2, h2 m (by omega)]
  simp only [Outcome.bind, ha.1]
  rw [if_neg (by decide), if_neg (not_not.mpr helse), advance_eq hl3, h3 m (by omega)]
  simp only [Outcome.bind, hb.1]
  rw [if_neg (by decide)]

theorem parse_expr_ternary (host : Host) {p pc pa pb : Parser} {c a b : Goon_Value}
    (hnl : p.tok ≠ TOK_LET) (hni : p.tok ≠ TOK_IF) (hc : EvalsPrimary host p c pc)
    (hq : pc.tok = TOK_QUESTION) (hl2 : pc.lexes) (ha : Evals host pc.next a pa)
    (hcolon : pa.tok = TOK_COLON) (hl3 : pa.lexes) (hb : Evals host pa.next b pb) :
    ∃ fuel0, ∀ fuel, fuel0 ≤ fuel →
      parse_expr host fuel p = .ret (if goon_to_bool c then a else b, pb) := by
  obtain ⟨hcn, n1, h1⟩ := hc
  obtain ⟨n2, h2⟩ := evals_mono host ha
  obtain ⟨n3, h3⟩ := evals_mono host hb
  refine ⟨n1 + n2 + n3 + 1, fun fuel hle => ?_⟩
  obtain ⟨m, rfl⟩ : ∃ m, fuel = m + 1 := ⟨fuel - 1, by omega⟩
  rw [parse_expr, if_neg hnl, if_neg hni, parse_primary_mono host h1 (by omega : n1 ≤ m)]
  simp only [Outcome.bind, hcn]
  rw [if_neg (by decide), if_pos hq, advance_eq hl2, h2 m (by omega)]
  simp only [Outcome.bind, ha.1]
  rw [if_neg (by decide), if_neg (not_not.mpr hcolon), advance_eq hl3, h3 m (by omega)]
  simp only [Outcome.bind, hb.1]
  rw [if_neg (by decide)]

/-- C4: `goon_to_bool` is false exactly for the null pointer, for nil and for
the boolean false, hence true for every other value, among them the integer 0,
the empty string, the empty list and the empty record.  When the condition and
both branches of `if c then a else b` or of `c ? a : b` evaluate successfully,
the expression returns the value of `a` if `goon_to_bool c` and the value of
`b` otherwise.  In a fresh context, with a host that registers no function, the
sources `if 0 then 1 else 2`, `if false then 1 else 2` and `if "" then 1 else 2`
load with results 1, 2 and 1. -/
theorem C4_truthiness_selects_branch (host : Host) :
    (∀ v : Goon_Value, goon_to_bool v = false ↔ (v = .NULL ∨ v = .nil ∨ v = .bool false)) ∧
    (goon_to_bool (.int 0) = true ∧ goon_to_bool (.string []) = true ∧
      goon_to_bool (.list []) = true ∧ goon_to_bool (.record []) = true) ∧
    (∀ (p pc pa pb : Parser) (c a b : Goon_Value),
        p.tok = TOK_IF → p.lexes → Evals host p.next c pc →
        pc.tok = TOK_THEN → pc.lexes → Evals host pc.next a pa →
        pa.tok = TOK_ELSE → pa.lexes → Evals host pa.next b pb →
        Returns (fun fuel => parse_expr host fuel p)
          (if goon_to_bool c then a else b, pb)) ∧
    (∀ (p pc pa pb : Parser) (c a b : Goon_Value),
        p.tok ≠ TOK_LET → p.tok ≠ TOK_IF → EvalsPrimary host p c pc →
        pc.tok = TOK_QUESTION → pc.lexes → Evals host pc.next a pa →
        pa.tok = TOK_COLON → pa.lexes → Evals host pa.next b pb →
        Returns (fun fuel => parse_expr host fuel p)
          (if goon_to_bool c then a else b, pb)) ∧
    (∀ last, Returns
      (fun fuel => goon_load_string no_host fuel goon_create last "if 0 then 1 else 2".toList)
      (true, goon_create, .int 1)) ∧
    (∀ last, Returns
      (fun fuel => goon_load_string no_host fuel goon_create last "if false then 1 else 2".toList)
      (true, goon_create, .int 2)) ∧
    (∀ last, Returns
      (fun fuel => goon_load_string no_host fuel goon_create last "if \"\" then 1 else 2".toList)
      (true, goon_create, .int 1)) := by
  refine ⟨?_, ⟨rfl, rfl, rfl, rfl⟩, ?_, ?_, ?_, ?_, ?_⟩
  · intro v
    cases v with
    | bool b => cases b <;> simp [goon_to_bool]
    | _ => simp [goon_to_bool]
  · intro p pc pa pb c a b hif hl1 hc hthen hl2 ha helse hl3 hb
    exact parse_expr_if host hif hl1 hc hthen hl2 ha helse hl3 hb
  · intro p pc pa pb c a b hnl hni hc hq hl2 ha hcolon hl3 hb
    exact parse_expr_ternary host hnl hni hc hq hl2 ha hcolon hl3 hb
  · exact loaded_true no_host (n := 20) (by decide!)
  · exact loaded_true no_host (n := 20) (by decide!)
  · exact loaded_true no_host (n := 20) (by decide!)

/-- The sources `if 0 then 7 else 9` and `0 ? 7 : 9` meet the hypotheses of
the two rules of C4: the condition 0 is truthy and both evaluate to 7. -/
theorem C4_truthiness_selects_branch_witness :
    (Evals no_host if_demo.next (.int 0) if_demo.next.next ∧
      Evals no_host if_demo.next.next.next (.int 7) if_demo.next.next.next.next ∧
      Evals no_host if_demo.next.next.next.next.next (.int 9)
        if_demo.next.next.next.next.next.next ∧
      Returns (fun fuel => parse_expr no_host fuel if_demo)
        (if goon_to_bool (.int 0) then .int 7 else .int 9,
          if_demo.next.next.next.next.next.next)) ∧
    (EvalsPrimary no_host ternary_demo (.int 0) ternary_demo.next ∧
      Returns (fun fuel => parse_expr no_host fuel ternary_demo)
        (if goon_to_bool (.int 0) then .int 7 else .int 9,
          ternary_demo.next.next.next.next.next)) ∧
    (if goon_to_bool (.int 0) then Goon_Value.int 7 else Goon_Value.int 9) = .int 7 :=
  have hc : Evals no_host if_demo.next (.int 0) if_demo.next.next :=
    ⟨rfl, 3, of_returned (by decide!)⟩
  have ha : Evals no_host if_demo.next.next.next (.int 7) if_demo.next.next.next.next :=
    ⟨rfl, 3, of_returned (by decide!)⟩
  have hb : Evals no_host if_demo.next.next.next.next.next (.int 9)
      if_demo.next.next.next.next.next.next := ⟨rfl, 3, of_returned (by decide!)⟩
  have tc : EvalsPrimary no_host ternary_demo (.int 0) ternary_demo.next :=
    ⟨rfl, 3, of_returned (by decide!)⟩
  have ta : Evals no_host ternary_demo.next.next (.int 7) ternary_demo.next.next.next :=
    ⟨rfl, 3, of_returned (by decide!)⟩
  have tb : Evals no_host ternary_demo.next.next.next.next (.int 9)
      ternary_demo.next.next.next.next.next := ⟨rfl, 3, of_returned (by decide!)⟩
  ⟨⟨hc, ha, hb, (C4_truthiness_selects_branch no_host).2.2.1 if_demo if_demo.next.next
      if_demo.next.next.next.next if_demo.next.next.next.next.next.next (.int 0) (.int 7)
      (.int 9) (by decide!) (by decide!) hc (by decide!) (by decide!) ha (by decide!)
      (by decide!) hb⟩,
    ⟨tc, (C4_truthiness_selects_branch no_host).2.2.2.1 ternary_demo ternary_demo.next
      ternary_demo.next.next.next ternary_demo.next.next.next.next.next (.int 0) (.int 7)
      (.int 9) (by decide!) (by decide!) tc (by decide!) (by decide!) ta (by decide!)
      (by decide!) tb⟩,
    rfl⟩

/-! ## C3: list literals -/

/-- An expression that evaluates successfully does not start at a closing
bracket or brace, at a spread marker or at the end of input. -/
theorem evals_tok (host : Host) {p q : Parser} {v : Goon_Value} (h : Evals host p v q) :
    p.tok ≠ TOK_RBRACKET ∧ p.tok ≠ TOK_RBRACE ∧ p.tok ≠ TOK_SPREAD ∧ p.tok ≠ TOK_EOF := by
  obtain ⟨hv, fuel, hf⟩ := h
  have key : ∀ t : Token_Type, p.tok = t → t ≠ TOK_LET → t ≠ TOK_IF →
      t ≠ TOK_INT → t ≠ TOK_STRING → t ≠ TOK_TRUE → t ≠ TOK_FALSE → t ≠ TOK_IDENT →
      t ≠ TOK_LBRACE → t ≠ TOK_LBRACKET → t ≠ TOK_IMPORT → t ≠ TOK_LPAREN → False := by
    intro t ht h1 h2 h3 h4 h5 h6 h7 h8 h9 h10 h11
    cases fuel with
    | zero => rw [parse_expr] at hf; cases hf
    | succ n =>
      rw [parse_expr, if_neg (by rw [ht]; exact h1), if_neg (by rw [ht]; exact h2)] at hf
      cases n with
      | zero => rw [parse_primary] at hf; cases hf
      | succ m =>
        have hp : parse_primary host (m + 1) p = p.ret_null := by
          rw [parse_primary]
          unfold Parser.tok at ht
          dsimp only
          rw [ht]
          cases t <;> first | rfl | contradiction
        rw [hp] at hf
        simp only [Outcome.bind, Parser.ret_null, Goon_Value.isNull, if_true] at hf
        cases hf
        cases hv
  refine ⟨?_, ?_, ?_, ?_⟩ <;> intro ht <;> exact key _ ht (by decide) (by decide) (by decide)
    (by decide) (by decide) (by decide) (by decide) (by decide) (by decide) (by decide)
    (by decide)

theorem parse_list_spread_list (acc items : List Goon_Value) :
    parse_list_spread (.list acc) items = .list (acc ++ items) := by
  induction items generalizing acc with
  | nil => simp [parse_list_spread]
  | cons item rest ih => simp [parse_list_spread, goon_list_push, ih]

theorem parse_list_loop_entries (host : Host) {p q : Parser} {es : List List_Entry}
    (h : ListEntries host p es q) (hq : q.lexes) :
    ∀ acc : List Goon_Value, ∃ fuel0, ∀ fuel, fuel0 ≤ fuel →
      parse_list_loop host fuel p (.list acc) =
        .ret (.list (acc ++ es.flatMap List_Entry.items), q.next) := by
  induction h with
  | @done p hp =>
    intro acc
    refine ⟨1, fun fuel hle => ?_⟩
    obtain ⟨m, rfl⟩ : ∃ m, fuel = m + 1 := ⟨fuel - 1, by omega⟩
    rw [parse_list_loop, if_neg (by simp [hp]), if_neg (not_not.mpr hp), advance_eq hq]
    simp
  | @item p p1 q v es hv hsep _ ih =>
    intro acc
    obtain ⟨n1, h1⟩ := evals_mono host hv
    obtain ⟨n2, h2⟩ := ih hq (acc ++ [v])
    obtain ⟨hrb, _, hns, heof⟩ := evals_tok host hv
    refine ⟨n1 + n2 + 1, fun fuel hle => ?_⟩
    obtain ⟨m, rfl⟩ : ∃ m, fuel = m + 1 := ⟨fuel - 1, by omega⟩
    have h2m := h2 m (by omega)
    rw [parse_list_loop, if_pos ⟨hrb, heof⟩]
    dsimp only
    rw [if_neg hns, h1 m (by omega)]
    simp only [Outcome.bind, hv.1]
    rw [if_neg (by decide)]
    simp only [goon_list_push]
    unfold Parser.skip_comma at h2m
    by_cases hc : p1.tok = TOK_COMMA
    · rw [if_pos hc] at h2m
      rw [if_pos hc, advance_eq (hsep hc), h2m]
      simp [List_Entry.items]
    · rw [if_neg hc] at h2m
      rw [if_neg hc, h2m]
      simp [List_Entry.items]
  | @spread p p1 q v es hs hl hv hsep _ ih =>
    intro acc
    obtain ⟨n1, h1⟩ := evals_mono host hv
    obtain ⟨n2, h2⟩ := ih hq (acc ++ List_Entry.items (.spread v))
    refine ⟨n1 + n2 + 1, fun fuel hle => ?_⟩
    obtain ⟨m, rfl⟩ : ∃ m, fuel = m + 1 := ⟨fuel - 1, by omega⟩
    have h2m := h2 m (by omega)
    have hk : (if p1.tok = TOK_COMMA then
          p1.advance fun p3 => parse_list_loop host m p3
            (.list (acc ++ List_Entry.items (.spread v)))
        else parse_list_loop host m p1 (.list (acc ++ List_Entry.items (.spread v)))) =
        .ret (.list (acc ++ (List_Entry.spread v :: es).flatMap List_Entry.items), q.next) := by
      unfold Parser.skip_comma at h2m
      by_cases hc : p1.tok = TOK_COMMA
      · rw [if_pos hc] at h2m
        rw [if_pos hc, advance_eq (hsep hc), h2m]
        simp
      · rw [if_neg hc] at h2m
        rw [if_neg hc, h2m]
        simp
    rw [parse_list_loop, if_pos (by simp [hs])]
    dsimp only
    rw [if_pos hs, advance_eq hl, h1 m (by omega)]
    simp only [Outcome.bind]
    cases v with
    | list items =>
      simp only [parse_list_spread_list]
      exact hk
    | _ =>
      simp only [List_Entry.items, List.append_nil] at hk
      exact hk

theorem parse_list_entries (host : Host) {p q : Parser} {es : List List_Entry}
    (hp : p.lexes) (h : ListEntries host p.next es q) (hq : q.lexes) :
    ∃ fuel0, ∀ fuel, fuel0 ≤ fuel →
      parse_list host fuel p = .ret (.list (es.flatMap List_Entry.items), q.next) := by
  obtain ⟨n, hn⟩ := parse_list_loop_entries host h hq []
  refine ⟨n + 1, fun fuel hle => ?_⟩
  obtain ⟨m, rfl⟩ : ∃ m, fuel = m + 1 := ⟨fuel - 1, by omega⟩
  rw [parse_list, advance_eq hp, hn m (by omega)]
  simp

/-- C3: when the entries of a list literal are read in source order
(`ListEntries`: each plain expression and each spread operand evaluates
successfully, optional commas between them) up to the closing bracket, the
literal evaluates to the list that concatenates, in that order, what the
entries contribute (`List_Entry.items`): the one value of a plain expression,
the items in stored order of a spread list, nothing for a spread of any other
value.  In a fresh context, with a host that registers no function, the source
`[1, ...[2,3], 4]` loads to the list 1, 2, 3, 4, rendered as `[1,2,3,4]`. -/
theorem C3_list_literal_concatenates_entries (host : Host) :
    (∀ (p q : Parser) (es : List List_Entry),
        p.tok = TOK_LBRACKET → p.lexes → ListEntries host p.next es q → q.lexes →
        Returns (fun fuel => parse_primary host fuel p)
          (.list (es.flatMap List_Entry.items), q.next)) ∧
    (∀ last, Returns
      (fun fuel => goon_load_string no_host fuel goon_create last "[1, ...[2,3], 4]".toList)
      (true, goon_create, .list [.int 1, .int 2, .int 3, .int 4])) ∧
    goon_to_json (.list [.int 1, .int 2, .int 3, .int 4]) = "[1,2,3,4]".toList := by
  refine ⟨?_, ?_, rfl⟩
  · intro p q es hp hl h hq
    obtain ⟨n, hn⟩ := parse_list_entries host hl h hq
    refine ⟨n + 1, fun fuel hle => ?_⟩
    obtain ⟨m, rfl⟩ : ∃ m, fuel = m + 1 := ⟨fuel - 1, by omega⟩
    dsimp only
    rw [parse_primary]
    unfold Parser.tok at hp
    dsimp only
    rw [hp]
    exact hn m (by omega)
  · exact loaded_true no_host (n := 20) (by decide!)

/-- The list literal of the source `[7, ...[8], ...0, 9]` meets the hypotheses
of C3: its four entries are read up to the closing bracket, nine tokens after
the opening one. -/
theorem C3_list_literal_concatenates_entries_witness :
    ListEntries no_host (Parser.start goon_create "[7, ...[8], ...0, 9]".toList).next
      [.item (.int 7), .spread (.list [.int 8]), .spread (.int 0), .item (.int 9)]
      (Parser.next^[12] (Parser.start goon_create "[7, ...[8], ...0, 9]".toList)) ∧
    Returns
      (fun fuel => parse_primary no_host fuel
        (Parser.start goon_create "[7, ...[8], ...0, 9]".toList))
      (.list [.int 7, .int 8, .int 9],
        Parser.next^[13] (Parser.start goon_create "[7, ...[8], ...0, 9]".toList)) :=
  have h : ListEntries no_host (Parser.start goon_create "[7, ...[8], ...0, 9]".toList).next
      [.item (.int 7), .spread (.list [.int 8]), .spread (.int 0), .item (.int 9)]
      (Parser.next^[12] (Parser.start goon_create "[7, ...[8], ...0, 9]".toList)) :=
    ListEntries.item ⟨rfl, 3, rfl⟩ (fun _ => rfl)
      (ListEntries.spread rfl rfl ⟨rfl, 6, rfl⟩ (fun _ => rfl)
        (ListEntries.spread rfl rfl ⟨rfl, 3, rfl⟩ (fun _ => rfl)
          (ListEntries.item ⟨rfl, 3, rfl⟩ (fun h => absurd h (by decide))
            (ListEntries.done rfl))))
  ⟨h, (C3_list_literal_concatenates_entries no_host).1
    (Parser.start goon_create "[7, ...[8], ...0, 9]".toList) _ _ rfl rfl h rfl⟩

/-! ## Records: what `goon_record_set` does to the field chain -/

theorem set_loop_none (key : List Char) (value : Goon_Value) :
    ∀ fs : List (List Char × Goon_Value),
      goon_record_set_loop key value fs = none ↔ key ∉ fs.map Prod.fst := by
  intro fs
  induction fs with
  | nil => simp [goon_record_set_loop]
  | cons f next ih =>
    rw [goon_record_set_loop]
    by_cases hf : f.1 = key
    · simp [hf]
    · have hf' : ¬ key = f.1 := fun h => hf h.symm
      simp [hf, hf', ih]

theorem set_loop_keys (key : List Char) (value : Goon_Value) :
    ∀ fs fs1 : List (List Char × Goon_Value),
      goon_record_set_loop key value fs = some fs1 → fs1.map Prod.fst = fs.map Prod.fst := by
  intro fs
  induction fs with
  | nil => intro fs1 h; simp [goon_record_set_loop] at h
  | cons f next ih =>
    intro fs1 h
    rw [goon_record_set_loop] at h
    by_cases hf : f.1 = key
    · rw [if_pos hf] at h
      cases h
      rfl
    · rw [if_neg hf] at h
      cases hd : goon_record_set_loop key value next with
      | none => rw [hd] at h; cases h
      | some rest =>
        rw [hd] at h
        cases h
        simp [ih rest hd]

theorem set_loop_get_same (key : List Char) (value : Goon_Value) :
    ∀ fs fs1 : List (List Char × Goon_Value),
      goon_record_set_loop key value fs = some fs1 → goon_record_get_loop key fs1 = value := by
  intro fs
  induction fs with
  | nil => intro fs1 h; simp [goon_record_set_loop] at h
  | cons f next ih =>
    intro fs1 h
    rw [goon_record_set_loop] at h
    by_cases hf : f.1 = key
    · rw [if_pos hf] at h
      cases h
      simp [goon_record_get_loop, hf]
    · rw [if_neg hf] at h
      cases hd : goon_record_set_loop key value next with
      | none => rw [hd] at h; cases h
      | some rest =>
        rw [hd] at h
        cases h
        simp [goon_record_get_loop, hf, ih rest hd]

theorem set_loop_get_other (key : List Char) (value : Goon_Value) (k : List Char)
    (hk : k ≠ key) :
    ∀ fs fs1 : List (List Char × Goon_Value),
      goon_record_set_loop key value fs = some fs1 →
        goon_record_get_loop k fs1 = goon_record_get_loop k fs := by
  intro fs
  induction fs with
  | nil => intro fs1 h; simp [goon_record_set_loop] at h
  | cons f next ih =>
    intro fs1 h
    rw [goon_record_set_loop] at h
    by_cases hf : f.1 = key
    · rw [if_pos hf] at h
      cases h
      have : ¬ f.1 = k := fun h => hk (h.symm.trans hf)
      simp [goon_record_get_loop, this]
    · rw [if_neg hf] at h
      cases hd : goon_record_set_loop key value next with
      | none => rw [hd] at h; cases h
      | some rest =>
        rw [hd] at h
        cases h
        simp [goon_record_get_loop, ih rest hd]

theorem set_loop_filter_same (key : List Char) (value : Goon_Value) :
    ∀ fs fs1 : List (List Char × Goon_Value), (fs.map Prod.fst).Nodup →
      goon_record_set_loop key value fs = some fs1 →
        fs1.filter (fun f => f.1 = key) = [(key, value)] := by
  intro fs
  induction fs with
  | nil => intro fs1 _ h; simp [goon_record_set_loop] at h
  | cons f next ih =>
    intro fs1 hnd h
    rw [goon_record_set_loop] at h
    rw [List.map_cons, List.nodup_cons] at hnd
    by_cases hf : f.1 = key
    · rw [if_pos hf] at h
      cases h
      have hnot : ∀ g ∈ next, ¬ g.1 = key := by
        intro g hg hgk
        exact hnd.1 (List.mem_map.mpr ⟨g, hg, hgk.trans hf.symm⟩)
      have : next.filter (fun f => decide (f.1 = key)) = [] := by
        rw [List.filter_eq_nil_iff]
        intro g hg
        simpa using hnot g hg
      simp [hf, this]
    · rw [if_neg hf] at h
      cases hd : goon_record_set_loop key value next with
      | none => rw [hd] at h; cases h
      | some rest =>
        rw [hd] at h
        cases h
        simp [hf, ih rest hnd.2 hd]

theorem set_loop_filter_other (key : List Char) (value : Goon_Value) (k : List Char)
    (hk : k ≠ key) :
    ∀ fs fs1 : List (List Char × Goon_Value),
      goon_record_set_loop key value fs = some fs1 →
        fs1.filter (fun f => f.1 = k) = fs.filter (fun f => f.1 = k) := by
  intro fs
  induction fs with
  | nil => intro fs1 h; simp [goon_record_set_loop] at h
  | cons f next ih =>
    intro fs1 h
    rw [goon_record_set_loop] at h
    by_cases hf : f.1 = key
    · rw [if_pos hf] at h
      cases h
      have : ¬ f.1 = k := fun h => hk (h.symm.trans hf)
      simp [this]
    · rw [if_neg hf] at h
      cases hd : goon_record_set_loop key value next with
      | none => rw [hd] at h; cases h
      | some rest =>
        rw [hd] at h
        cases h
        simp [List.filter_cons, ih rest hd]

/-- The result of `goon_record_set` on a record is a record. -/
theorem set_is_record (r : Goon_Value) (key : List Char) (value : Goon_Value) :
    goon_is_record (goon_record_set r key value) = goon_is_record r := by
  unfold goon_record_set
  cases r <;> try rfl
  rename_i fs
  dsimp only
  cases goon_record_set_loop key value fs <;> rfl

/-- The keys of the chain after `goon_record_set`: unchanged, in number and in
order, when the key was present, the new key at the head when it was not. -/
theorem set_keys (fs : List (List Char × Goon_Value)) (key : List Char) (value : Goon_Value) :
    (goon_record_fields (goon_record_set (.record fs) key value)).map Prod.fst =
      if key ∈ fs.map Prod.fst then fs.map Prod.fst else key :: fs.map Prod.fst := by
  unfold goon_record_set
  dsimp only
  cases hd : goon_record_set_loop key value fs with
  | none =>
    rw [if_neg ((set_loop_none key value fs).mp hd)]
    rfl
  | some fs1 =>
    have hin : key ∈ fs.map Prod.fst := by
      by_contra hc
      rw [(set_loop_none key value fs).mpr hc] at hd
      cases hd
    rw [if_pos hin]
    exact set_loop_keys key value fs fs1 hd

theorem set_get_same (fs : List (List Char × Goon_Value)) (key : List Char)
    (value : Goon_Value) :
    goon_record_get (goon_record_set (.record fs) key value) key = value := by
  unfold goon_record_set
  dsimp only
  cases hd : goon_record_set_loop key value fs with
  | none => simp [goon_record_get, goon_record_get_loop]
  | some fs1 => exact set_loop_get_same key value fs fs1 hd

theorem set_get_other (r : Goon_Value) (key : List Char) (value : Goon_Value)
    (k : List Char) (hk : k ≠ key) :
    goon_record_get (goon_record_set r key value) k = goon_record_get r k := by
  unfold goon_record_set
  cases r <;> try rfl
  rename_i fs
  dsimp only
  cases hd : goon_record_set_loop key value fs with
  | none =>
    have : ¬ key = k := fun h => hk h.symm
    simp [goon_record_get, goon_record_get_loop, this]
  | some fs1 => exact set_loop_get_other key value k hk fs fs1 hd

theorem set_nodup (fs : List (List Char × Goon_Value)) (key : List Char) (value : Goon_Value)
    (h : (fs.map Prod.fst).Nodup) :
    ((goon_record_fields (goon_record_set (.record fs) key value)).map Prod.fst).Nodup := by
  rw [set_keys]
  split
  · exact h
  · rename_i hin
    exact List.nodup_cons.mpr ⟨hin, h⟩

theorem set_filter_same (fs : List (List Char × Goon_Value)) (key : List Char)
    (value : Goon_Value) (h : (fs.map Prod.fst).Nodup) :
    (goon_record_fields (goon_record_set (.record fs) key value)).filter
      (fun f => f.1 = key) = [(key, value)] := by
  unfold goon_record_set
  dsimp only
  cases hd : goon_record_set_loop key value fs with
  | none =>
    have hnot := (set_loop_none key value fs).mp hd
    have : fs.filter (fun f => decide (f.1 = key)) = [] := by
      rw [List.filter_eq_nil_iff]
      intro g hg
      have : ¬ g.1 = key := fun hgk => hnot (List.mem_map.mpr ⟨g, hg, hgk⟩)
      simpa using this
    simp [goon_record_fields, this]
  | some fs1 => exact set_loop_filter_same key value fs fs1 h hd

theorem set_filter_other (fs : List (List Char × Goon_Value)) (key : List Char)
    (value : Goon_Value) (k : List Char) (hk : k ≠ key) :
    (goon_record_fields (goon_record_set (.record fs) key value)).filter
      (fun f => f.1 = k) = fs.filter (fun f => f.1 = k) := by
  unfold goon_record_set
  dsimp only
  cases hd : goon_record_set_loop key value fs with
  | none =>
    have : ¬ key = k := fun h => hk h.symm
    simp [goon_record_fields, this]
  | some fs1 => exact set_loop_filter_other key value k hk fs fs1 hd

/-! ## Records: a sequence of `goon_record_set` calls -/

theorem record_cases {r : Goon_Value} (h : goon_is_record r = true) : ∃ fs, r = .record fs := by
  cases r <;> first | exact ⟨_, rfl⟩ | cases h

theorem set_record (fs : List (List Char × Goon_Value)) (key : List Char) (value : Goon_Value) :
    goon_record_set (.record fs) key value =
      .record (goon_record_fields (goon_record_set (.record fs) key value)) := by
  obtain ⟨fs1, h⟩ := record_cases ((set_is_record (.record fs) key value).trans rfl)
  rw [h]
  rfl

theorem spread_is_record (sets : List (List Char × Goon_Value)) :
    ∀ r, goon_is_record (parse_record_spread r sets) = goon_is_record r := by
  induction sets with
  | nil => intro r; rfl
  | cons f next ih =>
    intro r
    rw [parse_record_spread, ih, set_is_record]

theorem spread_append (a b : List (List Char × Goon_Value)) :
    ∀ r, parse_record_spread r (a ++ b) = parse_record_spread (parse_record_spread r a) b := by
  induction a with
  | nil => intro r; rfl
  | cons f next ih =>
    intro r
    rw [List.cons_append, parse_record_spread, parse_record_spread, ih]

theorem spread_get_absent (k : List Char) (sets : List (List Char × Goon_Value))
    (hk : k ∉ sets.map Prod.fst) :
    ∀ r, goon_record_get (parse_record_spread r sets) k = goon_record_get r k := by
  induction sets with
  | nil => intro r; rfl
  | cons f next ih =>
    intro r
    rw [List.map_cons, List.mem_cons, not_or] at hk
    rw [parse_record_spread, ih hk.2, set_get_other _ _ _ _ hk.1]

/-- The last field set for a key is the one `goon_record_get` finds. -/
theorem spread_get_last (fs : List (List Char × Goon_Value)) (k : List Char) (v : Goon_Value)
    (pre post : List (List Char × Goon_Value)) (hk : k ∉ post.map Prod.fst) :
    goon_record_get (parse_record_spread (.record fs) (pre ++ (k, v) :: post)) k = v := by
  rw [spread_append, parse_record_spread, spread_get_absent k post hk]
  obtain ⟨fs1, h1⟩ := record_cases ((spread_is_record pre (.record fs)).trans rfl)
  rw [h1]
  exact set_get_same fs1 k v

theorem spread_nodup (sets : List (List Char × Goon_Value)) :
    ∀ fs : List (List Char × Goon_Value), (fs.map Prod.fst).Nodup →
      ((goon_record_fields (parse_record_spread (.record fs) sets)).map Prod.fst).Nodup := by
  induction sets with
  | nil => intro fs h; exact h
  | cons f next ih =>
    intro fs h
    rw [parse_record_spread, set_record]
    exact ih _ (set_nodup fs f.1 f.2 h)

theorem spread_filter_absent (k : List Char) (sets : List (List Char × Goon_Value))
    (hk : k ∉ sets.map Prod.fst) :
    ∀ fs : List (List Char × Goon_Value),
      (goon_record_fields (parse_record_spread (.record fs) sets)).filter (fun f => f.1 = k) =
        fs.filter (fun f => f.1 = k) := by
  induction sets with
  | nil => intro fs; rfl
  | cons f next ih =>
    intro fs
    rw [List.map_cons, List.mem_cons, not_or] at hk
    rw [parse_record_spread, set_record, ih hk.2, set_filter_other _ _ _ _ hk.1]

/-- After a sequence of sets on a record with distinct keys, the last field set
for a key is the only field of that key. -/
theorem spread_filter_last (fs : List (List Char × Goon_Value)) (h : (fs.map Prod.fst).Nodup)
    (k : List Char) (v : Goon_Value) (pre post : List (List Char × Goon_Value))
    (hk : k ∉ post.map Prod.fst) :
    (goon_record_fields (parse_record_spread (.record fs) (pre ++ (k, v) :: post))).filter
      (fun f => f.1 = k) = [(k, v)] := by
  rw [spread_append, parse_record_spread]
  obtain ⟨fs1, h1⟩ := record_cases ((spread_is_record pre (.record fs)).trans rfl)
  have hnd : (fs1.map Prod.fst).Nodup := by
    have := spread_nodup pre fs h
    rw [h1] at this
    exact this
  rw [h1, set_record, spread_filter_absent k post hk]
  exact set_filter_same fs1 k v hnd

/-- Setting fields whose keys are pairwise distinct and not yet in the record
puts them in front of the chain, the last one set first. -/
theorem spread_fresh (sets : List (List Char × Goon_Value)) :
    ∀ fs : List (List Char × Goon_Value), (sets.map Prod.fst).Nodup →
      (∀ k ∈ sets.map Prod.fst, k ∉ fs.map Prod.fst) →
      parse_record_spread (.record fs) sets = .record (sets.reverse ++ fs) := by
  induction sets with
  | nil => intro fs _ _; rfl
  | cons f next ih =>
    intro fs hnd hfresh
    rw [List.map_cons, List.nodup_cons] at hnd
    have hf : f.1 ∉ fs.map Prod.fst := hfresh f.1 (by simp)
    have hset : goon_record_set (.record fs) f.1 f.2 = .record (f :: fs) := by
      unfold goon_record_set
      dsimp only
      rw [(set_loop_none f.1 f.2 fs).mpr hf]
    rw [parse_record_spread, hset, ih (f :: fs) hnd.2]
    · simp
    · intro k hk
      rw [List.map_cons, List.mem_cons, not_or]
      refine ⟨?_, hfresh k (by simp [hk])⟩
      intro hkf
      exact hnd.1 (hkf ▸ hk)

theorem parse_record_loop_entries (host : Host) {p q : Parser} {es : List Record_Entry}
    (h : RecordEntries host p es q) (hq : q.lexes) :
    ∀ r : Goon_Value, ∃ fuel0, ∀ fuel, fuel0 ≤ fuel →
      parse_record_loop host fuel p r =
        .ret (parse_record_spread r (es.flatMap Record_Entry.sets), q.next) := by
  induction h with
  | @done p hp =>
    intro r
    refine ⟨1, fun fuel hle => ?_⟩
    obtain ⟨m, rfl⟩ : ∃ m, fuel = m + 1 := ⟨fuel - 1, by omega⟩
    rw [parse_record_loop, if_neg (by simp [hp]), if_neg (not_not.mpr hp), advance_eq hq]
    simp [parse_record_spread]
  | @field p pe p1 q key v es hid hkey hl hann heq hle2 hv hsep _ ih =>
    intro r
    obtain ⟨n1, h1⟩ := evals_mono host hv
    obtain ⟨n2, h2⟩ := ih hq (goon_record_set r key v)
    refine ⟨n1 + n2 + 1, fun fuel hle => ?_⟩
    obtain ⟨m, rfl⟩ : ∃ m, fuel = m + 1 := ⟨fuel - 1, by omega⟩
    have h2m := h2 m (by omega)
    have hres : parse_record_spread r
        ((Record_Entry.field key v :: es).flatMap Record_Entry.sets) =
        parse_record_spread (goon_record_set r key v) (es.flatMap Record_Entry.sets) := by
      rw [List.flatMap_cons]
      rfl
    have hk : (if pe.tok ≠ TOK_EQUALS then pe.fail "expected = after field name".toList
        else pe.advance fun p3 => (parse_expr host m p3).bind fun r1 =>
          if r1.1.isNull then r1.2.ret_null
          else
            if r1.2.tok = TOK_SEMICOLON then
              r1.2.advance fun p5 => parse_record_loop host m p5 (goon_record_set r key r1.1)
            else if r1.2.tok = TOK_COMMA then
              r1.2.advance fun p5 => parse_record_loop host m p5 (goon_record_set r key r1.1)
            else parse_record_loop host m r1.2 (goon_record_set r key r1.1)) =
        .ret (parse_record_spread r
          ((Record_Entry.field key v :: es).flatMap Record_Entry.sets), q.next) := by
      rw [if_neg (not_not.mpr heq), advance_eq hle2, h1 m (by omega), hres]
      simp only [Outcome.bind, hv.1]
      rw [if_neg (by decide)]
      unfold Parser.skip_separator at h2m
      by_cases hs : p1.tok = TOK_SEMICOLON
      · rw [if_pos (Or.inr hs)] at h2m
        rw [if_pos hs, advance_eq (hsep (Or.inr hs)), h2m]
      · by_cases hc : p1.tok = TOK_COMMA
        · rw [if_pos (Or.inl hc)] at h2m
          rw [if_neg hs, if_pos hc, advance_eq (hsep (Or.inl hc)), h2m]
        · rw [if_neg (by simp [hs, hc])] at h2m
          rw [if_neg hs, if_neg hc, h2m]
    have hns : ¬ p.tok = TOK_SPREAD := by rw [hid]; decide
    rw [parse_record_loop, if_pos (by rw [hid]; decide), if_neg hns,
      if_neg (not_not.mpr hid), hkey]
    dsimp only
    rw [advance_eq hl]
    rcases hann with rfl | ⟨hc, hla, hlb, rfl⟩
    · have hnc : ¬ p.next.tok = TOK_COLON := by rw [heq]; decide
      rw [if_neg hnc]
      exact hk
    · rw [if_pos hc, advance_eq hla, advance_eq hlb]
      exact hk
  | @spread p p1 q v es hs hl hv hsep _ ih =>
    intro r
    obtain ⟨n1, h1⟩ := evals_mono host hv
    obtain ⟨n2, h2⟩ := ih hq (parse_record_spread r (Record_Entry.sets (.spread v)))
    refine ⟨n1 + n2 + 1, fun fuel hle => ?_⟩
    obtain ⟨m, rfl⟩ : ∃ m, fuel = m + 1 := ⟨fuel - 1, by omega⟩
    have h2m := h2 m (by omega)
    have hres : parse_record_spread r
        ((Record_Entry.spread v :: es).flatMap Record_Entry.sets) =
        parse_record_spread (parse_record_spread r (Record_Entry.sets (.spread v)))
          (es.flatMap Record_Entry.sets) := by
      rw [List.flatMap_cons, spread_append]
    have hk : (if p1.tok = TOK_COMMA then
          p1.advance fun p3 => parse_record_loop host m p3
            (parse_record_spread r (Record_Entry.sets (.spread v)))
        else if p1.tok = TOK_SEMICOLON then
          p1.advance fun p3 => parse_record_loop host m p3
            (parse_record_spread r (Record_Entry.sets (.spread v)))
        else parse_record_loop host m p1
            (parse_record_spread r (Record_Entry.sets (.spread v)))) =
        .ret (parse_record_spread r
          ((Record_Entry.spread v :: es).flatMap Record_Entry.sets), q.next) := by
      rw [hres]
      unfold Parser.skip_separator at h2m
      by_cases hc : p1.tok = TOK_COMMA
      · rw [if_pos (Or.inl hc)] at h2m
        rw [if_pos hc, advance_eq (hsep (Or.inl hc)), h2m]
      · by_cases hs : p1.tok = TOK_SEMICOLON
        · rw [if_pos (Or.inr hs)] at h2m
          rw [if_neg hc, if_pos hs, advance_eq (hsep (Or.inr hs)), h2m]
        · rw [if_neg (by simp [hs, hc])] at h2m
          rw [if_neg hc, if_neg hs, h2m]
    rw [parse_record_loop, if_pos (by rw [hs]; decide), if_pos hs, advance_eq hl,
      h1 m (by omega)]
    simp only [Outcome.bind]
    cases v with
    | record fields => exact hk
    | _ => exact hk

theorem parse_record_entries (host : Host) {p q : Parser} {es : List Record_Entry}
    (hp : p.lexes) (h : RecordEntries host p.next es q) (hq : q.lexes) :
    ∃ fuel0, ∀ fuel, fuel0 ≤ fuel →
      parse_record host fuel p =
        .ret (parse_record_spread (.record []) (es.flatMap Record_Entry.sets), q.next) := by
  obtain ⟨n, hn⟩ := parse_record_loop_entries host h hq (.record [])
  refine ⟨n + 1, fun fuel hle => ?_⟩
  obtain ⟨m, rfl⟩ : ∃ m, fuel = m + 1 := ⟨fuel - 1, by omega⟩
  rw [parse_record, advance_eq hp, hn m (by omega)]

theorem parse_primary_record (host : Host) {p q : Parser} {es : List Record_Entry}
    (ht : p.tok = TOK_LBRACE) (hp : p.lexes) (h : RecordEntries host p.next es q)
    (hq : q.lexes) :
    ∃ fuel0, ∀ fuel, fuel0 ≤ fuel →
      parse_primary host fuel p =
        .ret (parse_record_spread (.record []) (es.flatMap Record_Entry.sets), q.next) := by
  obtain ⟨n, hn⟩ := parse_record_entries host hp h hq
  refine ⟨n + 1, fun fuel hle => ?_⟩
  obtain ⟨m, rfl⟩ : ∃ m, fuel = m + 1 := ⟨fuel - 1, by omega⟩
  rw [parse_primary]
  unfold Parser.tok at ht
  dsimp only
  rw [ht]
  exact hn m (by omega)

theorem last_key_split (k : List Char) :
    ∀ l : List (List Char × Goon_Value), k ∈ l.map Prod.fst →
      ∃ (a : List (List Char × Goon_Value)) (w : Goon_Value) (b : List (List Char × Goon_Value)),
        l = a ++ (k, w) :: b ∧ k ∉ b.map Prod.fst := by
  intro l
  induction l with
  | nil => intro h; cases h
  | cons f l ih =>
    intro h
    by_cases hin : k ∈ l.map Prod.fst
    · obtain ⟨a, w, b, hl, hb⟩ := ih hin
      exact ⟨f :: a, w, b, by rw [hl]; rfl, hb⟩
    · obtain ⟨key, x⟩ := f
      rw [List.map_cons] at h
      rcases List.mem_cons.mp h with h1 | h1
      · dsimp only at h1
        subst h1
        exact ⟨[], x, l, rfl, hin⟩
      · exact absurd h1 hin

/-- C1: when the entries of a record literal are read in source order
(`RecordEntries`) and `k = v` is one of its explicit fields (earlier entries
may set `k` any number of times), the literal evaluates to a record that has
exactly one field with key `k`, so that `goon_record_get` yields the value of
that field; and when this explicit field is the last entry that sets the key
`k` (no later entry, explicit or spread, supplies `k`), that value is `v`.  In
a fresh context, with a host that registers no function, the source
`{a=1, a=2}` loads to the record with the single field a = 2, which
`goon_to_json` renders as `{"a":2}`. -/
theorem C1_duplicate_key_last_value_wins (host : Host) :
    (∀ (p q : Parser) (es pre post : List Record_Entry) (k : List Char) (v : Goon_Value),
        p.tok = TOK_LBRACE → p.lexes → RecordEntries host p.next es q → q.lexes →
        es = pre ++ Record_Entry.field k v :: post →
        ∃ (r w : Goon_Value), Returns (fun fuel => parse_primary host fuel p) (r, q.next) ∧
          goon_is_record r = true ∧
          (goon_record_fields r).filter (fun f => f.1 = k) = [(k, w)] ∧
          goon_record_get r k = w ∧
          (k ∉ (post.flatMap Record_Entry.sets).map Prod.fst → w = v)) ∧
    (∀ last, Returns
      (fun fuel => goon_load_string no_host fuel goon_create last "\x7ba=1, a=2\x7d".toList)
      (true, goon_create, .record [("a".toList, .int 2)])) ∧
    goon_to_json (.record [("a".toList, .int 2)]) = "\x7b\"a\":2\x7d".toList := by
  refine ⟨?_, ?_, rfl⟩
  · intro p q es pre post k v ht hp h hq hes
    by_cases hk : k ∈ (post.flatMap Record_Entry.sets).map Prod.fst
    · obtain ⟨a, w, b, hl, hb⟩ := last_key_split k _ hk
      have e : es.flatMap Record_Entry.sets =
          (pre.flatMap Record_Entry.sets ++ (k, v) :: a) ++ (k, w) :: b := by
        rw [hes, List.flatMap_append, List.flatMap_cons, hl]
        simp [Record_Entry.sets]
      refine ⟨_, w, parse_primary_record host ht hp h hq, ?_, ?_, ?_, fun hn => absurd hk hn⟩
      · exact (spread_is_record _ _).trans rfl
      · rw [e]
        exact spread_filter_last [] List.nodup_nil k w _ _ hb
      · rw [e]
        exact spread_get_last [] k w _ _ hb
    · refine ⟨_, v, parse_primary_record host ht hp h hq, ?_, ?_, ?_, fun _ => rfl⟩
      · exact (spread_is_record _ _).trans rfl
      · rw [hes, List.flatMap_append, List.flatMap_cons]
        exact spread_filter_last [] List.nodup_nil k v _ _ hk
      · rw [hes, List.flatMap_append, List.flatMap_cons]
        exact spread_get_last [] k v _ _ hk
  · exact loaded_true no_host (n := 20) (by decide!)

/-- The record literal of the source `{k=1, j=5, k=2}` meets the hypotheses of
C1 for the key `k`, whose last occurrence is the third entry. -/
theorem C1_duplicate_key_last_value_wins_witness :
    RecordEntries no_host (Parser.start goon_create "\x7bk=1, j=5, k=2\x7d".toList).next
      [.field "k".toList (.int 1), .field "j".toList (.int 5), .field "k".toList (.int 2)]
      (Parser.next^[12] (Parser.start goon_create "\x7bk=1, j=5, k=2\x7d".toList)) ∧
    ∃ r, Returns
        (fun fuel => parse_primary no_host fuel
          (Parser.start goon_create "\x7bk=1, j=5, k=2\x7d".toList))
        (r, Parser.next^[13] (Parser.start goon_create "\x7bk=1, j=5, k=2\x7d".toList)) ∧
      goon_is_record r = true ∧
      (goon_record_fields r).filter (fun f => f.1 = "k".toList) = [("k".toList, .int 2)] ∧
      goon_record_get r "k".toList = .int 2 :=
  have h : RecordEntries no_host
      (Parser.start goon_create "\x7bk=1, j=5, k=2\x7d".toList).next
      [.field "k".toList (.int 1), .field "j".toList (.int 5), .field "k".toList (.int 2)]
      (Parser.next^[12] (Parser.start goon_create "\x7bk=1, j=5, k=2\x7d".toList)) :=
    RecordEntries.field rfl rfl rfl (Or.inl rfl) rfl rfl ⟨rfl, 3, rfl⟩ (fun _ => rfl)
      (RecordEntries.field rfl rfl rfl (Or.inl rfl) rfl rfl ⟨rfl, 3, rfl⟩ (fun _ => rfl)
        (RecordEntries.field rfl rfl rfl (Or.inl rfl) rfl rfl ⟨rfl, 3, rfl⟩
          (fun h => absurd h (by decide!)) (RecordEntries.done rfl)))
  ⟨h,
    match (C1_duplicate_key_last_value_wins no_host).1
      (Parser.start goon_create "\x7bk=1, j=5, k=2\x7d".toList) _ _
      [.field "k".toList (.int 1), .field "j".toList (.int 5)] [] "k".toList (.int 2)
      rfl rfl h rfl rfl with
    | ⟨r, _, hr, hrec, hf, hg, hw⟩ =>
      ⟨r, hr, hrec, (hw (by simp)) ▸ hf, (hw (by simp)) ▸ hg⟩⟩

theorem returns_unique {α : Type} {f : Nat → Outcome α} {a b : α}
    (ha : Returns f a) (hb : Returns f b) : a = b := by
  obtain ⟨n, hn⟩ := ha
  obtain ⟨m, hm⟩ := hb
  have h1 := hn (max n m) (Nat.le_max_left n m)
  have h2 := hm (max n m) (Nat.le_max_right n m)
  rw [h1] at h2
  exact Outcome.ret.inj h2

/-- The claim C1 fails on the source `{a=1, a=2, ...{a=3}}`.  The key `a` is
written twice as an explicit field, the last time with the value 2, and a
spread written after it supplies `a` again: the literal loads to the record
with the single field a = 3, which `goon_to_json` renders as `{"a":3}`.  So it
is not true of every record literal that a key written more than once as an
explicit field has the value of its last occurrence as an explicit field. -/
theorem C1_last_explicit_field_wins_counterexample :
    goon_load_string no_host 20 goon_create .NULL override_demo_src =
      .ret (true, goon_create, .record [("a".toList, .int 3)]) ∧
    goon_to_json (.record [("a".toList, .int 3)]) = "\x7b\"a\":3\x7d".toList ∧
    goon_record_get (.record [("a".toList, .int 3)]) "a".toList ≠ .int 2 ∧
    RecordEntries no_host override_demo_open.next
      [.field "a".toList (.int 1), .field "a".toList (.int 2),
        .spread (.record [("a".toList, .int 3)])]
      override_demo_close ∧
    ¬ (∀ (p q : Parser) (es pre post : List Record_Entry) (k : List Char) (v : Goon_Value),
        p.tok = TOK_LBRACE → p.lexes → RecordEntries no_host p.next es q → q.lexes →
        es = pre ++ Record_Entry.field k v :: post →
        (∃ w : Goon_Value, Record_Entry.field k w ∈ pre) →
        (∀ w : Goon_Value, Record_Entry.field k w ∉ post) →
        ∃ r, Returns (fun fuel => parse_primary no_host fuel p) (r, q.next) ∧
          goon_is_record r = true ∧
          (goon_record_fields r).filter (fun f => f.1 = k) = [(k, v)] ∧
          goon_record_get r k = v) :=
  have h : RecordEntries no_host override_demo_open.next
      [.field "a".toList (.int 1), .field "a".toList (.int 2),
        .spread (.record [("a".toList, .int 3)])]
      override_demo_close :=
    @RecordEntries.field no_host override_demo_open.next override_demo_open.next.next
      override_demo_1 override_demo_close "a".toList (.int 1) _
      (by decide!) (by decide!) (by decide!) (Or.inl rfl) (by decide!) (by decide!)
      ⟨rfl, 3, of_returned (by decide!)⟩ (fun _ => by decide!)
      (@RecordEntries.field no_host override_demo_1.skip_separator
        override_demo_1.skip_separator.next override_demo_2 override_demo_close
        "a".toList (.int 2) _
        (by decide!) (by decide!) (by decide!) (Or.inl rfl) (by decide!) (by decide!)
        ⟨rfl, 3, of_returned (by decide!)⟩ (fun _ => by decide!)
        (@RecordEntries.spread no_host override_demo_2.skip_separator override_demo_3
          override_demo_close (.record [("a".toList, .int 3)]) _
          (by decide!) (by decide!) ⟨rfl, 8, of_returned (by decide!)⟩
          (fun h => absurd h (by decide!))
          (@RecordEntries.done no_host override_demo_close (by decide!))))
  ⟨of_loaded (by decide!), by decide, fun e => absurd (Goon_Value.int.inj e) (by decide), h,
    fun hall =>
      have ⟨_, hr, _, _, hget⟩ := hall override_demo_open _ _
        [.field "a".toList (.int 1)] [.spread (.record [("a".toList, .int 3)])]
        "a".toList (.int 2) (by decide!) (by decide!) h (by decide!) rfl
        ⟨.int 1, List.mem_singleton.mpr rfl⟩
        (fun w hw => Record_Entry.noConfusion (List.mem_singleton.mp hw))
      have hr2 := parse_primary_record no_host
        (p := override_demo_open) (by decide!) (by decide!) h (by decide!)
      have e := congrArg Prod.fst (returns_unique hr hr2)
      absurd (Goon_Value.int.inj ((congrArg (fun r => goon_record_get r "a".toList) e).symm.trans
        hget)) (by decide)⟩

/-- C2: when the entries of a record literal are read in source order
(`RecordEntries`), the literal evaluates to the record obtained from the empty
record by applying with `goon_record_set`, left to right, the fields each entry
sets (`Record_Entry.sets`): the one field of an explicit field, every field of
a spread record in chain order, nothing for a spread of a value that is not a
record.  Hence the field a spread record holds for `k` overrides whatever was
written before the spread, an explicit field `k = v` overrides whatever was
written before it, spreads included, and a spread of a non-record can be left
out.  In a fresh context, with a host that registers no function, the source
`{a=1, ...{a=2,b=3}, c=4}` loads to the record whose fields are a = 2, b = 3
and c = 4. -/
theorem C2_record_literal_applies_entries_in_order (host : Host) :
    (∀ (p q : Parser) (es : List Record_Entry),
        p.tok = TOK_LBRACE → p.lexes → RecordEntries host p.next es q → q.lexes →
        Returns (fun fuel => parse_primary host fuel p)
          (parse_record_spread (.record []) (es.flatMap Record_Entry.sets), q.next)) ∧
    (∀ (pre post : List Record_Entry) (r1 r2 : List (List Char × Goon_Value))
        (k : List Char) (v : Goon_Value),
        k ∉ r2.map Prod.fst → k ∉ (post.flatMap Record_Entry.sets).map Prod.fst →
        goon_record_get (parse_record_spread (.record [])
          ((pre ++ Record_Entry.spread (.record (r1 ++ (k, v) :: r2)) :: post).flatMap
            Record_Entry.sets)) k = v) ∧
    (∀ (pre post : List Record_Entry) (k : List Char) (v : Goon_Value),
        k ∉ (post.flatMap Record_Entry.sets).map Prod.fst →
        goon_record_get (parse_record_spread (.record [])
          ((pre ++ Record_Entry.field k v :: post).flatMap Record_Entry.sets)) k = v) ∧
    (∀ (pre post : List Record_Entry) (v : Goon_Value), goon_is_record v = false →
        (pre ++ Record_Entry.spread v :: post).flatMap Record_Entry.sets =
          (pre ++ post).flatMap Record_Entry.sets) ∧
    (∀ last, Returns
      (fun fuel => goon_load_string no_host fuel goon_create last
        "\x7ba=1, ...\x7ba=2,b=3\x7d, c=4\x7d".toList)
      (true, goon_create,
        .record [("c".toList, .int 4), ("b".toList, .int 3), ("a".toList, .int 2)])) := by
  refine ⟨?_, ?_, ?_, ?_, ?_⟩
  · intro p q es ht hp h hq
    exact parse_primary_record host ht hp h hq
  · intro pre post r1 r2 k v hr2 hpost
    have hsets : (pre ++ Record_Entry.spread (.record (r1 ++ (k, v) :: r2)) :: post).flatMap
        Record_Entry.sets =
        (pre.flatMap Record_Entry.sets ++ r1) ++ (k, v) ::
          (r2 ++ post.flatMap Record_Entry.sets) := by
      simp [Record_Entry.sets]
    rw [hsets]
    apply spread_get_last
    rw [List.map_append, List.mem_append, not_or]
    exact ⟨hr2, hpost⟩
  · intro pre post k v hk
    rw [List.flatMap_append, List.flatMap_cons]
    exact spread_get_last [] k v _ _ hk
  · intro pre post v hv
    have : Record_Entry.sets (.spread v) = [] := by
      cases v <;> first | rfl | cases hv
    simp [this]
  · exact loaded_true no_host (n := 20) (by decide!)

/-- The record literal of the source `{k=1, ...{k=2}; ...7}` meets the
hypotheses of C2: its three entries are read up to the closing brace, and the
field `k` of the spread record overrides the explicit field before it. -/
theorem C2_record_literal_applies_entries_in_order_witness :
    RecordEntries no_host spread_demo_open.next
      [.field "k".toList (.int 1), .spread (.record [("k".toList, .int 2)]), .spread (.int 7)]
      spread_demo_close ∧
    Returns (fun fuel => parse_primary no_host fuel spread_demo_open)
      (parse_record_spread (.record [])
        ([Record_Entry.field "k".toList (.int 1),
          Record_Entry.spread (.record [("k".toList, .int 2)]),
          Record_Entry.spread (.int 7)].flatMap Record_Entry.sets),
        spread_demo_close.next) ∧
    goon_record_get
      (parse_record_spread (.record [])
        (([Record_Entry.field "k".toList (.int 1)] ++
          Record_Entry.spread (.record ([] ++ ("k".toList, Goon_Value.int 2) :: [])) ::
          [Record_Entry.spread (.int 7)]).flatMap Record_Entry.sets))
      "k".toList = .int 2 :=
  have h : RecordEntries no_host spread_demo_open.next
      [.field "k".toList (.int 1), .spread (.record [("k".toList, .int 2)]), .spread (.int 7)]
      spread_demo_close :=
    @RecordEntries.field no_host spread_demo_open.next spread_demo_open.next.next
      spread_demo_1 spread_demo_close "k".toList (.int 1) _
      (by decide!) (by decide!) (by decide!) (Or.inl rfl) (by decide!) (by decide!)
      ⟨rfl, 3, of_returned (by decide!)⟩ (fun _ => by decide!)
      (@RecordEntries.spread no_host spread_demo_1.skip_separator spread_demo_2
        spread_demo_close (.record [("k".toList, .int 2)]) _
        (by decide!) (by decide!) ⟨rfl, 8, of_returned (by decide!)⟩ (fun _ => by decide!)
        (@RecordEntries.spread no_host spread_demo_2.skip_separator spread_demo_3
          spread_demo_close (.int 7) _
          (by decide!) (by decide!) ⟨rfl, 3, of_returned (by decide!)⟩
          (fun h => absurd h (by decide!))
          (@RecordEntries.done no_host spread_demo_close (by decide!))))
  ⟨h, (C2_record_literal_applies_entries_in_order no_host).1 spread_demo_open _ _
      (by decide!) (by decide!) h (by decide!),
    (C2_record_literal_applies_entries_in_order no_host).2.1
      [Record_Entry.field "k".toList (.int 1)] [Record_Entry.spread (.int 7)] [] []
      "k".toList (.int 2) (by simp) (by decide)⟩

/-! ## C5: string interpolation -/

theorem getD_append_at (pre rest : List Char) (k : Nat) (d : Char) :
    (pre ++ rest).getD (pre.length + k) d = rest.getD k d := by
  simp [List.getD_eq_getElem?_getD, List.getElem?_append_right]

theorem getD_append_zero (pre rest : List Char) (d : Char) :
    (pre ++ rest).getD pre.length d = rest.getD 0 d := by
  have := getD_append_at pre rest 0 d
  simpa using this

theorem interpolate_insert_eq (ctx : Goon_Ctx) (name : List Char) :
    interpolate_string_insert (lookup ctx name) = placeholder_text ctx name := by
  unfold interpolate_string_insert placeholder_text
  cases lookup ctx name with
  | bool b => cases b <;> rfl
  | _ => rfl

/-- At the end of the string the loop stops. -/
theorem interpolate_loop_end (ctx : Goon_Ctx) (n : Nat) (str buf : List Char) :
    interpolate_string_loop ctx n str str.length buf = buf := by
  cases n with
  | zero => rfl
  | succ m => rw [interpolate_string_loop, if_neg (Nat.lt_irrefl _)]

/-- The scan for the closing brace runs over a name that holds none. -/
theorem interpolate_scan_name (name : List Char) (hname : '}' ∉ name) :
    ∀ (pre rest str : List Char) (n : Nat), str = pre ++ (name ++ '}' :: rest) →
      name.length < n →
      interpolate_string_scan n str pre.length = pre.length + name.length := by
  induction name with
  | nil =>
    intro pre rest str n hstr hn
    obtain ⟨m, rfl⟩ : ∃ m, n = m + 1 := ⟨n - 1, by omega⟩
    have : str.getD pre.length (Char.ofNat 0) = '}' := by
      rw [hstr, getD_append_zero]
      rfl
    rw [interpolate_string_scan, this]
    simp
  | cons c cs ih =>
    intro pre rest str n hstr hn
    rw [List.length_cons] at hn
    obtain ⟨m, rfl⟩ : ∃ m, n = m + 1 := ⟨n - 1, by omega⟩
    rw [List.mem_cons, not_or] at hname
    have hc : str.getD pre.length (Char.ofNat 0) = c := by
      rw [hstr, getD_append_zero]
      rfl
    have hlen : pre.length < str.length := by
      rw [hstr]
      simp
    have hstr2 : str = (pre ++ [c]) ++ (cs ++ '}' :: rest) := by
      rw [hstr]
      simp
    have := ih hname.2 (pre ++ [c]) rest str m hstr2 (by omega)
    rw [List.length_append, List.length_singleton] at this
    rw [interpolate_string_scan, hc, if_pos ⟨hlen, fun h => hname.1 h.symm⟩, this,
      List.length_cons]
    omega

/-- One turn of the loop at a placeholder whose name holds no closing brace. -/
theorem interpolate_loop_placeholder (ctx : Goon_Ctx) (name : List Char)
    (hname : '}' ∉ name) (pre rest str buf : List Char) (n : Nat)
    (hstr : str = pre ++ ('$' :: '{' :: (name ++ '}' :: rest))) :
    interpolate_string_loop ctx (n + 1) str pre.length buf =
      interpolate_string_loop ctx n str (pre.length + name.length + 3)
        (buf ++ placeholder_text ctx name) := by
  have hstr2 : str = (pre ++ ['$', '{']) ++ (name ++ '}' :: rest) := by
    rw [hstr]
    simp
  have h0 : str.getD pre.length (Char.ofNat 0) = '$' := by
    rw [hstr, getD_append_zero]
    rfl
  have h1 : str.getD (pre.length + 1) (Char.ofNat 0) = '{' := by
    rw [hstr, getD_append_at]
    rfl
  have hlen : str.length = pre.length + name.length + rest.length + 3 := by
    rw [hstr]
    simp
    omega
  have hscan : interpolate_string_scan (str.length - (pre.length + 2)) str (pre.length + 2) =
      pre.length + 2 + name.length := by
    have := interpolate_scan_name name hname (pre ++ ['$', '{']) rest str
      (str.length - (pre.length + 2)) hstr2 (by rw [hlen]; omega)
    simpa using this
  have hname_eq : strdup_range str (pre.length + 2)
      (pre.length + 2 + name.length - (pre.length + 2)) = name := by
    unfold strdup_range
    have hpl : (pre ++ ['$', '{']).length = pre.length + 2 := by simp
    rw [hstr2, ← hpl, List.drop_left]
    simp
  rw [interpolate_string_loop, if_pos (by rw [hlen]; omega),
    if_pos ⟨h0, by rw [hlen]; omega, h1⟩]
  dsimp only
  rw [hscan, if_pos (by rw [hlen]; omega), hname_eq, interpolate_insert_eq]
  have : pre.length + 2 + name.length + 1 = pre.length + name.length + 3 := by omega
  rw [this]

/-- The loop copies a text that holds no placeholder opening and is not
followed by an opening brace. -/
theorem interpolate_loop_text (ctx : Goon_Ctx) (text : List Char) :
    ∀ (pre following str buf : List Char) (n : Nat), str = pre ++ (text ++ following) →
      no_marker text = true → following.head? ≠ some '{' →
      interpolate_string_loop ctx (n + text.length) str pre.length buf =
        interpolate_string_loop ctx n str (pre.length + text.length) (buf ++ text) := by
  induction text with
  | nil => intro pre following str buf n _ _ _; simp
  | cons c cs ih =>
    intro pre following str buf n hstr hm hf
    have hc : str.getD pre.length (Char.ofNat 0) = c := by
      rw [hstr, getD_append_zero]
      rfl
    have hlen : pre.length < str.length := by
      rw [hstr]
      simp
    rw [no_marker, Bool.and_eq_true] at hm
    have hnot : ¬ (c = '$' ∧ pre.length + 1 < str.length ∧
        str.getD (pre.length + 1) (Char.ofNat 0) = '{') := by
      rintro ⟨rfl, _, h2⟩
      rw [hstr, getD_append_at] at h2
      cases cs with
      | nil =>
        cases following with
        | nil => simp [List.getD] at h2
        | cons f fs =>
          apply hf
          simp only [List.nil_append, List.cons_append, List.getD_cons_succ,
            List.getD_cons_zero] at h2
          simp [h2]
      | cons d ds =>
        simp only [List.cons_append, List.getD_cons_succ, List.getD_cons_zero] at h2
        subst h2
        simp at hm
    have hstr2 : str = (pre ++ [c]) ++ (cs ++ following) := by
      rw [hstr]
      simp
    have := ih (pre ++ [c]) following str (buf ++ [c]) n hstr2 hm.2 hf
    rw [List.length_append, List.length_singleton] at this
    have hstep : n + (c :: cs).length = (n + cs.length) + 1 := by
      rw [List.length_cons]
      omega
    rw [hstep, interpolate_string_loop, if_pos hlen, hc, if_neg hnot, this, List.length_cons]
    have e1 : pre.length + 1 + cs.length = pre.length + (cs.length + 1) := by omega
    have e2 : buf ++ [c] ++ cs = buf ++ c :: cs := by simp
    rw [e1, e2]

theorem interpolate_loop_pieces (ctx : Goon_Ctx) (last : List Char)
    (hlast : no_marker last = true) :
    ∀ (pieces : List (List Char × List Char)),
      (∀ piece ∈ pieces, no_marker piece.1 = true ∧ '}' ∉ piece.2) →
      ∀ (pre str buf : List Char) (n : Nat), str = pre ++ placeholders_source pieces last →
        (placeholders_source pieces last).length ≤ n →
        interpolate_string_loop ctx n str pre.length buf =
          buf ++ placeholders_value ctx pieces last := by
  intro pieces
  induction pieces with
  | nil =>
    intro _ pre str buf n hstr hn
    simp only [placeholders_source, placeholders_value] at hn hstr ⊢
    obtain ⟨m, rfl⟩ : ∃ m, n = m + last.length := ⟨n - last.length, by omega⟩
    have hstr2 : str = pre ++ (last ++ []) := by rw [hstr, List.append_nil]
    have hend : pre.length + last.length = str.length := by rw [hstr]; simp
    rw [interpolate_loop_text ctx last pre [] str buf m hstr2 hlast (by simp), hend,
      interpolate_loop_end]
  | cons piece rest ih =>
    intro hp pre str buf n hstr hn
    obtain ⟨text, name⟩ := piece
    have hpiece := hp (text, name) (by simp)
    have hrest : ∀ piece ∈ rest, no_marker piece.1 = true ∧ '}' ∉ piece.2 :=
      fun piece h => hp piece (by simp [h])
    simp only [placeholders_source, placeholders_value, List.length_append,
      List.length_cons] at hn hstr ⊢
    obtain ⟨m, rfl⟩ : ∃ m, n = (m + 1) + text.length :=
      ⟨n - text.length - 1, by omega⟩
    have hstr1 : str = pre ++ (text ++ ('$' :: '{' :: (name ++ '}' ::
        placeholders_source rest last))) := by
      rw [hstr]
      simp
    have hstr2 : str = (pre ++ text) ++ ('$' :: '{' :: (name ++ '}' ::
        placeholders_source rest last)) := by
      rw [hstr]
      simp
    have hstr3 : str = (pre ++ text ++ '$' :: '{' :: (name ++ ['}'])) ++
        placeholders_source rest last := by
      rw [hstr]
      simp
    have ht := interpolate_loop_text ctx text pre _ str buf (m + 1) hstr1 hpiece.1 (by simp)
    have hpl := interpolate_loop_placeholder ctx name hpiece.2 (pre ++ text) _ str
      (buf ++ text) m hstr2
    have hih := ih hrest (pre ++ text ++ '$' :: '{' :: (name ++ ['}'])) str
      (buf ++ text ++ placeholder_text ctx name) m hstr3 (by omega)
    have hidx : (pre ++ text ++ '$' :: '{' :: (name ++ ['}'])).length =
        (pre ++ text).length + name.length + 3 := by
      simp
      omega
    rw [List.length_append] at hpl
    rw [hidx, List.length_append] at hih
    rw [ht, hpl, hih]
    simp

theorem first_marker : ∀ s : List Char, no_marker s = false →
    ∃ t rest, s = t ++ '$' :: '{' :: rest ∧ no_marker t = true := by
  intro s
  induction s with
  | nil => intro h; cases h
  | cons c cs ih =>
    intro h
    rw [no_marker] at h
    by_cases hc : c = '$' ∧ cs.head? = some '{'
    · obtain ⟨rfl, h2⟩ := hc
      cases cs with
      | nil => cases h2
      | cons d ds =>
        simp only [List.head?_cons, Option.some.injEq] at h2
        subst h2
        exact ⟨[], ds, rfl, rfl⟩
    · have hcs : no_marker cs = false := by
        have : (!(decide (c = '$') && decide (cs.head? = some '{'))) = true := by
          simp only [Bool.not_eq_true', Bool.and_eq_false_iff, decide_eq_false_iff_not]
          exact not_and_or.mp hc
        rw [this] at h
        simpa using h
      obtain ⟨t, rest, hs, ht⟩ := ih hcs
      refine ⟨c :: t, rest, by rw [hs]; rfl, ?_⟩
      rw [no_marker, ht]
      have : ¬ (c = '$' ∧ (t ++ '$' :: '{' :: rest).head? = some '{') := by
        rw [← hs]; exact hc
      cases t with
      | nil =>
        simp only [List.nil_append, List.head?_cons, Option.some.injEq] at this
        simp only [List.head?_nil, Bool.and_true, Bool.not_eq_true', decide_eq_false_iff_not]
        simp
      | cons e es =>
        simp only [List.cons_append, List.head?_cons, Option.some.injEq] at this
        simp only [List.head?_cons, Option.some.injEq, Bool.and_true, Bool.not_eq_true',
          Bool.and_eq_false_iff, decide_eq_false_iff_not]
        exact not_and_or.mp this

theorem first_brace (s : List Char) (h : '}' ∈ s) :
    ∃ name rest, s = name ++ '}' :: rest ∧ '}' ∉ name := by
  induction s with
  | nil => cases h
  | cons c cs ih =>
    by_cases hc : c = '}'
    · exact ⟨[], cs, by rw [hc]; rfl, by simp⟩
    · have hcs : '}' ∈ cs := by
        rcases List.mem_cons.mp h with h1 | h1
        · exact absurd h1.symm hc
        · exact h1
      obtain ⟨name, rest, hs, hn⟩ := ih hcs
      refine ⟨c :: name, rest, by rw [hs]; rfl, ?_⟩
      intro hmem
      rcases List.mem_cons.mp hmem with h1 | h1
      · exact hc h1.symm
      · exact hn h1

/-- A text in which every `${` has a closing brace after it is made of texts
without `${` and of placeholders whose names hold no closing brace. -/
theorem placeholders_cover : ∀ (n : Nat) (s : List Char), s.length ≤ n → ¬ dangling s →
    ∃ pieces last, s = placeholders_source pieces last ∧
      (∀ piece ∈ pieces, no_marker piece.1 = true ∧ '}' ∉ piece.2) ∧ no_marker last = true := by
  intro n
  induction n with
  | zero =>
    intro s hs _
    have : s = [] := List.length_eq_zero.mp (by omega)
    subst this
    exact ⟨[], [], rfl, by simp, rfl⟩
  | succ m ih =>
    intro s hs hd
    cases hm : no_marker s with
    | true => exact ⟨[], s, rfl, by simp, hm⟩
    | false =>
      obtain ⟨t, rest, hst, ht⟩ := first_marker s hm
      have hb : '}' ∈ rest := by
        by_contra hnb
        exact hd ⟨t, rest, hst, hnb⟩
      obtain ⟨name, rest2, hr, hname⟩ := first_brace rest hb
      have hlen : rest2.length ≤ m := by
        rw [hst, hr] at hs
        simp at hs
        omega
      have hd2 : ¬ dangling rest2 := by
        rintro ⟨pre, tail, hp, htail⟩
        exact hd ⟨t ++ '$' :: '{' :: name ++ '}' :: pre, tail, by rw [hst, hr, hp]; simp, htail⟩
      obtain ⟨pieces, last, hs2, hp, hl⟩ := ih rest2 hlen hd2
      refine ⟨(t, name) :: pieces, last, ?_, ?_, hl⟩
      · rw [hst, hr, hs2, placeholders_source]
        simp
      · intro piece hmem
        rcases List.mem_cons.mp hmem with h1 | h1
        · rw [h1]; exact ⟨ht, hname⟩
        · exact hp piece h1

theorem parse_primary_string (host : Host) {p : Parser} {str : List Char}
    (ht : p.tok = TOK_STRING) (hs : p.lex.current.string = some str) (hl : p.lexes) :
    ∃ fuel0, ∀ fuel, fuel0 ≤ fuel →
      parse_primary host fuel p = .ret (interpolate_string p.ctx str, p.next) := by
  refine ⟨1, fun fuel hle => ?_⟩
  obtain ⟨m, rfl⟩ : ∃ m, fuel = m + 1 := ⟨fuel - 1, by omega⟩
  rw [parse_primary]
  unfold Parser.tok at ht
  dsimp only
  rw [ht]
  dsimp only
  rw [hs]
  dsimp only
  rw [advance_eq hl]

/-! ## Decimal text -/

theorem digitChar_digit (k : Nat) (hk : k < 10) :
    isdigit (Nat.digitChar k) = true ∧ (Nat.digitChar k).toNat - 48 = k := by
  interval_cases k <;> exact ⟨by decide, by decide⟩

theorem toDigitsCore_digits (fuel : Nat) :
    ∀ (n : Nat) (ds : List Char), (∀ c ∈ ds, isdigit c = true) →
      ∀ c ∈ Nat.toDigitsCore 10 fuel n ds, isdigit c = true := by
  induction fuel with
  | zero => intro n ds hds c hc; exact hds c hc
  | succ f ih =>
    intro n ds hds c hc
    have hd := (digitChar_digit (n % 10) (Nat.mod_lt _ (by decide))).1
    have hds2 : ∀ c ∈ Nat.digitChar (n % 10) :: ds, isdigit c = true := by
      intro c hc
      rcases List.mem_cons.mp hc with rfl | h
      · exact hd
      · exact hds c h
    rw [Nat.toDigitsCore] at hc
    split at hc
    · exact hds2 c hc
    · exact ih _ _ hds2 c hc

theorem decimal_value_foldl (ds : List Char) :
    ∀ a : Nat, ds.foldl (fun value c => 10 * value + (c.toNat - 48)) a =
      a * 10 ^ ds.length + decimal_value ds := by
  unfold decimal_value
  induction ds with
  | nil => intro a; simp
  | cons d ds ih =>
    intro a
    rw [List.foldl_cons, List.foldl_cons, ih (10 * a + (d.toNat - 48)),
      ih (10 * 0 + (d.toNat - 48)), List.length_cons, Nat.pow_succ]
    ring

theorem decimal_value_cons (d : Char) (ds : List Char) :
    decimal_value (d :: ds) = (d.toNat - 48) * 10 ^ ds.length + decimal_value ds := by
  have := decimal_value_foldl ds (10 * 0 + (d.toNat - 48))
  unfold decimal_value at this ⊢
  rw [List.foldl_cons, this]
  simp

theorem toDigitsCore_value (fuel : Nat) :
    ∀ (n : Nat) (ds : List Char), n < fuel →
      decimal_value (Nat.toDigitsCore 10 fuel n ds) = n * 10 ^ ds.length + decimal_value ds := by
  induction fuel with
  | zero => intro n ds h; omega
  | succ f ih =>
    intro n ds hn
    have hd := (digitChar_digit (n % 10) (Nat.mod_lt _ (by decide))).2
    rw [Nat.toDigitsCore]
    split
    · rename_i h0
      rw [decimal_value_cons, hd]
      have : n % 10 = n := Nat.mod_eq_of_lt (by omega)
      rw [this]
    · rename_i h0
      rw [ih (n / 10) _ (by omega), decimal_value_cons, hd, List.length_cons, Nat.pow_succ]
      have := Nat.div_add_mod n 10
      calc n / 10 * (10 ^ ds.length * 10) + (n % 10 * 10 ^ ds.length + decimal_value ds)
          = (10 * (n / 10) + n % 10) * 10 ^ ds.length + decimal_value ds := by ring
        _ = n * 10 ^ ds.length + decimal_value ds := by rw [this]

/-- The text of `%ld`: an optional minus sign, then decimal digits that denote
the absolute value. -/
theorem snprintf_ld_decimal (i : Int) :
    ∃ ds : List Char, (∀ c ∈ ds, isdigit c = true) ∧ decimal_value ds = i.natAbs ∧
      snprintf_ld i = if i < 0 then '-' :: ds else ds := by
  refine ⟨Nat.toDigits 10 i.natAbs, ?_, ?_, rfl⟩
  · exact toDigitsCore_digits _ _ _ (by simp)
  · have := toDigitsCore_value (i.natAbs + 1) i.natAbs [] (by omega)
    simpa [decimal_value] using this

/-! ## Compact JSON -/

theorem json_escape_string_loop_flatMap (str : List Char) :
    json_escape_string_loop str = str.flatMap json_escape_char := by
  induction str with
  | nil => rfl
  | cons c cs ih => rw [json_escape_string_loop, ih, List.flatMap_cons]

theorem intercalate_cons_cons (sep x y : List Char) (ys : List (List Char)) :
    List.intercalate sep (x :: y :: ys) = x ++ sep ++ List.intercalate sep (y :: ys) := by
  simp [List.intercalate, List.intersperse]

mutual

/-- Without indentation the depth plays no part in the rendering. -/
theorem compact_depth : ∀ (v : Goon_Value) (d : Nat), value_to_json v 0 d = value_to_json v 0 0
  | .NULL, _ => by rw [value_to_json, value_to_json]
  | .nil, _ => by rw [value_to_json, value_to_json]
  | .bool _, _ => by rw [value_to_json, value_to_json]
  | .int _, _ => by rw [value_to_json, value_to_json]
  | .string _, _ => by rw [value_to_json, value_to_json]
  | .builtin _, _ => by rw [value_to_json, value_to_json]
  | .list items, d => by
    rw [value_to_json, value_to_json, compact_depth_items items d]
    simp
  | .record fields, d => by
    rw [value_to_json, value_to_json, compact_depth_fields fields d]
    simp

theorem compact_depth_items :
    ∀ (items : List Goon_Value) (d : Nat),
      value_to_json_items items 0 d = value_to_json_items items 0 0
  | [], _ => by rw [value_to_json_items, value_to_json_items]
  | item :: rest, d => by
    rw [value_to_json_items, value_to_json_items, compact_depth item (d + 1),
      compact_depth item (0 + 1), compact_depth_items rest d]
    simp

theorem compact_depth_fields :
    ∀ (fields : List (List Char × Goon_Value)) (d : Nat),
      value_to_json_fields fields 0 d = value_to_json_fields fields 0 0
  | [], _ => by rw [value_to_json_fields, value_to_json_fields]
  | (key, value) :: next, d => by
    rw [value_to_json_fields, value_to_json_fields, compact_depth value (d + 1),
      compact_depth value (0 + 1), compact_depth_fields next d]
    simp

end

theorem compact_items (items : List Goon_Value) :
    value_to_json_items items 0 0 = List.intercalate [','] (items.map goon_to_json) := by
  induction items with
  | nil => rw [value_to_json_items]; rfl
  | cons item rest ih =>
    rw [value_to_json_items, compact_depth item (0 + 1), ih]
    cases rest with
    | nil => simp [List.intercalate, goon_to_json]
    | cons y ys =>
      simp only [List.map_cons]
      rw [intercalate_cons_cons]
      simp [goon_to_json]

theorem compact_fields (fields : List (List Char × Goon_Value)) :
    value_to_json_fields fields 0 0 =
      List.intercalate [',']
        (fields.map (fun f => json_escape_string f.1 ++ ':' :: goon_to_json f.2)) := by
  induction fields with
  | nil => rw [value_to_json_fields]; rfl
  | cons f next ih =>
    obtain ⟨key, value⟩ := f
    rw [value_to_json_fields, compact_depth value (0 + 1), ih]
    cases next with
    | nil => simp [List.intercalate, goon_to_json]
    | cons y ys =>
      simp only [List.map_cons]
      rw [intercalate_cons_cons]
      simp [goon_to_json]

theorem spread_eq_foldl (sets : List (List Char × Goon_Value)) :
    ∀ r, parse_record_spread r sets =
      sets.foldl (fun record kv => goon_record_set record kv.1 kv.2) r := by
  induction sets with
  | nil => intro r; rfl
  | cons f next ih => intro r; rw [parse_record_spread, ih, List.foldl_cons]

/-! ## Canonical decimal text -/

theorem toDigitsCore_ne_nil (fuel : Nat) :
    ∀ (n : Nat) (ds : List Char), ds ≠ [] → Nat.toDigitsCore 10 fuel n ds ≠ [] := by
  induction fuel with
  | zero => intro n ds h; exact h
  | succ fuel ih =>
    intro n ds h
    rw [Nat.toDigitsCore]
    split
    · exact List.cons_ne_nil _ _
    · exact ih _ _ (List.cons_ne_nil _ _)

theorem toDigits_ne_nil (n : Nat) : Nat.toDigits 10 n ≠ [] := by
  rw [Nat.toDigits, Nat.toDigitsCore]
  split
  · exact List.cons_ne_nil _ _
  · exact toDigitsCore_ne_nil _ _ _ (List.cons_ne_nil _ _)

theorem toDigitsCore_head (fuel : Nat) :
    ∀ (n : Nat) (ds : List Char), 0 < n → n < fuel →
      (Nat.toDigitsCore 10 fuel n ds).head? ≠ some '0' := by
  induction fuel with
  | zero => intro n ds _ h; omega
  | succ f ih =>
    intro n ds hpos hn
    rw [Nat.toDigitsCore]
    split
    · rename_i h0
      have hlt : n < 10 := by omega
      have hmod : n % 10 = n := Nat.mod_eq_of_lt hlt
      rw [hmod, List.head?_cons]
      interval_cases n <;> decide
    · rename_i h0
      exact ih (n / 10) _ (by omega) (by omega)

/-- The digits of `Nat.toDigits 10` have no leading zero, the text `0` apart. -/
theorem toDigits_head (n : Nat) :
    (Nat.toDigits 10 n).head? = some '0' → Nat.toDigits 10 n = ['0'] := by
  intro h
  rcases Nat.eq_zero_or_pos n with rfl | hpos
  · rfl
  · exact absurd h (toDigitsCore_head (n + 1) n [] hpos (by omega))

theorem isdigit_bounds {c : Char} (h : isdigit c = true) : 48 ≤ c.toNat ∧ c.toNat ≤ 57 := by
  unfold isdigit at h
  simpa using h

theorem decimal_value_lt (ds : List Char) (hds : ∀ c ∈ ds, isdigit c = true) :
    decimal_value ds < 10 ^ ds.length := by
  induction ds with
  | nil => simp [decimal_value]
  | cons d ds ih =>
    have hd := isdigit_bounds (hds d (List.mem_cons_self d ds))
    have h := ih (fun c hc => hds c (List.mem_cons_of_mem d hc))
    rw [decimal_value_cons, List.length_cons, Nat.pow_succ]
    have : (d.toNat - 48) * 10 ^ ds.length ≤ 9 * 10 ^ ds.length :=
      Nat.mul_le_mul_right _ (by omega)
    omega

theorem decimal_value_ge (d : Char) (ds : List Char) (hd : isdigit d = true) (h0 : d ≠ '0') :
    10 ^ ds.length ≤ decimal_value (d :: ds) := by
  have hb := isdigit_bounds hd
  have hne : d.toNat ≠ 48 := by
    intro e
    apply h0
    have := Char.ofNat_toNat d
    rw [e] at this
    exact this.symm
  rw [decimal_value_cons]
  have : 1 * 10 ^ ds.length ≤ (d.toNat - 48) * 10 ^ ds.length :=
    Nat.mul_le_mul_right _ (by omega)
  omega

theorem digit_eq {c d : Char} (hc : isdigit c = true) (hd : isdigit d = true)
    (h : c.toNat - 48 = d.toNat - 48) : c = d := by
  have h1 := isdigit_bounds hc
  have h2 := isdigit_bounds hd
  have e : c.toNat = d.toNat := by omega
  rw [← Char.ofNat_toNat c, ← Char.ofNat_toNat d, e]

/-- Two texts of decimal digits of one length that denote one number are the
same text. -/
theorem decimal_value_inj :
    ∀ (a b : List Char), a.length = b.length → (∀ c ∈ a, isdigit c = true) →
      (∀ c ∈ b, isdigit c = true) → decimal_value a = decimal_value b → a = b
  | [], [], _, _, _, _ => rfl
  | [], _ :: _, h, _, _, _ => by simp at h
  | _ :: _, [], h, _, _, _ => by simp at h
  | c :: a, d :: b, hl, ha, hb, hv => by
    have hlen : a.length = b.length := by simpa using hl
    have ha2 : ∀ x ∈ a, isdigit x = true := fun x hx => ha x (List.mem_cons_of_mem c hx)
    have hb2 : ∀ x ∈ b, isdigit x = true := fun x hx => hb x (List.mem_cons_of_mem d hx)
    have h1 := decimal_value_lt a ha2
    have h2 := decimal_value_lt b hb2
    rw [decimal_value_cons, decimal_value_cons, hlen] at hv
    rw [hlen] at h1
    have hpos : 0 < 10 ^ b.length := Nat.pow_pos (by decide)
    have hq : c.toNat - 48 = d.toNat - 48 := by
      have e1 : ((c.toNat - 48) * 10 ^ b.length + decimal_value a) / 10 ^ b.length =
          c.toNat - 48 := by
        rw [Nat.add_comm, Nat.add_mul_div_right _ _ hpos, Nat.div_eq_of_lt h1, Nat.zero_add]
      have e2 : ((d.toNat - 48) * 10 ^ b.length + decimal_value b) / 10 ^ b.length =
          d.toNat - 48 := by
        rw [Nat.add_comm, Nat.add_mul_div_right _ _ hpos, Nat.div_eq_of_lt h2, Nat.zero_add]
      rw [← e1, ← e2, hv]
    have hr : decimal_value a = decimal_value b := by
      rw [hq] at hv
      exact Nat.add_left_cancel hv
    rw [digit_eq (ha c (List.mem_cons_self c a)) (hb d (List.mem_cons_self d b)) hq,
      decimal_value_inj a b hlen ha2 hb2 hr]

/-- A number has one base-10 text: nonempty, of decimal digits, with no leading
zero unless it is the text `0`. -/
theorem decimal_text_unique (a b : List Char)
    (ha0 : a ≠ []) (ha : ∀ c ∈ a, isdigit c = true) (hah : a.head? = some '0' → a = ['0'])
    (hb0 : b ≠ []) (hb : ∀ c ∈ b, isdigit c = true) (hbh : b.head? = some '0' → b = ['0'])
    (hv : decimal_value a = decimal_value b) : a = b := by
  obtain ⟨c, a, rfl⟩ := List.exists_cons_of_ne_nil ha0
  obtain ⟨d, b, rfl⟩ := List.exists_cons_of_ne_nil hb0
  have hc := ha c (List.mem_cons_self c a)
  have hd := hb d (List.mem_cons_self d b)
  have hla := decimal_value_lt (c :: a) ha
  have hlb := decimal_value_lt (d :: b) hb
  by_cases c0 : c = '0'
  · have ea := hah (by rw [c0]; rfl)
    rw [ea] at hv ⊢
    by_cases d0 : d = '0'
    · rw [hbh (by rw [d0]; rfl)]
    · have := decimal_value_ge d b hd d0
      have hp : 0 < 10 ^ b.length := Nat.pow_pos (by decide)
      have hz : decimal_value ['0'] = 0 := by decide
      omega
  · by_cases d0 : d = '0'
    · have eb := hbh (by rw [d0]; rfl)
      rw [eb] at hv
      have := decimal_value_ge c a hc c0
      have hp : 0 < 10 ^ a.length := Nat.pow_pos (by decide)
      have hz : decimal_value ['0'] = 0 := by decide
      omega
    · have ga := decimal_value_ge c a hc c0
      have gb := decimal_value_ge d b hd d0
      rw [List.length_cons] at hla hlb
      have hlen : a.length = b.length := by
        rcases Nat.lt_trichotomy a.length b.length with h | h | h
        · have : 10 ^ (a.length + 1) ≤ 10 ^ b.length := Nat.pow_le_pow_right (by decide) h
          omega
        · exact h
        · have : 10 ^ (b.length + 1) ≤ 10 ^ a.length := Nat.pow_le_pow_right (by decide) h
          omega
      exact decimal_value_inj _ _ (by simp [hlen]) ha hb hv

/-- The text of `%ld` is the signed base-10 text of the number: a minus sign
when it is negative, then the one text of decimal digits without a leading
zero that denotes its absolute value. -/
theorem snprintf_ld_canonical (i : Int) :
    ∃ ds : List Char, ds ≠ [] ∧ (∀ c ∈ ds, isdigit c = true) ∧
      (ds.head? = some '0' → ds = ['0']) ∧ decimal_value ds = i.natAbs ∧
      snprintf_ld i = (if i < 0 then '-' :: ds else ds) ∧
      ∀ es : List Char, es ≠ [] → (∀ c ∈ es, isdigit c = true) →
        (es.head? = some '0' → es = ['0']) → decimal_value es = i.natAbs → es = ds := by
  have hd : ∀ c ∈ Nat.toDigits 10 i.natAbs, isdigit c = true :=
    toDigitsCore_digits _ _ _ (by simp)
  have hv : decimal_value (Nat.toDigits 10 i.natAbs) = i.natAbs := by
    have := toDigitsCore_value (i.natAbs + 1) i.natAbs [] (by omega)
    simpa [decimal_value] using this
  refine ⟨Nat.toDigits 10 i.natAbs, toDigits_ne_nil _, hd, toDigits_head _, hv, rfl, ?_⟩
  intro es h0 h1 h2 h3
  exact decimal_text_unique es _ h0 h1 h2 (toDigits_ne_nil _) hd (toDigits_head _)
    (by rw [h3, hv])

/-- C9: `goon_to_json` renders the null pointer and nil as `null`, a boolean
as `true` or `false`, an integer as its signed base-10 text: a minus sign when
it is negative, then the text of its absolute value, which is not empty, holds
decimal digits only, has no leading zero unless it is the single digit `0`, and
denotes the absolute value, and which is the only text with these four
properties, so that 0 is rendered as `0`, 7 as `7`, -12 as `-12` and the least
64-bit integer as `-9223372036854775808`; a string as its characters between
double quotes with the double quote, the backslash, newline, carriage return
and tab each replaced by a backslash and `"`, a backslash, `n`, `r`, `t`, and
every other character, control characters included, copied as it is, and a
list as `[`, the renderings of its items in stored order with a comma between
neighbours, then `]`; no white space is added. -/
theorem C9_compact_json_of_scalars_strings_and_lists :
    goon_to_json .NULL = "null".toList ∧ goon_to_json .nil = "null".toList ∧
    goon_to_json (.bool true) = "true".toList ∧ goon_to_json (.bool false) = "false".toList ∧
    (∀ i : Int, ∃ ds : List Char, ds ≠ [] ∧ (∀ c ∈ ds, isdigit c = true) ∧
      (ds.head? = some '0' → ds = ['0']) ∧ decimal_value ds = i.natAbs ∧
      goon_to_json (.int i) = (if i < 0 then '-' :: ds else ds) ∧
      ∀ es : List Char, es ≠ [] → (∀ c ∈ es, isdigit c = true) →
        (es.head? = some '0' → es = ['0']) → decimal_value es = i.natAbs → es = ds) ∧
    (goon_to_json (.int 0) = "0".toList ∧ goon_to_json (.int 7) = "7".toList ∧
      goon_to_json (.int (-12)) = "-12".toList ∧
      goon_to_json (.int 1000) = "1000".toList ∧
      goon_to_json (.int (-9223372036854775808)) = "-9223372036854775808".toList) ∧
    (∀ s : List Char,
      goon_to_json (.string s) = DQUOTE :: s.flatMap json_escape_char ++ [DQUOTE]) ∧
    (json_escape_char DQUOTE = [BACKSLASH, DQUOTE] ∧
      json_escape_char BACKSLASH = [BACKSLASH, BACKSLASH] ∧
      json_escape_char '\n' = [BACKSLASH, 'n'] ∧
      json_escape_char '\r' = [BACKSLASH, 'r'] ∧
      json_escape_char '\t' = [BACKSLASH, 't'] ∧
      json_escape_char (Char.ofNat 1) = [Char.ofNat 1] ∧
      ∀ c : Char, c ≠ DQUOTE → c ≠ BACKSLASH → c ≠ '\n' → c ≠ '\r' → c ≠ '\t' →
        json_escape_char c = [c]) ∧
    (∀ items : List Goon_Value,
      goon_to_json (.list items) =
        '[' :: List.intercalate [','] (items.map goon_to_json) ++ [']']) := by
  refine ⟨rfl, rfl, rfl, rfl, ?_, ⟨by decide, by decide, by decide, by decide, by decide!⟩,
    ?_, ⟨by decide, by decide, by decide, by decide, by decide, by decide, ?_⟩, ?_⟩
  · intro i
    obtain ⟨ds, h0, h1, hz, h2, h3, hu⟩ := snprintf_ld_canonical i
    refine ⟨ds, h0, h1, hz, h2, ?_, hu⟩
    rw [← h3]
    unfold goon_to_json
    rw [value_to_json]
  · intro s
    unfold goon_to_json
    rw [value_to_json, json_escape_string, json_escape_string_loop_flatMap]
  · intro c h1 h2 h3 h4 h5
    unfold json_escape_char
    rw [if_neg h1, if_neg h2, if_neg h3, if_neg h4, if_neg h5]
  · intro items
    rw [show goon_to_json (.list items) = value_to_json (.list items) 0 0 from rfl,
      value_to_json, compact_items]
    simp

/-- The rendering of the list holding -12, the string `a"b` and an empty list;
the character `a` is copied as it is; and the text of 7 is `7`: the text `07`
denotes 7 as well but has a leading zero, and `7` is the only text the
rendering of 7 can be. -/
theorem C9_compact_json_of_scalars_strings_and_lists_witness :
    goon_to_json (.list [.int (-12), .string ['a', DQUOTE, 'b'], .list []]) =
      "[-12,\"a\\\"b\",[]]".toList ∧
    json_escape_char 'a' = ['a'] ∧
    decimal_value "07".toList = 7 ∧
    (∃ ds : List Char, goon_to_json (.int 7) = ds ∧ "7".toList = ds) :=
  ⟨by decide, C9_compact_json_of_scalars_strings_and_lists.2.2.2.2.2.2.2.1.2.2.2.2.2.2 'a'
    (by decide) (by decide) (by decide) (by decide) (by decide), by decide,
    (C9_compact_json_of_scalars_strings_and_lists.2.2.2.2.1 7).elim
      (fun ds h => ⟨ds, h.2.2.2.2.1.trans (if_neg (by decide)), h.2.2.2.2.2 "7".toList (by decide) (by decide) (by decide)
        (by decide)⟩)⟩

/-! ## C7: indentation only adds layout -/

theorem strip_layout_append (a b : List Char) :
    strip_layout (a ++ b) = strip_layout a ++ strip_layout b := by
  unfold strip_layout
  rw [List.filter_append]

theorem strip_layout_cons_keep (c : Char) (a : List Char) (h1 : c ≠ ' ') (h2 : c ≠ '\n') :
    strip_layout (c :: a) = c :: strip_layout a := by
  unfold strip_layout
  rw [List.filter_cons_of_pos]
  simp [h1, h2]

theorem strip_layout_keep (a : List Char) (h : ∀ c ∈ a, c ≠ ' ' ∧ c ≠ '\n') :
    strip_layout a = a := by
  unfold strip_layout
  rw [List.filter_eq_self]
  intro c hc
  simpa using h c hc

theorem strip_layout_indent (indent : Int) (depth : Nat) :
    strip_layout (append_indent indent depth) = [] := by
  unfold strip_layout append_indent
  split
  · rfl
  · rw [List.filter_eq_nil_iff]
    intro c hc
    rw [List.eq_of_mem_replicate hc]
    decide

theorem json_escape_char_layout (x : Char) (hx : x ≠ ' ') :
    ∀ c ∈ json_escape_char x, c ≠ ' ' ∧ c ≠ '\n' := by
  intro c hc
  unfold json_escape_char at hc
  split at hc
  · simp only [List.mem_cons, List.mem_singleton, List.not_mem_nil, or_false] at hc
    rcases hc with rfl | rfl <;> decide
  · split at hc
    · simp only [List.mem_cons, List.mem_singleton, List.not_mem_nil, or_false] at hc
      rcases hc with rfl | rfl <;> decide
    · split at hc
      · simp only [List.mem_cons, List.mem_singleton, List.not_mem_nil, or_false] at hc
        rcases hc with rfl | rfl <;> decide
      · split at hc
        · simp only [List.mem_cons, List.mem_singleton, List.not_mem_nil, or_false] at hc
          rcases hc with rfl | rfl <;> decide
        · split at hc
          · simp only [List.mem_cons, List.mem_singleton, List.not_mem_nil, or_false] at hc
            rcases hc with rfl | rfl <;> decide
          · rename_i h1 h2 h3 h4 h5
            simp only [List.mem_singleton] at hc
            subst hc
            exact ⟨hx, h3⟩

theorem strip_layout_escape (s : List Char) (hs : s.contains ' ' = false) :
    strip_layout (json_escape_string s) = json_escape_string s := by
  apply strip_layout_keep
  intro c hc
  unfold json_escape_string at hc
  rw [json_escape_string_loop_flatMap] at hc
  simp only [List.mem_cons, List.mem_append, List.mem_flatMap, List.mem_singleton,
    List.not_mem_nil, or_false] at hc
  rcases hc with (rfl | ⟨x, hx, hcx⟩) | rfl
  · decide
  · have hxs : x ≠ ' ' := by
      rintro rfl
      have : s.contains ' ' = true := by simpa using hx
      rw [this] at hs
      cases hs
    exact json_escape_char_layout x hxs c hcx
  · decide

theorem strip_layout_ld (i : Int) : strip_layout (snprintf_ld i) = snprintf_ld i := by
  apply strip_layout_keep
  intro c hc
  obtain ⟨ds, hds, _, h⟩ := snprintf_ld_decimal i
  rw [h] at hc
  have hdigit : ∀ c ∈ ds, c ≠ ' ' ∧ c ≠ '\n' := by
    intro c hc
    have := hds c hc
    constructor <;> rintro rfl <;> simp [isdigit] at this
  split at hc
  · rcases List.mem_cons.mp hc with rfl | h
    · decide
    · exact hdigit c h
  · exact hdigit c hc

mutual

theorem strip_pretty (n : Int) (hn : 0 < n) :
    ∀ (v : Goon_Value) (d : Nat), no_space v = true →
      strip_layout (value_to_json v n d) = value_to_json v 0 0
  | .NULL, _, _ => by rw [value_to_json, value_to_json]; decide
  | .nil, _, _ => by rw [value_to_json, value_to_json]; decide
  | .builtin _, _, _ => by rw [value_to_json, value_to_json]; decide
  | .bool b, _, _ => by rw [value_to_json, value_to_json]; cases b <;> decide
  | .int i, _, _ => by rw [value_to_json, value_to_json]; exact strip_layout_ld i
  | .string s, _, h => by
    rw [value_to_json, value_to_json]
    rw [no_space] at h
    exact strip_layout_escape s (by simpa using h)
  | .list items, d, h => by
    rw [no_space] at h
    rw [value_to_json, value_to_json]
    simp only [strip_layout_append, strip_pretty_items n hn items d h]
    have e1 : strip_layout (if n > 0 ∧ items.length > 0 then ['\n'] else []) = [] := by
      split <;> rfl
    have e2 : strip_layout (if n > 0 ∧ items.length > 0 then append_indent n d else []) = []
        := by
      split
      · exact strip_layout_indent n d
      · rfl
    have e3 : strip_layout [']'] = [']'] := rfl
    rw [strip_layout_cons_keep _ _ (by decide) (by decide), e1, e2, e3]
    simp
  | .record fields, d, h => by
    rw [no_space] at h
    rw [value_to_json, value_to_json]
    simp only [strip_layout_append, strip_pretty_fields n hn fields d h]
    have e1 : strip_layout (if n > 0 ∧ fields.length > 0 then ['\n'] else []) = [] := by
      split <;> rfl
    have e2 : strip_layout (if n > 0 ∧ fields.length > 0 then append_indent n d else []) = []
        := by
      split
      · exact strip_layout_indent n d
      · rfl
    have e3 : strip_layout ['}'] = ['}'] := rfl
    rw [strip_layout_cons_keep _ _ (by decide) (by decide), e1, e2, e3]
    simp

theorem strip_pretty_items (n : Int) (hn : 0 < n) :
    ∀ (items : List Goon_Value) (d : Nat), no_space_items items = true →
      strip_layout (value_to_json_items items n d) = value_to_json_items items 0 0
  | [], _, _ => by rw [value_to_json_items, value_to_json_items]; rfl
  | item :: rest, d, h => by
    rw [no_space_items, Bool.and_eq_true] at h
    rw [value_to_json_items, value_to_json_items]
    simp only [strip_layout_append, strip_pretty n hn item (d + 1) h.1,
      strip_pretty_items n hn rest d h.2, compact_depth item (0 + 1)]
    have e1 : strip_layout (if n > 0 then append_indent n (d + 1) else []) = [] := by
      rw [if_pos hn]
      exact strip_layout_indent n (d + 1)
    have e2 : strip_layout (if n > 0 then ['\n'] else []) = [] := by
      rw [if_pos hn]
      rfl
    have e3 : strip_layout (if rest.length > 0 then [','] else []) =
        if rest.length > 0 then [','] else [] := by
      split <;> rfl
    rw [e1, e2, e3]
    simp

theorem strip_pretty_fields (n : Int) (hn : 0 < n) :
    ∀ (fields : List (List Char × Goon_Value)) (d : Nat), no_space_fields fields = true →
      strip_layout (value_to_json_fields fields n d) = value_to_json_fields fields 0 0
  | [], _, _ => by rw [value_to_json_fields, value_to_json_fields]; rfl
  | (key, value) :: next, d, h => by
    rw [no_space_fields, Bool.and_eq_true, Bool.and_eq_true] at h
    rw [value_to_json_fields, value_to_json_fields]
    simp only [strip_layout_append, strip_pretty n hn value (d + 1) h.1.2,
      strip_pretty_fields n hn next d h.2, compact_depth value (0 + 1),
      strip_layout_escape key (by simpa using h.1.1)]
    have e1 : strip_layout (if n > 0 then append_indent n (d + 1) else []) = [] := by
      rw [if_pos hn]
      exact strip_layout_indent n (d + 1)
    have e2 : strip_layout (if n > 0 then ['\n'] else []) = [] := by
      rw [if_pos hn]
      rfl
    have e3 : strip_layout (if next.length > 0 then [','] else []) =
        if next.length > 0 then [','] else [] := by
      split <;> rfl
    have e4 : strip_layout (if n > 0 then [' '] else []) = [] := by
      rw [if_pos hn]
      rfl
    have e5 : strip_layout [':'] = [':'] := rfl
    rw [e1, e2, e3, e4, e5]
    simp

end

/-- C7: for every value whose strings and record keys hold no space character
and every indent width above zero, `goon_to_json_pretty` with its space and
newline characters deleted is `goon_to_json`.  In a fresh context, with a host
that registers no function, the source `{a=1,b="x",c=[1,2,3]}` loads to the
record with c = [1,2,3], b = "x", a = 1 in chain order; its compact rendering
is `{"c":[1,2,3],"b":"x","a":1}` and its rendering with indent 2 is the same
text with line breaks and indentation. -/
theorem C7_indented_json_is_compact_json_plus_layout :
    (∀ (v : Goon_Value) (n : Int), 0 < n → no_space v = true →
      strip_layout (goon_to_json_pretty v n) = goon_to_json v) ∧
    (∀ last, Returns
      (fun fuel => goon_load_string no_host fuel goon_create last
        "\x7ba=1,b=\"x\",c=[1,2,3]\x7d".toList)
      (true, goon_create,
        .record [("c".toList, .list [.int 1, .int 2, .int 3]), ("b".toList, .string ['x']),
          ("a".toList, .int 1)])) ∧
    goon_to_json
      (.record [("c".toList, .list [.int 1, .int 2, .int 3]), ("b".toList, .string ['x']),
        ("a".toList, .int 1)]) = "\x7b\"c\":[1,2,3],\"b\":\"x\",\"a\":1\x7d".toList ∧
    goon_to_json_pretty
      (.record [("c".toList, .list [.int 1, .int 2, .int 3]), ("b".toList, .string ['x']),
        ("a".toList, .int 1)]) 2 =
      "\x7b\n  \"c\": [\n    1,\n    2,\n    3\n  ],\n  \"b\": \"x\",\n  \"a\": 1\n\x7d".toList := by
  refine ⟨?_, ?_, by decide, by decide⟩
  · intro v n hn hv
    exact strip_pretty n hn v 0 hv
  · exact loaded_true no_host (n := 30) (by decide!)

/-- The record of the source `{a=1,b="x",c=[1,2,3]}` and the indent width 2
meet the hypotheses of C7. -/
theorem C7_indented_json_is_compact_json_plus_layout_witness :
    no_space
      (.record [("c".toList, .list [.int 1, .int 2, .int 3]), ("b".toList, .string ['x']),
        ("a".toList, .int 1)]) = true ∧
    strip_layout (goon_to_json_pretty
      (.record [("c".toList, .list [.int 1, .int 2, .int 3]), ("b".toList, .string ['x']),
        ("a".toList, .int 1)]) 2) =
      goon_to_json
        (.record [("c".toList, .list [.int 1, .int 2, .int 3]), ("b".toList, .string ['x']),
          ("a".toList, .int 1)]) :=
  ⟨by decide, C7_indented_json_is_compact_json_plus_layout.1 _ 2 (by decide) (by decide)⟩

/-- C8: a record built from the empty record by setting fields with pairwise
distinct keys holds them in its chain in reverse order, the last one set at
the head; setting a key that is present leaves the keys of the chain as they
are, in number and in order; and `goon_to_json` renders the fields in chain
order, each as its escaped key, a colon and its value, with commas between
neighbours.  In a fresh context, with a host that registers no function, the
source `{a=1,b="x",c=[1,2,3]}` loads to a record rendered as
`{"c":[1,2,3],"b":"x","a":1}` and `{a=1, b=2, a=3}` to one rendered as
`{"b":2,"a":3}`. -/
theorem C8_record_renders_in_reverse_insertion_order :
    (∀ kvs : List (List Char × Goon_Value), (kvs.map Prod.fst).Nodup →
      kvs.foldl (fun record kv => goon_record_set record kv.1 kv.2) (.record []) =
        .record kvs.reverse) ∧
    (∀ (fields : List (List Char × Goon_Value)) (key : List Char) (value : Goon_Value),
      key ∈ fields.map Prod.fst →
      (goon_record_fields (goon_record_set (.record fields) key value)).map Prod.fst =
        fields.map Prod.fst) ∧
    (∀ fields : List (List Char × Goon_Value),
      goon_to_json (.record fields) =
        '{' :: List.intercalate [',']
          (fields.map (fun f => json_escape_string f.1 ++ ':' :: goon_to_json f.2)) ++ ['}']) ∧
    (∀ last, Returns
      (fun fuel => goon_load_string no_host fuel goon_create last
        "\x7ba=1,b=\"x\",c=[1,2,3]\x7d".toList)
      (true, goon_create,
        .record [("c".toList, .list [.int 1, .int 2, .int 3]), ("b".toList, .string ['x']),
          ("a".toList, .int 1)])) ∧
    goon_to_json
      (.record [("c".toList, .list [.int 1, .int 2, .int 3]), ("b".toList, .string ['x']),
        ("a".toList, .int 1)]) = "\x7b\"c\":[1,2,3],\"b\":\"x\",\"a\":1\x7d".toList ∧
    (∀ last, Returns
      (fun fuel => goon_load_string no_host fuel goon_create last
        "\x7ba=1, b=2, a=3\x7d".toList)
      (true, goon_create, .record [("b".toList, .int 2), ("a".toList, .int 3)])) ∧
    goon_to_json (.record [("b".toList, .int 2), ("a".toList, .int 3)]) =
      "\x7b\"b\":2,\"a\":3\x7d".toList := by
  refine ⟨?_, ?_, ?_, ?_, by decide, ?_, by decide⟩
  · intro kvs hnd
    rw [← spread_eq_foldl, spread_fresh kvs [] hnd (by simp)]
    simp
  · intro fields key value hin
    rw [set_keys, if_pos hin]
  · intro fields
    rw [show goon_to_json (.record fields) = value_to_json (.record fields) 0 0 from rfl,
      value_to_json, compact_fields]
    simp
  · exact loaded_true no_host (n := 30) (by decide!)
  · exact loaded_true no_host (n := 30) (by decide!)

/-- The keys `a`, `b`, `c` set in that order, and the key `a` set again on the
result, meet the hypotheses of C8. -/
theorem C8_record_renders_in_reverse_insertion_order_witness :
    ([("a".toList, Goon_Value.int 1), ("b".toList, Goon_Value.int 2),
        ("c".toList, Goon_Value.int 3)].map Prod.fst).Nodup ∧
    [("a".toList, Goon_Value.int 1), ("b".toList, Goon_Value.int 2),
        ("c".toList, Goon_Value.int 3)].foldl
        (fun record kv => goon_record_set record kv.1 kv.2) (.record []) =
      .record [("c".toList, .int 3), ("b".toList, .int 2), ("a".toList, .int 1)] ∧
    (goon_record_fields (goon_record_set
        (.record [("c".toList, .int 3), ("b".toList, .int 2), ("a".toList, .int 1)])
        "a".toList (.int 9))).map Prod.fst = ["c".toList, "b".toList, "a".toList] :=
  ⟨by decide,
    C8_record_renders_in_reverse_insertion_order.1
      [("a".toList, Goon_Value.int 1), ("b".toList, Goon_Value.int 2),
        ("c".toList, Goon_Value.int 3)] (by decide),
    C8_record_renders_in_reverse_insertion_order.2.1
      [("c".toList, .int 3), ("b".toList, .int 2), ("a".toList, .int 1)]
      "a".toList (.int 9) (by decide)⟩

/-- C6, the code at the failing input: in the source `[...[] "abc` the
tokenizer reaches the unterminated literal `"abc` while `parse_list` returns
from the inner list `[]`; the spread in the outer `parse_list` does not test
the null result, the stale token `]` closes the outer list, and
`goon_load_string` returns true with the empty list as result and no error
recorded on the context.  When the unterminated literal is the first thing in
the source, as in `"abc`, `goon_load_string` returns false, records
`unterminated string` and leaves `last_result` as it was. -/
theorem C6_unterminated_string_after_spread_loads :
    (∀ last, Returns
      (fun fuel => goon_load_string no_host fuel goon_create last "[...[] \"abc".toList)
      (true, goon_create, .list [])) ∧
    (lexer_next (Parser.next^[3] (Parser.start goon_create "[...[] \"abc".toList)).lex).1 =
      false ∧
    (lexer_next (Parser.next^[3] (Parser.start goon_create "[...[] \"abc".toList)).lex).2.error
      = some "unterminated string".toList ∧
    (∀ (host : Host) (fuel : Nat) (ctx : Goon_Ctx) (last : Goon_Value),
      goon_load_string host fuel ctx last "\"abc".toList =
        .ret (false, { ctx with error := some "unterminated string".toList }, last)) := by
  refine ⟨?_, by decide!, by decide!, ?_⟩
  · exact loaded_true no_host (n := 30) (by decide!)
  · intro host fuel ctx last
    rfl

/-! ## C19: `goon_record_set` keeps the keys of a record unique -/

theorem set_loop_map (key : List Char) (value : Goon_Value) :
    ∀ fs fs1 : List (List Char × Goon_Value), (fs.map Prod.fst).Nodup →
      goon_record_set_loop key value fs = some fs1 →
        fs1 = fs.map (fun f => if f.1 = key then (f.1, value) else f) := by
  intro fs
  induction fs with
  | nil => intro fs1 _ h; simp [goon_record_set_loop] at h
  | cons f next ih =>
    intro fs1 hnd h
    rw [List.map_cons, List.nodup_cons] at hnd
    rw [goon_record_set_loop] at h
    by_cases hf : f.1 = key
    · rw [if_pos hf] at h
      cases h
      have hid : next.map (fun g => if g.1 = key then (g.1, value) else g) = next := by
        conv_rhs => rw [← List.map_id next]
        apply List.map_congr_left
        intro g hg
        have hne : g.1 ≠ key := by
          intro hgk
          apply hnd.1
          rw [hf, ← hgk]
          exact List.mem_map_of_mem Prod.fst hg
        simp [hne]
      simp [hf, hid]
    · rw [if_neg hf] at h
      cases hd : goon_record_set_loop key value next with
      | none => rw [hd] at h; cases h
      | some rest =>
        rw [hd] at h
        cases h
        simp [hf, ih rest hnd.2 hd]

/-- C19: when the keys of the field chain `fs` of a record are pairwise
distinct, `goon_record_set` of key `k` and value `v` gives a record whose keys
are pairwise distinct again.  When `k` was present the chain keeps its length,
its keys and their order, and every field but the one named `k`, whose value
becomes `v`.  When `k` was absent the chain is the old one with the one field
`(k, v)` put at its head.  In both cases `goon_record_get` then finds `v` under
`k` and, under any other key, what it found before. -/
theorem C19_record_set_keeps_keys_unique (fs : List (List Char × Goon_Value)) (k : List Char)
    (v : Goon_Value) (h : (fs.map Prod.fst).Nodup) :
    ∃ fs1 : List (List Char × Goon_Value),
      goon_record_set (.record fs) k v = .record fs1 ∧
      (fs1.map Prod.fst).Nodup ∧
      (k ∈ fs.map Prod.fst →
        fs1.length = fs.length ∧ fs1.map Prod.fst = fs.map Prod.fst ∧
        fs1 = fs.map (fun f => if f.1 = k then (f.1, v) else f)) ∧
      (k ∉ fs.map Prod.fst → fs1 = (k, v) :: fs) ∧
      goon_record_get (.record fs1) k = v ∧
      ∀ k1 : List Char, k1 ≠ k →
        goon_record_get (.record fs1) k1 = goon_record_get (.record fs) k1 := by
  refine ⟨goon_record_fields (goon_record_set (.record fs) k v), set_record fs k v,
    set_nodup fs k v h, ?_, ?_, ?_, ?_⟩
  · intro hin
    have hsome : ∃ fs1, goon_record_set_loop k v fs = some fs1 := by
      cases hd : goon_record_set_loop k v fs with
      | none => exact absurd hin ((set_loop_none k v fs).mp hd)
      | some fs1 => exact ⟨fs1, rfl⟩
    obtain ⟨fs1, hd⟩ := hsome
    have hmap := set_loop_map k v fs fs1 h hd
    have hfs : goon_record_fields (goon_record_set (.record fs) k v) = fs1 := by
      unfold goon_record_set
      dsimp only
      rw [hd]
      rfl
    rw [hfs]
    refine ⟨?_, set_loop_keys k v fs fs1 hd, hmap⟩
    rw [hmap, List.length_map]
  · intro hnin
    have hd := (set_loop_none k v fs).mpr hnin
    unfold goon_record_set
    dsimp only
    rw [hd]
    rfl
  · rw [← set_record]
    exact set_get_same fs k v
  · intro k1 hk1
    rw [← set_record]
    exact set_get_other (.record fs) k v k1 hk1

/-- The chain `b = 2, a = 1` has distinct keys; setting `a` to 3 keeps the
place of `a`, and setting the new key `c` puts it at the head. -/
theorem C19_record_set_keeps_keys_unique_witness :
    ([("b".toList, Goon_Value.int 2), ("a".toList, Goon_Value.int 1)].map Prod.fst).Nodup ∧
    (∃ fs1 : List (List Char × Goon_Value),
      goon_record_set (.record [("b".toList, .int 2), ("a".toList, .int 1)]) "a".toList (.int 3) =
        .record fs1 ∧
      (fs1.map Prod.fst).Nodup ∧
      ("a".toList ∈ [("b".toList, Goon_Value.int 2), ("a".toList, Goon_Value.int 1)].map Prod.fst →
        fs1.length = [("b".toList, Goon_Value.int 2), ("a".toList, Goon_Value.int 1)].length ∧
        fs1.map Prod.fst =
          [("b".toList, Goon_Value.int 2), ("a".toList, Goon_Value.int 1)].map Prod.fst ∧
        fs1 = [("b".toList, Goon_Value.int 2), ("a".toList, Goon_Value.int 1)].map
          (fun f => if f.1 = "a".toList then (f.1, .int 3) else f)) ∧
      ("a".toList ∉ [("b".toList, Goon_Value.int 2), ("a".toList, Goon_Value.int 1)].map Prod.fst →
        fs1 = ("a".toList, .int 3) :: [("b".toList, .int 2), ("a".toList, .int 1)]) ∧
      goon_record_get (.record fs1) "a".toList = .int 3 ∧
      ∀ k1 : List Char, k1 ≠ "a".toList →
        goon_record_get (.record fs1) k1 =
          goon_record_get (.record [("b".toList, .int 2), ("a".toList, .int 1)]) k1) ∧
    goon_record_set (.record [("b".toList, .int 2), ("a".toList, .int 1)]) "a".toList (.int 3) =
      .record [("b".toList, .int 2), ("a".toList, .int 3)] ∧
    goon_record_set (.record [("b".toList, .int 2), ("a".toList, .int 1)]) "c".toList (.int 3) =
      .record [("c".toList, .int 3), ("b".toList, .int 2), ("a".toList, .int 1)] :=
  ⟨by decide,
    C19_record_set_keeps_keys_unique [("b".toList, .int 2), ("a".toList, .int 1)] "a".toList
      (.int 3) (by decide),
    same_eq _ _ (by decide!), same_eq _ _ (by decide!)⟩

/-! ## The environment as a chain of bindings -/

theorem define_loop_eq_set_loop (name : List Char) (value : Goon_Value) :
    ∀ env : List (List Char × Goon_Value),
      define_loop name value env = goon_record_set_loop name value env := by
  intro env
  induction env with
  | nil => rfl
  | cons b next ih => rw [define_loop, goon_record_set_loop, ih]

theorem lookup_loop_eq_get_loop (name : List Char) :
    ∀ env : List (List Char × Goon_Value),
      lookup_loop name env = goon_record_get_loop name env := by
  intro env
  induction env with
  | nil => rfl
  | cons b next ih => rw [lookup_loop, goon_record_get_loop, ih]

theorem define_env (ctx : Goon_Ctx) (name : List Char) (value : Goon_Value) :
    Goon_Value.record (define ctx name value).env =
      goon_record_set (.record ctx.env) name value := by
  unfold define goon_record_set
  dsimp only
  rw [define_loop_eq_set_loop]
  cases goon_record_set_loop name value ctx.env <;> rfl

theorem lookup_eq_get (ctx : Goon_Ctx) (name : List Char) :
    lookup ctx name = goon_record_get (.record ctx.env) name := by
  unfold lookup goon_record_get
  exact lookup_loop_eq_get_loop name ctx.env

theorem lookup_define_other (ctx : Goon_Ctx) (name : List Char) (value : Goon_Value)
    (k : List Char) (hk : k ≠ name) : lookup (define ctx name value) k = lookup ctx k := by
  rw [lookup_eq_get, lookup_eq_get, define_env]
  exact set_get_other _ name value k hk

theorem define_keys (ctx : Goon_Ctx) (name : List Char) (value : Goon_Value) :
    (define ctx name value).env.map Prod.fst =
      if name ∈ ctx.env.map Prod.fst then ctx.env.map Prod.fst
      else name :: ctx.env.map Prod.fst := by
  have h := set_keys ctx.env name value
  rw [← define_env] at h
  exact h

theorem define_unbound (ctx : Goon_Ctx) (name : List Char) (value : Goon_Value)
    (h : name ∉ ctx.env.map Prod.fst) :
    (define ctx name value).env = (name, value) :: ctx.env := by
  unfold define
  rw [define_loop_eq_set_loop, (set_loop_none name value ctx.env).mpr h]

/-! ## C13: field chains -/

theorem parse_primary_fields_mono (host : Host) {n m : Nat} {p : Parser} {v : Goon_Value}
    {a : Goon_Value × Parser}
    (h : parse_primary_fields host n p v = .ret a) (hle : n ≤ m) :
    parse_primary_fields host m p v = .ret a :=
  ret_of_below (f := fun k => parse_primary_fields host k p v)
    (fun k => (parseBelow host k).2.2.2.2.2.2.2.2.1 p v) h hle

theorem parse_primary_fields_chain (host : Host) {p q : Parser} {fs : List (List Char)}
    (h : FieldChain p fs q) :
    ∀ val, parse_primary_fields host (fs.length + 1) p val =
      .ret ((fs.foldl goon_record_get val).or_nil, q) := by
  induction h with
  | done hp =>
    intro val
    rw [parse_primary_fields, if_neg hp]
    rfl
  | @field p p1 p2 q f fs hdot hl1 hp1 hid hf hl2 hp2 _ ih =>
    intro val
    subst hp1
    subst hp2
    rw [List.length_cons, parse_primary_fields, if_pos hdot, advance_eq hl1,
      if_neg (not_not.mpr hid), hf]
    dsimp only
    rw [advance_eq hl2, ih]
    rfl

theorem parse_primary_chain (host : Host) {p q : Parser} {x : List Char}
    {fs : List (List Char)} (hid : p.tok = TOK_IDENT) (hx : p.lex.current.string = some x)
    (hl : p.lexes) (hdot : p.next.tok = TOK_DOT) (h : FieldChain p.next fs q) :
    ∃ fuel0, ∀ fuel, fuel0 ≤ fuel → parse_primary host fuel p =
      .ret ((fs.foldl goon_record_get (lookup p.ctx x)).or_nil, q) := by
  refine ⟨fs.length + 2, fun fuel hle => ?_⟩
  obtain ⟨m, rfl⟩ : ∃ m, fuel = m + 1 := ⟨fuel - 1, by omega⟩
  have hid' : p.lex.current.type = TOK_IDENT := hid
  rw [parse_primary]
  simp only [hid', hx]
  rw [advance_eq hl]
  have hnp : ¬ p.next.tok = TOK_LPAREN := by rw [hdot]; decide
  rw [if_neg hnp, if_pos hdot]
  exact parse_primary_fields_mono host (parse_primary_fields_chain host h _) (by omega)

theorem foldl_get_null : ∀ fs : List (List Char), fs.foldl goon_record_get .NULL = .NULL := by
  intro fs
  induction fs with
  | nil => rfl
  | cons f fs ih => exact ih

theorem get_null_of_not_record (v : Goon_Value) (f : List Char)
    (h : goon_is_record v = false) : goon_record_get v f = .NULL := by
  cases v <;> first | rfl | cases h

theorem get_loop_null_of_missing (f : List Char) :
    ∀ fields : List (List Char × Goon_Value), f ∉ fields.map Prod.fst →
      goon_record_get_loop f fields = .NULL := by
  intro fields
  induction fields with
  | nil => intro _; rfl
  | cons g next ih =>
    intro h
    rw [List.map_cons, List.mem_cons, not_or] at h
    rw [goon_record_get_loop, if_neg (fun e => h.1 e.symm)]
    exact ih h.2

theorem get_null_of_missing (v : Goon_Value) (f : List Char)
    (h : f ∉ (goon_record_fields v).map Prod.fst) : goon_record_get v f = .NULL := by
  cases v <;> first | rfl | exact get_loop_null_of_missing f _ h

theorem foldl_get_broken (base : Goon_Value) (pre : List (List Char)) (f : List Char)
    (post : List (List Char))
    (h : goon_is_record (pre.foldl goon_record_get base) = false ∨
      f ∉ (goon_record_fields (pre.foldl goon_record_get base)).map Prod.fst) :
    (pre ++ f :: post).foldl goon_record_get base = .NULL := by
  rw [List.foldl_append, List.foldl_cons]
  have hnull : goon_record_get (pre.foldl goon_record_get base) f = .NULL := by
    rcases h with h | h
    · exact get_null_of_not_record _ f h
    · exact get_null_of_missing _ f h
  rw [hnull]
  exact foldl_get_null post

theorem or_nil_not_null (v : Goon_Value) : v.or_nil.isNull = false := by
  cases v <;> rfl

theorem lookup_unbound (ctx : Goon_Ctx) (x : List Char) (h : x ∉ ctx.env.map Prod.fst) :
    lookup ctx x = .NULL := by
  rw [lookup_eq_get]
  exact get_loop_null_of_missing x _ h

/-- C13: for a field chain `x.f1. ... .fn` with n >= 1 (`p` at the identifier
`x`, a `.` next, and `FieldChain` reading the names `fs`), `parse_primary`
returns the value got by looking `x` up in the environment and then each name
in turn with `goon_record_get`, with nil in place of a null pointer.  The value
returned is never null, so the chain evaluates as an expression and does not
fail the load.  If the value reached before some field is not a record, or has
no field of that name, the chain gives nil; an unbound `x` is the first of
these cases, its `lookup` being null.  In a fresh context, with a host that
registers no function, after `let r = {a = {b = 5}};` the chain `r.a.b` is 5
and `r.a.c`, `r.a.b.c` and `nope.a` are nil, and each source loads. -/
theorem C13_field_chain_looks_up_each_field (host : Host) :
    (∀ (p q : Parser) (x : List Char) (fs : List (List Char)),
        p.tok = TOK_IDENT → p.lex.current.string = some x → p.lexes →
        p.next.tok = TOK_DOT → FieldChain p.next fs q →
        Returns (fun fuel => parse_primary host fuel p)
          ((fs.foldl goon_record_get (lookup p.ctx x)).or_nil, q) ∧
        (q.tok ≠ TOK_QUESTION →
          Evals host p (fs.foldl goon_record_get (lookup p.ctx x)).or_nil q)) ∧
    (∀ (base : Goon_Value) (pre : List (List Char)) (f : List Char) (post : List (List Char)),
        goon_is_record (pre.foldl goon_record_get base) = false ∨
          f ∉ (goon_record_fields (pre.foldl goon_record_get base)).map Prod.fst →
        ((pre ++ f :: post).foldl goon_record_get base).or_nil = .nil) ∧
    (∀ (ctx : Goon_Ctx) (x : List Char), x ∉ ctx.env.map Prod.fst →
        lookup ctx x = .NULL ∧ goon_is_record (lookup ctx x) = false) ∧
    (∀ last, Returns
      (fun fuel => goon_load_string no_host fuel goon_create last
        "let r = \x7ba = \x7bb = 5\x7d\x7d; r.a.b".toList)
      (true,
        { env := [("r".toList, .record [("a".toList, .record [("b".toList, .int 5)])])],
          error := none, base_path := none }, .int 5)) ∧
    (∀ last, Returns
      (fun fuel => goon_load_string no_host fuel goon_create last
        "let r = \x7ba = \x7bb = 5\x7d\x7d; r.a.c".toList)
      (true,
        { env := [("r".toList, .record [("a".toList, .record [("b".toList, .int 5)])])],
          error := none, base_path := none }, .nil)) ∧
    (∀ last, Returns
      (fun fuel => goon_load_string no_host fuel goon_create last
        "let r = \x7ba = \x7bb = 5\x7d\x7d; r.a.b.c".toList)
      (true,
        { env := [("r".toList, .record [("a".toList, .record [("b".toList, .int 5)])])],
          error := none, base_path := none }, .nil)) ∧
    (∀ last, Returns
      (fun fuel => goon_load_string no_host fuel goon_create last "nope.a".toList)
      (true, goon_create, .nil)) := by
  refine ⟨?_, ?_, ?_, ?_, ?_, ?_, ?_⟩
  · intro p q x fs hid hx hl hdot hfc
    obtain ⟨n, hn⟩ := parse_primary_chain host hid hx hl hdot hfc
    refine ⟨⟨n, hn⟩, fun hq => ⟨or_nil_not_null _, n + 1, ?_⟩⟩
    have h1 : ¬ p.tok = TOK_LET := by rw [hid]; decide
    have h2 : ¬ p.tok = TOK_IF := by rw [hid]; decide
    rw [parse_expr, if_neg h1, if_neg h2, hn n (Nat.le_refl _)]
    simp only [Outcome.bind, or_nil_not_null, if_neg hq]
    rfl
  · intro base pre f post h
    rw [foldl_get_broken base pre f post h]
    rfl
  · intro ctx x h
    rw [lookup_unbound ctx x h]
    exact ⟨rfl, rfl⟩
  · exact loaded_true no_host (n := 20) (by decide!)
  · exact loaded_true no_host (n := 20) (by decide!)
  · exact loaded_true no_host (n := 20) (by decide!)
  · exact loaded_true no_host (n := 20) (by decide!)

/-- The chain `nope.a` meets the hypotheses of the rule for chains in C13; the
name `nope` is unbound and the chain gives nil. -/
theorem C13_field_chain_looks_up_each_field_witness :
    FieldChain chain_demo.next ["a".toList] chain_demo.next.next.next ∧
    Returns (fun fuel => parse_primary no_host fuel chain_demo)
      ((["a".toList].foldl goon_record_get (lookup chain_demo.ctx "nope".toList)).or_nil,
        chain_demo.next.next.next) ∧
    (["a".toList].foldl goon_record_get (lookup chain_demo.ctx "nope".toList)).or_nil = .nil :=
  have hfc : FieldChain chain_demo.next ["a".toList] chain_demo.next.next.next :=
    @FieldChain.field chain_demo.next chain_demo.next.next chain_demo.next.next.next
      chain_demo.next.next.next "a".toList [] (by decide!) (by decide!) rfl (by decide!)
      (by decide!) (by decide!) rfl (FieldChain.done (by decide!))
  ⟨hfc, ((C13_field_chain_looks_up_each_field no_host).1 chain_demo chain_demo.next.next.next
    "nope".toList ["a".toList] (by decide!) (by decide!) (by decide!) (by decide!) hfc).1,
    rfl⟩

/-! ## C14: calls -/

theorem parse_call_loop_mono (host : Host) {n m : Nat} {p : Parser} {fn : Goon_Value}
    {args : List Goon_Value} {a : Goon_Value × Parser}
    (h : parse_call_loop host n p fn args = .ret a) (hle : n ≤ m) :
    parse_call_loop host m p fn args = .ret a :=
  ret_of_below (f := fun k => parse_call_loop host k p fn args)
    (fun k => (parseBelow host k).2.2.2.2.2.2.1 p fn args) h hle

theorem evals_not_eof (host : Host) {p q : Parser} {v : Goon_Value} (h : Evals host p v q) :
    p.tok ≠ TOK_EOF := by
  intro he
  obtain ⟨hv, n, hn⟩ := h
  have he' : p.lex.current.type = TOK_EOF := he
  cases n with
  | zero => rw [parse_expr] at hn; cases hn
  | succ n =>
    rw [parse_expr, if_neg (by rw [he]; decide), if_neg (by rw [he]; decide)] at hn
    cases n with
    | zero => rw [parse_primary] at hn; cases hn
    | succ n =>
      rw [parse_primary] at hn
      simp only [he', Outcome.bind, Parser.ret_null, Goon_Value.isNull, if_true] at hn
      cases hn
      cases hv

/-- The loop of `parse_call` runs through the arguments `vs` and goes on from
the state after them as it would with the values collected. -/
theorem parse_call_loop_args (host : Host) {p q : Parser} {vs : List Goon_Value}
    (h : CallArgs host p vs q) (fn : Goon_Value) (a : Goon_Value × Parser) :
    ∀ args : List Goon_Value, args.length + vs.length ≤ 16 →
      (∃ m0, ∀ m, m0 ≤ m → parse_call_loop host m q fn (args ++ vs) = .ret a) →
      ∃ n0, ∀ n, n0 ≤ n → parse_call_loop host n p fn args = .ret a := by
  induction h with
  | nil p =>
    intro args _ hq
    rw [List.append_nil] at hq
    exact hq
  | @cons p p1 q v vs hp hv hcomma _ ih =>
    intro args hlen hq
    rw [List.length_cons] at hlen
    obtain ⟨n1, h1⟩ := evals_mono host hv
    obtain ⟨n2, h2⟩ := ih (args ++ [v]) (by rw [List.length_append]; simp; omega)
      (by rw [List.append_assoc]; exact hq)
    refine ⟨max n1 n2 + 1, fun n hle => ?_⟩
    obtain ⟨m, rfl⟩ : ∃ m, n = m + 1 := ⟨n - 1, by omega⟩
    have hcond : p.tok ≠ TOK_RPAREN ∧ p.tok ≠ TOK_EOF ∧ args.length < 16 :=
      ⟨hp, evals_not_eof host hv, by omega⟩
    rw [parse_call_loop, if_pos hcond, h1 m (by omega)]
    simp only [Outcome.bind]
    have h2m := h2 m (by omega)
    by_cases hc : p1.tok = TOK_COMMA
    · rw [if_pos hc, advance_eq (hcomma hc)]
      unfold Parser.skip_comma at h2m
      rw [if_pos hc] at h2m
      exact h2m
    · rw [if_neg hc]
      unfold Parser.skip_comma at h2m
      rw [if_neg hc] at h2m
      exact h2m

theorem parse_primary_call (host : Host) {p : Parser} {name : List Char}
    (hid : p.tok = TOK_IDENT) (hname : p.lex.current.string = some name) (hl1 : p.lexes)
    (hparen : p.next.tok = TOK_LPAREN) (hl2 : p.next.lexes) (a : Goon_Value × Parser)
    (h : ∃ m0, ∀ m, m0 ≤ m →
      parse_call_loop host m p.next.next (lookup p.ctx name) [] = .ret a) :
    ∃ n0, ∀ n, n0 ≤ n → parse_primary host n p = .ret a := by
  obtain ⟨m0, hm⟩ := h
  refine ⟨m0 + 2, fun n hle => ?_⟩
  obtain ⟨m, rfl⟩ : ∃ m, n = m + 2 := ⟨n - 2, by omega⟩
  have hid' : p.lex.current.type = TOK_IDENT := hid
  rw [parse_primary]
  simp only [hid', hname]
  rw [advance_eq hl1, if_pos hparen, parse_call, advance_eq hl2]
  exact hm m (by omega)

theorem parse_call_loop_close (host : Host) {q : Parser} (fn : Goon_Value)
    (args : List Goon_Value) (hq : q.tok = TOK_RPAREN) (hl : q.lexes) :
    ∃ m0, ∀ m, m0 ≤ m → parse_call_loop host m q fn args =
      .ret (match fn with
            | .builtin f => host.builtin f q.ctx args
            | _ => .nil, q.next) := by
  refine ⟨1, fun m hle => ?_⟩
  obtain ⟨k, rfl⟩ : ∃ k, m = k + 1 := ⟨m - 1, by omega⟩
  have hcond : ¬ (q.tok ≠ TOK_RPAREN ∧ q.tok ≠ TOK_EOF ∧ args.length < 16) :=
    fun h => h.1 hq
  rw [parse_call_loop, if_neg hcond, if_neg (not_not.mpr hq), advance_eq hl]
  cases fn <;> rfl

/-- C14: for a call `name(e1, ..., en)` with n <= 16 (`p` at the identifier, a
`(` next, `CallArgs` reading the arguments up to `q` at the `)`), the arguments
are evaluated in source order, each in the state the one before it left, and
the call leaves the state after the `)` whatever the name is bound to.  If the
name is bound to the callable number `f`, which is what `goon_register` binds
it to, the value of the call is that callable applied to the context and the n
values in source order.  If the name is bound to anything else or is unbound,
the value is nil.  With a host whose function `f` returns the list of its
arguments: `f(1, 2, 3)` is the list 1, 2, 3; `f()` is the empty list;
`f(let a = 1, a)` is the list 1, 1; `g(let b = 1, b)`, with `g` unbound, is nil
and leaves `b` bound; and `let h = 5; h(1)` is nil. -/
theorem C14_call_applies_callable_to_arguments (host : Host) :
    (∀ (p q : Parser) (name : List Char) (vs : List Goon_Value),
        p.tok = TOK_IDENT → p.lex.current.string = some name → p.lexes →
        p.next.tok = TOK_LPAREN → p.next.lexes →
        CallArgs host p.next.next vs q → vs.length ≤ 16 → q.tok = TOK_RPAREN → q.lexes →
        (∀ f : Nat, lookup p.ctx name = .builtin f →
          Returns (fun fuel => parse_primary host fuel p) (host.builtin f q.ctx vs, q.next)) ∧
        ((∀ f : Nat, lookup p.ctx name ≠ .builtin f) →
          Returns (fun fuel => parse_primary host fuel p) (.nil, q.next))) ∧
    (∀ (ctx : Goon_Ctx) (name : List Char) (f : Nat),
        lookup (goon_register ctx name f) name = .builtin f) ∧
    (∀ (ctx : Goon_Ctx) (name : List Char), name ∉ ctx.env.map Prod.fst →
        ∀ f : Nat, lookup ctx name ≠ .builtin f) ∧
    (∀ last, Returns
      (fun fuel => goon_load_string demo_host fuel demo_ctx last "f(1, 2, 3)".toList)
      (true, demo_ctx, .list [.int 1, .int 2, .int 3])) ∧
    (∀ last, Returns
      (fun fuel => goon_load_string demo_host fuel demo_ctx last "f()".toList)
      (true, demo_ctx, .list [])) ∧
    (∀ last, Returns
      (fun fuel => goon_load_string demo_host fuel demo_ctx last "f(let a = 1, a)".toList)
      (true, { env := [("a".toList, .int 1), ("f".toList, .builtin 0)], error := none,
               base_path := none }, .list [.int 1, .int 1])) ∧
    (∀ last, Returns
      (fun fuel => goon_load_string demo_host fuel demo_ctx last "g(let b = 1, b)".toList)
      (true, { env := [("b".toList, .int 1), ("f".toList, .builtin 0)], error := none,
               base_path := none }, .nil)) ∧
    (∀ last, Returns
      (fun fuel => goon_load_string demo_host fuel demo_ctx last "let h = 5; h(1)".toList)
      (true, { env := [("h".toList, .int 5), ("f".toList, .builtin 0)], error := none,
               base_path := none }, .nil)) := by
  refine ⟨?_, ?_, ?_, ?_, ?_, ?_, ?_, ?_⟩
  · intro p q name vs hid hname hl1 hparen hl2 hargs hlen hq hlq
    have hloop := parse_call_loop_args host hargs (lookup p.ctx name) _ []
      (by rw [List.length_nil]; omega)
      (by rw [List.nil_append]; exact parse_call_loop_close host _ vs hq hlq)
    have hprim := parse_primary_call host hid hname hl1 hparen hl2 _ hloop
    constructor
    · intro f hf
      rw [hf] at hprim
      exact hprim
    · intro hf
      have hnil : (match lookup p.ctx name with
          | .builtin f => host.builtin f q.ctx vs
          | _ => Goon_Value.nil) = .nil := by
        cases hfn : lookup p.ctx name <;> first | rfl | exact absurd hfn (hf _)
      rw [hnil] at hprim
      exact hprim
  · intro ctx name f
    exact lookup_define ctx name (.builtin f)
  · intro ctx name h f hf
    rw [lookup_unbound ctx name h] at hf
    cases hf
  · exact loaded_true demo_host (n := 20) (by decide!)
  · exact loaded_true demo_host (n := 20) (by decide!)
  · exact loaded_true demo_host (n := 20) (by decide!)
  · exact loaded_true demo_host (n := 20) (by decide!)
  · exact loaded_true demo_host (n := 20) (by decide!)

/-- The call `f(7, 8)`, with `f` registered as the function that returns the
list of its arguments, meets the hypotheses of the rule for calls in C14 and
gives the list 7, 8. -/
theorem C14_call_applies_callable_to_arguments_witness :
    CallArgs demo_host call_demo.next.next [.int 7, .int 8] call_demo_close ∧
    Returns (fun fuel => parse_primary demo_host fuel call_demo)
      (demo_host.builtin 0 call_demo_close.ctx [.int 7, .int 8], call_demo_close.next) ∧
    demo_host.builtin 0 call_demo_close.ctx [.int 7, .int 8] = .list [.int 7, .int 8] :=
  have hargs : CallArgs demo_host call_demo.next.next [.int 7, .int 8] call_demo_close :=
    @CallArgs.cons demo_host call_demo.next.next call_demo_1 call_demo_close (.int 7) [.int 8]
      (by decide!) ⟨rfl, 3, of_returned (by decide!)⟩ (fun _ => by decide!)
      (@CallArgs.cons demo_host call_demo_1.skip_comma call_demo_2 call_demo_close (.int 8) []
        (by decide!) ⟨rfl, 3, of_returned (by decide!)⟩ (fun _ => by decide!)
        (CallArgs.nil call_demo_close))
  ⟨hargs, ((C14_call_applies_callable_to_arguments demo_host).1 call_demo call_demo_close
    "f".toList [.int 7, .int 8] (by decide!) (by decide!) (by decide!) (by decide!)
    (by decide!) hargs (by decide) (by decide!) (by decide!)).1 0 (same_eq _ _ (by decide!)),
    rfl⟩

/-! ## C20: a call with more than sixteen arguments -/

theorem read_args_sound (host : Host) (fuel : Nat) :
    ∀ (k : Nat) (p q : Parser) (vs : List Goon_Value),
      read_args host fuel k p = some (vs, q) → CallArgs host p vs q ∧ vs.length = k := by
  intro k
  induction k with
  | zero =>
    intro p q vs h
    rw [read_args] at h
    cases h
    exact ⟨CallArgs.nil p, rfl⟩
  | succ k ih =>
    intro p q vs h
    rw [read_args] at h
    by_cases hp : p.tok = TOK_RPAREN
    · rw [if_pos hp] at h; cases h
    · rw [if_neg hp] at h
      cases he : parse_expr host fuel p with
      | crash => rw [he] at h; cases h
      | timeout => rw [he] at h; cases h
      | ret r =>
        obtain ⟨v, p1⟩ := r
        rw [he] at h
        dsimp only at h
        cases hv : v.isNull with
        | true => rw [hv] at h; cases h
        | false =>
          rw [hv] at h
          simp only [Bool.false_eq_true, if_false] at h
          by_cases hc : p1.tok = TOK_COMMA ∧ ¬ p1.lexes
          · rw [if_pos hc] at h; cases h
          · rw [if_neg hc] at h
            cases hr : read_args host fuel k p1.skip_comma with
            | none => rw [hr] at h; cases h
            | some r1 =>
              obtain ⟨vs1, q1⟩ := r1
              rw [hr] at h
              cases h
              obtain ⟨hargs, hlen⟩ := ih _ _ _ hr
              refine ⟨CallArgs.cons hp ⟨hv, fuel, he⟩ ?_ hargs, by rw [List.length_cons, hlen]⟩
              intro hcomma
              by_contra hl
              exact hc ⟨hcomma, hl⟩

theorem of_read_gives {o : Option (List Goon_Value × Parser)} {vs : List Goon_Value}
    {q : Parser} (h : read_gives o vs q = true) : o = some (vs, q) := by
  unfold read_gives at h
  cases o with
  | none => cases h
  | some r =>
    obtain ⟨r1, r2⟩ := r
    simp only [Bool.and_eq_true] at h
    rw [same_items_eq _ _ h.1, parser_same_eq h.2]

theorem parse_call_loop_full (host : Host) {q : Parser} (fn : Goon_Value)
    (args : List Goon_Value) (hlen : args.length = 16) (hq : q.tok ≠ TOK_RPAREN) :
    ∃ m0, ∀ m, m0 ≤ m → parse_call_loop host m q fn args =
      .ret (.NULL, { q with lex := { q.lex with error := some "expected )".toList } }) := by
  refine ⟨1, fun m hle => ?_⟩
  obtain ⟨k, rfl⟩ : ∃ k, m = k + 1 := ⟨m - 1, by omega⟩
  have hcond : ¬ (q.tok ≠ TOK_RPAREN ∧ q.tok ≠ TOK_EOF ∧ args.length < 16) :=
    fun h => by omega
  rw [parse_call_loop, if_neg hcond, if_pos hq]
  rfl

/-- When the expressions before it evaluate and the next one returns null, the
loop of `goon_load_string` returns false and leaves `last_result` at the value
of the last expression that evaluated. -/
theorem load_loop_fails (host : Host) {p q pf : Parser} {vs : List Goon_Value}
    (h : Exprs host p vs q) (hq : q.tok ≠ TOK_EOF)
    (hf : ∃ n0, ∀ n, n0 ≤ n → parse_expr host n q = .ret (.NULL, pf)) :
    ∀ last, Returns (fun fuel => goon_load_string_loop host fuel p last)
      (false,
        (match pf.lex.error with
          | some e => { pf.ctx with error := some e }
          | none => pf.ctx),
        vs.getLastD last) := by
  induction h with
  | nil p =>
    intro last
    obtain ⟨n0, hn⟩ := hf
    refine ⟨n0 + 1, fun fuel hle => ?_⟩
    obtain ⟨n, rfl⟩ : ∃ n, fuel = n + 1 := ⟨fuel - 1, by omega⟩
    dsimp only
    rw [goon_load_string_loop, if_pos hq, hn n (by omega)]
    simp only [Outcome.bind, Goon_Value.isNull, if_true, List.getLastD_nil]
    cases pf.lex.error <;> rfl
  | @cons p p1 q v vs hp hv _ ih =>
    intro last
    obtain ⟨n1, h1⟩ := evals_mono host hv
    obtain ⟨n2, h2⟩ := ih hq hf v
    refine ⟨max n1 n2 + 1, fun fuel hle => ?_⟩
    obtain ⟨n, rfl⟩ : ∃ n, fuel = n + 1 := ⟨fuel - 1, by omega⟩
    dsimp only
    rw [goon_load_string_loop]
    have h2n := h2 n (by omega)
    dsimp only at h2n
    rw [if_pos hp, h1 n (by omega)]
    simp only [Outcome.bind, hv.1]
    rw [getLastD_cons]
    exact h2n

/-- An evaluation of a load whose first token is read without an error, made
with `last_result` null, gives the result for every earlier `last_result` and
every larger amount of fuel. -/
theorem loaded_lexed (host : Host) {n : Nat} {ctx c : Goon_Ctx} {src : List Char}
    {b : Bool} {v : Goon_Value}
    (h : (goon_load_string host n ctx .NULL src).loaded b c v = true)
    (hl : (lexer_next (lexer_init src)).1 = true) (last : Goon_Value) :
    Returns (fun fuel => goon_load_string host fuel ctx last src) (b, c, v) := by
  have e := of_loaded h
  apply goon_load_string_returns host (n := n)
  unfold goon_load_string at e ⊢
  dsimp only at e ⊢
  rw [if_pos hl] at e ⊢
  exact e

theorem load_fails (host : Host) {ctx : Goon_Ctx} {src : List Char} {q pf : Parser}
    {vs : List Goon_Value} (hl : (lexer_next (lexer_init src)).1 = true)
    (h : Exprs host (Parser.start ctx src) vs q) (hq : q.tok ≠ TOK_EOF)
    (hf : ∃ n0, ∀ n, n0 ≤ n → parse_expr host n q = .ret (.NULL, pf)) (last : Goon_Value) :
    Returns (fun fuel => goon_load_string host fuel ctx last src)
      (false,
        (match pf.lex.error with
          | some e => { pf.ctx with error := some e }
          | none => pf.ctx),
        vs.getLastD .NULL) := by
  obtain ⟨n, hn⟩ := load_loop_fails host h hq hf .NULL
  refine ⟨n, fun fuel hle => ?_⟩
  have h1 := hn fuel hle
  dsimp only at h1 ⊢
  unfold goon_load_string
  dsimp only
  rw [if_pos hl]
  exact h1

theorem parse_expr_null_primary (host : Host) {p pf : Parser}
    (h1 : p.tok ≠ TOK_LET) (h2 : p.tok ≠ TOK_IF)
    (h : ∃ n0, ∀ n, n0 ≤ n → parse_primary host n p = .ret (.NULL, pf)) :
    ∃ n0, ∀ n, n0 ≤ n → parse_expr host n p = .ret (.NULL, pf) := by
  obtain ⟨n0, hn⟩ := h
  refine ⟨n0 + 1, fun n hle => ?_⟩
  obtain ⟨m, rfl⟩ : ∃ m, n = m + 1 := ⟨n - 1, by omega⟩
  rw [parse_expr, if_neg h1, if_neg h2, hn m (by omega)]
  rfl

/-- For a call whose first sixteen arguments evaluate (`CallArgs` reading
sixteen values up to `q`) and which does not close there, because a
seventeenth argument is written, `parse_primary` and `parse_expr` return null
with the error `expected )` in the state after the sixteenth argument: the
callable the name is bound to is not applied, whatever it is.  When the call is
a top-level expression of the source, after any number of expressions that
evaluated, `goon_load_string` returns false with that error on the context.
With a host whose function `f` returns the list of its arguments, the source
`f(1, 2, ..., 17)` fails so, with no result, while `f(1, 2, ..., 16)` loads and
gives the list of the sixteen values. -/
theorem seventeenth_argument_fails_call (host : Host) :
    (∀ (p q : Parser) (name : List Char) (vs : List Goon_Value),
        p.tok = TOK_IDENT → p.lex.current.string = some name → p.lexes →
        p.next.tok = TOK_LPAREN → p.next.lexes →
        CallArgs host p.next.next vs q → vs.length = 16 → q.tok ≠ TOK_RPAREN →
        Returns (fun fuel => parse_primary host fuel p)
          (.NULL, { q with lex := { q.lex with error := some "expected )".toList } }) ∧
        Returns (fun fuel => parse_expr host fuel p)
          (.NULL, { q with lex := { q.lex with error := some "expected )".toList } }) ∧
        ∀ (ctx : Goon_Ctx) (last : Goon_Value) (src : List Char) (before : List Goon_Value),
          (lexer_next (lexer_init src)).1 = true →
          Exprs host (Parser.start ctx src) before p →
          Returns (fun fuel => goon_load_string host fuel ctx last src)
            (false, { q.ctx with error := some "expected )".toList },
              before.getLastD .NULL)) ∧
    (∀ last, Returns
      (fun fuel => goon_load_string demo_host fuel demo_ctx last many_args_src)
      (false, { demo_ctx with error := some "expected )".toList }, .NULL)) ∧
    (∀ last, Returns
      (fun fuel => goon_load_string demo_host fuel demo_ctx last
        "f(1, 2, 3, 4, 5, 6, 7, 8, 9, 10, 11, 12, 13, 14, 15, 16)".toList)
      (true, demo_ctx,
        .list [.int 1, .int 2, .int 3, .int 4, .int 5, .int 6, .int 7, .int 8, .int 9,
          .int 10, .int 11, .int 12, .int 13, .int 14, .int 15, .int 16])) := by
  refine ⟨?_, ?_, ?_⟩
  · intro p q name vs hid hname hl1 hparen hl2 hargs hlen hq
    have hloop := parse_call_loop_args host hargs (lookup p.ctx name) _ []
      (by rw [List.length_nil]; omega)
      (by rw [List.nil_append]; exact parse_call_loop_full host _ vs hlen hq)
    have hprim := parse_primary_call host hid hname hl1 hparen hl2 _ hloop
    have hexpr := parse_expr_null_primary host (by rw [hid]; decide) (by rw [hid]; decide) hprim
    refine ⟨hprim, hexpr, ?_⟩
    intro ctx last src before hl hex
    exact load_fails host hl hex (by rw [hid]; decide) hexpr last
  · exact loaded_lexed demo_host (n := 30) (by decide!) (by decide!)
  · exact loaded_true demo_host (n := 30) (by decide!)

/-- The call of `many_args_src` meets the hypotheses of that rule: its first
sixteen arguments evaluate and the seventeenth follows. -/
theorem seventeenth_argument_fails_call_demo :
    CallArgs demo_host many_args_demo.next.next
      [.int 1, .int 2, .int 3, .int 4, .int 5, .int 6, .int 7, .int 8, .int 9,
        .int 10, .int 11, .int 12, .int 13, .int 14, .int 15, .int 16] many_args_demo_17 ∧
    Returns (fun fuel => parse_primary demo_host fuel many_args_demo)
      (.NULL, { many_args_demo_17 with
        lex := { many_args_demo_17.lex with error := some "expected )".toList } }) :=
  have hread := read_args_sound demo_host 3 16 many_args_demo.next.next many_args_demo_17
    [.int 1, .int 2, .int 3, .int 4, .int 5, .int 6, .int 7, .int 8, .int 9,
      .int 10, .int 11, .int 12, .int 13, .int 14, .int 15, .int 16]
    (of_read_gives (by decide!))
  ⟨hread.1, ((seventeenth_argument_fails_call demo_host).1 many_args_demo
    many_args_demo_17 "f".toList _ (by decide!) (by decide!) (by decide!) (by decide!)
    (by decide!) hread.1 hread.2 (by decide!)).1⟩

/-- C20 fails on the code.  With a host whose function `f` returns the list of
its arguments, the inner call of the source `f(f(1, 2, ..., 17)` is written
with seventeen arguments and `parse_expr` returns null for it with the error
`expected )`, at the seventeenth argument; `parse_call` does not test the
argument for null, so the outer call goes on with the argument 17, is closed
by the parenthesis of the inner call and applies `f` to a null pointer and 17:
`goon_load_string` returns true with that list as result and no message on the
context.  With an unbound outer name, `g(f(1, 2, ..., 17)`, the load returns
true as well.  As the operand of a spread, `{...f(1, 2, ..., 17)}`, the call
makes the load fail, with the message `expected field name` and not
`expected )`.  At top level, `f(1, 2, ..., 17)`, and as a list item,
`[f(1, 2, ..., 17)]`, the load fails with `expected )`. -/
theorem C20_nested_call_with_seventeen_arguments_loads :
    (∀ last, Returns
      (fun fuel => goon_load_string demo_host fuel demo_ctx last nested_args_src)
      (true, demo_ctx, .list [.NULL, .int 17])) ∧
    (∀ last, Returns
      (fun fuel => goon_load_string demo_host fuel demo_ctx last unbound_args_src)
      (true, demo_ctx, .nil)) ∧
    goon_get_error demo_ctx = none ∧
    parse_expr demo_host 30 nested_args_demo =
      .ret (.NULL, { nested_args_demo_17 with
        lex := { nested_args_demo_17.lex with error := some "expected )".toList } }) ∧
    (nested_args_demo_17.tok = TOK_INT ∧ nested_args_demo_17.lex.current.integer = 17) ∧
    (∀ last, Returns
      (fun fuel => goon_load_string demo_host fuel demo_ctx last spread_args_src)
      (false, { demo_ctx with error := some "expected field name".toList }, .NULL)) ∧
    (∀ last, Returns
      (fun fuel => goon_load_string demo_host fuel demo_ctx last many_args_src)
      (false, { demo_ctx with error := some "expected )".toList }, .NULL)) ∧
    (∀ last, Returns
      (fun fuel => goon_load_string demo_host fuel demo_ctx last item_args_src)
      (false, { demo_ctx with error := some "expected )".toList }, .NULL)) := by
  refine ⟨?_, ?_, rfl, ?_, ?_, ?_, ?_, ?_⟩
  · exact loaded_true demo_host (n := 30) (by decide!)
  · exact loaded_true demo_host (n := 30) (by decide!)
  · exact of_returned (by decide!)
  · decide!
  · exact loaded_lexed demo_host (n := 30) (by decide!) (by decide!)
  · exact loaded_lexed demo_host (n := 30) (by decide!) (by decide!)
  · exact loaded_lexed demo_host (n := 30) (by decide!) (by decide!)

/-! ## C12: imports -/

theorem read_exprs_sound (host : Host) (fuel : Nat) :
    ∀ (k : Nat) (p q : Parser) (vs : List Goon_Value),
      read_exprs host fuel k p = some (vs, q) → Exprs host p vs q ∧ vs.length = k := by
  intro k
  induction k with
  | zero =>
    intro p q vs h
    rw [read_exprs] at h
    cases h
    exact ⟨Exprs.nil p, rfl⟩
  | succ k ih =>
    intro p q vs h
    rw [read_exprs] at h
    by_cases hp : p.tok = TOK_EOF
    · rw [if_pos hp] at h; cases h
    · rw [if_neg hp] at h
      cases he : parse_expr host fuel p with
      | crash => rw [he] at h; cases h
      | timeout => rw [he] at h; cases h
      | ret r =>
        obtain ⟨v, p1⟩ := r
        rw [he] at h
        dsimp only at h
        cases hv : v.isNull with
        | true => rw [hv] at h; cases h
        | false =>
          rw [hv] at h
          simp only [Bool.false_eq_true, if_false] at h
          cases hr : read_exprs host fuel k p1 with
          | none => rw [hr] at h; cases h
          | some r1 =>
            obtain ⟨vs1, q1⟩ := r1
            rw [hr] at h
            cases h
            obtain ⟨hex, hlen⟩ := ih _ _ _ hr
            exact ⟨Exprs.cons hp ⟨hv, fuel, he⟩ hex, by rw [List.length_cons, hlen]⟩

theorem import_loop_exprs (host : Host) {p q : Parser} {vs : List Goon_Value}
    (h : Exprs host p vs q) (hq : q.tok = TOK_EOF) :
    ∀ result, ∃ n0, ∀ n, n0 ≤ n →
      parse_import_loop host n p result = .ret (vs.getLastD result, q) := by
  induction h with
  | nil p =>
    intro result
    refine ⟨1, fun n hle => ?_⟩
    obtain ⟨m, rfl⟩ : ∃ m, n = m + 1 := ⟨n - 1, by omega⟩
    rw [parse_import_loop, if_neg (not_not.mpr hq)]
    rfl
  | @cons p p1 q v vs hp hv _ ih =>
    intro result
    obtain ⟨n1, h1⟩ := evals_mono host hv
    obtain ⟨n2, h2⟩ := ih hq v
    refine ⟨max n1 n2 + 1, fun n hle => ?_⟩
    obtain ⟨m, rfl⟩ : ∃ m, n = m + 1 := ⟨n - 1, by omega⟩
    rw [parse_import_loop, if_pos hp, h1 m (by omega)]
    simp only [Outcome.bind, hv.1]
    rw [getLastD_cons]
    exact h2 m (by omega)

theorem next_ctx (p : Parser) : p.next.ctx = p.ctx := by
  unfold Parser.next
  rfl

theorem parse_primary_import (host : Host) {p iq : Parser} {path source : List Char}
    {vs : List Goon_Value}
    (himp : p.tok = TOK_IMPORT) (hl1 : p.lexes) (hparen : p.next.tok = TOK_LPAREN)
    (hl2 : p.next.lexes) (hstr : p.next.next.tok = TOK_STRING)
    (hpath : p.next.next.lex.current.string = some path) (hl3 : p.next.next.lexes)
    (hclose : p.next.next.next.tok = TOK_RPAREN) (hl4 : p.next.next.next.lexes)
    (hopen : host.fopen (parse_import_path host p.ctx.base_path path) = some source)
    (hlex : (lexer_next (lexer_init source)).1 = true)
    (hex : Exprs host
      (Parser.start
        { p.ctx with base_path := some (parse_import_path host p.ctx.base_path path) } source)
      vs iq)
    (hq : iq.tok = TOK_EOF) :
    ∃ n0, ∀ n, n0 ≤ n → parse_primary host n p =
      .ret (vs.getLastD .NULL,
        { ctx := { iq.ctx with base_path := p.ctx.base_path },
          lex := p.next.next.next.next.lex }) := by
  obtain ⟨n0, hn⟩ := import_loop_exprs host hex hq .NULL
  refine ⟨n0 + 2, fun n hle => ?_⟩
  obtain ⟨m, rfl⟩ : ∃ m, n = m + 2 := ⟨n - 2, by omega⟩
  have himp' : p.lex.current.type = TOK_IMPORT := himp
  have e : p.next.next.next.next.ctx = p.ctx := by
    rw [next_ctx, next_ctx, next_ctx, next_ctx]
  rw [parse_primary]
  simp only [himp']
  rw [parse_import, advance_eq hl1, if_neg (not_not.mpr hparen), advance_eq hl2,
    if_neg (not_not.mpr hstr), hpath]
  dsimp only
  rw [advance_eq hl3, if_neg (not_not.mpr hclose), advance_eq hl4, e, hopen]
  dsimp only
  rw [if_pos hlex]
  have h := hn m (by omega)
  unfold Parser.start at h
  dsimp only at h
  rw [h]
  rfl

/-- C12: with the file system given by `host.fopen`, an `import("path")` whose
resolved file opens and whose top-level expressions evaluate one after the
other to the end of the file (`Exprs`, from the first token of the file, in the
context of the importer with only `base_path` set to the file) returns the
value of the last of them.  The context it leaves is the one the last
expression of the file left, with `base_path` put back: the file is evaluated
in the environment of the importer, and what it defines is what later lookups
see.  With a host whose file `lib.goon` holds `let shared = 2; [shared, own]`:
`import("lib")` gives the list 2, nil and leaves `shared` bound to 2;
`let own = 1; import("lib")` gives the list 2, 1; and after
`let own = 1; let shared = 1; import("lib")` the expression `shared` gives 2,
with one binding of `shared`. -/
theorem C12_import_evaluates_in_importers_environment (host : Host) :
    (∀ (p iq : Parser) (path source : List Char) (vs : List Goon_Value) (hne : vs ≠ []),
        p.tok = TOK_IMPORT → p.lexes → p.next.tok = TOK_LPAREN → p.next.lexes →
        p.next.next.tok = TOK_STRING → p.next.next.lex.current.string = some path →
        p.next.next.lexes → p.next.next.next.tok = TOK_RPAREN → p.next.next.next.lexes →
        host.fopen (parse_import_path host p.ctx.base_path path) = some source →
        (lexer_next (lexer_init source)).1 = true →
        Exprs host
          (Parser.start
            { p.ctx with base_path := some (parse_import_path host p.ctx.base_path path) }
            source)
          vs iq →
        iq.tok = TOK_EOF →
        Returns (fun fuel => parse_primary host fuel p)
          (vs.getLast hne,
            { ctx := { iq.ctx with base_path := p.ctx.base_path },
              lex := p.next.next.next.next.lex })) ∧
    (∀ last, Returns
      (fun fuel => goon_load_string demo_host fuel goon_create last "import(\"lib\")".toList)
      (true, { env := [("shared".toList, .int 2)], error := none, base_path := none },
        .list [.int 2, .nil])) ∧
    (∀ last, Returns
      (fun fuel =>
        goon_load_string demo_host fuel goon_create last "let own = 1; import(\"lib\")".toList)
      (true,
        { env := [("shared".toList, .int 2), ("own".toList, .int 1)], error := none,
          base_path := none },
        .list [.int 2, .int 1])) ∧
    (∀ last, Returns
      (fun fuel =>
        goon_load_string demo_host fuel goon_create last
          "let own = 1; let shared = 1; import(\"lib\") shared".toList)
      (true,
        { env := [("shared".toList, .int 2), ("own".toList, .int 1)], error := none,
          base_path := none },
        .int 2)) := by
  refine ⟨?_, ?_, ?_, ?_⟩
  · intro p iq path source vs hne himp hl1 hparen hl2 hstr hpath hl3 hclose hl4 hopen hlex
      hex hq
    have h := parse_primary_import host himp hl1 hparen hl2 hstr hpath hl3 hclose hl4 hopen
      hlex hex hq
    have hlast : vs.getLastD .NULL = vs.getLast hne := by
      cases vs with
      | nil => exact absurd rfl hne
      | cons v vs => rw [getLastD_cons, List.getLast_eq_getLastD]
    rw [hlast] at h
    exact h
  · exact loaded_true demo_host (n := 20) (by decide!)
  · exact loaded_true demo_host (n := 20) (by decide!)
  · exact loaded_true demo_host (n := 20) (by decide!)

/-- The source `import("lib")`, with the file `lib.goon` of `demo_host`, meets
the hypotheses of the rule for imports in C12. -/
theorem C12_import_evaluates_in_importers_environment_witness :
    Exprs demo_host import_demo_file [.int 2, .list [.int 2, .nil]] import_demo_end ∧
    Returns (fun fuel => parse_primary demo_host fuel import_demo)
      (([.int 2, .list [.int 2, .nil]] : List Goon_Value).getLast (by simp),
        { ctx := { import_demo_end.ctx with base_path := import_demo.ctx.base_path },
          lex := import_demo.next.next.next.next.lex }) :=
  have hread := read_exprs_sound demo_host 12 2 import_demo_file import_demo_end
    [.int 2, .list [.int 2, .nil]] (of_read_gives (by decide!))
  ⟨hread.1, (C12_import_evaluates_in_importers_environment demo_host).1 import_demo
    import_demo_end "lib".toList "let shared = 2; [shared, own]".toList
    [.int 2, .list [.int 2, .nil]] (by simp) (by decide!) (by decide!) (by decide!)
    (by decide!) (by decide!) (by decide!) (by decide!) (by decide!) (by decide!)
    (by decide!) (by decide!) hread.1 (by decide!)⟩

/-! ## C15: the result after a failed load -/

/-- A loop of `goon_load_string` that returns false has evaluated some
expressions, met one that returned null, and left `last_result` at the value of
the last one that evaluated. -/
theorem load_loop_false (host : Host) :
    ∀ (fuel : Nat) (p : Parser) (last : Goon_Value) (c : Goon_Ctx) (v : Goon_Value),
      goon_load_string_loop host fuel p last = .ret (false, c, v) →
      ∃ (vs : List Goon_Value) (q pf : Parser) (n : Nat),
        Exprs host p vs q ∧ q.tok ≠ TOK_EOF ∧ parse_expr host n q = .ret (.NULL, pf) ∧
        v = vs.getLastD last := by
  intro fuel
  induction fuel with
  | zero =>
    intro p last c v h
    rw [goon_load_string_loop] at h
    cases h
  | succ fuel ih =>
    intro p last c v h
    rw [goon_load_string_loop] at h
    by_cases hp : p.tok = TOK_EOF
    · rw [if_neg (not_not.mpr hp)] at h
      cases h
    · rw [if_pos hp] at h
      cases he : parse_expr host fuel p with
      | crash => rw [he] at h; cases h
      | timeout => rw [he] at h; cases h
      | ret r =>
        obtain ⟨v1, p1⟩ := r
        rw [he] at h
        simp only [Outcome.bind] at h
        cases hv : v1.isNull with
        | true =>
          have hnull : v1 = .NULL := by cases v1 <;> first | rfl | cases hv
          subst hnull
          rw [hv] at h
          simp only [if_true] at h
          have hlast : v = last := by
            cases hpe : p1.lex.error <;> rw [hpe] at h <;> cases h <;> rfl
          exact ⟨[], p, p1, fuel, Exprs.nil p, hp, he, hlast⟩
        | false =>
          rw [hv] at h
          simp only [Bool.false_eq_true, if_false] at h
          obtain ⟨vs, q, pf, n, hex, hq, hn, hlast⟩ := ih p1 v1 c v h
          exact ⟨v1 :: vs, q, pf, n, Exprs.cons hp ⟨hv, fuel, he⟩ hex, hq, hn,
            by rw [getLastD_cons]; exact hlast⟩

/-- C15, as the code has it: when `goon_load_string` returns false after its
first token was read, some top-level expressions of the source have evaluated
one after the other (`Exprs`), the next one returned null, and `last_result`,
which is what `goon_eval_result` returns, is the value of the last one that
evaluated, null only when none did.  Conversely every source whose first
expressions evaluate and whose next one returns null fails so.  The source
`1 )` fails with 1 as the result. -/
theorem C15_failed_load_keeps_last_evaluated_value (host : Host) :
    (∀ (fuel : Nat) (ctx : Goon_Ctx) (last : Goon_Value) (src : List Char) (c : Goon_Ctx)
        (v : Goon_Value),
        (lexer_next (lexer_init src)).1 = true →
        goon_load_string host fuel ctx last src = .ret (false, c, v) →
        ∃ (vs : List Goon_Value) (q pf : Parser) (n : Nat),
          Exprs host (Parser.start ctx src) vs q ∧ q.tok ≠ TOK_EOF ∧
          parse_expr host n q = .ret (.NULL, pf) ∧
          goon_eval_result v = vs.getLastD .NULL) ∧
    (∀ (ctx : Goon_Ctx) (last : Goon_Value) (src : List Char) (vs : List Goon_Value)
        (q pf : Parser) (n : Nat),
        (lexer_next (lexer_init src)).1 = true →
        Exprs host (Parser.start ctx src) vs q → q.tok ≠ TOK_EOF →
        parse_expr host n q = .ret (.NULL, pf) →
        ∃ c : Goon_Ctx,
          Returns (fun fuel => goon_load_string host fuel ctx last src)
            (false, c, vs.getLastD .NULL)) ∧
    (∀ last, Returns
      (fun fuel => goon_load_string no_host fuel goon_create last "1 )".toList)
      (false, goon_create, .int 1)) := by
  refine ⟨?_, ?_, ?_⟩
  · intro fuel ctx last src c v hl h
    unfold goon_load_string at h
    dsimp only at h
    rw [if_pos hl] at h
    exact load_loop_false host fuel _ .NULL c v h
  · intro ctx last src vs q pf n hl hex hq hn
    exact ⟨_, load_fails host hl hex hq ⟨n, fun m hle => parse_expr_mono host hn hle⟩ last⟩
  · exact loaded_lexed no_host (n := 20) (by decide!) (by decide!)

/-- The source `1 )` meets the hypotheses of the first part of C15. -/
theorem C15_failed_load_keeps_last_evaluated_value_witness :
    (lexer_next (lexer_init "1 )".toList)).1 = true ∧
    goon_load_string no_host 20 goon_create .NULL "1 )".toList =
      .ret (false, goon_create, .int 1) ∧
    ∃ (vs : List Goon_Value) (q pf : Parser) (n : Nat),
      Exprs no_host (Parser.start goon_create "1 )".toList) vs q ∧ q.tok ≠ TOK_EOF ∧
      parse_expr no_host n q = .ret (.NULL, pf) ∧
      goon_eval_result (.int 1) = vs.getLastD .NULL :=
  ⟨by decide!, of_loaded (by decide!),
    (C15_failed_load_keeps_last_evaluated_value no_host).1 20 goon_create .NULL "1 )".toList
      goon_create (.int 1) (by decide!) (of_loaded (by decide!))⟩

/-- The claim C15 fails on the source `1 )`: the load returns false and
`goon_eval_result` then yields 1, not null. -/
theorem C15_failed_load_has_no_result_counterexample :
    goon_load_string no_host 20 goon_create .NULL "1 )".toList =
      .ret (false, goon_create, .int 1) ∧
    goon_eval_result (.int 1) ≠ .NULL ∧
    ¬ (∀ (fuel : Nat) (src : List Char) (c : Goon_Ctx) (v : Goon_Value),
        goon_load_string no_host fuel goon_create .NULL src = .ret (false, c, v) →
        goon_eval_result v = .NULL) :=
  have h : goon_load_string no_host 20 goon_create .NULL "1 )".toList =
      .ret (false, goon_create, .int 1) := of_loaded (by decide!)
  ⟨h, fun e => Goon_Value.noConfusion e,
    fun hall => Goon_Value.noConfusion (hall 20 "1 )".toList goon_create (.int 1) h)⟩

/-! ## C16 and C17: errors that leave no message, errors that do not abort -/

/-- C16 fails on the code.  In a fresh context the source `)` makes
`goon_load_string` return false with no message on the context, so that
`goon_get_error` returns null; so do the source `[1,,2]` and, with a host whose
file `bad.goon` holds `let 1`, the source `import("bad")`.  The source `let 1`
itself fails with the message `expected identifier after let`. -/
theorem C16_failed_load_without_message :
    (∀ last, Returns
      (fun fuel => goon_load_string no_host fuel goon_create last ")".toList)
      (false, goon_create, .NULL)) ∧
    (∀ last, Returns
      (fun fuel => goon_load_string no_host fuel goon_create last "[1,,2]".toList)
      (false, goon_create, .NULL)) ∧
    (∀ last, Returns
      (fun fuel => goon_load_string demo_host fuel goon_create last "import(\"bad\")".toList)
      (false, goon_create, .NULL)) ∧
    goon_get_error goon_create = none ∧
    (∀ last, Returns
      (fun fuel => goon_load_string demo_host fuel goon_create last "let 1".toList)
      (false, { goon_create with error := some "expected identifier after let".toList },
        .NULL)) := by
  refine ⟨?_, ?_, ?_, rfl, ?_⟩
  · exact loaded_lexed no_host (n := 20) (by decide!) (by decide!)
  · exact loaded_lexed no_host (n := 20) (by decide!) (by decide!)
  · exact loaded_lexed demo_host (n := 20) (by decide!) (by decide!)
  · exact loaded_lexed demo_host (n := 20) (by decide!) (by decide!)

/-- C17 fails on the code.  In the source `[...let 1]` the operand of the
spread raises `expected identifier after let`, yet `goon_load_string` returns
true: the list goes on with the item `1`, the result is the list holding 1 and
the context carries no message.  In `f(let 1)` the argument raises the same
error and the function is called all the same, with a null pointer and 1.  The
same error in a list item, `[let 1]`, and in parentheses, `(let 1)`, does abort
the load. -/
theorem C17_error_in_spread_operand_does_not_abort :
    (∀ last, Returns
      (fun fuel => goon_load_string no_host fuel goon_create last "[...let 1]".toList)
      (true, goon_create, .list [.int 1])) ∧
    (∀ last, Returns
      (fun fuel => goon_load_string demo_host fuel demo_ctx last "f(let 1)".toList)
      (true, demo_ctx, .list [.NULL, .int 1])) ∧
    (∃ q : Parser, parse_expr no_host 20
        (Parser.start goon_create "[...let 1]".toList).next.next =
      .ret (.NULL, q) ∧ q.lex.error = some "expected identifier after let".toList) ∧
    (∀ last, Returns
      (fun fuel => goon_load_string no_host fuel goon_create last "[let 1]".toList)
      (false, { goon_create with error := some "expected identifier after let".toList },
        .NULL)) ∧
    (∀ last, Returns
      (fun fuel => goon_load_string no_host fuel goon_create last "(let 1)".toList)
      (false, { goon_create with error := some "expected )".toList }, .NULL)) := by
  refine ⟨?_, ?_, ?_, ?_, ?_⟩
  · exact loaded_true no_host (n := 20) (by decide!)
  · exact loaded_true demo_host (n := 20) (by decide!)
  · refine ⟨{ (Parser.start goon_create "[...let 1]".toList).next.next.next with
        lex := { (Parser.start goon_create "[...let 1]".toList).next.next.next.lex with
          error := some "expected identifier after let".toList } }, ?_, rfl⟩
    exact of_returned (by decide!)
  · exact loaded_lexed no_host (n := 20) (by decide!) (by decide!)
  · exact loaded_lexed no_host (n := 20) (by decide!) (by decide!)

/-! ## C18: compact JSON text as a source

### The tokenizer on compact JSON text -/

theorem rest_cons {L : Lexer} {c : Char} {t : List Char} (h : L.Rest (c :: t)) :
    L.pos < L.len ∧ L.src_at L.pos = c ∧ L.src.drop (L.pos + 1) = t := by
  obtain ⟨hlen, hdrop⟩ := h
  have hlt : L.pos < L.src.length := by
    by_contra hge
    rw [List.drop_eq_nil_of_le (by omega)] at hdrop
    cases hdrop
  have hd := List.drop_eq_getElem_cons hlt
  rw [hdrop] at hd
  refine ⟨by omega, ?_, (List.cons.inj hd).2.symm⟩
  unfold Lexer.src_at
  rw [List.getD_eq_getElem _ _ hlt]
  exact (List.cons.inj hd).1.symm

theorem rest_nil {L : Lexer} (h : L.Rest []) : L.len ≤ L.pos := by
  obtain ⟨hlen, hdrop⟩ := h
  rw [hlen]
  exact List.drop_eq_nil_iff.mp hdrop

theorem rest_step {L L1 : Lexer} {a t : List Char} (h : L.Rest (a ++ t))
    (hsrc : L1.src = L.src) (hlen : L1.len = L.len) (hpos : L1.pos = L.pos + a.length) :
    L1.Rest t := by
  obtain ⟨h1, h2⟩ := h
  refine ⟨by rw [hlen, hsrc, h1], ?_⟩
  rw [hsrc, hpos, ← List.drop_drop, h2, List.drop_left]

theorem skip_whitespace_token (L : Lexer) (c : Char) (hpos : L.pos < L.len)
    (hc : L.src_at L.pos = c)
    (hns : c ≠ ' ' ∧ c ≠ '\t' ∧ c ≠ '\n' ∧ c ≠ '\r' ∧ c ≠ '/') :
    lexer_skip_whitespace L = L := by
  unfold lexer_skip_whitespace
  obtain ⟨n, hn⟩ : ∃ n, L.len - L.pos = n + 1 := ⟨L.len - L.pos - 1, by omega⟩
  rw [hn, lexer_skip_whitespace_loop]
  simp [hpos, hc, hns.1, hns.2.1, hns.2.2.1, hns.2.2.2.1, hns.2.2.2.2]

theorem skip_whitespace_end (L : Lexer) (hpos : L.len ≤ L.pos) :
    lexer_skip_whitespace L = L := by
  unfold lexer_skip_whitespace
  rw [Nat.sub_eq_zero_of_le hpos, lexer_skip_whitespace_loop]

/-- The tokenizer on one of the five punctuation characters of compact JSON. -/
theorem lexer_next_punctuation {L : Lexer} {c : Char} {T : Token_Type} {t : List Char}
    (h : L.Rest (c :: t))
    (hcT : (c, T) ∈ [('{', TOK_LBRACE), ('}', TOK_RBRACE), ('[', TOK_LBRACKET),
      (']', TOK_RBRACKET), (',', TOK_COMMA)]) :
    ∃ cur : Token, cur.type = T ∧
      lexer_next L = (true, { L with current := cur, pos := L.pos + 1 }) := by
  obtain ⟨hpos, hc, hrest⟩ := rest_cons h
  have hnl : ¬ L.len ≤ L.pos := by omega
  have hc2 : L.src[L.pos]?.getD (Char.ofNat 0) = c := by simpa [Lexer.src_at] using hc
  simp only [List.mem_cons, Prod.mk.injEq, List.mem_singleton, List.not_mem_nil, or_false]
    at hcT
  unfold lexer_next
  by_cases hcl : L.current.type = TOK_STRING ∨ L.current.type = TOK_IDENT
  · have hws : c ≠ ' ' ∧ c ≠ '\t' ∧ c ≠ '\n' ∧ c ≠ '\r' ∧ c ≠ '/' →
        lexer_skip_whitespace { L with current := { L.current with string := none } } =
          { L with current := { L.current with string := none } } :=
      skip_whitespace_token _ c hpos hc
    rcases hcT with ⟨rfl, rfl⟩ | ⟨rfl, rfl⟩ | ⟨rfl, rfl⟩ | ⟨rfl, rfl⟩ | ⟨rfl, rfl⟩ <;>
    · simp only [hcl, if_true, hws (by decide)]
      simp +decide [Lexer.src_at, Lexer.emit, hc2, hnl]
  · have hws : c ≠ ' ' ∧ c ≠ '\t' ∧ c ≠ '\n' ∧ c ≠ '\r' ∧ c ≠ '/' →
        lexer_skip_whitespace L = L :=
      skip_whitespace_token _ c hpos hc
    rcases hcT with ⟨rfl, rfl⟩ | ⟨rfl, rfl⟩ | ⟨rfl, rfl⟩ | ⟨rfl, rfl⟩ | ⟨rfl, rfl⟩ <;>
    · simp only [hcl, if_false, hws (by decide)]
      simp +decide [Lexer.src_at, Lexer.emit, hc2, hnl]

/-- The tokenizer at the end of the input. -/
theorem lexer_next_end {L : Lexer} (h : L.Rest []) :
    ∃ cur : Token, cur.type = TOK_EOF ∧ lexer_next L = (true, { L with current := cur }) := by
  have hpos := rest_nil h
  unfold lexer_next
  by_cases hcl : L.current.type = TOK_STRING ∨ L.current.type = TOK_IDENT
  · have hws := skip_whitespace_end { L with current := { L.current with string := none } } hpos
    simp only [hcl, if_true, hws]
    simp +decide [Lexer.emit, hpos]
  · have hws := skip_whitespace_end L hpos
    simp only [hcl, if_false, hws]
    simp +decide [Lexer.emit, hpos]

theorem next_punctuation {p : Parser} {c : Char} {T : Token_Type} {t : List Char}
    (h : p.lex.Rest (c :: t))
    (hcT : (c, T) ∈ [('{', TOK_LBRACE), ('}', TOK_RBRACE), ('[', TOK_LBRACKET),
      (']', TOK_RBRACKET), (',', TOK_COMMA)]) :
    p.lexes ∧ p.next.tok = T ∧ p.next.lex.Rest t := by
  obtain ⟨cur, hcur, heq⟩ := lexer_next_punctuation h hcT
  unfold Parser.lexes Parser.next Parser.tok
  rw [heq]
  exact ⟨rfl, hcur, rest_step (a := [c]) h rfl rfl rfl⟩

theorem next_end {p : Parser} (h : p.lex.Rest []) :
    p.lexes ∧ p.next.tok = TOK_EOF ∧ p.next.lex.Rest [] := by
  obtain ⟨cur, hcur, heq⟩ := lexer_next_end h
  unfold Parser.lexes Parser.next Parser.tok
  rw [heq]
  exact ⟨rfl, hcur, h.1, h.2⟩

/-- After a value of compact JSON text the tokenizer delivers the end of the
input, a comma or a closing bracket. -/
theorem next_delimited {p : Parser} {r : List Char} (h : p.lex.Rest r) (hr : delimited r) :
    p.lexes ∧ (p.next.tok = TOK_EOF ∨ p.next.tok = TOK_COMMA ∨ p.next.tok = TOK_RBRACKET) := by
  rcases hr with rfl | hr | hr
  · exact ⟨(next_end h).1, Or.inl (next_end h).2.1⟩
  · cases r with
    | nil => cases hr
    | cons c t =>
      cases hr
      have := next_punctuation (T := TOK_COMMA) h (by simp)
      exact ⟨this.1, Or.inr (Or.inl this.2.1)⟩
  · cases r with
    | nil => cases hr
    | cons c t =>
      cases hr
      have := next_punctuation (T := TOK_RBRACKET) h (by simp)
      exact ⟨this.1, Or.inr (Or.inr this.2.1)⟩

theorem rest_head_none {L : Lexer} {r : List Char} (h : L.Rest r) (P : Char → Bool)
    (hr : ∀ c, r.head? = some c → P c = false) :
    ¬ (L.pos < L.len ∧ P (L.src_at L.pos) = true) := by
  intro hcond
  cases r with
  | nil => exact absurd hcond.1 (by have := rest_nil h; omega)
  | cons c t =>
    rw [(rest_cons h).2.1, hr c rfl] at hcond
    exact Bool.false_ne_true hcond.2

theorem lexer_pos_add (L : Lexer) (a b : Nat) :
    ({ ({ L with pos := L.pos + a } : Lexer) with
        pos := ({ L with pos := L.pos + a } : Lexer).pos + b } : Lexer) =
      { L with pos := L.pos + (a + b) } := by
  simp [Nat.add_assoc]

/-- The identifier loop of the tokenizer runs over the identifier characters
`ds` and stops at what follows them. -/
theorem lexer_next_ident_run (ds : List Char) :
    ∀ (n : Nat) (L : Lexer) (r : List Char), L.Rest (ds ++ r) →
      (∀ c ∈ ds, is_ident_char c = true) →
      (∀ c, r.head? = some c → is_ident_char c = false) → ds.length ≤ n →
      lexer_next_ident n L = { L with pos := L.pos + ds.length } := by
  induction ds with
  | nil =>
    intro n L r h _ hr _
    cases n with
    | zero => rfl
    | succ n =>
      rw [lexer_next_ident, if_neg (rest_head_none h is_ident_char hr)]
      rfl
  | cons d ds ih =>
    intro n L r h hds hr hn
    obtain ⟨m, rfl⟩ : ∃ m, n = m + 1 := ⟨n - 1, by simp at hn; omega⟩
    obtain ⟨hpos, hc, _⟩ := rest_cons h
    have hcond : L.pos < L.len ∧ is_ident_char (L.src_at L.pos) = true :=
      ⟨hpos, by rw [hc]; exact hds d (List.mem_cons_self d ds)⟩
    rw [lexer_next_ident, if_pos hcond,
      ih m { L with pos := L.pos + 1 } r (rest_step (a := [d]) h rfl rfl rfl)
        (fun c hcm => hds c (List.mem_cons_of_mem d hcm)) hr (by simp at hn; omega),
      lexer_pos_add, List.length_cons, Nat.add_comm 1]

/-- The digit loop of the tokenizer runs over the digits `ds`, accumulating
their value with wrap-around, and stops at what follows them. -/
theorem lexer_next_digits_run (ds : List Char) :
    ∀ (n : Nat) (L : Lexer) (r : List Char) (val : Int), L.Rest (ds ++ r) →
      (∀ c ∈ ds, isdigit c = true) →
      (∀ c, r.head? = some c → isdigit c = false) → ds.length ≤ n →
      lexer_next_digits n L val =
        ({ L with pos := L.pos + ds.length },
          ds.foldl (fun v c => wrap64 (v * 10 + ((c.toNat : Int) - 48))) val) := by
  induction ds with
  | nil =>
    intro n L r val h _ hr _
    cases n with
    | zero => rfl
    | succ n =>
      rw [lexer_next_digits, if_neg (rest_head_none h isdigit hr)]
      rfl
  | cons d ds ih =>
    intro n L r val h hds hr hn
    obtain ⟨m, rfl⟩ : ∃ m, n = m + 1 := ⟨n - 1, by simp at hn; omega⟩
    obtain ⟨hpos, hc, _⟩ := rest_cons h
    have hcond : L.pos < L.len ∧ isdigit (L.src_at L.pos) = true :=
      ⟨hpos, by rw [hc]; exact hds d (List.mem_cons_self d ds)⟩
    rw [lexer_next_digits, if_pos hcond,
      ih m { L with pos := L.pos + 1 } r _ (rest_step (a := [d]) h rfl rfl rfl)
        (fun c hcm => hds c (List.mem_cons_of_mem d hcm)) hr (by simp at hn; omega),
      lexer_pos_add, List.length_cons, Nat.add_comm 1, hc]
    rfl

theorem json_escape_char_cases (x : Char) :
    (json_escape_char x = [x] ∧ x ≠ DQUOTE ∧ x ≠ BACKSLASH) ∨
    (∃ y, json_escape_char x = [BACKSLASH, y] ∧ lexer_next_escape y = x) := by
  unfold json_escape_char
  by_cases h1 : x = DQUOTE
  · exact Or.inr ⟨DQUOTE, by rw [if_pos h1], by rw [h1]; decide⟩
  · by_cases h2 : x = BACKSLASH
    · exact Or.inr ⟨BACKSLASH, by rw [if_neg h1, if_pos h2], by rw [h2]; decide⟩
    · by_cases h3 : x = '\n'
      · exact Or.inr ⟨'n', by rw [if_neg h1, if_neg h2, if_pos h3], by rw [h3]; decide⟩
      · by_cases h4 : x = '\r'
        · exact Or.inr ⟨'r', by rw [if_neg h1, if_neg h2, if_neg h3, if_pos h4],
            by rw [h4]; decide⟩
        · by_cases h5 : x = '\t'
          · exact Or.inr ⟨'t', by rw [if_neg h1, if_neg h2, if_neg h3, if_neg h4, if_pos h5],
              by rw [h5]; decide⟩
          · exact Or.inl ⟨by rw [if_neg h1, if_neg h2, if_neg h3, if_neg h4, if_neg h5], h1, h2⟩

/-- The string loop of the tokenizer, run over the escaped form of `s` up to
the closing quote, collects `s`. -/
theorem lexer_next_string_run (s : List Char) :
    ∀ (n : Nat) (L : Lexer) (r buf : List Char),
      L.Rest (json_escape_string_loop s ++ DQUOTE :: r) →
      (json_escape_string_loop s).length < n →
      lexer_next_string n L buf =
        ({ L with pos := L.pos + (json_escape_string_loop s).length }, buf ++ s) := by
  induction s with
  | nil =>
    intro n L r buf h hn
    obtain ⟨m, rfl⟩ : ∃ m, n = m + 1 := ⟨n - 1, by omega⟩
    have hc := (rest_cons (c := DQUOTE) (t := r) h).2.1
    have hcond : ¬ (L.pos < L.len ∧ L.src_at L.pos ≠ DQUOTE) := fun hcd => hcd.2 hc
    rw [lexer_next_string, if_neg hcond, List.append_nil]
    rfl
  | cons x s ih =>
    intro n L r buf h hn
    rw [json_escape_string_loop] at h hn ⊢
    obtain ⟨m, rfl⟩ : ∃ m, n = m + 1 := ⟨n - 1, by omega⟩
    rcases json_escape_char_cases x with ⟨hx, hq, hb⟩ | ⟨y, hx, hy⟩
    · rw [hx] at h hn ⊢
      obtain ⟨hpos, hc, _⟩ := rest_cons (c := x) h
      have hcond : L.pos < L.len ∧ L.src_at L.pos ≠ DQUOTE := ⟨hpos, by rw [hc]; exact hq⟩
      have hesc : ¬ (L.src_at L.pos = BACKSLASH ∧ L.pos + 1 < L.len) :=
        fun he => hb (hc ▸ he.1)
      rw [lexer_next_string, if_pos hcond]
      simp only [hesc, if_false]
      rw [ih m { L with pos := L.pos + 1 } r _ (rest_step (a := [x]) h rfl rfl rfl)
        (by simp at hn ⊢; omega), lexer_pos_add, hc]
      simp [Nat.add_comm]
    · rw [hx] at h hn ⊢
      obtain ⟨hpos, hc, hrest⟩ := rest_cons (c := BACKSLASH) h
      have h1 : ({ L with pos := L.pos + 1 } : Lexer).Rest
          (y :: (json_escape_string_loop s ++ DQUOTE :: r)) :=
        rest_step (a := [BACKSLASH]) h rfl rfl rfl
      obtain ⟨hpos1, hc1, _⟩ := rest_cons h1
      have hcond : L.pos < L.len ∧ L.src_at L.pos ≠ DQUOTE :=
        ⟨hpos, by rw [hc]; decide⟩
      have hesc : L.src_at L.pos = BACKSLASH ∧ L.pos + 1 < L.len := ⟨hc, hpos1⟩
      have hc1' : L.src_at (L.pos + 1) = y := hc1
      rw [lexer_next_string, if_pos hcond]
      simp only [hesc, and_self, if_true]
      rw [ih m { L with pos := L.pos + 1 + 1 } r _
        (rest_step (a := [BACKSLASH, y]) h rfl rfl rfl) (by simp at hn ⊢; omega)]
      have e1 : Lexer.src_at { L with pos := L.pos + 1 } (L.pos + 1) = y := hc1
      simp only [e1, hy]
      simp [Nat.add_assoc, Nat.add_comm]
      omega

theorem rest_length {L : Lexer} {r : List Char} (h : L.Rest r) : r.length = L.len - L.pos := by
  obtain ⟨h1, h2⟩ := h
  rw [← h2, List.length_drop, h1]

/-- The tokenizer on the compact JSON text of a string. -/
theorem lexer_next_json_string {L : Lexer} {s r : List Char}
    (h : L.Rest (json_escape_string s ++ r)) :
    ∃ cur : Token, cur.type = TOK_STRING ∧ cur.string = some s ∧
      lexer_next L =
        (true, { L with current := cur, pos := L.pos + (json_escape_string s).length }) := by
  have h0 : L.Rest (DQUOTE :: (json_escape_string_loop s ++ DQUOTE :: r)) := by
    unfold json_escape_string at h
    simpa using h
  obtain ⟨hpos, hc, hrest⟩ := rest_cons h0
  have hnl : ¬ L.len ≤ L.pos := by omega
  have hc2 : L.src[L.pos]?.getD (Char.ofNat 0) = '"' := by simpa [Lexer.src_at] using hc
  have h1 : ({ L with pos := L.pos + 1 } : Lexer).Rest
      (json_escape_string_loop s ++ DQUOTE :: r) :=
    rest_step (a := [DQUOTE]) h0 rfl rfl rfl
  have hfuel : (json_escape_string_loop s).length < L.len - (L.pos + 1) := by
    have := rest_length h1
    simp at this
    omega
  unfold lexer_next
  generalize hX : (if L.current.type = TOK_STRING ∨ L.current.type = TOK_IDENT then
      ({ L with current := { L.current with string := none } } : Lexer) else L) = X0
  have hsrc : X0.src = L.src := by subst hX; split <;> rfl
  have hp : X0.pos = L.pos := by subst hX; split <;> rfl
  have hl : X0.len = L.len := by subst hX; split <;> rfl
  have he : X0.error = L.error := by subst hX; split <;> rfl
  clear hX
  obtain ⟨src0, pos0, len0, cur0, err0⟩ := X0
  dsimp only at hsrc hp hl he
  subst hsrc hp hl he
  have hws := skip_whitespace_token
    { src := L.src, pos := L.pos, len := L.len, current := cur0, error := L.error }
    DQUOTE hpos hc (by decide)
  have hrun := lexer_next_string_run s (L.len - (L.pos + 1))
    { src := L.src, pos := L.pos + 1, len := L.len, current := cur0, error := L.error }
    r [] ⟨h1.1, h1.2⟩ hfuel
  have hlt : ¬ L.len ≤ L.pos + 1 + (json_escape_string_loop s).length := by omega
  simp only [hws]
  simp +decide [Lexer.src_at, Lexer.emit, hc2, hnl, DQUOTE, hrun, hlt]
  refine ⟨_, rfl, rfl, ?_, rfl⟩
  unfold json_escape_string
  simp
  omega

theorem wrap64_id (a : Int) (h : -9223372036854775808 ≤ a ∧ a < 9223372036854775808) :
    wrap64 a = a := by
  unfold wrap64
  omega

theorem wrap64_congr (a b : Int)
    (h : a % 18446744073709551616 = b % 18446744073709551616) : wrap64 a = wrap64 b := by
  unfold wrap64
  omega

theorem wrap64_emod (a : Int) :
    wrap64 a % 18446744073709551616 = a % 18446744073709551616 := by
  unfold wrap64
  omega

/-- The text of `%ld` is a minus sign for a negative number, then at least one
decimal digit, and the digits denote the absolute value. -/
theorem snprintf_ld_digits (i : Int) :
    ∃ (d : Char) (ds : List Char), (∀ c ∈ d :: ds, isdigit c = true) ∧
      decimal_value (d :: ds) = i.natAbs ∧
      snprintf_ld i = if i < 0 then '-' :: d :: ds else d :: ds := by
  obtain ⟨ds, h1, h2, h3⟩ := snprintf_ld_decimal i
  have hne : ds ≠ [] := by
    intro e
    subst e
    have h4 : snprintf_ld i = if i < 0 then '-' :: Nat.toDigits 10 i.natAbs
        else Nat.toDigits 10 i.natAbs := rfl
    rw [h3] at h4
    have := toDigits_ne_nil i.natAbs
    split at h4
    · exact this (List.cons.inj h4).2.symm
    · exact this h4.symm
  cases ds with
  | nil => exact absurd rfl hne
  | cons d ds => exact ⟨d, ds, h1, h2, h3⟩

/-- The value the digit loop accumulates is the value of the digits, modulo
2^64. -/
theorem digits_fold_emod (ds : List Char) (hds : ∀ c ∈ ds, isdigit c = true) :
    ∀ v : Int,
      (ds.foldl (fun v c => wrap64 (v * 10 + ((c.toNat : Int) - 48))) v) %
          18446744073709551616 =
        (v * 10 ^ ds.length + (decimal_value ds : Int)) % 18446744073709551616 := by
  induction ds with
  | nil => intro v; simp [decimal_value]
  | cons d ds ih =>
    intro v
    have hd : isdigit d = true := hds d (List.mem_cons_self d ds)
    have hd48 : 48 ≤ d.toNat := by
      unfold isdigit at hd
      simp at hd
      exact hd.1
    rw [List.foldl_cons, ih (fun c hc => hds c (List.mem_cons_of_mem d hc)),
      decimal_value_cons, List.length_cons]
    have e1 : ((((d.toNat - 48) * 10 ^ ds.length + decimal_value ds : Nat)) : Int) =
        ((d.toNat : Int) - 48) * 10 ^ ds.length + (decimal_value ds : Int) := by
      push_cast [Nat.cast_sub hd48]
      ring
    rw [e1]
    have e2 := wrap64_emod (v * 10 + ((d.toNat : Int) - 48))
    have e3 : (wrap64 (v * 10 + ((d.toNat : Int) - 48)) * 10 ^ ds.length +
        (decimal_value ds : Int)) % 18446744073709551616 =
        ((v * 10 + ((d.toNat : Int) - 48)) * 10 ^ ds.length + (decimal_value ds : Int)) %
          18446744073709551616 :=
      Int.ModEq.add_right _ (Int.ModEq.mul_right _ e2)
    rw [e3]
    congr 1
    ring

theorem digit_ne {c x : Char} (h : isdigit c = true) (hx : isdigit x = false) : c ≠ x := by
  intro e
  rw [e, hx] at h
  cases h

theorem delimited_head {r : List Char} (hr : delimited r) (P : Char → Bool)
    (h1 : P ',' = false) (h2 : P ']' = false) : ∀ c, r.head? = some c → P c = false := by
  intro c hc
  rcases hr with rfl | hr | hr
  · cases hc
  · rw [hr] at hc; cases hc; exact h1
  · rw [hr] at hc; cases hc; exact h2

/-- The tokenizer on the compact JSON text of an integer of the range of
`int64_t`, followed by the end of the input, a comma or a closing bracket. -/
theorem lexer_next_json_int {L : Lexer} {i : Int} {r : List Char}
    (h : L.Rest (snprintf_ld i ++ r))
    (hi : -9223372036854775808 ≤ i ∧ i < 9223372036854775808) (hr : delimited r) :
    ∃ cur : Token, cur.type = TOK_INT ∧ cur.integer = i ∧
      lexer_next L = (true, { L with current := cur, pos := L.pos + (snprintf_ld i).length }) := by
  obtain ⟨d, ds, hds, hval, htext⟩ := snprintf_ld_digits i
  have hd : isdigit d = true := hds d (List.mem_cons_self d ds)
  have hrd := delimited_head hr isdigit (by decide) (by decide)
  have hfold := digits_fold_emod (d :: ds) hds 0
  rw [hval] at hfold
  simp only [zero_mul, zero_add] at hfold
  unfold lexer_next
  generalize hX : (if L.current.type = TOK_STRING ∨ L.current.type = TOK_IDENT then
      ({ L with current := { L.current with string := none } } : Lexer) else L) = X0
  have hsrc : X0.src = L.src := by subst hX; split <;> rfl
  have hp : X0.pos = L.pos := by subst hX; split <;> rfl
  have hl : X0.len = L.len := by subst hX; split <;> rfl
  have he : X0.error = L.error := by subst hX; split <;> rfl
  clear hX
  obtain ⟨src0, pos0, len0, cur0, err0⟩ := X0
  dsimp only at hsrc hp hl he
  subst hsrc hp hl he
  by_cases hneg : i < 0
  · rw [htext, if_pos hneg] at h ⊢
    have h0 : L.Rest ('-' :: (d :: ds ++ r)) := by simpa using h
    obtain ⟨hpos, hc, _⟩ := rest_cons h0
    have h1 : ({ L with pos := L.pos + 1 } : Lexer).Rest (d :: ds ++ r) :=
      rest_step (a := ['-']) h0 rfl rfl rfl
    obtain ⟨hpos1, hc1, _⟩ := rest_cons (c := d) (t := ds ++ r) (by simpa using h1)
    have hnl : ¬ L.len ≤ L.pos := by omega
    have hc2 : L.src[L.pos]?.getD (Char.ofNat 0) = '-' := by simpa [Lexer.src_at] using hc
    have hc3 : L.src[L.pos + 1]?.getD (Char.ofNat 0) = d := by simpa [Lexer.src_at] using hc1
    have hpos1' : L.pos + 1 < L.len := hpos1
    have hws := skip_whitespace_token
      { src := L.src, pos := L.pos, len := L.len, current := cur0, error := L.error }
      '-' hpos hc (by decide)
    have hrun := lexer_next_digits_run (d :: ds) (L.len - (L.pos + 1))
      { src := L.src, pos := L.pos + 1, len := L.len, current := cur0, error := L.error }
      r 0 ⟨h1.1, h1.2⟩ hds hrd (by have := rest_length h1; simp at this ⊢; omega)
    simp only [hws]
    simp +decide [Lexer.src_at, Lexer.emit, hc2, hc3, hnl, DQUOTE, hrun, hd, hpos1']
    refine ⟨_, rfl, ?_, ?_, rfl⟩
    · dsimp only
      have e : wrap64 i = i := wrap64_id i hi
      rw [← e]
      apply wrap64_congr
      have hm := Int.ModEq.mul_right (-1) hfold
      have hi' : (i.natAbs : Int) * -1 = i := by omega
      rw [hi'] at hm
      simpa using hm
    · omega
  · rw [htext, if_neg hneg] at h ⊢
    have h0 : L.Rest (d :: (ds ++ r)) := by simpa using h
    obtain ⟨hpos, hc, _⟩ := rest_cons h0
    have hnl : ¬ L.len ≤ L.pos := by omega
    have hc2 : L.src[L.pos]?.getD (Char.ofNat 0) = d := by simpa [Lexer.src_at] using hc
    have hws := skip_whitespace_token
      { src := L.src, pos := L.pos, len := L.len, current := cur0, error := L.error }
      d hpos hc ⟨digit_ne hd (by decide), digit_ne hd (by decide), digit_ne hd (by decide),
        digit_ne hd (by decide), digit_ne hd (by decide)⟩
    have hrun := lexer_next_digits_run (d :: ds) (L.len - L.pos)
      { src := L.src, pos := L.pos, len := L.len, current := cur0, error := L.error }
      r 0 ⟨h.1, h.2⟩ hds hrd (by have := rest_length h; simp at this ⊢; omega)
    simp only [hws]
    simp +decide [Lexer.src_at, Lexer.emit, hc2, hnl, DQUOTE, hrun, hd,
      digit_ne hd (x := '{') (by decide), digit_ne hd (x := '}') (by decide),
      digit_ne hd (x := '[') (by decide), digit_ne hd (x := ']') (by decide),
      digit_ne hd (x := '(') (by decide), digit_ne hd (x := ')') (by decide),
      digit_ne hd (x := ';') (by decide), digit_ne hd (x := ',') (by decide),
      digit_ne hd (x := '=') (by decide), digit_ne hd (x := ':') (by decide),
      digit_ne hd (x := '?') (by decide), digit_ne hd (x := '.') (by decide),
      digit_ne hd (x := '"') (by decide), digit_ne hd (x := '-') (by decide)]
    have e : wrap64 i = i := wrap64_id i hi
    rw [← e]
    apply wrap64_congr
    have hi' : (i.natAbs : Int) = i := by omega
    rw [hi'] at hfold
    simpa using hfold

/-- The tokenizer on `true` or `false`, followed by the end of the input, a
comma or a closing bracket. -/
theorem lexer_next_json_bool {L : Lexer} {b : Bool} {r : List Char}
    (h : L.Rest ((if b then "true".toList else "false".toList) ++ r)) (hr : delimited r) :
    ∃ cur : Token, cur.type = (if b then TOK_TRUE else TOK_FALSE) ∧
      lexer_next L =
        (true, { L with current := cur, pos := L.pos + (if b then 4 else 5) }) := by
  have hrd := delimited_head hr is_ident_char (by decide) (by decide)
  unfold lexer_next
  generalize hX : (if L.current.type = TOK_STRING ∨ L.current.type = TOK_IDENT then
      ({ L with current := { L.current with string := none } } : Lexer) else L) = X0
  have hsrc : X0.src = L.src := by subst hX; split <;> rfl
  have hp : X0.pos = L.pos := by subst hX; split <;> rfl
  have hl : X0.len = L.len := by subst hX; split <;> rfl
  have he : X0.error = L.error := by subst hX; split <;> rfl
  clear hX
  obtain ⟨src0, pos0, len0, cur0, err0⟩ := X0
  dsimp only at hsrc hp hl he
  subst hsrc hp hl he
  cases b with
  | true =>
    simp only [if_true] at h ⊢
    have h0 : L.Rest ('t' :: ("rue".toList ++ r)) := h
    obtain ⟨hpos, hc, _⟩ := rest_cons h0
    have hnl : ¬ L.len ≤ L.pos := by omega
    have hc2 : L.src[L.pos]?.getD (Char.ofNat 0) = 't' := by simpa [Lexer.src_at] using hc
    have hws := skip_whitespace_token
      { src := L.src, pos := L.pos, len := L.len, current := cur0, error := L.error }
      't' hpos hc (by decide)
    have hrun := lexer_next_ident_run "true".toList (L.len - L.pos)
      { src := L.src, pos := L.pos, len := L.len, current := cur0, error := L.error }
      r ⟨h.1, h.2⟩ (by decide) hrd (by have := rest_length h; simp at this ⊢; omega)
    have hdrop : List.drop L.pos L.src = 't' :: 'r' :: 'u' :: 'e' :: r := h.2
    simp only [hws]
    simp +decide [Lexer.src_at, Lexer.emit, hc2, hnl, DQUOTE, hrun, strdup_range, hdrop,
      is_ident_start, isalpha, isdigit]
  | false =>
    simp only [Bool.false_eq_true, if_false] at h ⊢
    have h0 : L.Rest ('f' :: ("alse".toList ++ r)) := h
    obtain ⟨hpos, hc, _⟩ := rest_cons h0
    have hnl : ¬ L.len ≤ L.pos := by omega
    have hc2 : L.src[L.pos]?.getD (Char.ofNat 0) = 'f' := by simpa [Lexer.src_at] using hc
    have hws := skip_whitespace_token
      { src := L.src, pos := L.pos, len := L.len, current := cur0, error := L.error }
      'f' hpos hc (by decide)
    have hrun := lexer_next_ident_run "false".toList (L.len - L.pos)
      { src := L.src, pos := L.pos, len := L.len, current := cur0, error := L.error }
      r ⟨h.1, h.2⟩ (by decide) hrd (by have := rest_length h; simp at this ⊢; omega)
    have hdrop : List.drop L.pos L.src = 'f' :: 'a' :: 'l' :: 's' :: 'e' :: r := h.2
    simp only [hws]
    simp +decide [Lexer.src_at, Lexer.emit, hc2, hnl, DQUOTE, hrun, strdup_range, hdrop,
      is_ident_start, isalpha, isdigit]

/-! ### The parser on compact JSON text -/

theorem next_json_string {p : Parser} {s r : List Char}
    (h : p.lex.Rest (json_escape_string s ++ r)) :
    p.lexes ∧ p.next.tok = TOK_STRING ∧ p.next.lex.current.string = some s ∧
      p.next.lex.Rest r := by
  obtain ⟨cur, hcur, hs, heq⟩ := lexer_next_json_string h
  unfold Parser.lexes Parser.next Parser.tok
  rw [heq]
  exact ⟨rfl, hcur, hs, rest_step h rfl rfl rfl⟩

theorem next_json_int {p : Parser} {i : Int} {r : List Char}
    (h : p.lex.Rest (snprintf_ld i ++ r))
    (hi : -9223372036854775808 ≤ i ∧ i < 9223372036854775808) (hr : delimited r) :
    p.lexes ∧ p.next.tok = TOK_INT ∧ p.next.lex.current.integer = i ∧ p.next.lex.Rest r := by
  obtain ⟨cur, hcur, hs, heq⟩ := lexer_next_json_int h hi hr
  unfold Parser.lexes Parser.next Parser.tok
  rw [heq]
  exact ⟨rfl, hcur, hs, rest_step h rfl rfl rfl⟩

theorem next_json_bool {p : Parser} {b : Bool} {r : List Char}
    (h : p.lex.Rest ((if b then "true".toList else "false".toList) ++ r))
    (hr : delimited r) :
    p.lexes ∧ p.next.tok = (if b then TOK_TRUE else TOK_FALSE) ∧ p.next.lex.Rest r := by
  obtain ⟨cur, hcur, heq⟩ := lexer_next_json_bool h hr
  unfold Parser.lexes Parser.next Parser.tok
  rw [heq]
  refine ⟨rfl, hcur, rest_step h rfl rfl ?_⟩
  cases b <;> rfl

/-- A primary expression that is not followed by `?` is an expression. -/
theorem evals_of_primary (host : Host) {p q : Parser} {v : Goon_Value}
    (h1 : p.tok ≠ TOK_LET) (h2 : p.tok ≠ TOK_IF) (hv : v.isNull = false)
    (hq : q.tok ≠ TOK_QUESTION)
    (h : ∃ n0, ∀ n, n0 ≤ n → parse_primary host n p = .ret (v, q)) : Evals host p v q := by
  obtain ⟨n0, hn⟩ := h
  refine ⟨hv, n0 + 1, ?_⟩
  rw [parse_expr, if_neg h1, if_neg h2, hn n0 (Nat.le_refl _)]
  simp only [Outcome.bind, hv, if_neg hq]
  rfl

theorem delimited_not_question {p : Parser} {r : List Char} (h : p.lex.Rest r)
    (hr : delimited r) : p.lexes ∧ p.next.tok ≠ TOK_QUESTION := by
  obtain ⟨hl, ht⟩ := next_delimited h hr
  refine ⟨hl, ?_⟩
  rcases ht with ht | ht | ht <;> rw [ht] <;> decide

theorem interpolate_no_marker (ctx : Goon_Ctx) (s : List Char) (h : no_marker s = true) :
    interpolate_string ctx s = .string s := by
  unfold interpolate_string
  have := interpolate_loop_text ctx s [] [] s [] 0 (by simp) h (by simp)
  simp only [Nat.zero_add, List.length_nil, List.nil_append] at this
  rw [this, interpolate_string_loop]

theorem goon_to_json_list (items : List Goon_Value) :
    goon_to_json (.list items) =
      '[' :: (List.intercalate [','] (items.map goon_to_json) ++ [']']) := by
  rw [show goon_to_json (.list items) = value_to_json (.list items) 0 0 from rfl,
    value_to_json, compact_items]
  simp

theorem loads_int (host : Host) (i : Int)
    (hi : -9223372036854775808 ≤ i ∧ i < 9223372036854775808) (p : Parser) (r : List Char)
    (h : p.lex.Rest (goon_to_json (.int i) ++ r)) (hr : delimited r) :
    p.lexes ∧ ∃ q : Parser, Evals host p.next (.int i) q.next ∧ q.lex.Rest r ∧
      q.ctx = p.ctx := by
  obtain ⟨hl, ht, hint, hrest⟩ := next_json_int (i := i) h hi hr
  obtain ⟨hl2, hq⟩ := delimited_not_question hrest hr
  refine ⟨hl, p.next, ?_, hrest, next_ctx p⟩
  apply evals_of_primary host (by rw [ht]; decide) (by rw [ht]; decide) (by rfl) hq
  refine ⟨1, fun n hle => ?_⟩
  obtain ⟨m, rfl⟩ : ∃ m, n = m + 1 := ⟨n - 1, by omega⟩
  have ht' : p.next.lex.current.type = TOK_INT := ht
  rw [parse_primary]
  simp only [ht']
  rw [advance_eq hl2, hint]

theorem loads_bool (host : Host) (b : Bool) (p : Parser) (r : List Char)
    (h : p.lex.Rest (goon_to_json (.bool b) ++ r)) (hr : delimited r) :
    p.lexes ∧ ∃ q : Parser, Evals host p.next (.bool b) q.next ∧ q.lex.Rest r ∧
      q.ctx = p.ctx := by
  obtain ⟨hl, ht, hrest⟩ := next_json_bool (b := b) h hr
  obtain ⟨hl2, hq⟩ := delimited_not_question hrest hr
  refine ⟨hl, p.next, ?_, hrest, next_ctx p⟩
  cases b with
  | true =>
    have ht' : p.next.lex.current.type = TOK_TRUE := ht
    apply evals_of_primary host (by rw [ht]; decide) (by rw [ht]; decide) (by rfl) hq
    refine ⟨1, fun n hle => ?_⟩
    obtain ⟨m, rfl⟩ : ∃ m, n = m + 1 := ⟨n - 1, by omega⟩
    rw [parse_primary]
    simp only [ht']
    rw [advance_eq hl2]
  | false =>
    have ht' : p.next.lex.current.type = TOK_FALSE := ht
    apply evals_of_primary host (by rw [ht]; decide) (by rw [ht]; decide) (by rfl) hq
    refine ⟨1, fun n hle => ?_⟩
    obtain ⟨m, rfl⟩ : ∃ m, n = m + 1 := ⟨n - 1, by omega⟩
    rw [parse_primary]
    simp only [ht']
    rw [advance_eq hl2]

theorem loads_string (host : Host) (s : List Char) (hs : no_marker s = true) (p : Parser)
    (r : List Char) (h : p.lex.Rest (goon_to_json (.string s) ++ r)) (hr : delimited r) :
    p.lexes ∧ ∃ q : Parser, Evals host p.next (.string s) q.next ∧ q.lex.Rest r ∧
      q.ctx = p.ctx := by
  obtain ⟨hl, ht, hstr, hrest⟩ := next_json_string (s := s) h
  obtain ⟨hl2, hq⟩ := delimited_not_question hrest hr
  refine ⟨hl, p.next, ?_, hrest, next_ctx p⟩
  apply evals_of_primary host (by rw [ht]; decide) (by rw [ht]; decide) (by rfl) hq
  obtain ⟨n0, hn⟩ := parse_primary_string host ht hstr hl2
  refine ⟨n0, fun n hle => ?_⟩
  rw [hn n hle, interpolate_no_marker _ s hs]

theorem loads_empty_record (host : Host) (p : Parser) (r : List Char)
    (h : p.lex.Rest (goon_to_json (.record []) ++ r)) (hr : delimited r) :
    p.lexes ∧ ∃ q : Parser, Evals host p.next (.record []) q.next ∧ q.lex.Rest r ∧
      q.ctx = p.ctx := by
  have h0 : p.lex.Rest ('{' :: '}' :: r) := h
  obtain ⟨hl, ht, hrest⟩ := next_punctuation (T := TOK_LBRACE) h0 (by simp)
  obtain ⟨hl1, ht1, hrest1⟩ := next_punctuation (T := TOK_RBRACE) hrest (by simp)
  obtain ⟨hl2, hq⟩ := delimited_not_question hrest1 hr
  refine ⟨hl, p.next.next, ?_, hrest1, by rw [next_ctx, next_ctx]⟩
  apply evals_of_primary host (by rw [ht]; decide) (by rw [ht]; decide) (by rfl) hq
  exact parse_primary_record host ht hl1 (RecordEntries.done ht1) hl2

theorem flatMap_item (items : List Goon_Value) :
    (items.map List_Entry.item).flatMap List_Entry.items = items := by
  induction items with
  | nil => rfl
  | cons v vs ih =>
    rw [List.map_cons, List.flatMap_cons, ih]
    rfl

mutual

/-- The parser on the compact JSON text of a loadable value, followed by `r`:
the expression evaluates to the value and leaves the parser at the token that
starts `r`, with the context unchanged. -/
theorem loads_value (host : Host) :
    ∀ (v : Goon_Value), json_loadable v = true →
      ∀ (p : Parser) (r : List Char), p.lex.Rest (goon_to_json v ++ r) → delimited r →
        p.lexes ∧ ∃ q : Parser, Evals host p.next v q.next ∧ q.lex.Rest r ∧ q.ctx = p.ctx
  | .NULL, hv, _, _, _, _ => by simp [json_loadable] at hv
  | .nil, hv, _, _, _, _ => by simp [json_loadable] at hv
  | .builtin _, hv, _, _, _, _ => by simp [json_loadable] at hv
  | .bool b, _, p, r, h, hr => loads_bool host b p r h hr
  | .int i, hv, p, r, h, hr => by
    rw [json_loadable] at hv
    exact loads_int host i (of_decide_eq_true hv) p r h hr
  | .string s, hv, p, r, h, hr => by
    rw [json_loadable] at hv
    exact loads_string host s hv p r h hr
  | .record fields, hv, p, r, h, hr => by
    rw [json_loadable] at hv
    cases fields with
    | nil => exact loads_empty_record host p r h hr
    | cons f fs => cases hv
  | .list items, hv, p, r, h, hr => by
    rw [json_loadable] at hv
    rw [goon_to_json_list] at h
    have h0 : p.lex.Rest
        ('[' :: (List.intercalate [','] (items.map goon_to_json) ++ ']' :: r)) := by
      simpa using h
    obtain ⟨hl, ht, hrest⟩ := next_punctuation (T := TOK_LBRACKET) h0 (by simp)
    obtain ⟨hl1, q, hes, hq, hctx⟩ := loads_items host items hv p.next r hrest
    obtain ⟨hl2, hnq⟩ := delimited_not_question hq hr
    refine ⟨hl, q, ?_, hq, by rw [hctx, next_ctx]⟩
    apply evals_of_primary host (by rw [ht]; decide) (by rw [ht]; decide) (by rfl) hnq
    obtain ⟨n0, hn⟩ := parse_list_entries host hl1 hes hl2
    refine ⟨n0 + 1, fun n hle => ?_⟩
    obtain ⟨m, rfl⟩ : ∃ m, n = m + 1 := ⟨n - 1, by omega⟩
    have ht' : p.next.lex.current.type = TOK_LBRACKET := ht
    rw [parse_primary]
    simp only [ht']
    rw [hn m (by omega), flatMap_item]

/-- The parser on the items of a compact JSON list, up to the closing bracket. -/
theorem loads_items (host : Host) :
    ∀ (items : List Goon_Value), json_loadable_items items = true →
      ∀ (p : Parser) (r : List Char),
        p.lex.Rest (List.intercalate [','] (items.map goon_to_json) ++ ']' :: r) →
        p.lexes ∧ ∃ q : Parser, ListEntries host p.next (items.map List_Entry.item) q ∧
          q.lex.Rest r ∧ q.ctx = p.ctx
  | [], _, p, r, h => by
    have h0 : p.lex.Rest (']' :: r) := h
    obtain ⟨hl, ht, hrest⟩ := next_punctuation (T := TOK_RBRACKET) h0 (by simp)
    exact ⟨hl, p.next, ListEntries.done ht, hrest, next_ctx p⟩
  | v :: rest, hv, p, r, h => by
    rw [json_loadable_items, Bool.and_eq_true] at hv
    have ih := loads_items host rest hv.2
    cases rest with
    | nil =>
      have h0 : p.lex.Rest (goon_to_json v ++ ']' :: r) := by
        simpa [List.intercalate, List.intersperse] using h
      obtain ⟨hl, q0, hev, hq0, hctx⟩ :=
        loads_value host v hv.1 p (']' :: r) h0 (Or.inr (Or.inr rfl))
      obtain ⟨hl1, ht1, hrest1⟩ := next_punctuation (T := TOK_RBRACKET) hq0 (by simp)
      have hnc : ¬ q0.next.tok = TOK_COMMA := by rw [ht1]; decide
      have hskip : q0.next.skip_comma = q0.next := by
        unfold Parser.skip_comma
        rw [if_neg hnc]
      refine ⟨hl, q0.next, ?_, hrest1, by rw [next_ctx, hctx]⟩
      exact ListEntries.item hev (fun hc => absurd hc hnc)
        (by rw [hskip]; exact ListEntries.done ht1)
    | cons w rest1 =>
      have h0 : p.lex.Rest (goon_to_json v ++
          ',' :: (List.intercalate [','] ((w :: rest1).map goon_to_json) ++ ']' :: r)) := by
        rw [List.map_cons, List.map_cons, intercalate_cons_cons] at h
        simpa using h
      obtain ⟨hl, q0, hev, hq0, hctx⟩ :=
        loads_value host v hv.1 p _ h0 (Or.inr (Or.inl rfl))
      obtain ⟨hl1, ht1, hrest1⟩ := next_punctuation (T := TOK_COMMA) hq0 (by simp)
      obtain ⟨hl2, q, hes, hq, hctx2⟩ := ih q0.next r hrest1
      have hskip : q0.next.skip_comma = q0.next.next := by
        unfold Parser.skip_comma
        rw [if_pos ht1]
      refine ⟨hl, q, ?_, hq, by rw [hctx2, next_ctx, hctx]⟩
      exact ListEntries.item hev (fun _ => hl2) (by rw [hskip]; exact hes)

end

theorem lexer_init_rest (src : List Char) : (lexer_init src).Rest src :=
  ⟨rfl, rfl⟩

/-- The compact JSON text of a loadable value loads, with the value as result
and the context unchanged. -/
theorem loads_json (host : Host) (ctx : Goon_Ctx) (last : Goon_Value) (v : Goon_Value)
    (hv : json_loadable v = true) :
    Returns (fun fuel => goon_load_string host fuel ctx last (goon_to_json v))
      (true, ctx, v) := by
  have h0 : ({ ctx := ctx, lex := lexer_init (goon_to_json v) } : Parser).lex.Rest
      (goon_to_json v ++ []) := by
    rw [List.append_nil]
    exact lexer_init_rest _
  obtain ⟨hl, q, hev, hq, hctx⟩ := loads_value host v hv _ [] h0 (Or.inl rfl)
  obtain ⟨hl1, ht1, _⟩ := next_end hq
  have hex : Exprs host
      ({ ctx := ctx, lex := lexer_init (goon_to_json v) } : Parser).next [v] q.next :=
    Exprs.cons (evals_not_eof host hev) hev (Exprs.nil _)
  obtain ⟨n, hn⟩ := load_loop_exprs host hex ht1 .NULL
  refine ⟨n, fun fuel hle => ?_⟩
  have h := hn fuel hle
  have hl' : (lexer_next (lexer_init (goon_to_json v))).1 = true := hl
  have hc : q.next.ctx = ctx := by rw [next_ctx, hctx]
  dsimp only at h ⊢
  unfold goon_load_string
  dsimp only
  rw [if_pos hl']
  unfold Parser.next at h
  dsimp only at h
  rw [h]
  have hc' : q.ctx = ctx := hctx
  rw [hc']
  rfl

theorem intercalate_cons_prefix (sep x : List Char) (ys : List (List Char)) :
    ∃ tail, List.intercalate sep (x :: ys) = x ++ tail := by
  cases ys with
  | nil => exact ⟨[], by simp [List.intercalate, List.intersperse]⟩
  | cons y ys => exact ⟨sep ++ List.intercalate sep (y :: ys), by
      rw [intercalate_cons_cons, List.append_assoc]⟩

theorem record_text_prefix (key : List Char) (value : Goon_Value)
    (next : List (List Char × Goon_Value)) :
    ∃ tail, goon_to_json (.record ((key, value) :: next)) =
      '{' :: (json_escape_string key ++ tail) := by
  obtain ⟨t, ht⟩ := intercalate_cons_prefix [',']
    (json_escape_string key ++ ':' :: goon_to_json value)
    (next.map (fun f => json_escape_string f.1 ++ ':' :: goon_to_json f.2))
  refine ⟨':' :: goon_to_json value ++ t ++ ['}'], ?_⟩
  rw [show goon_to_json (.record ((key, value) :: next)) =
    value_to_json (.record ((key, value) :: next)) 0 0 from rfl, value_to_json, compact_fields,
    List.map_cons, ht]
  simp

/-- The compact JSON text of a record with a field does not load: its first
key is a string where `parse_record` expects an identifier. -/
theorem record_text_fails (host : Host) (ctx : Goon_Ctx) (last : Goon_Value)
    (key : List Char) (value : Goon_Value) (next : List (List Char × Goon_Value)) :
    Returns
      (fun fuel => goon_load_string host fuel ctx last
        (goon_to_json (.record ((key, value) :: next))))
      (false, { ctx with error := some "expected field name".toList }, .NULL) := by
  obtain ⟨tail, htext⟩ := record_text_prefix key value next
  generalize goon_to_json (.record ((key, value) :: next)) = src at htext ⊢
  obtain ⟨p0, hp0⟩ : ∃ p0 : Parser, p0 = ⟨ctx, lexer_init src⟩ := ⟨_, rfl⟩
  have h0 : p0.lex.Rest ('{' :: (json_escape_string key ++ tail)) := by
    rw [hp0, ← htext]
    exact lexer_init_rest _
  obtain ⟨hl, ht, hrest⟩ := next_punctuation (T := TOK_LBRACE) h0 (by simp)
  obtain ⟨hl1, ht1, _, _⟩ := next_json_string hrest
  have hl' : (lexer_next (lexer_init src)).1 = true := by
    rw [hp0] at hl
    exact hl
  have hstart : (⟨ctx, (lexer_next (lexer_init src)).2⟩ : Parser) = p0.next := by
    rw [hp0]
    rfl
  have hctx : p0.next.next.ctx = ctx := by rw [next_ctx, next_ctx, hp0]
  have ht' : p0.next.lex.current.type = TOK_LBRACE := ht
  refine ⟨5, fun fuel hle => ?_⟩
  obtain ⟨m, rfl⟩ : ∃ m, fuel = m + 5 := ⟨fuel - 5, by omega⟩
  dsimp only
  unfold goon_load_string
  dsimp only
  rw [if_pos hl', hstart, goon_load_string_loop, if_pos (by rw [ht]; decide), parse_expr,
    if_neg (by rw [ht]; decide), if_neg (by rw [ht]; decide), parse_primary]
  simp only [ht']
  rw [parse_record, advance_eq hl1, parse_record_loop,
    if_pos (by rw [ht1]; exact ⟨by decide, by decide⟩), if_neg (by rw [ht1]; decide),
    if_pos (by rw [ht1]; decide)]
  simp only [Parser.fail, Outcome.bind, Goon_Value.isNull, if_true, Parser.ret_null, hctx]

/-- C18, as the code has it: for every value built from booleans, integers of
the range of `int64_t`, strings that hold no `${`, lists of such values and
records without fields, the compact JSON text of `goon_to_json` is a source
that `goon_load_string` accepts, in any context and leaving it unchanged; the
result is the value itself, which renders back to the same text.  The text of
a record with at least one field is not accepted: it fails with
`expected field name`, the keys of a record literal being identifiers followed
by `=`.  The text `[1,"a\nb",[true,-2],{}]` loads to the value it renders. -/
theorem C18_compact_json_without_fields_loads_back (host : Host) :
    (∀ (ctx : Goon_Ctx) (last v : Goon_Value), json_loadable v = true →
        Returns (fun fuel => goon_load_string host fuel ctx last (goon_to_json v))
          (true, ctx, v)) ∧
    (∀ (ctx : Goon_Ctx) (last : Goon_Value) (key : List Char) (value : Goon_Value)
        (next : List (List Char × Goon_Value)),
        Returns
          (fun fuel => goon_load_string host fuel ctx last
            (goon_to_json (.record ((key, value) :: next))))
          (false, { ctx with error := some "expected field name".toList }, .NULL)) ∧
    goon_to_json
        (.list [.int 1, .string "a\nb".toList, .list [.bool true, .int (-2)], .record []]) =
      "[1,\"a\\nb\",[true,-2],\x7b\x7d]".toList ∧
    (∀ last, Returns
      (fun fuel => goon_load_string no_host fuel goon_create last
        "[1,\"a\\nb\",[true,-2],\x7b\x7d]".toList)
      (true, goon_create,
        .list [.int 1, .string "a\nb".toList, .list [.bool true, .int (-2)], .record []])) := by
  refine ⟨?_, ?_, by decide, ?_⟩
  · intro ctx last v hv
    exact loads_json host ctx last v hv
  · intro ctx last key value next
    exact record_text_fails host ctx last key value next
  · exact loaded_true no_host (n := 20) (by decide!)

/-- The list holding 7, the string `x` and an empty list is loadable, and its
text `[7,"x",[]]` loads back to it. -/
theorem C18_compact_json_without_fields_loads_back_witness :
    json_loadable (.list [.int 7, .string "x".toList, .list []]) = true ∧
    Returns
      (fun fuel => goon_load_string no_host fuel goon_create .NULL
        (goon_to_json (.list [.int 7, .string "x".toList, .list []])))
      (true, goon_create, .list [.int 7, .string "x".toList, .list []]) :=
  ⟨by simp [json_loadable, json_loadable_items, no_marker],
    (C18_compact_json_without_fields_loads_back no_host).1 goon_create .NULL
      (.list [.int 7, .string "x".toList, .list []])
      (by simp [json_loadable, json_loadable_items, no_marker])⟩

/-- The claim C18 fails on records and on strings with a placeholder.  The
record with the one field `a = 1` renders as `{"a":1}`, and that source fails
to load with `expected field name`.  The string `${x}` renders as `"${x}"`,
and that source loads to the empty string, which renders as `""`. -/
theorem C18_json_text_is_a_source_counterexample :
    goon_to_json (.record [("a".toList, .int 1)]) = "\x7b\"a\":1\x7d".toList ∧
    goon_load_string no_host 20 goon_create .NULL "\x7b\"a\":1\x7d".toList =
      .ret (false, { goon_create with error := some "expected field name".toList }, .NULL) ∧
    goon_to_json (.string "$\x7bx\x7d".toList) = "\"$\x7bx\x7d\"".toList ∧
    goon_load_string no_host 20 goon_create .NULL "\"$\x7bx\x7d\"".toList =
      .ret (true, goon_create, .string []) ∧
    goon_to_json (.string []) ≠ goon_to_json (.string "$\x7bx\x7d".toList) :=
  ⟨by decide, of_loaded (by decide!), by decide, of_loaded (by decide!), by decide⟩

/-! ## The environment only grows -/

theorem keeps_ret {ks : List (List Char)} {v : Goon_Value} {q : Parser}
    (h : ks ⊆ q.ctx.names) : (Outcome.ret (v, q)).Keeps ks := by
  intro r hr
  cases hr
  exact h

theorem keeps_timeout (ks : List (List Char)) :
    (Outcome.timeout : Outcome (Goon_Value × Parser)).Keeps ks := by
  intro r hr
  cases hr

theorem keeps_crash (ks : List (List Char)) :
    (Outcome.crash : Outcome (Goon_Value × Parser)).Keeps ks := by
  intro r hr
  cases hr

theorem keeps_bind {ks : List (List Char)} {o : Outcome (Goon_Value × Parser)}
    {k : Goon_Value × Parser → Outcome (Goon_Value × Parser)} (ho : o.Keeps ks)
    (hk : ∀ r, ks ⊆ r.2.ctx.names → (k r).Keeps ks) : (o.bind k).Keeps ks := by
  cases o with
  | ret a => exact hk a (ho a rfl)
  | crash => exact keeps_crash ks
  | timeout => exact keeps_timeout ks

theorem keeps_advance {ks : List (List Char)} {p : Parser}
    {k : Parser → Outcome (Goon_Value × Parser)} (hp : ks ⊆ p.ctx.names)
    (hk : ∀ q, ks ⊆ q.ctx.names → (k q).Keeps ks) : (p.advance k).Keeps ks := by
  unfold Parser.advance
  split
  · exact hk _ hp
  · exact keeps_ret hp

theorem keeps_fail {ks : List (List Char)} {p : Parser} (msg : List Char)
    (hp : ks ⊆ p.ctx.names) : (p.fail msg).Keeps ks :=
  keeps_ret hp

theorem keeps_ret_null {ks : List (List Char)} {p : Parser}
    (hp : ks ⊆ p.ctx.names) : p.ret_null.Keeps ks :=
  keeps_ret hp

theorem names_define {ks : List (List Char)} (ctx : Goon_Ctx) (name : List Char)
    (value : Goon_Value) (h : ks ⊆ ctx.names) : ks ⊆ (define ctx name value).names := by
  unfold Goon_Ctx.names at h ⊢
  rw [define_keys]
  split
  · exact h
  · exact fun k hk => List.mem_cons_of_mem _ (h hk)

theorem parseKeeps_zero (host : Host) : ParseKeeps host 0 := by
  refine ⟨?_, ?_, ?_, ?_, ?_, ?_, ?_, ?_, ?_, ?_, ?_⟩ <;> intros <;> exact keeps_timeout _

set_option maxHeartbeats 1000000 in
theorem parseKeeps_succ (host : Host) (fuel : Nat) (ih : ParseKeeps host fuel) :
    ParseKeeps host (fuel + 1) := by
  obtain ⟨h1, h2, h3, h4, h5, h6, h7, h8, h9, h10, h11⟩ := ih
  refine ⟨?_, ?_, ?_, ?_, ?_, ?_, ?_, ?_, ?_, ?_, ?_⟩
  · intro ks p r hp
    rw [parse_record_loop]
    repeat' first
      | with_reducible apply keeps_advance
      | with_reducible apply keeps_bind
      | with_reducible intro _
      | with_reducible assumption
      | with_reducible exact h1 _ _ _ (by assumption)
      | with_reducible exact h11 _ _ (by assumption)
      | with_reducible exact keeps_fail _ (by assumption)
      | with_reducible exact keeps_ret_null (by assumption)
      | with_reducible exact keeps_ret (by assumption)
      | with_reducible exact keeps_crash _
      | split
      | dsimp only
  · intro ks p hp
    rw [parse_record]
    repeat' first
      | with_reducible apply keeps_advance
      | with_reducible apply keeps_bind
      | with_reducible intro _
      | with_reducible assumption
      | with_reducible exact h1 _ _ _ (by assumption)
  · intro ks p r hp
    rw [parse_list_loop]
    repeat' first
      | with_reducible apply keeps_advance
      | with_reducible apply keeps_bind
      | with_reducible intro _
      | with_reducible assumption
      | with_reducible exact h3 _ _ _ (by assumption)
      | with_reducible exact h11 _ _ (by assumption)
      | with_reducible exact keeps_fail _ (by assumption)
      | with_reducible exact keeps_ret_null (by assumption)
      | with_reducible exact keeps_ret (by assumption)
      | with_reducible exact keeps_crash _
      | split
      | dsimp only
  · intro ks p hp
    rw [parse_list]
    repeat' first
      | with_reducible apply keeps_advance
      | with_reducible apply keeps_bind
      | with_reducible intro _
      | with_reducible assumption
      | with_reducible exact h3 _ _ _ (by assumption)
  · intro ks p r hp
    rw [parse_import_loop]
    repeat' first
      | with_reducible apply keeps_advance
      | with_reducible apply keeps_bind
      | with_reducible intro _
      | with_reducible assumption
      | with_reducible exact h5 _ _ _ (by assumption)
      | with_reducible exact h11 _ _ (by assumption)
      | with_reducible exact keeps_fail _ (by assumption)
      | with_reducible exact keeps_ret_null (by assumption)
      | with_reducible exact keeps_ret (by assumption)
      | with_reducible exact keeps_crash _
      | split
  · intro ks p hp
    rw [parse_import]
    repeat' first
      | with_reducible apply keeps_advance
      | with_reducible apply keeps_bind
      | with_reducible intro _
      | with_reducible assumption
      | with_reducible exact keeps_fail _ (by assumption)
      | with_reducible exact keeps_ret_null (by assumption)
      | with_reducible exact keeps_ret (by assumption)
      | with_reducible exact keeps_crash _
      | exact h5 _ _ _ (by unfold Goon_Ctx.names at *; assumption)
      | exact keeps_ret (by unfold Goon_Ctx.names at *; assumption)
      | split
      | dsimp only
  · intro ks p f a hp
    rw [parse_call_loop]
    repeat' first
      | with_reducible apply keeps_advance
      | with_reducible apply keeps_bind
      | with_reducible intro _
      | with_reducible assumption
      | with_reducible exact h7 _ _ _ _ (by assumption)
      | with_reducible exact h11 _ _ (by assumption)
      | with_reducible exact keeps_fail _ (by assumption)
      | with_reducible exact keeps_ret_null (by assumption)
      | with_reducible exact keeps_ret (by assumption)
      | with_reducible exact keeps_crash _
      | split
  · intro ks p n hp
    rw [parse_call]
    repeat' first
      | with_reducible apply keeps_advance
      | with_reducible apply keeps_bind
      | with_reducible intro _
      | with_reducible assumption
      | with_reducible exact h7 _ _ _ _ (by assumption)
  · intro ks p v hp
    rw [parse_primary_fields]
    repeat' first
      | with_reducible apply keeps_advance
      | with_reducible apply keeps_bind
      | with_reducible intro _
      | with_reducible assumption
      | with_reducible exact h9 _ _ _ (by assumption)
      | with_reducible exact keeps_fail _ (by assumption)
      | with_reducible exact keeps_ret_null (by assumption)
      | with_reducible exact keeps_ret (by assumption)
      | with_reducible exact keeps_crash _
      | split
  · intro ks p hp
    rw [parse_primary]
    repeat' first
      | with_reducible apply keeps_advance
      | with_reducible apply keeps_bind
      | with_reducible intro _
      | with_reducible assumption
      | with_reducible exact h2 _ _ (by assumption)
      | with_reducible exact h4 _ _ (by assumption)
      | with_reducible exact h6 _ _ (by assumption)
      | with_reducible exact h8 _ _ _ (by assumption)
      | with_reducible exact h9 _ _ _ (by assumption)
      | with_reducible exact h11 _ _ (by assumption)
      | with_reducible exact keeps_fail _ (by assumption)
      | with_reducible exact keeps_ret_null (by assumption)
      | with_reducible exact keeps_ret (by assumption)
      | with_reducible exact keeps_crash _
      | split
  · intro ks p hp
    rw [parse_expr]
    repeat' first
      | with_reducible apply keeps_advance
      | with_reducible apply keeps_bind
      | with_reducible intro _
      | with_reducible assumption
      | with_reducible exact h10 _ _ (by assumption)
      | with_reducible exact h11 _ _ (by assumption)
      | with_reducible exact keeps_fail _ (by assumption)
      | with_reducible exact keeps_ret_null (by assumption)
      | with_reducible exact keeps_ret (by assumption)
      | with_reducible exact keeps_crash _
      | with_reducible exact names_define _ _ _ (by assumption)
      | with_reducible exact keeps_ret (names_define _ _ _ (by assumption))
      | split
      | dsimp only

theorem parseKeeps (host : Host) (fuel : Nat) : ParseKeeps host fuel := by
  induction fuel with
  | zero => exact parseKeeps_zero host
  | succ n ih => exact parseKeeps_succ host n ih

/-- An expression that evaluates leaves bound every name that was bound before
it. -/
theorem evals_keeps_names (host : Host) {p q : Parser} {v : Goon_Value}
    (h : Evals host p v q) : p.ctx.names ⊆ q.ctx.names := by
  obtain ⟨_, n, hn⟩ := h
  exact (parseKeeps host n).2.2.2.2.2.2.2.2.2.2 _ p (fun _ hk => hk) _ hn

/-! ## C11: the environment is one flat map -/

/-- C11: `define` and `lookup` treat the environment as one flat map.  After
`define` of a name with `v`, `lookup` of that name returns `v` and `lookup` of
every other name returns what it returned before.  When the name is already
bound, the chain of bindings keeps its names, in number and in order, so no
second binding is added; when it is not, one binding is put at the head; in
both cases every name bound before is still bound.  A `let` evaluated at any
parser state, at top level or nested, hands on a state in whose context the
name is bound to the value, and no expression that evaluates, whatever it is
and wherever it stands, removes a binding: the names bound before it are bound
after it, for everything that is evaluated next.  In a fresh context, with a
host that registers no function: `let x = 1; let x = 2; x` has result 2 and
leaves the one binding of `x`; `[let y = 5, y]` is the list 5, 5; the record
`{a = let z = 1; b = z}` has `b = 1`; and after
`if false then let w = 7 else 0` the next expression `w` gives 7. -/
theorem C11_environment_is_one_flat_map (host : Host) :
    (∀ (ctx : Goon_Ctx) (name : List Char) (v : Goon_Value),
        lookup (define ctx name v) name = v ∧
        (∀ other : List Char, other ≠ name →
          lookup (define ctx name v) other = lookup ctx other) ∧
        (name ∈ ctx.env.map Prod.fst →
          (define ctx name v).env.map Prod.fst = ctx.env.map Prod.fst ∧
          (define ctx name v).env.length = ctx.env.length) ∧
        (name ∉ ctx.env.map Prod.fst → (define ctx name v).env = (name, v) :: ctx.env) ∧
        ctx.names ⊆ (define ctx name v).names) ∧
    (∀ (p q : Parser) (name : List Char) (v : Goon_Value),
        p.tok = TOK_LET → p.lexes → p.next.tok = TOK_IDENT →
        p.next.lex.current.string = some name → p.next.lexes →
        p.next.next.tok = TOK_EQUALS → p.next.next.lexes →
        Evals host p.next.next.next v q →
        (q.tok = TOK_SEMICOLON → q.lexes) →
        ∃ q1 : Parser, Returns (fun fuel => parse_expr host fuel p) (v, q1) ∧
          q1.ctx = define q.ctx name v ∧ lookup q1.ctx name = v) ∧
    (∀ (p q : Parser) (v : Goon_Value), Evals host p v q → p.ctx.names ⊆ q.ctx.names) ∧
    (∀ last, Returns
      (fun fuel =>
        goon_load_string no_host fuel goon_create last "let x = 1; let x = 2; x".toList)
      (true, { env := [("x".toList, .int 2)], error := none, base_path := none }, .int 2)) ∧
    (∀ last, Returns
      (fun fuel => goon_load_string no_host fuel goon_create last "[let y = 5, y]".toList)
      (true, { env := [("y".toList, .int 5)], error := none, base_path := none },
        .list [.int 5, .int 5])) ∧
    (∀ last, Returns
      (fun fuel =>
        goon_load_string no_host fuel goon_create last "\x7ba = let z = 1; b = z\x7d".toList)
      (true, { env := [("z".toList, .int 1)], error := none, base_path := none },
        .record [("b".toList, .int 1), ("a".toList, .int 1)])) ∧
    (∀ last, Returns
      (fun fuel =>
        goon_load_string no_host fuel goon_create last
          "if false then let w = 7 else 0 w".toList)
      (true, { env := [("w".toList, .int 7)], error := none, base_path := none }, .int 7)) := by
  refine ⟨?_, ?_, ?_, ?_, ?_, ?_, ?_⟩
  · intro ctx name v
    refine ⟨lookup_define ctx name v, fun other h => lookup_define_other ctx name v other h,
      ?_, define_unbound ctx name v, names_define ctx name v (fun _ hk => hk)⟩
    intro hin
    have hk := define_keys ctx name v
    rw [if_pos hin] at hk
    refine ⟨hk, ?_⟩
    have hl := congrArg List.length hk
    rw [List.length_map, List.length_map] at hl
    exact hl
  · intro p q name v hlet hl1 hid hname hl2 heq hl3 hv hsemi
    have h := parse_expr_let host hlet hl1 hid hname hl2 (Or.inl rfl) heq hl3 hv hsemi
    refine ⟨_, h, ?_⟩
    by_cases hs : q.tok = TOK_SEMICOLON
    · rw [if_pos hs]
      exact ⟨rfl, lookup_define _ _ _⟩
    · rw [if_neg hs]
      exact ⟨rfl, lookup_define _ _ _⟩
  · intro p q v h
    exact evals_keeps_names host h
  · exact loaded_true no_host (n := 20) (by decide!)
  · exact loaded_true no_host (n := 20) (by decide!)
  · exact loaded_true no_host (n := 20) (by decide!)
  · exact loaded_true no_host (n := 20) (by decide!)

/-- The `let` of the source `let k = 9` meets the hypotheses of the rule for
`let` in C11, and the state it hands on binds `k` to 9. -/
theorem C11_environment_is_one_flat_map_witness :
    Evals no_host let_demo.next.next.next (.int 9) let_demo.next.next.next.next ∧
    ∃ q1 : Parser, Returns (fun fuel => parse_expr no_host fuel let_demo) (.int 9, q1) ∧
      q1.ctx = define let_demo.next.next.next.next.ctx "k".toList (.int 9) ∧
      lookup q1.ctx "k".toList = .int 9 :=
  have hev : Evals no_host let_demo.next.next.next (.int 9) let_demo.next.next.next.next :=
    ⟨rfl, 3, of_returned (by decide!)⟩
  ⟨hev, (C11_environment_is_one_flat_map no_host).2.1 let_demo let_demo.next.next.next.next
    "k".toList (.int 9) (by decide!) (by decide!) (by decide!) (by decide!) (by decide!)
    (by decide!) (by decide!) hev (fun _ => by decide!)⟩

/-! ## C21: the branch that is not taken is evaluated too -/

theorem advance_stops {p : Parser} (h : ¬ p.lexes)
    (k : Parser → Outcome (Goon_Value × Parser)) : p.advance k = .ret (.NULL, p.next) := by
  unfold Parser.advance Parser.next
  unfold Parser.lexes at h
  rw [if_neg h]

/-- A successful `if` has evaluated its condition and both of its branches,
one after the other. -/
theorem parse_expr_if_inv (host : Host) {p q : Parser} {v : Goon_Value} {fuel : Nat}
    (hif : p.tok = TOK_IF) (h : parse_expr host fuel p = .ret (v, q))
    (hv : v.isNull = false) :
    ∃ (c a b : Goon_Value) (pc pa : Parser),
      p.lexes ∧ Evals host p.next c pc ∧ pc.tok = TOK_THEN ∧ pc.lexes ∧
      Evals host pc.next a pa ∧ pa.tok = TOK_ELSE ∧ pa.lexes ∧
      Evals host pa.next b q ∧ v = if goon_to_bool c then a else b := by
  cases fuel with
  | zero => rw [parse_expr] at h; cases h
  | succ n =>
    have hnl : ¬ p.tok = TOK_LET := by rw [hif]; decide
    rw [parse_expr, if_neg hnl, if_pos hif] at h
    by_cases hl1 : p.lexes
    · rw [advance_eq hl1] at h
      cases hc : parse_expr host n p.next with
      | timeout => rw [hc] at h; cases h
      | crash => rw [hc] at h; cases h
      | ret rc =>
        obtain ⟨c, pc⟩ := rc
        rw [hc] at h
        simp only [Outcome.bind] at h
        by_cases hcn : c.isNull = true
        · rw [if_pos hcn] at h
          cases h
          cases hv
        · rw [if_neg hcn] at h
          by_cases hthen : pc.tok = TOK_THEN
          · rw [if_neg (not_not.mpr hthen)] at h
            by_cases hl2 : pc.lexes
            · rw [advance_eq hl2] at h
              cases ha : parse_expr host n pc.next with
              | timeout => rw [ha] at h; cases h
              | crash => rw [ha] at h; cases h
              | ret rt =>
                obtain ⟨a, pa⟩ := rt
                rw [ha] at h
                simp only [Outcome.bind] at h
                by_cases han : a.isNull = true
                · rw [if_pos han] at h
                  cases h
                  cases hv
                · rw [if_neg han] at h
                  by_cases helse : pa.tok = TOK_ELSE
                  · rw [if_neg (not_not.mpr helse)] at h
                    by_cases hl3 : pa.lexes
                    · rw [advance_eq hl3] at h
                      cases hb : parse_expr host n pa.next with
                      | timeout => rw [hb] at h; cases h
                      | crash => rw [hb] at h; cases h
                      | ret re =>
                        obtain ⟨b, pb⟩ := re
                        rw [hb] at h
                        simp only [Outcome.bind] at h
                        by_cases hbn : b.isNull = true
                        · rw [if_pos hbn] at h
                          cases h
                          cases hv
                        · rw [if_neg hbn] at h
                          cases h
                          exact ⟨c, a, b, pc, pa, hl1, ⟨by simpa using hcn, n, hc⟩, hthen, hl2,
                            ⟨by simpa using han, n, ha⟩, helse, hl3,
                            ⟨by simpa using hbn, n, hb⟩, rfl⟩
                    · rw [advance_stops hl3] at h
                      cases h
                      cases hv
                  · rw [if_pos helse] at h
                    cases h
                    cases hv
            · rw [advance_stops hl2] at h
              cases h
              cases hv
          · rw [if_pos hthen] at h
            cases h
            cases hv
    · rw [advance_stops hl1] at h
      cases h
      cases hv

/-- A successful expression that starts with a primary and goes on with `?` has
evaluated both branches of the ternary, one after the other. -/
theorem parse_expr_ternary_inv (host : Host) {p q : Parser} {v : Goon_Value} {fuel : Nat}
    (hnl : p.tok ≠ TOK_LET) (hni : p.tok ≠ TOK_IF)
    (h : parse_expr host fuel p = .ret (v, q)) (hv : v.isNull = false) :
    ∃ (c : Goon_Value) (pc : Parser), EvalsPrimary host p c pc ∧
      ((pc.tok ≠ TOK_QUESTION ∧ v = c ∧ q = pc) ∨
        (pc.tok = TOK_QUESTION ∧ ∃ (a b : Goon_Value) (pa : Parser),
          pc.lexes ∧ Evals host pc.next a pa ∧ pa.tok = TOK_COLON ∧ pa.lexes ∧
          Evals host pa.next b q ∧ v = if goon_to_bool c then a else b)) := by
  cases fuel with
  | zero => rw [parse_expr] at h; cases h
  | succ n =>
    rw [parse_expr, if_neg hnl, if_neg hni] at h
    cases hc : parse_primary host n p with
    | timeout => rw [hc] at h; cases h
    | crash => rw [hc] at h; cases h
    | ret rc =>
      obtain ⟨c, pc⟩ := rc
      rw [hc] at h
      simp only [Outcome.bind] at h
      by_cases hcn : c.isNull = true
      · rw [if_pos hcn] at h
        cases h
        cases hv
      · rw [if_neg hcn] at h
        refine ⟨c, pc, ⟨by simpa using hcn, n, hc⟩, ?_⟩
        by_cases hq : pc.tok = TOK_QUESTION
        · rw [if_pos hq] at h
          refine Or.inr ⟨hq, ?_⟩
          by_cases hl2 : pc.lexes
          · rw [advance_eq hl2] at h
            cases ha : parse_expr host n pc.next with
            | timeout => rw [ha] at h; cases h
            | crash => rw [ha] at h; cases h
            | ret rt =>
              obtain ⟨a, pa⟩ := rt
              rw [ha] at h
              simp only [Outcome.bind] at h
              by_cases han : a.isNull = true
              · rw [if_pos han] at h
                cases h
                cases hv
              · rw [if_neg han] at h
                by_cases hcolon : pa.tok = TOK_COLON
                · rw [if_neg (not_not.mpr hcolon)] at h
                  by_cases hl3 : pa.lexes
                  · rw [advance_eq hl3] at h
                    cases hb : parse_expr host n pa.next with
                    | timeout => rw [hb] at h; cases h
                    | crash => rw [hb] at h; cases h
                    | ret re =>
                      obtain ⟨b, pb⟩ := re
                      rw [hb] at h
                      simp only [Outcome.bind] at h
                      by_cases hbn : b.isNull = true
                      · rw [if_pos hbn] at h
                        cases h
                        cases hv
                      · rw [if_neg hbn] at h
                        cases h
                        exact ⟨a, b, pa, hl2, ⟨by simpa using han, n, ha⟩, hcolon, hl3,
                          ⟨by simpa using hbn, n, hb⟩, rfl⟩
                  · rw [advance_stops hl3] at h
                    cases h
                    cases hv
                · rw [if_pos hcolon] at h
                  cases h
                  cases hv
          · rw [advance_stops hl2] at h
            cases h
            cases hv
        · rw [if_neg hq] at h
          cases h
          exact Or.inl ⟨hq, rfl, rfl⟩

/-- C21: both branches of an `if` and of a ternary are evaluated, whatever the
condition is, the first branch before the second.  When the condition and the
two branches evaluate one after the other, each starting in the state the one
before it left, `parse_expr` returns the value of the chosen branch together
with the state `pb` that the second branch left, so the bindings made by the
branch whose value is discarded are in the context handed on, and every name
bound after the first branch is still bound there.  Conversely an `if` or a
ternary that returns a value has evaluated the condition and both branches in
this order.  In a fresh context, with a host that registers no function, the
sources `if true then 1 else let x = 2` and `true ? 1 : let x = 2` load with
result 1 and leave `x` bound to 2, and so do `if false then let x = 2 else 1`
and `false ? let x = 2 : 1`. -/
theorem C21_untaken_branch_is_evaluated (host : Host) :
    (∀ (p pc pa pb : Parser) (c a b : Goon_Value),
        p.tok = TOK_IF → p.lexes → Evals host p.next c pc →
        pc.tok = TOK_THEN → pc.lexes → Evals host pc.next a pa →
        pa.tok = TOK_ELSE → pa.lexes → Evals host pa.next b pb →
        Returns (fun fuel => parse_expr host fuel p)
          (if goon_to_bool c then a else b, pb) ∧
        pc.ctx.names ⊆ pa.ctx.names ∧ pa.ctx.names ⊆ pb.ctx.names) ∧
    (∀ (p pc pa pb : Parser) (c a b : Goon_Value),
        p.tok ≠ TOK_LET → p.tok ≠ TOK_IF → EvalsPrimary host p c pc →
        pc.tok = TOK_QUESTION → pc.lexes → Evals host pc.next a pa →
        pa.tok = TOK_COLON → pa.lexes → Evals host pa.next b pb →
        Returns (fun fuel => parse_expr host fuel p)
          (if goon_to_bool c then a else b, pb) ∧
        pc.ctx.names ⊆ pa.ctx.names ∧ pa.ctx.names ⊆ pb.ctx.names) ∧
    (∀ (p q : Parser) (v : Goon_Value), p.tok = TOK_IF → Evals host p v q →
        ∃ (c a b : Goon_Value) (pc pa : Parser),
          p.lexes ∧ Evals host p.next c pc ∧ pc.tok = TOK_THEN ∧ pc.lexes ∧
          Evals host pc.next a pa ∧ pa.tok = TOK_ELSE ∧ pa.lexes ∧
          Evals host pa.next b q ∧ v = if goon_to_bool c then a else b) ∧
    (∀ (p q : Parser) (v : Goon_Value), p.tok ≠ TOK_LET → p.tok ≠ TOK_IF →
        Evals host p v q →
        ∃ (c : Goon_Value) (pc : Parser), EvalsPrimary host p c pc ∧
          ((pc.tok ≠ TOK_QUESTION ∧ v = c ∧ q = pc) ∨
            (pc.tok = TOK_QUESTION ∧ ∃ (a b : Goon_Value) (pa : Parser),
              pc.lexes ∧ Evals host pc.next a pa ∧ pa.tok = TOK_COLON ∧ pa.lexes ∧
              Evals host pa.next b q ∧ v = if goon_to_bool c then a else b))) ∧
    (∀ last, Returns
      (fun fuel =>
        goon_load_string no_host fuel goon_create last "if true then 1 else let x = 2".toList)
      (true, { env := [("x".toList, .int 2)], error := none, base_path := none }, .int 1)) ∧
    (∀ last, Returns
      (fun fuel => goon_load_string no_host fuel goon_create last "true ? 1 : let x = 2".toList)
      (true, { env := [("x".toList, .int 2)], error := none, base_path := none }, .int 1)) ∧
    (∀ last, Returns
      (fun fuel =>
        goon_load_string no_host fuel goon_create last "if false then let x = 2 else 1".toList)
      (true, { env := [("x".toList, .int 2)], error := none, base_path := none }, .int 1)) ∧
    (∀ last, Returns
      (fun fuel => goon_load_string no_host fuel goon_create last "false ? let x = 2 : 1".toList)
      (true, { env := [("x".toList, .int 2)], error := none, base_path := none }, .int 1)) := by
  refine ⟨?_, ?_, ?_, ?_, ?_, ?_, ?_, ?_⟩
  · intro p pc pa pb c a b hif hl1 hc hthen hl2 ha helse hl3 hb
    refine ⟨parse_expr_if host hif hl1 hc hthen hl2 ha helse hl3 hb, ?_, ?_⟩
    · have h := evals_keeps_names host ha
      rwa [next_ctx] at h
    · have h := evals_keeps_names host hb
      rwa [next_ctx] at h
  · intro p pc pa pb c a b hnl hni hc hq hl2 ha hcolon hl3 hb
    refine ⟨parse_expr_ternary host hnl hni hc hq hl2 ha hcolon hl3 hb, ?_, ?_⟩
    · have h := evals_keeps_names host ha
      rwa [next_ctx] at h
    · have h := evals_keeps_names host hb
      rwa [next_ctx] at h
  · intro p q v hif hev
    obtain ⟨hv, n, hn⟩ := hev
    exact parse_expr_if_inv host hif hn hv
  · intro p q v hnl hni hev
    obtain ⟨hv, n, hn⟩ := hev
    exact parse_expr_ternary_inv host hnl hni hn hv
  · exact loaded_true no_host (n := 20) (by decide!)
  · exact loaded_true no_host (n := 20) (by decide!)
  · exact loaded_true no_host (n := 20) (by decide!)
  · exact loaded_true no_host (n := 20) (by decide!)

/-- The sources `if true then 1 else let x = 2` and `true ? 1 : let x = 2` meet
the hypotheses of the rules of C21: the value is 1, and the state handed on is
the one the `let` of the second branch left, in which `x` is bound to 2. -/
theorem C21_untaken_branch_is_evaluated_witness :
    (Evals no_host branch_demo.next.next.next.next.next (.int 2) branch_demo_end ∧
      Returns (fun fuel => parse_expr no_host fuel branch_demo)
        (if goon_to_bool (.bool true) then .int 1 else .int 2, branch_demo_end) ∧
      lookup branch_demo_end.ctx "x".toList = .int 2) ∧
    (Evals no_host branch_ternary_demo.next.next.next.next (.int 2) branch_ternary_demo_end ∧
      Returns (fun fuel => parse_expr no_host fuel branch_ternary_demo)
        (if goon_to_bool (.bool true) then .int 1 else .int 2, branch_ternary_demo_end) ∧
      lookup branch_ternary_demo_end.ctx "x".toList = .int 2) ∧
    (∃ (c a b : Goon_Value) (pc pa : Parser),
      branch_demo.lexes ∧ Evals no_host branch_demo.next c pc ∧ pc.tok = TOK_THEN ∧
      pc.lexes ∧ Evals no_host pc.next a pa ∧ pa.tok = TOK_ELSE ∧ pa.lexes ∧
      Evals no_host pa.next b branch_demo_end ∧
      Goon_Value.int 1 = if goon_to_bool c then a else b) ∧
    (∃ (c : Goon_Value) (pc : Parser), EvalsPrimary no_host branch_ternary_demo c pc ∧
      ((pc.tok ≠ TOK_QUESTION ∧ Goon_Value.int 1 = c ∧ branch_ternary_demo_end = pc) ∨
        (pc.tok = TOK_QUESTION ∧ ∃ (a b : Goon_Value) (pa : Parser),
          pc.lexes ∧ Evals no_host pc.next a pa ∧ pa.tok = TOK_COLON ∧ pa.lexes ∧
          Evals no_host pa.next b branch_ternary_demo_end ∧
          Goon_Value.int 1 = if goon_to_bool c then a else b))) :=
  have hc : Evals no_host branch_demo.next (.bool true) branch_demo.next.next :=
    ⟨rfl, 3, of_returned (by decide!)⟩
  have ha : Evals no_host branch_demo.next.next.next (.int 1)
      branch_demo.next.next.next.next := ⟨rfl, 3, of_returned (by decide!)⟩
  have hb : Evals no_host branch_demo.next.next.next.next.next (.int 2) branch_demo_end :=
    ⟨rfl, 6, of_returned (by decide!)⟩
  have tc : EvalsPrimary no_host branch_ternary_demo (.bool true) branch_ternary_demo.next :=
    ⟨rfl, 3, of_returned (by decide!)⟩
  have ta : Evals no_host branch_ternary_demo.next.next (.int 1)
      branch_ternary_demo.next.next.next := ⟨rfl, 3, of_returned (by decide!)⟩
  have tb : Evals no_host branch_ternary_demo.next.next.next.next (.int 2)
      branch_ternary_demo_end := ⟨rfl, 6, of_returned (by decide!)⟩
  have hall : Evals no_host branch_demo (.int 1) branch_demo_end :=
    ⟨rfl, 10, of_returned (by decide!)⟩
  have tall : Evals no_host branch_ternary_demo (.int 1) branch_ternary_demo_end :=
    ⟨rfl, 10, of_returned (by decide!)⟩
  ⟨⟨hb, ((C21_untaken_branch_is_evaluated no_host).1 branch_demo branch_demo.next.next
      branch_demo.next.next.next.next branch_demo_end (.bool true) (.int 1) (.int 2)
      (by decide!) (by decide!) hc (by decide!) (by decide!) ha (by decide!)
      (by decide!) hb).1, lookup_define _ _ _⟩,
    ⟨tb, ((C21_untaken_branch_is_evaluated no_host).2.1 branch_ternary_demo
      branch_ternary_demo.next branch_ternary_demo.next.next.next branch_ternary_demo_end
      (.bool true) (.int 1) (.int 2) (by decide!) (by decide!) tc (by decide!) (by decide!)
      ta (by decide!) (by decide!) tb).1, lookup_define _ _ _⟩,
    (C21_untaken_branch_is_evaluated no_host).2.2.1 branch_demo branch_demo_end (.int 1)
      (by decide!) hall,
    (C21_untaken_branch_is_evaluated no_host).2.2.2.1 branch_ternary_demo
      branch_ternary_demo_end (.int 1) (by decide!) (by decide!) tall⟩

/-! ## C29: an unbound identifier is nil -/

/-- An identifier that is followed neither by `(` nor by `.` evaluates to what
`lookup` finds, nil standing in for the null pointer. -/
theorem parse_primary_ident (host : Host) {p : Parser} {name : List Char}
    (ht : p.tok = TOK_IDENT) (hs : p.lex.current.string = some name) (hl : p.lexes)
    (hp : p.next.tok ≠ TOK_LPAREN) (hd : p.next.tok ≠ TOK_DOT) :
    ∃ fuel0, ∀ fuel, fuel0 ≤ fuel →
      parse_primary host fuel p = .ret ((lookup p.ctx name).or_nil, p.next) := by
  refine ⟨1, fun fuel hle => ?_⟩
  obtain ⟨m, rfl⟩ : ∃ m, fuel = m + 1 := ⟨fuel - 1, by omega⟩
  rw [parse_primary]
  unfold Parser.tok at ht
  dsimp only
  rw [ht]
  dsimp only
  rw [hs]
  dsimp only
  rw [advance_eq hl, if_neg hp, if_neg hd, next_ctx]
  rfl

/-- C29: a reference to a name that is not bound is no error.  At an identifier
token whose name is not bound in the environment, and which is followed neither
by `(` nor by `.`, `parse_primary` returns nil and moves to the next token; nil
is not the null pointer, so unless a `?` follows the identifier evaluates as an
expression to nil and the load goes on.  In a fresh context, with a host that
registers no function, the one-token source `foo` loads with result nil, which
renders as `null`, and `foo 1` goes on to the result 1. -/
theorem C29_unbound_identifier_is_nil (host : Host) :
    (∀ (p : Parser) (name : List Char),
        p.tok = TOK_IDENT → p.lex.current.string = some name → p.lexes →
        name ∉ p.ctx.names → p.next.tok ≠ TOK_LPAREN → p.next.tok ≠ TOK_DOT →
        lookup p.ctx name = .NULL ∧
        Returns (fun fuel => parse_primary host fuel p) (.nil, p.next) ∧
        (p.next.tok ≠ TOK_QUESTION → Evals host p .nil p.next)) ∧
    (∀ last, Returns
      (fun fuel => goon_load_string no_host fuel goon_create last "foo".toList)
      (true, goon_create, .nil)) ∧
    goon_to_json .nil = "null".toList ∧
    (∀ last, Returns
      (fun fuel => goon_load_string no_host fuel goon_create last "foo 1".toList)
      (true, goon_create, .int 1)) := by
  refine ⟨?_, ?_, rfl, ?_⟩
  · intro p name ht hs hl hn hp hd
    have hnull : lookup p.ctx name = .NULL := lookup_unbound p.ctx name hn
    have h := parse_primary_ident host ht hs hl hp hd
    rw [hnull] at h
    refine ⟨hnull, h, fun hq => ?_⟩
    exact evals_of_primary host (by rw [ht]; decide) (by rw [ht]; decide) rfl hq h
  · exact loaded_true no_host (n := 20) (by decide!)
  · exact loaded_true no_host (n := 20) (by decide!)

/-- The source `foo` in a fresh context meets the hypotheses of the rule of
C29: the identifier evaluates to nil. -/
theorem C29_unbound_identifier_is_nil_witness :
    lookup unbound_demo.ctx "foo".toList = .NULL ∧
    Returns (fun fuel => parse_primary no_host fuel unbound_demo) (.nil, unbound_demo.next) ∧
    (unbound_demo.next.tok ≠ TOK_QUESTION → Evals no_host unbound_demo .nil unbound_demo.next) :=
  (C29_unbound_identifier_is_nil no_host).1 unbound_demo "foo".toList (by decide!) (by decide!)
    (by decide!) (by decide!) (by decide!) (by decide!)

/-! ## C27: the tokenizer reads back what the JSON renderer escapes -/

/-- C27: the string decoding of the tokenizer inverts `json_escape_string`.
For every string `s`, `lexer_next` on the text `json_escape_string s` succeeds,
the token is a STRING token whose payload is exactly `s`, and the whole text is
consumed: `pos` ends at the length of the text, which is `len`.  The same holds
wherever the unread input starts with that text: the token has payload `s` and
`pos` moves forward by the length of the text. -/
theorem C27_tokenizer_inverts_json_escaping :
    (∀ s : List Char, ∃ cur : Token, cur.type = TOK_STRING ∧ cur.string = some s ∧
      lexer_next (lexer_init (json_escape_string s)) =
        (true, { lexer_init (json_escape_string s) with
                  current := cur, pos := (json_escape_string s).length }) ∧
      (lexer_next (lexer_init (json_escape_string s))).2.pos =
        (lexer_next (lexer_init (json_escape_string s))).2.len) ∧
    (∀ (L : Lexer) (s r : List Char), L.Rest (json_escape_string s ++ r) →
      ∃ cur : Token, cur.type = TOK_STRING ∧ cur.string = some s ∧
        lexer_next L =
          (true, { L with current := cur, pos := L.pos + (json_escape_string s).length })) := by
  refine ⟨fun s => ?_, fun L s r h => lexer_next_json_string h⟩
  have h : (lexer_init (json_escape_string s)).Rest (json_escape_string s ++ []) := by
    rw [List.append_nil]
    exact lexer_init_rest _
  obtain ⟨cur, h1, h2, h3⟩ := lexer_next_json_string h
  refine ⟨cur, h1, h2, ?_, ?_⟩
  · rw [h3]
    simp [lexer_init]
  · rw [h3]
    simp [lexer_init]

/-- The text `"a\"b"` that `json_escape_string` gives for the three characters
`a"b` is read back as a STRING token with these three characters. -/
theorem C27_tokenizer_inverts_json_escaping_witness :
    (lexer_init (json_escape_string ['a', DQUOTE, 'b'])).Rest
      (json_escape_string ['a', DQUOTE, 'b'] ++ []) ∧
    ∃ cur : Token, cur.type = TOK_STRING ∧ cur.string = some ['a', DQUOTE, 'b'] ∧
      lexer_next (lexer_init (json_escape_string ['a', DQUOTE, 'b'])) =
        (true, { lexer_init (json_escape_string ['a', DQUOTE, 'b']) with
                  current := cur,
                  pos := (lexer_init (json_escape_string ['a', DQUOTE, 'b'])).pos +
                    (json_escape_string ['a', DQUOTE, 'b']).length }) :=
  have h : (lexer_init (json_escape_string ['a', DQUOTE, 'b'])).Rest
      (json_escape_string ['a', DQUOTE, 'b'] ++ []) := ⟨rfl, rfl⟩
  ⟨h, C27_tokenizer_inverts_json_escaping.2
    (lexer_init (json_escape_string ['a', DQUOTE, 'b'])) ['a', DQUOTE, 'b'] [] h⟩

/-! ## C23: the escapes of a string literal -/

theorem lexer_next_escape_spec (c : Char) : lexer_next_escape c = spec_escape c := by
  unfold lexer_next_escape spec_escape
  by_cases h1 : c = 'n'
  · rw [if_pos h1, if_pos h1]
  · rw [if_neg h1, if_neg h1]
    by_cases h2 : c = 't'
    · rw [if_pos h2, if_pos h2]
    · rw [if_neg h2, if_neg h2]
      by_cases h3 : c = 'r'
      · rw [if_pos h3, if_pos h3]
      · rw [if_neg h3, if_neg h3]
        by_cases h4 : c = BACKSLASH
        · rw [if_pos h4, h4]
        · rw [if_neg h4]
          by_cases h5 : c = DQUOTE
          · rw [if_pos h5, h5]
          · rw [if_neg h5]
            by_cases h6 : c = '$'
            · rw [if_pos h6, h6]
            · rw [if_neg h6]

/-- The string loop of the tokenizer, run over the body of a terminated
literal up to the closing quote, collects the decoded body. -/
theorem lexer_next_string_body :
    ∀ (n : Nat) (body : List Char) (L : Lexer) (r buf : List Char),
      L.Rest (body ++ DQUOTE :: r) → spec_string_body body = true → body.length < n →
      lexer_next_string n L buf =
        ({ L with pos := L.pos + body.length }, buf ++ spec_decode_body body) := by
  intro n
  induction n with
  | zero => intro body L r buf _ _ hn; omega
  | succ m ih =>
    intro body L r buf h hb hn
    match body, h, hb, hn with
    | [], h, _, _ =>
      have hc := (rest_cons (c := DQUOTE) (t := r) h).2.1
      have hcond : ¬ (L.pos < L.len ∧ L.src_at L.pos ≠ DQUOTE) := fun hcd => hcd.2 hc
      rw [lexer_next_string, if_neg hcond]
      simp [spec_decode_body]
    | [c], h, hb, hn =>
      simp only [spec_string_body, Bool.and_eq_true, decide_eq_true_eq] at hb
      obtain ⟨hpos, hc, _⟩ := rest_cons (c := c) h
      have hcond : L.pos < L.len ∧ L.src_at L.pos ≠ DQUOTE := ⟨hpos, by rw [hc]; exact hb.1⟩
      have hesc : ¬ (L.src_at L.pos = BACKSLASH ∧ L.pos + 1 < L.len) :=
        fun he => hb.2 (hc ▸ he.1)
      have h1 : ({ L with pos := L.pos + 1 } : Lexer).Rest (DQUOTE :: r) :=
        rest_step (a := [c]) h rfl rfl rfl
      have hc1 := (rest_cons h1).2.1
      have hcond1 : ¬ (({ L with pos := L.pos + 1 } : Lexer).pos <
          ({ L with pos := L.pos + 1 } : Lexer).len ∧
          ({ L with pos := L.pos + 1 } : Lexer).src_at
            ({ L with pos := L.pos + 1 } : Lexer).pos ≠ DQUOTE) := fun hcd => hcd.2 hc1
      rw [lexer_next_string, if_pos hcond]
      simp only [hesc, if_false]
      rw [ih [] { L with pos := L.pos + 1 } r _ h1 rfl (by simp at hn ⊢; omega), hc]
      simp [spec_decode_body]
    | c :: e :: rest, h, hb, hn =>
      obtain ⟨hpos, hc, _⟩ := rest_cons (c := c) h
      have h1 : ({ L with pos := L.pos + 1 } : Lexer).Rest (e :: (rest ++ DQUOTE :: r)) :=
        rest_step (a := [c]) h rfl rfl rfl
      obtain ⟨hpos1, hc1, _⟩ := rest_cons h1
      by_cases hbs : c = BACKSLASH
      · rw [spec_string_body, if_pos hbs] at hb
        have hcond : L.pos < L.len ∧ L.src_at L.pos ≠ DQUOTE :=
          ⟨hpos, by rw [hc, hbs]; decide⟩
        have hesc : L.src_at L.pos = BACKSLASH ∧ L.pos + 1 < L.len := ⟨hc.trans hbs, hpos1⟩
        rw [lexer_next_string, if_pos hcond]
        simp only [hesc, and_self, if_true]
        rw [ih rest { L with pos := L.pos + 1 + 1 } r _
          (rest_step (a := [c, e]) h rfl rfl rfl) hb (by simp at hn ⊢; omega)]
        have e1 : Lexer.src_at { L with pos := L.pos + 1 } (L.pos + 1) = e := hc1
        simp only [e1, lexer_next_escape_spec]
        rw [spec_decode_body, if_pos hbs]
        simp [Nat.add_assoc, Nat.add_comm]
        omega
      · rw [spec_string_body, if_neg hbs] at hb
        simp only [Bool.and_eq_true, decide_eq_true_eq] at hb
        have hcond : L.pos < L.len ∧ L.src_at L.pos ≠ DQUOTE := ⟨hpos, by rw [hc]; exact hb.1⟩
        have hesc : ¬ (L.src_at L.pos = BACKSLASH ∧ L.pos + 1 < L.len) :=
          fun he => hbs (hc ▸ he.1)
        rw [lexer_next_string, if_pos hcond]
        simp only [hesc, if_false]
        rw [ih (e :: rest) { L with pos := L.pos + 1 } r _ h1 hb.2 (by simp at hn ⊢; omega),
          lexer_pos_add, hc, spec_decode_body, if_neg hbs]
        simp [Nat.add_comm]

/-- The tokenizer on a terminated string literal: the token is a STRING token
whose payload is the decoded body, and `pos` moves past the closing quote. -/
theorem lexer_next_string_literal {L : Lexer} {body r : List Char}
    (h : L.Rest (DQUOTE :: (body ++ DQUOTE :: r))) (hb : spec_string_body body = true) :
    ∃ cur : Token, cur.type = TOK_STRING ∧ cur.string = some (spec_decode_body body) ∧
      lexer_next L = (true, { L with current := cur, pos := L.pos + (body.length + 2) }) := by
  obtain ⟨hpos, hc, hrest⟩ := rest_cons h
  have hnl : ¬ L.len ≤ L.pos := by omega
  have hc2 : L.src[L.pos]?.getD (Char.ofNat 0) = '"' := by simpa [Lexer.src_at] using hc
  have h1 : ({ L with pos := L.pos + 1 } : Lexer).Rest (body ++ DQUOTE :: r) :=
    rest_step (a := [DQUOTE]) h rfl rfl rfl
  have hfuel : body.length < L.len - (L.pos + 1) := by
    have := rest_length h1
    simp at this
    omega
  unfold lexer_next
  generalize hX : (if L.current.type = TOK_STRING ∨ L.current.type = TOK_IDENT then
      ({ L with current := { L.current with string := none } } : Lexer) else L) = X0
  have hsrc : X0.src = L.src := by subst hX; split <;> rfl
  have hp : X0.pos = L.pos := by subst hX; split <;> rfl
  have hl : X0.len = L.len := by subst hX; split <;> rfl
  have he : X0.error = L.error := by subst hX; split <;> rfl
  clear hX
  obtain ⟨src0, pos0, len0, cur0, err0⟩ := X0
  dsimp only at hsrc hp hl he
  subst hsrc hp hl he
  have hws := skip_whitespace_token
    { src := L.src, pos := L.pos, len := L.len, current := cur0, error := L.error }
    DQUOTE hpos hc (by decide)
  have hrun := lexer_next_string_body (L.len - (L.pos + 1)) body
    { src := L.src, pos := L.pos + 1, len := L.len, current := cur0, error := L.error }
    r [] ⟨h1.1, h1.2⟩ hb hfuel
  have hlt : ¬ L.len ≤ L.pos + 1 + body.length := by omega
  simp only [hws]
  simp +decide [Lexer.src_at, Lexer.emit, hc2, hnl, DQUOTE, hrun, hlt]
  refine ⟨_, rfl, rfl, ?_, rfl⟩
  omega

theorem drop_eq_getD_cons (l : List Char) (i : Nat) (d : Char) (h : i < l.length) :
    l.drop i = l.getD i d :: l.drop (i + 1) := by
  rw [List.drop_eq_getElem_cons h]
  congr 1
  simp [List.getD, List.getElem?_eq_getElem h]

/-- When the string loop of the tokenizer stops before the end of the input,
what it has run over is the body of a terminated literal. -/
theorem lexer_next_string_stops :
    ∀ (n : Nat) (L : Lexer) (buf : List Char), L.len = L.src.length → L.len - L.pos ≤ n →
      (lexer_next_string n L buf).1.pos < (lexer_next_string n L buf).1.len →
      ∃ body r : List Char, L.src.drop L.pos = body ++ DQUOTE :: r ∧
        spec_string_body body = true := by
  intro n
  induction n with
  | zero =>
    intro L buf _ hn hlt
    rw [lexer_next_string] at hlt
    dsimp only at hlt
    omega
  | succ m ih =>
    intro L buf hlen hn hlt
    rw [lexer_next_string] at hlt
    by_cases hcond : L.pos < L.len ∧ L.src_at L.pos ≠ DQUOTE
    · rw [if_pos hcond] at hlt
      have hd : L.src.drop L.pos = L.src_at L.pos :: L.src.drop (L.pos + 1) := by
        have hp : L.pos < L.src.length := by rw [← hlen]; exact hcond.1
        exact drop_eq_getD_cons _ _ _ hp
      by_cases hesc : L.src_at L.pos = BACKSLASH ∧ L.pos + 1 < L.len
      · simp only [hesc, and_self, if_true] at hlt
        obtain ⟨body, r, hbr, hb⟩ := ih { L with pos := L.pos + 1 + 1 } _ hlen
          (by simp; omega) hlt
        have hd1 : L.src.drop (L.pos + 1) =
            L.src_at (L.pos + 1) :: L.src.drop (L.pos + 1 + 1) := by
          have hp : L.pos + 1 < L.src.length := by rw [← hlen]; exact hesc.2
          exact drop_eq_getD_cons _ _ _ hp
        refine ⟨L.src_at L.pos :: L.src_at (L.pos + 1) :: body, r, ?_, ?_⟩
        · rw [hd, hd1]
          simp only [List.cons_append]
          rw [← hbr]
        · rw [spec_string_body, if_pos hesc.1]
          exact hb
      · simp only [hesc, if_false] at hlt
        obtain ⟨body, r, hbr, hb⟩ := ih { L with pos := L.pos + 1 } _ hlen
          (by simp; omega) hlt
        have hbr1 : L.src.drop (L.pos + 1) = body ++ DQUOTE :: r := hbr
        refine ⟨L.src_at L.pos :: body, r, ?_, ?_⟩
        · rw [hd, hbr1]
          rfl
        · have hnb : L.src_at L.pos ≠ BACKSLASH := by
            intro hbs
            apply hesc
            refine ⟨hbs, ?_⟩
            have hlen2 := congrArg List.length hbr1
            simp at hlen2
            omega
          cases body with
          | nil =>
            simp only [spec_string_body, Bool.and_eq_true, decide_eq_true_eq]
            exact ⟨hcond.2, hnb⟩
          | cons e rest =>
            rw [spec_string_body, if_neg hnb]
            simp only [Bool.and_eq_true, decide_eq_true_eq]
            exact ⟨hcond.2, hb⟩
    · rw [if_neg hcond] at hlt
      have hp : L.pos < L.src.length := by rw [← hlen]; exact hlt
      have hq : L.src_at L.pos = DQUOTE := by
        by_contra hne
        exact hcond ⟨hlt, hne⟩
      refine ⟨[], L.src.drop (L.pos + 1), ?_, rfl⟩
      rw [drop_eq_getD_cons _ _ (Char.ofNat 0) hp]
      exact congrArg (fun c => c :: L.src.drop (L.pos + 1)) hq

/-- When the tokenizer succeeds at a double quote, the input after the quote
starts with the body of a terminated literal and its closing quote. -/
theorem lexer_next_string_terminated {L : Lexer} {t : List Char}
    (h : L.Rest (DQUOTE :: t)) (hok : (lexer_next L).1 = true) :
    ∃ body r : List Char, t = body ++ DQUOTE :: r ∧ spec_string_body body = true := by
  obtain ⟨hpos, hc, hrest⟩ := rest_cons h
  have hnl : ¬ L.len ≤ L.pos := by omega
  have hc2 : L.src[L.pos]?.getD (Char.ofNat 0) = '"' := by simpa [Lexer.src_at] using hc
  unfold lexer_next at hok
  generalize hX : (if L.current.type = TOK_STRING ∨ L.current.type = TOK_IDENT then
      ({ L with current := { L.current with string := none } } : Lexer) else L) = X0 at hok
  have hsrc : X0.src = L.src := by subst hX; split <;> rfl
  have hp : X0.pos = L.pos := by subst hX; split <;> rfl
  have hl : X0.len = L.len := by subst hX; split <;> rfl
  have he : X0.error = L.error := by subst hX; split <;> rfl
  clear hX
  obtain ⟨src0, pos0, len0, cur0, err0⟩ := X0
  dsimp only at hsrc hp hl he
  subst hsrc hp hl he
  have hws := skip_whitespace_token
    { src := L.src, pos := L.pos, len := L.len, current := cur0, error := L.error }
    DQUOTE hpos hc (by decide)
  simp only [hws] at hok
  simp +decide [Lexer.src_at, Lexer.emit, hc2, hnl, DQUOTE] at hok
  have hstop := lexer_next_string_stops (L.len - (L.pos + 1))
    { src := L.src, pos := L.pos + 1, len := L.len, current := cur0, error := L.error } []
    h.1 (Nat.le_refl _)
  by_cases hlt : (lexer_next_string (L.len - (L.pos + 1))
      { src := L.src, pos := L.pos + 1, len := L.len, current := cur0, error := L.error }
      []).1.len ≤ (lexer_next_string (L.len - (L.pos + 1))
      { src := L.src, pos := L.pos + 1, len := L.len, current := cur0, error := L.error }
      []).1.pos
  · rw [if_pos hlt] at hok
    cases hok
  · obtain ⟨body, r, hbr, hb⟩ := hstop (by omega)
    refine ⟨body, r, ?_, hb⟩
    rw [← hrest]
    exact hbr

/-- C23: the payload of a STRING token is the body of the literal with each
backslash pair decoded and every other character copied.  For every terminated
literal, that is an opening quote, a body in which each double quote and each
character after a backslash is the second character of a backslash pair, and a
closing quote, `lexer_next` yields a STRING token whose payload is
`spec_decode_body` of the body and moves `pos` past the closing quote; an
escaped double quote is part of the body and does not end the literal.  Every
input on which `lexer_next` succeeds at a double quote has this form.  The pairs
`\n`, `\t`, `\r` stand for newline, tab and carriage return, the pairs `\\`,
`\"` and `\$` for backslash, double quote and dollar, and a backslash before
any other character stands for that character; the `switch` of the source
decodes exactly so.  The literal `"\q"` gives the payload `q`, and `"a\"b\n"`
the five characters `a"b` and newline. -/
theorem C23_string_escapes_are_decoded :
    (∀ (L : Lexer) (body r : List Char),
        L.Rest (DQUOTE :: (body ++ DQUOTE :: r)) → spec_string_body body = true →
        ∃ cur : Token, cur.type = TOK_STRING ∧ cur.string = some (spec_decode_body body) ∧
          lexer_next L = (true, { L with current := cur, pos := L.pos + (body.length + 2) })) ∧
    (∀ (L : Lexer) (t : List Char), L.Rest (DQUOTE :: t) → (lexer_next L).1 = true →
        ∃ body r : List Char, t = body ++ DQUOTE :: r ∧ spec_string_body body = true) ∧
    (spec_escape 'n' = '\n' ∧ spec_escape 't' = '\t' ∧ spec_escape 'r' = '\r' ∧
      spec_escape BACKSLASH = BACKSLASH ∧ spec_escape DQUOTE = DQUOTE ∧
      spec_escape '$' = '$' ∧ spec_escape 'q' = 'q' ∧
      ∀ c : Char, c ≠ 'n' → c ≠ 't' → c ≠ 'r' → spec_escape c = c) ∧
    (∀ c : Char, lexer_next_escape c = spec_escape c) ∧
    (∀ (e : Char) (rest : List Char),
        spec_decode_body (BACKSLASH :: e :: rest) = spec_escape e :: spec_decode_body rest) ∧
    (∀ (c : Char) (rest : List Char), c ≠ BACKSLASH →
        spec_decode_body (c :: rest) = c :: spec_decode_body rest) ∧
    (lexer_next (lexer_init [DQUOTE, BACKSLASH, 'q', DQUOTE])).2.current.string = some ['q'] ∧
    (lexer_next (lexer_init
        [DQUOTE, 'a', BACKSLASH, DQUOTE, 'b', BACKSLASH, 'n', DQUOTE])).2.current.string =
      some ['a', DQUOTE, 'b', '\n'] := by
  refine ⟨fun L body r h hb => lexer_next_string_literal h hb,
    fun L t h hok => lexer_next_string_terminated h hok,
    ⟨by decide, by decide, by decide, by decide, by decide, by decide, by decide, ?_⟩,
    lexer_next_escape_spec, ?_, ?_, by decide, by decide⟩
  · intro c h1 h2 h3
    unfold spec_escape
    rw [if_neg h1, if_neg h2, if_neg h3]
  · intro e rest
    rw [spec_decode_body, if_pos rfl]
  · intro c rest hc
    cases rest with
    | nil => rfl
    | cons e rest => rw [spec_decode_body, if_neg hc]

/-- The literal `"a\"b\n"` meets the hypotheses of the rules of C23: its body
`a\"b\n` is the body of a terminated literal, the payload of the token is the
decoded body, and from the success of the tokenizer the body is found again. -/
theorem C23_string_escapes_are_decoded_witness :
    spec_string_body ['a', BACKSLASH, DQUOTE, 'b', BACKSLASH, 'n'] = true ∧
    spec_decode_body ['a', BACKSLASH, DQUOTE, 'b', BACKSLASH, 'n'] = ['a', DQUOTE, 'b', '\n'] ∧
    (∃ cur : Token, cur.type = TOK_STRING ∧
      cur.string = some (spec_decode_body ['a', BACKSLASH, DQUOTE, 'b', BACKSLASH, 'n']) ∧
      lexer_next (lexer_init [DQUOTE, 'a', BACKSLASH, DQUOTE, 'b', BACKSLASH, 'n', DQUOTE]) =
        (true, { lexer_init [DQUOTE, 'a', BACKSLASH, DQUOTE, 'b', BACKSLASH, 'n', DQUOTE] with
                  current := cur,
                  pos := (lexer_init
                      [DQUOTE, 'a', BACKSLASH, DQUOTE, 'b', BACKSLASH, 'n', DQUOTE]).pos +
                    (['a', BACKSLASH, DQUOTE, 'b', BACKSLASH, 'n'].length + 2) })) ∧
    ((lexer_next (lexer_init
        [DQUOTE, 'a', BACKSLASH, DQUOTE, 'b', BACKSLASH, 'n', DQUOTE])).1 = true ∧
      ∃ body r : List Char,
        ['a', BACKSLASH, DQUOTE, 'b', BACKSLASH, 'n', DQUOTE] = body ++ DQUOTE :: r ∧
        spec_string_body body = true) ∧
    spec_escape 'q' = 'q' ∧
    spec_decode_body ('a' :: ['b']) = 'a' :: spec_decode_body ['b'] :=
  ⟨by decide, by decide, C23_string_escapes_are_decoded.1
      (lexer_init [DQUOTE, 'a', BACKSLASH, DQUOTE, 'b', BACKSLASH, 'n', DQUOTE])
      ['a', BACKSLASH, DQUOTE, 'b', BACKSLASH, 'n'] [] ⟨rfl, rfl⟩ (by decide),
    ⟨by decide, C23_string_escapes_are_decoded.2.1
      (lexer_init [DQUOTE, 'a', BACKSLASH, DQUOTE, 'b', BACKSLASH, 'n', DQUOTE])
      ['a', BACKSLASH, DQUOTE, 'b', BACKSLASH, 'n', DQUOTE] ⟨rfl, rfl⟩ (by decide)⟩,
    C23_string_escapes_are_decoded.2.2.1.2.2.2.2.2.2.2 'q' (by decide) (by decide) (by decide),
    C23_string_escapes_are_decoded.2.2.2.2.2.1 'a' ['b'] (by decide)⟩

/-! ## C22: integer literals -/

/-- The digit loop of the tokenizer computes the decimal value of the digits,
up to wrap-around. -/
theorem digits_fold_wrap (ds : List Char) (hds : ∀ c ∈ ds, isdigit c = true) (s : Int) :
    wrap64 (ds.foldl (fun v c => wrap64 (v * 10 + ((c.toNat : Int) - 48))) 0 * s) =
      wrap64 ((decimal_value ds : Int) * s) := by
  apply wrap64_congr
  have hfold := digits_fold_emod ds hds 0
  simp only [zero_mul, zero_add] at hfold
  exact Int.ModEq.mul_right s hfold

/-- The tokenizer on a run of digits that no digit follows. -/
theorem lexer_next_int_plain {L : Lexer} {d : Char} {ds r : List Char}
    (h : L.Rest (d :: ds ++ r)) (hds : ∀ c ∈ d :: ds, isdigit c = true)
    (hr : ∀ c, r.head? = some c → isdigit c = false) :
    ∃ cur : Token, cur.type = TOK_INT ∧
      cur.integer = wrap64 (decimal_value (d :: ds) : Int) ∧
      lexer_next L = (true, { L with current := cur, pos := L.pos + (d :: ds).length }) := by
  have hd : isdigit d = true := hds d (List.mem_cons_self d ds)
  have hw := digits_fold_wrap (d :: ds) hds 1
  unfold lexer_next
  generalize hX : (if L.current.type = TOK_STRING ∨ L.current.type = TOK_IDENT then
      ({ L with current := { L.current with string := none } } : Lexer) else L) = X0
  have hsrc : X0.src = L.src := by subst hX; split <;> rfl
  have hp : X0.pos = L.pos := by subst hX; split <;> rfl
  have hl : X0.len = L.len := by subst hX; split <;> rfl
  have he : X0.error = L.error := by subst hX; split <;> rfl
  clear hX
  obtain ⟨src0, pos0, len0, cur0, err0⟩ := X0
  dsimp only at hsrc hp hl he
  subst hsrc hp hl he
  have h0 : L.Rest (d :: (ds ++ r)) := by simpa using h
  obtain ⟨hpos, hc, _⟩ := rest_cons h0
  have hnl : ¬ L.len ≤ L.pos := by omega
  have hc2 : L.src[L.pos]?.getD (Char.ofNat 0) = d := by simpa [Lexer.src_at] using hc
  have hws := skip_whitespace_token
    { src := L.src, pos := L.pos, len := L.len, current := cur0, error := L.error }
    d hpos hc ⟨digit_ne hd (by decide), digit_ne hd (by decide), digit_ne hd (by decide),
      digit_ne hd (by decide), digit_ne hd (by decide)⟩
  have hrun := lexer_next_digits_run (d :: ds) (L.len - L.pos)
    { src := L.src, pos := L.pos, len := L.len, current := cur0, error := L.error }
    r 0 ⟨h.1, h.2⟩ hds hr (by have := rest_length h; simp at this ⊢; omega)
  simp only [hws]
  simp +decide [Lexer.src_at, Lexer.emit, hc2, hnl, DQUOTE, hrun, hd,
    digit_ne hd (x := '{') (by decide), digit_ne hd (x := '}') (by decide),
    digit_ne hd (x := '[') (by decide), digit_ne hd (x := ']') (by decide),
    digit_ne hd (x := '(') (by decide), digit_ne hd (x := ')') (by decide),
    digit_ne hd (x := ';') (by decide), digit_ne hd (x := ',') (by decide),
    digit_ne hd (x := '=') (by decide), digit_ne hd (x := ':') (by decide),
    digit_ne hd (x := '?') (by decide), digit_ne hd (x := '.') (by decide),
    digit_ne hd (x := '"') (by decide), digit_ne hd (x := '-') (by decide)]
  simpa using hw

/-- The tokenizer on a minus sign and a run of digits that no digit follows. -/
theorem lexer_next_int_minus {L : Lexer} {d : Char} {ds r : List Char}
    (h : L.Rest ('-' :: (d :: ds ++ r))) (hds : ∀ c ∈ d :: ds, isdigit c = true)
    (hr : ∀ c, r.head? = some c → isdigit c = false) :
    ∃ cur : Token, cur.type = TOK_INT ∧
      cur.integer = wrap64 (-(decimal_value (d :: ds) : Int)) ∧
      lexer_next L = (true, { L with current := cur, pos := L.pos + ((d :: ds).length + 1) }) := by
  have hd : isdigit d = true := hds d (List.mem_cons_self d ds)
  have hw := digits_fold_wrap (d :: ds) hds (-1)
  unfold lexer_next
  generalize hX : (if L.current.type = TOK_STRING ∨ L.current.type = TOK_IDENT then
      ({ L with current := { L.current with string := none } } : Lexer) else L) = X0
  have hsrc : X0.src = L.src := by subst hX; split <;> rfl
  have hp : X0.pos = L.pos := by subst hX; split <;> rfl
  have hl : X0.len = L.len := by subst hX; split <;> rfl
  have he : X0.error = L.error := by subst hX; split <;> rfl
  clear hX
  obtain ⟨src0, pos0, len0, cur0, err0⟩ := X0
  dsimp only at hsrc hp hl he
  subst hsrc hp hl he
  obtain ⟨hpos, hc, _⟩ := rest_cons h
  have h1 : ({ L with pos := L.pos + 1 } : Lexer).Rest (d :: ds ++ r) :=
    rest_step (a := ['-']) h rfl rfl rfl
  obtain ⟨hpos1, hc1, _⟩ := rest_cons (c := d) (t := ds ++ r) (by simpa using h1)
  have hnl : ¬ L.len ≤ L.pos := by omega
  have hc2 : L.src[L.pos]?.getD (Char.ofNat 0) = '-' := by simpa [Lexer.src_at] using hc
  have hc3 : L.src[L.pos + 1]?.getD (Char.ofNat 0) = d := by simpa [Lexer.src_at] using hc1
  have hpos1' : L.pos + 1 < L.len := hpos1
  have hws := skip_whitespace_token
    { src := L.src, pos := L.pos, len := L.len, current := cur0, error := L.error }
    '-' hpos hc (by decide)
  have hrun := lexer_next_digits_run (d :: ds) (L.len - (L.pos + 1))
    { src := L.src, pos := L.pos + 1, len := L.len, current := cur0, error := L.error }
    r 0 ⟨h1.1, h1.2⟩ hds hr (by have := rest_length h1; simp at this ⊢; omega)
  simp only [hws]
  simp +decide [Lexer.src_at, Lexer.emit, hc2, hc3, hnl, DQUOTE, hrun, hd, hpos1']
  refine ⟨_, rfl, ?_, ?_, rfl⟩
  · simpa using hw
  · omega

/-- The tokenizer on a minus sign that no digit follows. -/
theorem lexer_next_minus_alone {L : Lexer} {r : List Char}
    (h : L.Rest ('-' :: r)) (hr : ∀ c, r.head? = some c → isdigit c = false) :
    (lexer_next L).1 = false ∧
      (lexer_next L).2.error = some "unexpected character".toList ∧
      (lexer_next L).2.pos = L.pos := by
  unfold lexer_next
  generalize hX : (if L.current.type = TOK_STRING ∨ L.current.type = TOK_IDENT then
      ({ L with current := { L.current with string := none } } : Lexer) else L) = X0
  have hsrc : X0.src = L.src := by subst hX; split <;> rfl
  have hp : X0.pos = L.pos := by subst hX; split <;> rfl
  have hl : X0.len = L.len := by subst hX; split <;> rfl
  have he : X0.error = L.error := by subst hX; split <;> rfl
  clear hX
  obtain ⟨src0, pos0, len0, cur0, err0⟩ := X0
  dsimp only at hsrc hp hl he
  subst hsrc hp hl he
  obtain ⟨hpos, hc, _⟩ := rest_cons h
  have h1 : ({ L with pos := L.pos + 1 } : Lexer).Rest r :=
    rest_step (a := ['-']) h rfl rfl rfl
  have hno := rest_head_none h1 isdigit hr
  have hno' : ¬ (L.pos + 1 < L.len ∧ isdigit (L.src[L.pos + 1]?.getD (Char.ofNat 0)) = true) := by
    simpa [Lexer.src_at] using hno
  have hnl : ¬ L.len ≤ L.pos := by omega
  have hc2 : L.src[L.pos]?.getD (Char.ofNat 0) = '-' := by simpa [Lexer.src_at] using hc
  have hws := skip_whitespace_token
    { src := L.src, pos := L.pos, len := L.len, current := cur0, error := L.error }
    '-' hpos hc (by decide)
  simp only [hws]
  simp +decide [Lexer.src_at, Lexer.emit, hc2, hnl, DQUOTE, hno', is_ident_start, isalpha]

theorem dropWhile_head (P : Char → Bool) :
    ∀ (t : List Char) (c : Char), (t.dropWhile P).head? = some c → P c = false := by
  intro t
  induction t with
  | nil => intro c h; cases h
  | cons x t ih =>
    intro c h
    by_cases hx : P x = true
    · rw [List.dropWhile_cons_of_pos hx] at h
      exact ih c h
    · rw [List.dropWhile_cons_of_neg hx] at h
      cases h
      simpa using hx

theorem takeWhile_all (P : Char → Bool) (t : List Char) : ∀ c ∈ t.takeWhile P, P c = true :=
  fun _ hc => (List.mem_takeWhile_imp hc)

/-- C22: integer literals.  When the unread input starts with a digit `d`,
`lexer_next` yields an INT token, moves `pos` over `d` and the longest run of
digits after it, and the value of the token is the decimal number written by
these digits, wrapped into the range of `int64_t`.  When it starts with `-` and
a digit, the token consumes the minus sign as well and its value is the negated
number, wrapped.  So the value is the number written whenever that number is in
the range of `int64_t`.  A `-` that no digit follows makes `lexer_next` fail
with the message `unexpected character`, and `pos` stays at the minus sign.
On `-12a` the token is the integer -12 and `pos` ends at 3; the twenty nines
`99999999999999999999` give 7766279631452241919. -/
theorem C22_integer_literal_token :
    (∀ (L : Lexer) (d : Char) (t : List Char), L.Rest (d :: t) → isdigit d = true →
        ∃ cur : Token, cur.type = TOK_INT ∧
          cur.integer = wrap64 (decimal_value (d :: t.takeWhile isdigit) : Int) ∧
          ((decimal_value (d :: t.takeWhile isdigit) : Int) < 9223372036854775808 →
            cur.integer = (decimal_value (d :: t.takeWhile isdigit) : Int)) ∧
          lexer_next L =
            (true, { L with current := cur,
                            pos := L.pos + (d :: t.takeWhile isdigit).length })) ∧
    (∀ (L : Lexer) (d : Char) (t : List Char), L.Rest ('-' :: d :: t) → isdigit d = true →
        ∃ cur : Token, cur.type = TOK_INT ∧
          cur.integer = wrap64 (-(decimal_value (d :: t.takeWhile isdigit) : Int)) ∧
          ((decimal_value (d :: t.takeWhile isdigit) : Int) ≤ 9223372036854775808 →
            cur.integer = -(decimal_value (d :: t.takeWhile isdigit) : Int)) ∧
          lexer_next L =
            (true, { L with current := cur,
                            pos := L.pos + ((d :: t.takeWhile isdigit).length + 1) })) ∧
    (∀ (L : Lexer) (r : List Char), L.Rest ('-' :: r) →
        (∀ c, r.head? = some c → isdigit c = false) →
        (lexer_next L).1 = false ∧
          (lexer_next L).2.error = some "unexpected character".toList ∧
          (lexer_next L).2.pos = L.pos) ∧
    ((lexer_next (lexer_init "-12a".toList)).1 = true ∧
      (lexer_next (lexer_init "-12a".toList)).2.current.type = TOK_INT ∧
      (lexer_next (lexer_init "-12a".toList)).2.current.integer = -12 ∧
      (lexer_next (lexer_init "-12a".toList)).2.pos = 3) ∧
    (lexer_next (lexer_init "99999999999999999999".toList)).2.current.integer =
      7766279631452241919 := by
  refine ⟨?_, ?_, fun L r h hr => lexer_next_minus_alone h hr, by decide!, by decide!⟩
  · intro L d t h hd
    have hds : ∀ c ∈ d :: t.takeWhile isdigit, isdigit c = true := by
      intro c hc
      rcases List.mem_cons.mp hc with rfl | hc
      · exact hd
      · exact takeWhile_all isdigit t c hc
    have h' : L.Rest (d :: t.takeWhile isdigit ++ t.dropWhile isdigit) := by
      rw [List.cons_append, List.takeWhile_append_dropWhile]
      exact h
    obtain ⟨cur, h1, h2, h3⟩ := lexer_next_int_plain h' hds (dropWhile_head isdigit t)
    refine ⟨cur, h1, h2, fun hlt => ?_, h3⟩
    rw [h2]
    exact wrap64_id _ ⟨by omega, hlt⟩
  · intro L d t h hd
    have hds : ∀ c ∈ d :: t.takeWhile isdigit, isdigit c = true := by
      intro c hc
      rcases List.mem_cons.mp hc with rfl | hc
      · exact hd
      · exact takeWhile_all isdigit t c hc
    have h' : L.Rest ('-' :: (d :: t.takeWhile isdigit ++ t.dropWhile isdigit)) := by
      rw [List.cons_append, List.takeWhile_append_dropWhile]
      exact h
    obtain ⟨cur, h1, h2, h3⟩ := lexer_next_int_minus h' hds (dropWhile_head isdigit t)
    refine ⟨cur, h1, h2, fun hle => ?_, h3⟩
    rw [h2]
    exact wrap64_id _ ⟨by omega, by omega⟩

/-- The inputs `42;`, `-7]` and `-x` meet the hypotheses of the three rules of
C22: the tokens are the integers 42 and -7, and the lone minus is an error. -/
theorem C22_integer_literal_token_witness :
    (∃ cur : Token, cur.type = TOK_INT ∧
      cur.integer = wrap64 (decimal_value ('4' :: ['2', ';'].takeWhile isdigit) : Int) ∧
      ((decimal_value ('4' :: ['2', ';'].takeWhile isdigit) : Int) < 9223372036854775808 →
        cur.integer = (decimal_value ('4' :: ['2', ';'].takeWhile isdigit) : Int)) ∧
      lexer_next (lexer_init "42;".toList) =
        (true, { lexer_init "42;".toList with
                  current := cur,
                  pos := (lexer_init "42;".toList).pos +
                    ('4' :: ['2', ';'].takeWhile isdigit).length })) ∧
    (∃ cur : Token, cur.type = TOK_INT ∧
      cur.integer = wrap64 (-(decimal_value ('7' :: [']'].takeWhile isdigit) : Int)) ∧
      ((decimal_value ('7' :: [']'].takeWhile isdigit) : Int) ≤ 9223372036854775808 →
        cur.integer = -(decimal_value ('7' :: [']'].takeWhile isdigit) : Int)) ∧
      lexer_next (lexer_init "-7]".toList) =
        (true, { lexer_init "-7]".toList with
                  current := cur,
                  pos := (lexer_init "-7]".toList).pos +
                    (('7' :: [']'].takeWhile isdigit).length + 1) })) ∧
    ((lexer_next (lexer_init "-x".toList)).1 = false ∧
      (lexer_next (lexer_init "-x".toList)).2.error = some "unexpected character".toList ∧
      (lexer_next (lexer_init "-x".toList)).2.pos = (lexer_init "-x".toList).pos) ∧
    decimal_value ('4' :: ['2', ';'].takeWhile isdigit) = 42 ∧
    decimal_value ('7' :: [']'].takeWhile isdigit) = 7 :=
  ⟨C22_integer_literal_token.1 (lexer_init "42;".toList) '4' ['2', ';'] ⟨rfl, rfl⟩ (by decide),
    C22_integer_literal_token.2.1 (lexer_init "-7]".toList) '7' [']'] ⟨rfl, rfl⟩ (by decide),
    C22_integer_literal_token.2.2.1 (lexer_init "-x".toList) ['x'] ⟨rfl, rfl⟩
      (fun c hc => by cases hc; decide),
    by decide, by decide⟩

/-! ## C25: a placeholder opening without a closing brace -/

/-- The scan for the closing brace runs to the end of a text that holds none. -/
theorem interpolate_scan_none (tail : List Char) (htail : '}' ∉ tail) :
    ∀ (pre str : List Char) (n : Nat), str = pre ++ tail → tail.length ≤ n →
      interpolate_string_scan n str pre.length = str.length := by
  induction tail with
  | nil =>
    intro pre str n hstr _
    rw [List.append_nil] at hstr
    subst hstr
    cases n with
    | zero => rfl
    | succ m =>
      rw [interpolate_string_scan, if_neg (fun h => Nat.lt_irrefl _ h.1)]
  | cons c cs ih =>
    intro pre str n hstr hn
    rw [List.length_cons] at hn
    obtain ⟨m, rfl⟩ : ∃ m, n = m + 1 := ⟨n - 1, by omega⟩
    rw [List.mem_cons, not_or] at htail
    have hc : str.getD pre.length (Char.ofNat 0) = c := by
      rw [hstr, getD_append_zero]
      rfl
    have hlen : pre.length < str.length := by
      rw [hstr]
      simp
    have hstr2 : str = (pre ++ [c]) ++ cs := by
      rw [hstr]
      simp
    have := ih htail.2 (pre ++ [c]) str m hstr2 (by omega)
    rw [List.length_append, List.length_singleton] at this
    rw [interpolate_string_scan, hc, if_pos ⟨hlen, fun h => htail.1 h.symm⟩, this]

/-- At a placeholder opening that no closing brace follows the loop ends and
adds nothing. -/
theorem interpolate_loop_dangling (ctx : Goon_Ctx) (pre tail str buf : List Char) (n : Nat)
    (hstr : str = pre ++ '$' :: '{' :: tail) (htail : '}' ∉ tail) :
    interpolate_string_loop ctx n str pre.length buf = buf := by
  cases n with
  | zero => rfl
  | succ m =>
    have hlen : str.length = pre.length + tail.length + 2 := by
      rw [hstr]
      simp
      omega
    have h0 : str.getD pre.length (Char.ofNat 0) = '$' := by
      rw [hstr, getD_append_zero]
      rfl
    have h1 : str.getD (pre.length + 1) (Char.ofNat 0) = '{' := by
      rw [hstr, getD_append_at]
      rfl
    have hstr2 : str = (pre ++ ['$', '{']) ++ tail := by
      rw [hstr]
      simp
    have hscan := interpolate_scan_none tail htail (pre ++ ['$', '{']) str
      (str.length - (pre.length + 2)) hstr2 (by omega)
    have hl2 : (pre ++ ['$', '{']).length = pre.length + 2 := by simp
    rw [hl2] at hscan
    rw [interpolate_string_loop, if_pos (by omega), if_pos ⟨h0, by omega, h1⟩]
    dsimp only
    rw [hscan, if_neg (Nat.lt_irrefl _), interpolate_loop_end]

/-- The loop over pieces that a further text follows: it hands on to what
follows with the values of the placeholders put in. -/
theorem interpolate_loop_pieces_then (ctx : Goon_Ctx) (last : List Char)
    (hlast : no_marker last = true) :
    ∀ (pieces : List (List Char × List Char)),
      (∀ piece ∈ pieces, no_marker piece.1 = true ∧ '}' ∉ piece.2) →
      ∀ (pre following str buf : List Char) (n : Nat),
        str = pre ++ (placeholders_source pieces last ++ following) →
        following.head? ≠ some '{' →
        (placeholders_source pieces last).length ≤ n →
        ∃ n', interpolate_string_loop ctx n str pre.length buf =
          interpolate_string_loop ctx n' str
            (pre.length + (placeholders_source pieces last).length)
            (buf ++ placeholders_value ctx pieces last) := by
  intro pieces
  induction pieces with
  | nil =>
    intro _ pre following str buf n hstr hf hn
    simp only [placeholders_source, placeholders_value] at hn hstr ⊢
    obtain ⟨m, rfl⟩ : ∃ m, n = m + last.length := ⟨n - last.length, by omega⟩
    exact ⟨m, interpolate_loop_text ctx last pre following str buf m hstr hlast hf⟩
  | cons piece rest ih =>
    intro hp pre following str buf n hstr hf hn
    obtain ⟨text, name⟩ := piece
    have hpiece := hp (text, name) (by simp)
    have hrest : ∀ piece ∈ rest, no_marker piece.1 = true ∧ '}' ∉ piece.2 :=
      fun piece h => hp piece (by simp [h])
    simp only [placeholders_source, placeholders_value, List.length_append,
      List.length_cons] at hn hstr ⊢
    obtain ⟨m, rfl⟩ : ∃ m, n = (m + 1) + text.length :=
      ⟨n - text.length - 1, by omega⟩
    have hstr1 : str = pre ++ (text ++ ('$' :: '{' :: (name ++ '}' ::
        (placeholders_source rest last ++ following)))) := by
      rw [hstr]
      simp
    have hstr2 : str = (pre ++ text) ++ ('$' :: '{' :: (name ++ '}' ::
        (placeholders_source rest last ++ following))) := by
      rw [hstr]
      simp
    have hstr3 : str = (pre ++ text ++ '$' :: '{' :: (name ++ ['}'])) ++
        (placeholders_source rest last ++ following) := by
      rw [hstr]
      simp
    have ht := interpolate_loop_text ctx text pre _ str buf (m + 1) hstr1 hpiece.1 (by simp)
    have hpl := interpolate_loop_placeholder ctx name hpiece.2 (pre ++ text) _ str
      (buf ++ text) m hstr2
    obtain ⟨n', hih⟩ := ih hrest (pre ++ text ++ '$' :: '{' :: (name ++ ['}'])) following str
      (buf ++ text ++ placeholder_text ctx name) m hstr3 hf (by omega)
    have hidx : (pre ++ text ++ '$' :: '{' :: (name ++ ['}'])).length =
        (pre ++ text).length + name.length + 3 := by
      simp
      omega
    rw [List.length_append] at hpl
    rw [hidx, List.length_append] at hih
    refine ⟨n', ?_⟩
    rw [ht, hpl, hih]
    have e : pre.length + text.length + name.length + 3 +
        (placeholders_source rest last).length =
        pre.length + (text.length + (name.length + 1 + 1) +
          ((placeholders_source rest last).length + 1)) := by omega
    rw [e]
    simp

/-- A text with a dangling placeholder opening has a first one. -/
theorem first_dangling : ∀ (n : Nat) (s : List Char), s.length ≤ n → dangling s →
    ∃ pre tail : List Char, s = pre ++ '$' :: '{' :: tail ∧ ¬ dangling pre ∧ '}' ∉ tail := by
  intro n
  induction n with
  | zero =>
    intro s hs hd
    obtain ⟨pre, tail, h, _⟩ := hd
    rw [h] at hs
    simp at hs
  | succ m ih =>
    intro s hs hd
    obtain ⟨pre, tail, h, ht⟩ := hd
    by_cases hpre : dangling pre
    · have hlen : pre.length ≤ m := by
        rw [h] at hs
        simp at hs
        omega
      obtain ⟨p1, t1, hp, hnd, ht1⟩ := ih pre hlen hpre
      refine ⟨p1, t1 ++ '$' :: '{' :: tail, ?_, hnd, ?_⟩
      · rw [h, hp]
        simp
      · intro hmem
        rcases List.mem_append.mp hmem with h1 | h1
        · exact ht1 h1
        · rcases List.mem_cons.mp h1 with h2 | h2
          · cases h2
          · rcases List.mem_cons.mp h2 with h3 | h3
            · cases h3
            · exact ht h3
    · exact ⟨pre, tail, h, hpre, ht⟩

/-- The text before the first dangling placeholder opening decides the result. -/
theorem interpolate_first_dangling (ctx : Goon_Ctx) (pre tail : List Char)
    (hpre : ¬ dangling pre) (htail : '}' ∉ tail) :
    interpolate_string ctx (pre ++ '$' :: '{' :: tail) = interpolate_string ctx pre := by
  obtain ⟨pieces, last, hs, hp, hl⟩ := placeholders_cover pre.length pre (Nat.le_refl _) hpre
  have h1 := interpolate_loop_pieces ctx last hl pieces hp [] pre [] pre.length
    (by rw [List.nil_append]; exact hs) (by rw [← hs])
  obtain ⟨n', h2⟩ := interpolate_loop_pieces_then ctx last hl pieces hp []
    ('$' :: '{' :: tail) (pre ++ '$' :: '{' :: tail) []
    (pre ++ '$' :: '{' :: tail).length (by rw [List.nil_append, ← hs])
    (by simp) (by rw [← hs]; simp)
  have h3 := interpolate_loop_dangling ctx pre tail (pre ++ '$' :: '{' :: tail)
    ([] ++ placeholders_value ctx pieces last) n' rfl htail
  unfold interpolate_string
  simp only [List.length_nil, Nat.zero_add] at h1 h2
  rw [← hs] at h2
  rw [h1, h2, h3]

/-- C25: a `${` that no `}` follows ends the interpolation.  If `tail` holds no
closing brace, the interpolation of `pre`, `${` and `tail` is the interpolation
of `pre` alone: everything from that `${` to the end of the string is dropped
and nothing of it is emitted.  Every string with such a `${` has a first one,
before which every `${` has its closing brace, so the text before it is made of
texts and placeholders, and the result is that text with the value of each
placeholder put in.  In a fresh context, with a host that registers no
function, the literal `"a${b"` evaluates to `a`, and with `x` bound to 5 the
payload `${x}-${y` gives `5-`. -/
theorem C25_dangling_placeholder_is_dropped :
    (∀ (ctx : Goon_Ctx) (pre tail : List Char), '}' ∉ tail →
        interpolate_string ctx (pre ++ '$' :: '{' :: tail) = interpolate_string ctx pre) ∧
    (∀ str : List Char, dangling str →
        ∃ pre tail : List Char, str = pre ++ '$' :: '{' :: tail ∧ ¬ dangling pre ∧
          '}' ∉ tail ∧
          ∃ pieces last, pre = placeholders_source pieces last ∧
            (∀ piece ∈ pieces, no_marker piece.1 = true ∧ '}' ∉ piece.2) ∧
            no_marker last = true ∧
            ∀ ctx : Goon_Ctx,
              interpolate_string ctx str = .string (placeholders_value ctx pieces last)) ∧
    (∀ last, Returns
      (fun fuel => goon_load_string no_host fuel goon_create last "\"a$\x7bb\"".toList)
      (true, goon_create, .string "a".toList)) ∧
    interpolate_string (define goon_create "x".toList (.int 5)) "$\x7bx\x7d-$\x7by".toList =
      .string "5-".toList := by
  have key : ∀ (ctx : Goon_Ctx) (pre tail : List Char), '}' ∉ tail →
      interpolate_string ctx (pre ++ '$' :: '{' :: tail) = interpolate_string ctx pre := by
    intro ctx pre tail htail
    by_cases hpre : dangling pre
    · obtain ⟨p1, t1, hp, hnd, ht1⟩ := first_dangling pre.length pre (Nat.le_refl _) hpre
      have hmem : '}' ∉ t1 ++ '$' :: '{' :: tail := by
        intro hmem
        rcases List.mem_append.mp hmem with h1 | h1
        · exact ht1 h1
        · rcases List.mem_cons.mp h1 with h2 | h2
          · cases h2
          · rcases List.mem_cons.mp h2 with h3 | h3
            · cases h3
            · exact htail h3
      have e : pre ++ '$' :: '{' :: tail = p1 ++ '$' :: '{' :: (t1 ++ '$' :: '{' :: tail) := by
        rw [hp]
        simp
      rw [e, interpolate_first_dangling ctx p1 _ hnd hmem, hp,
        interpolate_first_dangling ctx p1 t1 hnd ht1]
    · exact interpolate_first_dangling ctx pre tail hpre htail
  refine ⟨key, ?_, ?_, congrArg Goon_Value.string (by decide)⟩
  · intro str hd
    obtain ⟨pre, tail, hs, hnd, ht⟩ := first_dangling str.length str (Nat.le_refl _) hd
    obtain ⟨pieces, last, hps, hp, hl⟩ := placeholders_cover pre.length pre (Nat.le_refl _) hnd
    refine ⟨pre, tail, hs, hnd, ht, pieces, last, hps, hp, hl, fun ctx => ?_⟩
    rw [hs, key ctx pre tail ht, hps]
    unfold interpolate_string
    have := interpolate_loop_pieces ctx last hl pieces hp [] (placeholders_source pieces last)
      [] (placeholders_source pieces last).length (by simp) (Nat.le_refl _)
    simp only [List.length_nil, List.nil_append] at this
    rw [this]
  · exact loaded_true no_host (n := 20) (by decide!)

/-- The payload `a${b` meets the hypothesis of the rule of C25: no closing brace
follows its `${`, and its interpolation is that of `a`, the string `a`. -/
theorem C25_dangling_placeholder_is_dropped_witness :
    '}' ∉ ['b'] ∧
    interpolate_string goon_create (['a'] ++ '$' :: '{' :: ['b']) =
      interpolate_string goon_create ['a'] ∧
    interpolate_string goon_create ['a'] = .string ['a'] ∧
    dangling ['a', '$', '{', 'b'] ∧
    (∃ pre tail : List Char, ['a', '$', '{', 'b'] = pre ++ '$' :: '{' :: tail ∧
      ¬ dangling pre ∧ '}' ∉ tail ∧
      ∃ pieces last, pre = placeholders_source pieces last ∧
        (∀ piece ∈ pieces, no_marker piece.1 = true ∧ '}' ∉ piece.2) ∧
        no_marker last = true ∧
        ∀ ctx : Goon_Ctx,
          interpolate_string ctx ['a', '$', '{', 'b'] =
            .string (placeholders_value ctx pieces last)) :=
  ⟨by decide, C25_dangling_placeholder_is_dropped.1 goon_create ['a'] ['b'] (by decide),
    rfl, ⟨['a'], ['b'], rfl, by decide⟩,
    C25_dangling_placeholder_is_dropped.2.1 ['a', '$', '{', 'b']
      ⟨['a'], ['b'], rfl, by decide⟩⟩

/-! ## C28: an escaped dollar sign still opens a placeholder -/

/-- A text without double quote and backslash is the body of a terminated
literal and is its own decoding. -/
theorem spec_body_plain : ∀ x : List Char, DQUOTE ∉ x → BACKSLASH ∉ x →
    spec_string_body x = true ∧ spec_decode_body x = x := by
  intro x
  induction x with
  | nil => intro _ _; exact ⟨rfl, rfl⟩
  | cons c rest ih =>
    intro hq hb
    rw [List.mem_cons, not_or] at hq hb
    have hc : c ≠ BACKSLASH := fun h => hb.1 h.symm
    have hcq : c ≠ DQUOTE := fun h => hq.1 h.symm
    obtain ⟨h1, h2⟩ := ih hq.2 hb.2
    cases rest with
    | nil =>
      refine ⟨?_, rfl⟩
      simp only [spec_string_body, Bool.and_eq_true, decide_eq_true_eq]
      exact ⟨hcq, hc⟩
    | cons e rest =>
      refine ⟨?_, ?_⟩
      · rw [spec_string_body, if_neg hc]
        simp only [Bool.and_eq_true, decide_eq_true_eq]
        exact ⟨hcq, h1⟩
      · rw [spec_decode_body, if_neg hc, h2]

/-- The interpolation reads the context only through its environment. -/
theorem interpolate_loop_env (ctx ctx1 : Goon_Ctx) (h : ctx.env = ctx1.env) :
    ∀ (n : Nat) (str : List Char) (i : Nat) (buf : List Char),
      interpolate_string_loop ctx n str i buf = interpolate_string_loop ctx1 n str i buf := by
  intro n
  induction n with
  | zero => intro str i buf; rfl
  | succ m ih =>
    intro str i buf
    rw [interpolate_string_loop, interpolate_string_loop]
    have hl : ∀ name, lookup ctx name = lookup ctx1 name := by
      intro name
      unfold lookup
      rw [h]
    simp only [ih, hl]

theorem not_mem_placeholder {c : Char} {x : List Char} (hx : c ∉ x)
    (h1 : c ≠ '$') (h2 : c ≠ '{') (h3 : c ≠ '}') : c ∉ '$' :: '{' :: (x ++ ['}']) := by
  intro hmem
  rcases List.mem_cons.mp hmem with h | h
  · exact h1 h
  · rcases List.mem_cons.mp h with h | h
    · exact h2 h
    · rcases List.mem_append.mp h with h | h
      · exact hx h
      · rcases List.mem_cons.mp h with h | h
        · exact h3 h
        · cases h

/-- C28: escaping the dollar sign does not protect a placeholder.  For every
text `x` without double quote and backslash, the literal `"\${x}"` and the
literal `"${x}"` give STRING tokens with the same payload `${x}`.  The value of
a string literal is `interpolate_string` of its payload in the context, also
as an expression unless a `?` follows, and `interpolate_string` reads the
context only through its environment; so two string tokens with the
same payload, in contexts with the same environment, evaluate to the same
value.  For every environment both literals therefore evaluate to the same
string, the text of the value bound to `x` when `x` holds no closing brace.  In
a fresh context, with a host that registers no function, `let x = 5; "\${x}"`
and `let x = 5; "${x}"` both load with the result `5`. -/
theorem C28_escaped_dollar_is_interpolated (host : Host) :
    (∀ (L1 L2 : Lexer) (x r1 r2 : List Char), DQUOTE ∉ x → BACKSLASH ∉ x →
        L1.Rest (DQUOTE :: (BACKSLASH :: '$' :: '{' :: (x ++ ['}']) ++ DQUOTE :: r1)) →
        L2.Rest (DQUOTE :: ('$' :: '{' :: (x ++ ['}']) ++ DQUOTE :: r2)) →
        ∃ cur1 cur2 : Token,
          cur1.type = TOK_STRING ∧ cur1.string = some ('$' :: '{' :: (x ++ ['}'])) ∧
          cur2.type = TOK_STRING ∧ cur2.string = some ('$' :: '{' :: (x ++ ['}'])) ∧
          lexer_next L1 = (true, { L1 with current := cur1, pos := L1.pos + (x.length + 6) }) ∧
          lexer_next L2 = (true, { L2 with current := cur2, pos := L2.pos + (x.length + 5) })) ∧
    (∀ (p : Parser) (str : List Char),
        p.tok = TOK_STRING → p.lex.current.string = some str → p.lexes →
        Returns (fun fuel => parse_primary host fuel p)
          (interpolate_string p.ctx str, p.next) ∧
        (p.next.tok ≠ TOK_QUESTION → Evals host p (interpolate_string p.ctx str) p.next)) ∧
    (∀ (ctx ctx1 : Goon_Ctx) (str : List Char), ctx.env = ctx1.env →
        interpolate_string ctx str = interpolate_string ctx1 str) ∧
    (∀ (p1 p2 : Parser) (str : List Char),
        p1.tok = TOK_STRING → p1.lex.current.string = some str → p1.lexes →
        p2.tok = TOK_STRING → p2.lex.current.string = some str → p2.lexes →
        p1.ctx.env = p2.ctx.env →
        ∃ v : Goon_Value, Returns (fun fuel => parse_primary host fuel p1) (v, p1.next) ∧
          Returns (fun fuel => parse_primary host fuel p2) (v, p2.next)) ∧
    (∀ (ctx : Goon_Ctx) (x : List Char), '}' ∉ x →
        interpolate_string ctx ('$' :: '{' :: (x ++ ['}'])) = .string (placeholder_text ctx x)) ∧
    (∀ last, Returns
      (fun fuel => goon_load_string no_host fuel goon_create last
        [ 'l', 'e', 't', ' ', 'x', ' ', '=', ' ', '5', ';', ' ',
          DQUOTE, BACKSLASH, '$', '{', 'x', '}', DQUOTE])
      (true, { env := [("x".toList, .int 5)], error := none, base_path := none },
        .string "5".toList)) ∧
    (∀ last, Returns
      (fun fuel => goon_load_string no_host fuel goon_create last
        [ 'l', 'e', 't', ' ', 'x', ' ', '=', ' ', '5', ';', ' ',
          DQUOTE, '$', '{', 'x', '}', DQUOTE])
      (true, { env := [("x".toList, .int 5)], error := none, base_path := none },
        .string "5".toList)) := by
  have henv : ∀ (ctx ctx1 : Goon_Ctx) (str : List Char), ctx.env = ctx1.env →
      interpolate_string ctx str = interpolate_string ctx1 str := by
    intro ctx ctx1 str h
    unfold interpolate_string
    rw [interpolate_loop_env ctx ctx1 h]
  refine ⟨?_, fun p str ht hs hl => ⟨parse_primary_string host ht hs hl, fun hq =>
    evals_of_primary host (by rw [ht]; decide) (by rw [ht]; decide) rfl hq
      (parse_primary_string host ht hs hl)⟩, henv, ?_, ?_, ?_, ?_⟩
  · intro L1 L2 x r1 r2 hq hb h1 h2
    have hplain := spec_body_plain ('$' :: '{' :: (x ++ ['}']))
      (not_mem_placeholder hq (by decide) (by decide) (by decide))
      (not_mem_placeholder hb (by decide) (by decide) (by decide))
    have hesc : spec_string_body (BACKSLASH :: '$' :: '{' :: (x ++ ['}'])) = true := by
      rw [spec_string_body, if_pos rfl]
      exact (spec_body_plain ('{' :: (x ++ ['}']))
        (fun h => (not_mem_placeholder hq (by decide) (by decide) (by decide))
          (List.mem_cons_of_mem _ h))
        (fun h => (not_mem_placeholder hb (by decide) (by decide) (by decide))
          (List.mem_cons_of_mem _ h))).1
    have hdec : spec_decode_body (BACKSLASH :: '$' :: '{' :: (x ++ ['}'])) =
        '$' :: '{' :: (x ++ ['}']) := by
      rw [spec_decode_body, if_pos rfl]
      rw [(spec_body_plain ('{' :: (x ++ ['}']))
        (fun h => (not_mem_placeholder hq (by decide) (by decide) (by decide))
          (List.mem_cons_of_mem _ h))
        (fun h => (not_mem_placeholder hb (by decide) (by decide) (by decide))
          (List.mem_cons_of_mem _ h))).2]
      rfl
    obtain ⟨cur1, a1, a2, a3⟩ := lexer_next_string_literal h1 hesc
    obtain ⟨cur2, b1, b2, b3⟩ := lexer_next_string_literal h2 hplain.1
    rw [hdec] at a2
    rw [hplain.2] at b2
    refine ⟨cur1, cur2, a1, a2, b1, b2, ?_, ?_⟩
    · rw [a3]
      simp
    · rw [b3]
      simp
  · intro p1 p2 str ht1 hs1 hl1 ht2 hs2 hl2 he
    refine ⟨interpolate_string p1.ctx str, parse_primary_string host ht1 hs1 hl1, ?_⟩
    rw [henv p1.ctx p2.ctx str he]
    exact parse_primary_string host ht2 hs2 hl2
  · intro ctx x hx
    have := interpolate_loop_pieces ctx [] rfl [([], x)]
      (by intro piece hm; rw [List.mem_singleton.mp hm]; exact ⟨rfl, hx⟩) []
      ('$' :: '{' :: (x ++ ['}'])) [] ('$' :: '{' :: (x ++ ['}'])).length
      (by simp [placeholders_source]) (by simp [placeholders_source])
    unfold interpolate_string
    simp only [List.length_nil] at this
    rw [this]
    simp [placeholders_value]
  · exact loaded_true no_host (n := 20) (by decide!)
  · exact loaded_true no_host (n := 20) (by decide!)

/-- The literals `"\${k}"` and `"${k}"`, in a context that binds `k` to 5, meet
the hypotheses of the rules of C28: both tokens carry the payload `${k}` and
both evaluate to the string `5`. -/
theorem C28_escaped_dollar_is_interpolated_witness :
    (escaped_demo.lex.current.string = some ['$', '{', 'k', '}'] ∧
      unescaped_demo.lex.current.string = some ['$', '{', 'k', '}']) ∧
    (∃ v : Goon_Value,
      Returns (fun fuel => parse_primary no_host fuel escaped_demo) (v, escaped_demo.next) ∧
      Returns (fun fuel => parse_primary no_host fuel unescaped_demo)
        (v, unescaped_demo.next)) ∧
    interpolate_string escaped_demo.ctx ('$' :: '{' :: (['k'] ++ ['}'])) =
      .string (placeholder_text escaped_demo.ctx ['k']) ∧
    placeholder_text escaped_demo.ctx ['k'] = ['5'] ∧
    (∃ cur1 cur2 : Token,
      cur1.type = TOK_STRING ∧ cur1.string = some ('$' :: '{' :: (['k'] ++ ['}'])) ∧
      cur2.type = TOK_STRING ∧ cur2.string = some ('$' :: '{' :: (['k'] ++ ['}'])) ∧
      lexer_next (lexer_init [DQUOTE, BACKSLASH, '$', '{', 'k', '}', DQUOTE]) =
        (true, { lexer_init [DQUOTE, BACKSLASH, '$', '{', 'k', '}', DQUOTE] with
                  current := cur1,
                  pos := (lexer_init [DQUOTE, BACKSLASH, '$', '{', 'k', '}', DQUOTE]).pos +
                    (['k'].length + 6) }) ∧
      lexer_next (lexer_init [DQUOTE, '$', '{', 'k', '}', DQUOTE]) =
        (true, { lexer_init [DQUOTE, '$', '{', 'k', '}', DQUOTE] with
                  current := cur2,
                  pos := (lexer_init [DQUOTE, '$', '{', 'k', '}', DQUOTE]).pos +
                    (['k'].length + 5) })) ∧
    (Returns (fun fuel => parse_primary no_host fuel escaped_demo)
        (interpolate_string escaped_demo.ctx ['$', '{', 'k', '}'], escaped_demo.next) ∧
      (escaped_demo.next.tok ≠ TOK_QUESTION →
        Evals no_host escaped_demo (interpolate_string escaped_demo.ctx ['$', '{', 'k', '}'])
          escaped_demo.next)) ∧
    interpolate_string goon_create ['a'] =
      interpolate_string { goon_create with error := some ['e'] } ['a'] :=
  ⟨⟨by decide!, by decide!⟩,
    (C28_escaped_dollar_is_interpolated no_host).2.2.2.1 escaped_demo unescaped_demo
      ['$', '{', 'k', '}'] (by decide!) (by decide!) (by decide!) (by decide!) (by decide!)
      (by decide!) rfl,
    (C28_escaped_dollar_is_interpolated no_host).2.2.2.2.1 escaped_demo.ctx ['k'] (by decide),
    by decide,
    (C28_escaped_dollar_is_interpolated no_host).1
      (lexer_init [DQUOTE, BACKSLASH, '$', '{', 'k', '}', DQUOTE])
      (lexer_init [DQUOTE, '$', '{', 'k', '}', DQUOTE]) ['k'] [] [] (by decide) (by decide)
      ⟨rfl, rfl⟩ ⟨rfl, rfl⟩,
    (C28_escaped_dollar_is_interpolated no_host).2.1 escaped_demo ['$', '{', 'k', '}']
      (by decide!) (by decide!) (by decide!),
    (C28_escaped_dollar_is_interpolated no_host).2.2.1 goon_create
      { goon_create with error := some ['e'] } ['a'] rfl⟩

/-! ## C24: a block comment without its closing sequence -/

theorem lexer_pos_zero (L : Lexer) : ({ L with pos := L.pos + 0 } : Lexer) = L := by
  cases L
  rfl

/-- The block-comment loop over a text that holds no `*/` stops at its last
character. -/
theorem skip_block_unterminated : ∀ (t : List Char) (n : Nat) (L : Lexer) (c : Char),
    L.Rest (t ++ [c]) → no_close (t ++ [c]) = true → t.length ≤ n →
    lexer_skip_whitespace_block n L = { L with pos := L.pos + t.length } := by
  intro t
  induction t with
  | nil =>
    intro n L c h _ _
    have hlen := rest_length h
    simp only [List.nil_append, List.length_singleton] at hlen
    rw [List.length_nil, lexer_pos_zero]
    cases n with
    | zero => rfl
    | succ m => rw [lexer_skip_whitespace_block, if_neg (by omega)]
  | cons x t ih =>
    intro n L c h hc hn
    rw [List.length_cons] at hn
    obtain ⟨m, rfl⟩ : ∃ m, n = m + 1 := ⟨n - 1, by omega⟩
    have h0 : L.Rest (x :: (t ++ [c])) := h
    obtain ⟨hpos, hx, _⟩ := rest_cons h0
    have h1 : ({ L with pos := L.pos + 1 } : Lexer).Rest (t ++ [c]) :=
      rest_step (a := [x]) h0 rfl rfl rfl
    have hlen : t.length + 1 = L.len - (L.pos + 1) := by
      have := rest_length h1
      simpa using this
    have hlt : L.pos + 1 < L.len := by omega
    have hc2 : no_close (x :: (t ++ [c])) = true := hc
    rw [no_close, Bool.and_eq_true] at hc2
    have hnot : ¬ (L.src_at L.pos = '*' ∧ L.src_at (L.pos + 1) = '/') := by
      rintro ⟨e1, e2⟩
      have hh : (t ++ [c]).head? = some '/' := by
        cases hd : t ++ [c] with
        | nil => simp at hd
        | cons y ys =>
          rw [hd] at h1
          have := (rest_cons h1).2.1
          have e3 : L.src_at (L.pos + 1) = y := this
          rw [e2] at e3
          rw [e3]
          rfl
      rw [hx] at e1
      simp [e1, hh] at hc2
    rw [lexer_skip_whitespace_block, if_pos hlt, if_neg hnot,
      ih m { L with pos := L.pos + 1 } c h1 hc2.2 (by omega), lexer_pos_add, List.length_cons,
      Nat.add_comm 1]

/-- An unterminated block comment is skipped up to its last character only:
when that character is not white space, `lexer_skip_whitespace` leaves `pos`
on it, one before `len`. -/
theorem skip_whitespace_unterminated_block {L : Lexer} {t : List Char} {c : Char}
    (h : L.Rest ('/' :: '*' :: (t ++ [c]))) (hc : no_close (t ++ [c]) = true)
    (hw : c ≠ ' ' ∧ c ≠ '\t' ∧ c ≠ '\n' ∧ c ≠ '\r') :
    lexer_skip_whitespace L = { L with pos := L.pos + (t.length + 2) } ∧
      (lexer_skip_whitespace L).pos + 1 = L.len := by
  obtain ⟨hpos, h0, _⟩ := rest_cons h
  have h1 : ({ L with pos := L.pos + 1 } : Lexer).Rest ('*' :: (t ++ [c])) :=
    rest_step (a := ['/']) h rfl rfl rfl
  have hs1 : L.src_at (L.pos + 1) = '*' := (rest_cons h1).2.1
  have h2 : ({ L with pos := L.pos + 2 } : Lexer).Rest (t ++ [c]) :=
    rest_step (a := ['/', '*']) h rfl rfl rfl
  have hlen : t.length + 1 = L.len - (L.pos + 2) := by
    have := rest_length h2
    simpa using this
  have hblock := skip_block_unterminated t (L.len - (L.pos + 2)) { L with pos := L.pos + 2 } c
    h2 hc (by omega)
  dsimp only at hblock
  have h3 : ({ L with pos := L.pos + 2 + t.length } : Lexer).Rest [c] :=
    @rest_step L { L with pos := L.pos + 2 + t.length } ('/' :: '*' :: t) [c]
      (by simpa using h) rfl rfl (by simp; omega)
  have hpos3 : L.pos + 2 + t.length < L.len := (rest_cons h3).1
  have hc3 : L.src_at (L.pos + 2 + t.length) = c := (rest_cons h3).2.1
  have hpos1 : L.pos + 1 < L.len := by omega
  have key : lexer_skip_whitespace L = { L with pos := L.pos + (t.length + 2) } := by
    unfold lexer_skip_whitespace
    obtain ⟨m, hm⟩ : ∃ m, L.len - L.pos = m + 1 + 1 := ⟨L.len - L.pos - 2, by omega⟩
    rw [hm, lexer_skip_whitespace_loop, if_pos hpos]
    dsimp only
    rw [h0, if_neg (by decide),
      if_neg (fun e => absurd (hs1.symm.trans e.2.2) (by decide)),
      if_pos ⟨rfl, hpos1, hs1⟩, hblock, lexer_skip_whitespace_loop, if_pos hpos3]
    dsimp only
    have hsrc : Lexer.src_at { L with pos := L.pos + 2 + t.length } (L.pos + 2 + t.length) = c :=
      hc3
    rw [hsrc, if_neg (by
        rintro (e | e | e | e)
        · exact hw.1 e
        · exact hw.2.1 e
        · exact hw.2.2.1 e
        · exact hw.2.2.2 e),
      if_neg (by
        rintro ⟨_, e, _⟩
        omega),
      if_neg (by
        rintro ⟨_, e, _⟩
        omega)]
    have e : L.pos + 2 + t.length = L.pos + (t.length + 2) := by omega
    rw [e]
  refine ⟨key, ?_⟩
  rw [key]
  show L.pos + (t.length + 2) + 1 = L.len
  omega

/-- C24: an unterminated block comment is not skipped through to the end of
the input.  The loop of `lexer_skip_whitespace` over a block comment runs only
while `pos + 1 < len`, so it stops one character before the end, and the last
character of the input is read as a token.  On `/* abc` the next token is the
identifier `c`, not the end of the input; on `/* ab #` the tokenizer fails with
`unexpected character`; `1 /* 2` loads with the result 2 and `1 /* #` fails to
load.  Only when the comment is the two characters `/*` alone, or its last
character is white space, is the next token the end of the input, as on `/*`
and on `/* abc` followed by a space.  The loop over a line comment does run to
the end of the input: on `// abc` the next token is the end of the input. -/
theorem C24_unterminated_block_comment_leaves_last_character :
    lexer_next (lexer_init "/* abc".toList) =
      (true, { src := "/* abc".toList, pos := 6, len := 6,
               current := { type := TOK_IDENT, integer := 0, string := some ['c'] },
               error := none }) ∧
    ((lexer_skip_whitespace (lexer_init "/* abc".toList)).pos = 5 ∧
      (lexer_init "/* abc".toList).len = 6) ∧
    ((lexer_next (lexer_init "/* ab #".toList)).1 = false ∧
      (lexer_next (lexer_init "/* ab #".toList)).2.error =
        some "unexpected character".toList) ∧
    (∀ last, Returns
      (fun fuel => goon_load_string no_host fuel goon_create last "1 /* 2".toList)
      (true, goon_create, .int 2)) ∧
    (∀ last, Returns
      (fun fuel => goon_load_string no_host fuel goon_create last "1 /* #".toList)
      (false, { goon_create with error := some "unexpected character".toList }, .NULL)) ∧
    ((lexer_next (lexer_init "/*".toList)).1 = true ∧
      (lexer_next (lexer_init "/*".toList)).2.current.type = TOK_EOF) ∧
    ((lexer_next (lexer_init "/* abc ".toList)).1 = true ∧
      (lexer_next (lexer_init "/* abc ".toList)).2.current.type = TOK_EOF) ∧
    ((lexer_next (lexer_init "// abc".toList)).1 = true ∧
      (lexer_next (lexer_init "// abc".toList)).2.current.type = TOK_EOF ∧
      (lexer_next (lexer_init "// abc".toList)).2.pos = 6) := by
  refine ⟨by decide!, by decide!, by decide!, ?_, ?_, by decide!, by decide!, by decide!⟩
  · exact loaded_true no_host (n := 20) (by decide!)
  · exact loaded_lexed no_host (n := 20) (by decide!) (by decide!)

/-! ## C26: the tokenizer makes progress, and loading terminates -/

theorem moves_refl (L : Lexer) : L.Moves L :=
  ⟨rfl, rfl, rfl, rfl, Nat.le_refl _, fun h => h⟩

theorem moves_trans {A B C : Lexer} (h1 : A.Moves B) (h2 : B.Moves C) : A.Moves C := by
  obtain ⟨a1, a2, a3, a4, a5, a6⟩ := h1
  obtain ⟨b1, b2, b3, b4, b5, b6⟩ := h2
  refine ⟨b1.trans a1, b2.trans a2, b3.trans a3, b4.trans a4, Nat.le_trans a5 b5, ?_⟩
  intro h
  exact b6 (a6 h)

theorem moves_step (L : Lexer) (k : Nat) (h : L.pos + k ≤ L.len) :
    L.Moves { L with pos := L.pos + k } :=
  ⟨rfl, rfl, rfl, rfl, Nat.le_add_right _ _, fun _ => h⟩

theorem skip_line_moves : ∀ (n : Nat) (L : Lexer), L.Moves (lexer_skip_whitespace_line n L) := by
  intro n
  induction n with
  | zero => intro L; exact moves_refl L
  | succ m ih =>
    intro L
    rw [lexer_skip_whitespace_line]
    split
    · rename_i h
      exact moves_trans (moves_step L 1 h.1) (ih _)
    · exact moves_refl L

theorem skip_block_moves : ∀ (n : Nat) (L : Lexer),
    L.Moves (lexer_skip_whitespace_block n L) := by
  intro n
  induction n with
  | zero => intro L; exact moves_refl L
  | succ m ih =>
    intro L
    rw [lexer_skip_whitespace_block]
    split
    · rename_i h
      split
      · exact moves_step L 2 h
      · exact moves_trans (moves_step L 1 (by omega)) (ih _)
    · exact moves_refl L

theorem skip_loop_moves : ∀ (n : Nat) (L : Lexer), L.Moves (lexer_skip_whitespace_loop n L) := by
  intro n
  induction n with
  | zero => intro L; exact moves_refl L
  | succ m ih =>
    intro L
    rw [lexer_skip_whitespace_loop]
    split
    · rename_i h
      dsimp only
      split
      · exact moves_trans (moves_step L 1 h) (ih _)
      · split
        · rename_i h2
          exact moves_trans (moves_step L 2 h2.2.1)
            (moves_trans (skip_line_moves _ _) (ih _))
        · split
          · rename_i h2
            exact moves_trans (moves_step L 2 h2.2.1)
              (moves_trans (skip_block_moves _ _) (ih _))
          · exact moves_refl L
    · exact moves_refl L

theorem skip_whitespace_moves (L : Lexer) : L.Moves (lexer_skip_whitespace L) :=
  skip_loop_moves _ L

theorem next_string_moves : ∀ (n : Nat) (L : Lexer) (buf : List Char),
    L.Moves (lexer_next_string n L buf).1 := by
  intro n
  induction n with
  | zero => intro L buf; exact moves_refl L
  | succ m ih =>
    intro L buf
    rw [lexer_next_string]
    split
    · rename_i h
      dsimp only
      split
      · rename_i h2
        exact moves_trans (moves_step L 1 h.1)
          (moves_trans (moves_step { L with pos := L.pos + 1 } 1 h2.2) (ih _ _))
      · exact moves_trans (moves_step L 1 h.1) (ih _ _)
    · exact moves_refl L

theorem next_digits_moves : ∀ (n : Nat) (L : Lexer) (val : Int),
    L.Moves (lexer_next_digits n L val).1 := by
  intro n
  induction n with
  | zero => intro L val; exact moves_refl L
  | succ m ih =>
    intro L val
    rw [lexer_next_digits]
    split
    · rename_i h
      exact moves_trans (moves_step L 1 h.1) (ih _ _)
    · exact moves_refl L

theorem next_ident_moves : ∀ (n : Nat) (L : Lexer), L.Moves (lexer_next_ident n L) := by
  intro n
  induction n with
  | zero => intro L; exact moves_refl L
  | succ m ih =>
    intro L
    rw [lexer_next_ident]
    split
    · rename_i h
      exact moves_trans (moves_step L 1 h.1) (ih _)
    · exact moves_refl L

/-- A run of the digit loop that starts at a digit moves `pos`. -/
theorem next_digits_progress (n : Nat) (L : Lexer) (val : Int) (hn : 0 < n)
    (h : L.pos < L.len ∧ isdigit (L.src_at L.pos) = true) :
    L.pos < (lexer_next_digits n L val).1.pos := by
  obtain ⟨m, rfl⟩ : ∃ m, n = m + 1 := ⟨n - 1, by omega⟩
  rw [lexer_next_digits, if_pos h]
  have := (next_digits_moves m { L with pos := L.pos + 1 }
    (wrap64 (val * 10 + ((L.src_at L.pos).toNat - 48 : Int)))).2.2.2.2.1
  exact Nat.lt_of_lt_of_le (Nat.lt_succ_self _) this

/-- A run of the identifier loop that starts at an identifier character moves
`pos`. -/
theorem next_ident_progress (n : Nat) (L : Lexer) (hn : 0 < n)
    (h : L.pos < L.len ∧ is_ident_char (L.src_at L.pos) = true) :
    L.pos < (lexer_next_ident n L).pos := by
  obtain ⟨m, rfl⟩ : ∃ m, n = m + 1 := ⟨n - 1, by omega⟩
  rw [lexer_next_ident, if_pos h]
  have := (next_ident_moves m { L with pos := L.pos + 1 }).2.2.2.2.1
  exact Nat.lt_of_lt_of_le (Nat.lt_succ_self _) this

theorem strdup_range_infix (src : List Char) (start n : Nat) :
    strdup_range src start n <:+: src := by
  unfold strdup_range
  exact List.IsInfix.trans (List.take_prefix _ _).isInfix (List.drop_suffix _ _).isInfix

theorem next_of_emit {L W : Lexer} (w1 : W.src = L.src) (w2 : W.len = L.len)
    (w5 : L.pos ≤ W.pos) (T : Token_Type) (k : Nat) (hk : 0 < k)
    (hb : W.pos + k ≤ W.len) (hT : T ≠ TOK_IMPORT) : L.Next (true, W.emit T k) := by
  refine ⟨w1, w2, ?_, fun _ => hb, fun _ _ => ?_, fun h => ?_, fun _ h => ?_⟩
  · exact Nat.le_trans w5 (Nat.le_add_right _ _)
  · exact Nat.lt_of_le_of_lt w5 (Nat.lt_add_of_pos_right hk)
  · cases h
  · exact absurd h hT

set_option maxHeartbeats 1000000 in
/-- One call of `lexer_next` keeps the source and its length, does not move
`pos` back or past `len`, moves it when the token is not the end of the input,
leaves the type of the current token when it fails, and yields the keyword
token IMPORT only from the word in the source. -/
theorem lexer_next_spec (L : Lexer) : L.Next (lexer_next L) := by
  unfold lexer_next
  dsimp only
  generalize hX : (if L.current.type = TOK_STRING ∨ L.current.type = TOK_IDENT then
      ({ L with current := { L.current with string := none } } : Lexer) else L) = X0
  have hsrc : X0.src = L.src := by subst hX; split <;> rfl
  have hp : X0.pos = L.pos := by subst hX; split <;> rfl
  have hl : X0.len = L.len := by subst hX; split <;> rfl
  have ht : X0.current.type = L.current.type := by subst hX; split <;> rfl
  clear hX
  have hW := skip_whitespace_moves X0
  generalize lexer_skip_whitespace X0 = W at hW
  obtain ⟨w1, w2, w3, w4, w5, w6⟩ := hW
  rw [hp, hl] at w6
  rw [hp] at w5
  rw [hsrc] at w1
  rw [hl] at w2
  have w7 : W.current.type = L.current.type := (congrArg Token.type w3).trans ht
  clear hsrc hp hl ht w3 w4
  by_cases h0 : W.pos ≥ W.len
  · rw [if_pos h0]
    refine ⟨w1, w2, ?_, fun h => ?_, fun _ h => ?_, fun h => ?_, fun _ h => ?_⟩
    · exact w5
    · exact w6 h
    · exact absurd rfl h
    · cases h
    · cases h
  rw [if_neg h0]
  have hlt : W.pos + 1 ≤ W.len := by omega
  by_cases h : W.src_at W.pos = '{'
  · rw [if_pos h]
    exact next_of_emit w1 w2 w5 _ 1 (by omega) hlt (by decide)
  rw [if_neg h]
  clear h
  by_cases h : W.src_at W.pos = '}'
  · rw [if_pos h]
    exact next_of_emit w1 w2 w5 _ 1 (by omega) hlt (by decide)
  rw [if_neg h]
  clear h
  by_cases h : W.src_at W.pos = '['
  · rw [if_pos h]
    exact next_of_emit w1 w2 w5 _ 1 (by omega) hlt (by decide)
  rw [if_neg h]
  clear h
  by_cases h : W.src_at W.pos = ']'
  · rw [if_pos h]
    exact next_of_emit w1 w2 w5 _ 1 (by omega) hlt (by decide)
  rw [if_neg h]
  clear h
  by_cases h : W.src_at W.pos = '('
  · rw [if_pos h]
    exact next_of_emit w1 w2 w5 _ 1 (by omega) hlt (by decide)
  rw [if_neg h]
  clear h
  by_cases h : W.src_at W.pos = ')'
  · rw [if_pos h]
    exact next_of_emit w1 w2 w5 _ 1 (by omega) hlt (by decide)
  rw [if_neg h]
  clear h
  by_cases h : W.src_at W.pos = ';'
  · rw [if_pos h]
    exact next_of_emit w1 w2 w5 _ 1 (by omega) hlt (by decide)
  rw [if_neg h]
  clear h
  by_cases h : W.src_at W.pos = ','
  · rw [if_pos h]
    exact next_of_emit w1 w2 w5 _ 1 (by omega) hlt (by decide)
  rw [if_neg h]
  clear h
  by_cases h : W.src_at W.pos = '='
  · rw [if_pos h]
    exact next_of_emit w1 w2 w5 _ 1 (by omega) hlt (by decide)
  rw [if_neg h]
  clear h
  by_cases h : W.src_at W.pos = ':'
  · rw [if_pos h]
    exact next_of_emit w1 w2 w5 _ 1 (by omega) hlt (by decide)
  rw [if_neg h]
  clear h
  by_cases h : W.src_at W.pos = '?'
  · rw [if_pos h]
    exact next_of_emit w1 w2 w5 _ 1 (by omega) hlt (by decide)
  rw [if_neg h]
  clear h
  by_cases h : W.src_at W.pos = '.' ∧ W.pos + 2 < W.len ∧
      W.src_at (W.pos + 1) = '.' ∧ W.src_at (W.pos + 2) = '.'
  · rw [if_pos h]
    exact next_of_emit w1 w2 w5 _ 3 (by omega) (by omega) (by decide)
  rw [if_neg h]
  clear h
  by_cases h : W.src_at W.pos = '.'
  · rw [if_pos h]
    exact next_of_emit w1 w2 w5 _ 1 (by omega) hlt (by decide)
  rw [if_neg h]
  clear h
  by_cases h : W.src_at W.pos = DQUOTE
  · rw [if_pos h]
    have hm := moves_trans (moves_step W 1 hlt)
      (next_string_moves (W.len - (W.pos + 1)) { W with pos := W.pos + 1 } [])
    have hs : W.pos + 1 ≤ (lexer_next_string (W.len - (W.pos + 1))
        { W with pos := W.pos + 1 } []).1.pos :=
      (next_string_moves (W.len - (W.pos + 1)) { W with pos := W.pos + 1 } []).2.2.2.2.1
    generalize lexer_next_string (W.len - (W.pos + 1)) { W with pos := W.pos + 1 } [] = r
      at hm hs
    obtain ⟨v1, v2, v3, _, v5, v6⟩ := hm
    by_cases hend : r.1.pos ≥ r.1.len
    · rw [if_pos hend]
      refine ⟨v1.trans w1, v2.trans w2, ?_, fun _ => ?_, fun h => ?_, fun _ => ?_, fun h => ?_⟩
      · exact Nat.le_trans w5 v5
      · exact v6 (by omega)
      · cases h
      · exact (congrArg Token.type v3).trans w7
      · cases h
    · rw [if_neg hend]
      refine ⟨v1.trans w1, v2.trans w2, ?_, fun _ => ?_, fun _ _ => ?_, fun h => ?_,
        fun _ h => ?_⟩
      · exact Nat.le_trans w5 (Nat.le_trans v5 (Nat.le_add_right _ 1))
      · show r.1.pos + 1 ≤ r.1.len
        omega
      · show L.pos < r.1.pos + 1
        omega
      · cases h
      · cases h
  rw [if_neg h]
  clear h
  by_cases h : isdigit (W.src_at W.pos) = true ∨
      W.src_at W.pos = '-' ∧ W.pos + 1 < W.len ∧ isdigit (W.src_at (W.pos + 1)) = true
  · rw [if_pos h]
    by_cases hminus : W.src_at W.pos = '-'
    · rw [if_pos hminus]
      have h2 : W.pos + 1 < W.len := by
        rcases h with h | h
        · rw [hminus] at h
          exact absurd h (by decide)
        · exact h.2.1
      have hm := moves_trans (moves_step W 1 hlt)
        (next_digits_moves (W.len - (W.pos + 1)) { W with pos := W.pos + 1 } 0)
      have hs : W.pos + 1 ≤ (lexer_next_digits (W.len - (W.pos + 1))
          { W with pos := W.pos + 1 } 0).1.pos :=
        (next_digits_moves (W.len - (W.pos + 1)) { W with pos := W.pos + 1 } 0).2.2.2.2.1
      generalize lexer_next_digits (W.len - (W.pos + 1)) { W with pos := W.pos + 1 } 0 = r
        at hm hs
      obtain ⟨v1, v2, _, _, v5, v6⟩ := hm
      refine ⟨v1.trans w1, v2.trans w2, ?_, fun _ => ?_, fun _ _ => ?_, fun h => ?_,
        fun _ h => ?_⟩
      · exact Nat.le_trans w5 v5
      · exact v6 (by omega)
      · show L.pos < r.1.pos
        omega
      · cases h
      · cases h
    · rw [if_neg hminus]
      have hd : isdigit (W.src_at W.pos) = true := by
        rcases h with h | h
        · exact h
        · exact absurd h.1 hminus
      have hm := next_digits_moves (W.len - W.pos) W 0
      have hs := next_digits_progress (W.len - W.pos) W 0 (by omega) ⟨by omega, hd⟩
      generalize lexer_next_digits (W.len - W.pos) W 0 = r at hm hs
      obtain ⟨v1, v2, _, _, v5, v6⟩ := hm
      refine ⟨v1.trans w1, v2.trans w2, ?_, fun _ => ?_, fun _ _ => ?_, fun h => ?_,
        fun _ h => ?_⟩
      · exact Nat.le_trans w5 v5
      · exact v6 (by omega)
      · show L.pos < r.1.pos
        omega
      · cases h
      · cases h
  rw [if_neg h]
  clear h
  by_cases h : is_ident_start (W.src_at W.pos) = true
  · rw [if_pos h]
    have hic : is_ident_char (W.src_at W.pos) = true := by
      unfold is_ident_start at h
      unfold is_ident_char isalnum
      simp only [Bool.or_eq_true, decide_eq_true_eq] at h ⊢
      rcases h with h | h
      · exact Or.inl (Or.inl h)
      · exact Or.inr h
    have hm := next_ident_moves (W.len - W.pos) W
    have hs := next_ident_progress (W.len - W.pos) W (by omega) ⟨by omega, hic⟩
    generalize hV : lexer_next_ident (W.len - W.pos) W = V at hm hs
    obtain ⟨v1, v2, _, _, v5, v6⟩ := hm
    have key : ∀ T : Token_Type, T ≠ TOK_EOF →
        (T = TOK_IMPORT → "import".toList <:+: L.src) → L.Next (true, V.emit T 0) := by
      intro T hT himp
      refine ⟨v1.trans w1, v2.trans w2, ?_, fun _ => ?_, fun _ _ => ?_, fun h => ?_,
        fun _ h => himp h⟩
      · exact Nat.le_trans w5 v5
      · show V.pos + 0 ≤ V.len
        have := v6 (by omega)
        omega
      · show L.pos < V.pos + 0
        omega
      · cases h
    by_cases k1 : strdup_range V.src W.pos (V.pos - W.pos) = "true".toList
    · rw [if_pos k1]
      exact key _ (by decide) (fun h => by cases h)
    rw [if_neg k1]
    by_cases k2 : strdup_range V.src W.pos (V.pos - W.pos) = "false".toList
    · rw [if_pos k2]
      exact key _ (by decide) (fun h => by cases h)
    rw [if_neg k2]
    by_cases k3 : strdup_range V.src W.pos (V.pos - W.pos) = "let".toList
    · rw [if_pos k3]
      exact key _ (by decide) (fun h => by cases h)
    rw [if_neg k3]
    by_cases k4 : strdup_range V.src W.pos (V.pos - W.pos) = "if".toList
    · rw [if_pos k4]
      exact key _ (by decide) (fun h => by cases h)
    rw [if_neg k4]
    by_cases k5 : strdup_range V.src W.pos (V.pos - W.pos) = "then".toList
    · rw [if_pos k5]
      exact key _ (by decide) (fun h => by cases h)
    rw [if_neg k5]
    by_cases k6 : strdup_range V.src W.pos (V.pos - W.pos) = "else".toList
    · rw [if_pos k6]
      exact key _ (by decide) (fun h => by cases h)
    rw [if_neg k6]
    by_cases k7 : strdup_range V.src W.pos (V.pos - W.pos) = "import".toList
    · rw [if_pos k7]
      refine key _ (by decide) (fun _ => ?_)
      rw [← k7, ← w1, ← v1]
      exact strdup_range_infix _ _ _
    rw [if_neg k7]
    refine ⟨v1.trans w1, v2.trans w2, ?_, fun _ => ?_, fun _ _ => ?_, fun h => ?_,
      fun _ h => ?_⟩
    · exact Nat.le_trans w5 v5
    · exact v6 (by omega)
    · show L.pos < V.pos
      omega
    · cases h
    · cases h
  rw [if_neg h]
  refine ⟨w1, w2, w5, w6, fun h => ?_, fun _ => w7, fun h => ?_⟩
  · cases h
  · cases h

/-! ### Every parse function moves forward -/

theorem good_next {S : Prop} {p : Parser} (h : p.Good S) : p.next.Good S := by
  obtain ⟨h1, h2⟩ := h
  obtain ⟨s1, s2, s3, s4, s5, s6, s7⟩ := lexer_next_spec p.lex
  refine ⟨s4 h1, ?_⟩
  rcases h2 with h2 | ⟨h2, h3⟩
  · exact Or.inl h2
  · refine Or.inr ⟨?_, ?_⟩
    · show ¬ "import".toList <:+: (lexer_next p.lex).2.src
      rw [s1]
      exact h2
    · show (lexer_next p.lex).2.current.type ≠ TOK_IMPORT
      intro hi
      cases hb : (lexer_next p.lex).1 with
      | true => exact h2 (s7 hb hi)
      | false => exact h3 ((s6 hb).symm.trans hi)

theorem left_next_le {S : Prop} {p : Parser} (h : p.Good S) :
    p.next.lex.left ≤ p.lex.left := by
  obtain ⟨h1, _⟩ := h
  obtain ⟨s1, s2, s3, s4, s5, s6, s7⟩ := lexer_next_spec p.lex
  have s4' := s4 h1
  show (lexer_next p.lex).2.left ≤ p.lex.left
  unfold Lexer.left
  rw [s2] at s4' ⊢
  cases hb : (lexer_next p.lex).1 with
  | true =>
    by_cases he : (lexer_next p.lex).2.current.type = TOK_EOF
    · rw [if_pos he]
      split <;> omega
    · rw [if_neg he]
      have := s5 hb he
      split <;> omega
  | false =>
    rw [s6 hb]
    split <;> omega

theorem left_next_lt {S : Prop} {p : Parser} (h : p.Good S) (hl : p.lexes)
    (ht : p.tok ≠ TOK_EOF) : p.next.lex.left < p.lex.left := by
  obtain ⟨h1, _⟩ := h
  obtain ⟨s1, s2, s3, s4, s5, s6, s7⟩ := lexer_next_spec p.lex
  have s4' := s4 h1
  show (lexer_next p.lex).2.left < p.lex.left
  unfold Lexer.left
  unfold Parser.tok at ht
  rw [s2] at s4' ⊢
  rw [if_neg ht]
  by_cases he : (lexer_next p.lex).2.current.type = TOK_EOF
  · rw [if_pos he]
    omega
  · rw [if_neg he]
    have := s5 hl he
    omega

theorem lands_timeout (S : Prop) (m : Nat) (s : Bool) :
    (Outcome.timeout : Outcome (Goon_Value × Parser)).Lands S m s := by
  intro r hr
  cases hr

theorem lands_crash (S : Prop) (m : Nat) (s : Bool) :
    (Outcome.crash : Outcome (Goon_Value × Parser)).Lands S m s := by
  intro r hr
  cases hr

/-- A returned state with less left than `m`. -/
theorem lands_ret_lt {S : Prop} {m : Nat} {s : Bool} {v : Goon_Value} {q : Parser}
    (hg : q.Good S) (h : q.lex.left < m) : (Outcome.ret (v, q)).Lands S m s := by
  intro r hr
  cases hr
  exact ⟨hg, Nat.le_of_lt h, fun _ _ => h⟩

/-- A returned state with at most `m` left, where no strict bound is asked. -/
theorem lands_ret_le {S : Prop} {m : Nat} {v : Goon_Value} {q : Parser}
    (hg : q.Good S) (h : q.lex.left ≤ m) : (Outcome.ret (v, q)).Lands S m false := by
  intro r hr
  cases hr
  exact ⟨hg, h, fun hs => by cases hs⟩

/-- A returned null pointer. -/
theorem lands_ret_null {S : Prop} {m : Nat} {s : Bool} {p : Parser}
    (hg : p.Good S) (h : p.lex.left ≤ m) : p.ret_null.Lands S m s := by
  intro r hr
  cases hr
  exact ⟨hg, h, fun _ hn => by cases hn⟩

theorem lands_fail {S : Prop} {m : Nat} {s : Bool} {p : Parser} (msg : List Char)
    (hg : p.Good S) (h : p.lex.left ≤ m) : (p.fail msg).Lands S m s := by
  intro r hr
  cases hr
  exact ⟨hg, h, fun _ hn => by cases hn⟩

theorem lands_weaken {S : Prop} {m a : Nat} {s : Bool}
    {o : Outcome (Goon_Value × Parser)} (h : o.Lands S a false) (hlt : a < m) :
    o.Lands S m s := by
  intro r hr
  obtain ⟨h1, h2, _⟩ := h r hr
  exact ⟨h1, by omega, fun _ _ => by omega⟩

theorem lands_mono {S : Prop} {m a : Nat} {s : Bool}
    {o : Outcome (Goon_Value × Parser)} (h : o.Lands S a s) (hle : a ≤ m) :
    o.Lands S m s := by
  intro r hr
  obtain ⟨h1, h2, h3⟩ := h r hr
  exact ⟨h1, by omega, fun hs hn => by have := h3 hs hn; omega⟩

theorem lands_loose {S : Prop} {m a : Nat} {s : Bool}
    {o : Outcome (Goon_Value × Parser)} (h : o.Lands S a s) (hle : a ≤ m) :
    o.Lands S m false := by
  intro r hr
  obtain ⟨h1, h2, _⟩ := h r hr
  exact ⟨h1, by omega, fun hs => by cases hs⟩

theorem lands_bind {S : Prop} {m a : Nat} {s t : Bool}
    {o : Outcome (Goon_Value × Parser)}
    {k : Goon_Value × Parser → Outcome (Goon_Value × Parser)} (ho : o.Lands S a t)
    (hk : ∀ r, r.2.Good S → r.2.lex.left ≤ a →
      (t = true → r.1.isNull = false → r.2.lex.left < a) → (k r).Lands S m s) :
    (o.bind k).Lands S m s := by
  cases o with
  | ret r =>
    obtain ⟨h1, h2, h3⟩ := ho r rfl
    exact hk r h1 h2 h3
  | crash => exact lands_crash S m s
  | timeout => exact lands_timeout S m s

theorem lands_advance {S : Prop} {m : Nat} {s : Bool} {p : Parser}
    {k : Parser → Outcome (Goon_Value × Parser)} (hg : p.Good S) (hle : p.lex.left ≤ m)
    (hk : ∀ q, q.Good S → q.lex.left ≤ p.lex.left →
      (p.tok ≠ TOK_EOF → q.lex.left < p.lex.left) → (k q).Lands S m s) :
    (p.advance k).Lands S m s := by
  by_cases hl : p.lexes
  · rw [advance_eq hl]
    exact hk _ (good_next hg) (left_next_le hg) (fun ht => left_next_lt hg hl ht)
  · rw [advance_stops hl]
    intro r hr
    cases hr
    exact ⟨good_next hg, Nat.le_trans (left_next_le hg) hle, fun _ hn => by cases hn⟩

theorem good_ctx {S : Prop} {p : Parser} (hg : p.Good S) (c : Goon_Ctx) :
    Parser.Good S { p with ctx := c } := hg

theorem lands_zero (S : Prop) (host : Host) : ParseLands S host 0 := by
  refine ⟨?_, ?_, ?_, ?_, ?_, ?_, ?_, ?_, ?_, ?_, ?_⟩ <;> intros <;> exact lands_timeout _ _ _

theorem lands_advance_strict {S : Prop} {m : Nat} {s : Bool} {p : Parser}
    {k : Parser → Outcome (Goon_Value × Parser)} (hg : p.Good S) (ht : p.tok ≠ TOK_EOF)
    (hle : p.lex.left ≤ m)
    (hk : ∀ q, q.Good S → q.lex.left < p.lex.left → (k q).Lands S m s) :
    (p.advance k).Lands S m s :=
  lands_advance hg hle (fun q h1 _ h3 => hk q h1 (h3 ht))

theorem tok_ne_of_eq {p : Parser} {T U : Token_Type} (h : p.tok = T) (hTU : T ≠ U) :
    p.tok ≠ U := by
  rw [h]
  exact hTU

theorem tok_ne_of_type {p : Parser} {T U : Token_Type} (h : p.lex.current.type = T)
    (hTU : T ≠ U) : p.tok ≠ U := by
  unfold Parser.tok
  rw [h]
  exact hTU

theorem lands_advance_eq {S : Prop} {m : Nat} {s : Bool} {p : Parser} {T : Token_Type}
    {k : Parser → Outcome (Goon_Value × Parser)} (hg : p.Good S) (ht : p.tok = T)
    (hT : T ≠ TOK_EOF) (hle : p.lex.left ≤ m)
    (hk : ∀ q, q.Good S → q.lex.left < p.lex.left → (k q).Lands S m s) :
    (p.advance k).Lands S m s :=
  lands_advance_strict hg (tok_ne_of_eq ht hT) hle hk

theorem lands_advance_type {S : Prop} {m : Nat} {s : Bool} {p : Parser} {T : Token_Type}
    {k : Parser → Outcome (Goon_Value × Parser)} (hg : p.Good S)
    (ht : p.lex.current.type = T) (hT : T ≠ TOK_EOF) (hle : p.lex.left ≤ m)
    (hk : ∀ q, q.Good S → q.lex.left < p.lex.left → (k q).Lands S m s) :
    (p.advance k).Lands S m s :=
  lands_advance_strict hg (tok_ne_of_type ht hT) hle hk

theorem lands_advance_and {S : Prop} {m : Nat} {s : Bool} {p : Parser} {A : Prop}
    {k : Parser → Outcome (Goon_Value × Parser)} (hg : p.Good S)
    (ht : A ∧ p.tok ≠ TOK_EOF) (hle : p.lex.left ≤ m)
    (hk : ∀ q, q.Good S → q.lex.left < p.lex.left → (k q).Lands S m s) :
    (p.advance k).Lands S m s :=
  lands_advance_strict hg ht.2 hle hk

theorem lands_bind_any {S : Prop} {m : Nat} {s : Bool}
    {o : Outcome (Goon_Value × Parser)}
    {k : Goon_Value × Parser → Outcome (Goon_Value × Parser)}
    (hk : ∀ r, (k r).Lands S m s) : (o.bind k).Lands S m s := by
  cases o with
  | ret r => exact hk r
  | crash => exact lands_crash S m s
  | timeout => exact lands_timeout S m s

theorem lands_bind_val {S : Prop} {m a : Nat} {s : Bool}
    {o : Outcome (Goon_Value × Parser)}
    {k : Goon_Value × Parser → Outcome (Goon_Value × Parser)} (ho : o.Lands S a true)
    (hnull : ∀ r, r.1.isNull = true → r.2.Good S → r.2.lex.left ≤ a →
      (k r).Lands S m s)
    (hval : ∀ r, r.1.isNull = false → r.2.Good S → r.2.lex.left < a →
      (k r).Lands S m s) :
    (o.bind k).Lands S m s := by
  refine lands_bind ho (fun r h1 h2 h3 => ?_)
  cases hn : r.1.isNull with
  | true => exact hnull r hn h1 h2
  | false => exact hval r hn h1 (h3 rfl hn)

theorem null_contra {v : Goon_Value} {A : Prop} (h1 : v.isNull = true)
    (h2 : v.isNull = false) : A := by
  rw [h1] at h2
  cases h2

theorem lands_ret_lex {S : Prop} {m : Nat} {s : Bool} {v : Goon_Value} {q : Parser}
    (hg : q.Good S) (h : q.lex.left < m) (c : Goon_Ctx) :
    (Outcome.ret (v, ({ ctx := c, lex := q.lex } : Parser))).Lands S m s :=
  lands_ret_lt (q := { ctx := c, lex := q.lex }) hg h

theorem lands_advance_ctx {S : Prop} {m : Nat} {s : Bool} {p : Parser} (c : Goon_Ctx)
    {k : Parser → Outcome (Goon_Value × Parser)} (hg : p.Good S) (hle : p.lex.left ≤ m)
    (hk : ∀ q, q.Good S → q.lex.left ≤ p.lex.left → (k q).Lands S m s) :
    (Parser.advance { ctx := c, lex := p.lex } k).Lands S m s :=
  lands_advance (p := { ctx := c, lex := p.lex }) hg hle (fun q h1 h2 _ => hk q h1 h2)

set_option maxHeartbeats 4000000 in
theorem lands_succ (S : Prop) (host : Host) (fuel : Nat) (ih : ParseLands S host fuel) :
    ParseLands S host (fuel + 1) := by
  obtain ⟨h1, h2, h3, h4, h5, h6, h7, h8, h9, h10, h11⟩ := ih
  refine ⟨?_, ?_, ?_, ?_, ?_, ?_, ?_, ?_, ?_, ?_, ?_⟩
  · intro p r hp
    rw [parse_record_loop]
    repeat' first
      | with_reducible intro _
      | with_reducible exact null_contra (by assumption) (by assumption)
      | with_reducible refine lands_advance_eq (by assumption) (by assumption) (by decide) (by omega) ?_
      | with_reducible refine lands_advance_and (by assumption) (by assumption) (by omega) ?_
      | with_reducible refine lands_advance (by assumption) (by omega) ?_
      | with_reducible refine lands_advance_ctx _ (by assumption) (by omega) ?_
      | with_reducible refine lands_bind (h11 _ (by assumption)) ?_
      | with_reducible exact lands_mono (h1 _ _ (by assumption)) (by omega)
      | with_reducible exact lands_fail _ (by assumption) (by omega)
      | with_reducible exact lands_ret_null (by assumption) (by omega)
      | with_reducible exact lands_ret_lt (by assumption) (by omega)
      | with_reducible exact lands_ret_le (by assumption) (by omega)
      | with_reducible exact lands_ret_lex (by assumption) (by omega) _
      | with_reducible exact lands_crash _ _ _
      | dsimp only
      | split
  · intro p hp ht
    rw [parse_record]
    repeat' first
      | with_reducible intro _
      | with_reducible refine lands_advance_strict (by assumption) (by assumption) (by omega) ?_
      | with_reducible refine lands_advance (by assumption) (by omega) ?_
      | with_reducible refine lands_advance_ctx _ (by assumption) (by omega) ?_
      | with_reducible exact lands_weaken (h1 _ _ (by assumption)) (by omega)
  · intro p r hp
    rw [parse_list_loop]
    repeat' first
      | with_reducible intro _
      | with_reducible exact null_contra (by assumption) (by assumption)
      | with_reducible refine lands_advance_eq (by assumption) (by assumption) (by decide) (by omega) ?_
      | with_reducible refine lands_advance_and (by assumption) (by assumption) (by omega) ?_
      | with_reducible refine lands_advance (by assumption) (by omega) ?_
      | with_reducible refine lands_advance_ctx _ (by assumption) (by omega) ?_
      | with_reducible refine lands_bind (h11 _ (by assumption)) ?_
      | with_reducible exact lands_mono (h3 _ _ (by assumption)) (by omega)
      | with_reducible exact lands_fail _ (by assumption) (by omega)
      | with_reducible exact lands_ret_null (by assumption) (by omega)
      | with_reducible exact lands_ret_lt (by assumption) (by omega)
      | with_reducible exact lands_ret_le (by assumption) (by omega)
      | with_reducible exact lands_ret_lex (by assumption) (by omega) _
      | with_reducible exact lands_crash _ _ _
      | dsimp only
      | split
  · intro p hp ht
    rw [parse_list]
    repeat' first
      | with_reducible intro _
      | with_reducible refine lands_advance_strict (by assumption) (by assumption) (by omega) ?_
      | with_reducible refine lands_advance (by assumption) (by omega) ?_
      | with_reducible refine lands_advance_ctx _ (by assumption) (by omega) ?_
      | with_reducible exact lands_weaken (h3 _ _ (by assumption)) (by omega)
  · intro p r hp
    rw [parse_import_loop]
    repeat' first
      | with_reducible intro _
      | with_reducible exact null_contra (by assumption) (by assumption)
      | with_reducible refine lands_advance_strict (by assumption) (by assumption) (by omega) ?_
      | with_reducible refine lands_advance (by assumption) (by omega) ?_
      | with_reducible refine lands_advance_ctx _ (by assumption) (by omega) ?_
      | with_reducible refine lands_bind (h11 _ (by assumption)) ?_
      | with_reducible exact lands_mono (h5 _ _ (by assumption)) (by omega)
      | with_reducible exact lands_fail _ (by assumption) (by omega)
      | with_reducible exact lands_ret_null (by assumption) (by omega)
      | with_reducible exact lands_ret_lt (by assumption) (by omega)
      | with_reducible exact lands_ret_le (by assumption) (by omega)
      | with_reducible exact lands_ret_lex (by assumption) (by omega) _
      | with_reducible exact lands_crash _ _ _
      | dsimp only
      | split
  · intro p hp ht
    rw [parse_import]
    repeat' first
      | with_reducible intro _
      | with_reducible refine lands_advance_strict (by assumption) (by assumption) (by omega) ?_
      | with_reducible refine lands_advance (by assumption) (by omega) ?_
      | with_reducible refine lands_advance_ctx _ (by assumption) (by omega) ?_
      | with_reducible refine lands_bind_any ?_
      | with_reducible exact lands_fail _ (by assumption) (by omega)
      | with_reducible exact lands_ret_null (by assumption) (by omega)
      | with_reducible exact lands_ret_lt (by assumption) (by omega)
      | with_reducible exact lands_ret_le (by assumption) (by omega)
      | with_reducible exact lands_ret_lex (by assumption) (by omega) _
      | with_reducible exact lands_crash _ _ _
      | dsimp only
      | split
  · intro p f a hp
    rw [parse_call_loop]
    repeat' first
      | with_reducible intro _
      | with_reducible refine lands_advance_eq (by assumption) (by assumption) (by decide) (by omega) ?_
      | with_reducible refine lands_advance (by assumption) (by omega) ?_
      | with_reducible refine lands_advance_ctx _ (by assumption) (by omega) ?_
      | with_reducible refine lands_bind (h11 _ (by assumption)) ?_
      | with_reducible exact lands_mono (h7 _ _ _ (by assumption)) (by omega)
      | with_reducible exact lands_fail _ (by assumption) (by omega)
      | with_reducible exact lands_ret_null (by assumption) (by omega)
      | with_reducible exact lands_ret_lt (by assumption) (by omega)
      | with_reducible exact lands_ret_le (by assumption) (by omega)
      | with_reducible exact lands_ret_lex (by assumption) (by omega) _
      | with_reducible exact lands_crash _ _ _
      | dsimp only
      | split
  · intro p n hp ht
    rw [parse_call]
    repeat' first
      | with_reducible intro _
      | with_reducible refine lands_advance_strict (by assumption) (by assumption) (by omega) ?_
      | with_reducible refine lands_advance (by assumption) (by omega) ?_
      | with_reducible refine lands_advance_ctx _ (by assumption) (by omega) ?_
      | with_reducible exact lands_weaken (h7 _ _ _ (by assumption)) (by omega)
  · intro p v hp
    rw [parse_primary_fields]
    repeat' first
      | with_reducible intro _
      | with_reducible refine lands_advance_eq (by assumption) (by assumption) (by decide) (by omega) ?_
      | with_reducible refine lands_advance (by assumption) (by omega) ?_
      | with_reducible refine lands_advance_ctx _ (by assumption) (by omega) ?_
      | with_reducible exact lands_mono (h9 _ _ (by assumption)) (by omega)
      | with_reducible exact lands_fail _ (by assumption) (by omega)
      | with_reducible exact lands_ret_null (by assumption) (by omega)
      | with_reducible exact lands_ret_lt (by assumption) (by omega)
      | with_reducible exact lands_ret_le (by assumption) (by omega)
      | with_reducible exact lands_ret_lex (by assumption) (by omega) _
      | with_reducible exact lands_crash _ _ _
      | dsimp only
      | split
  · intro p hp
    rw [parse_primary]
    repeat' first
      | with_reducible intro _
      | with_reducible refine lands_advance_eq (by assumption) (by assumption) (by decide) (by omega) ?_
      | with_reducible refine lands_advance_type (by assumption) (by assumption) (by decide) (by omega) ?_
      | with_reducible refine lands_advance (by assumption) (by omega) ?_
      | with_reducible refine lands_advance_ctx _ (by assumption) (by omega) ?_
      | with_reducible refine lands_bind (h11 _ (by assumption)) ?_
      | with_reducible exact h2 _ (by assumption) (tok_ne_of_type (by assumption) (by decide))
      | with_reducible exact h4 _ (by assumption) (tok_ne_of_type (by assumption) (by decide))
      | with_reducible exact h6 _ (by assumption) (tok_ne_of_type (by assumption) (by decide))
      | with_reducible exact lands_mono (h8 _ _ (by assumption) (tok_ne_of_eq (by assumption) (by decide))) (by omega)
      | with_reducible exact lands_weaken (h9 _ _ (by assumption)) (by omega)
      | with_reducible exact lands_fail _ (by assumption) (by omega)
      | with_reducible exact lands_ret_null (by assumption) (by omega)
      | with_reducible exact lands_ret_lt (by assumption) (by omega)
      | with_reducible exact lands_ret_le (by assumption) (by omega)
      | with_reducible exact lands_ret_lex (by assumption) (by omega) _
      | with_reducible exact lands_crash _ _ _
      | dsimp only
      | split
  · intro p hp
    rw [parse_expr]
    repeat' first
      | with_reducible intro _
      | with_reducible exact null_contra (by assumption) (by assumption)
      | with_reducible refine lands_advance_eq (by assumption) (by assumption) (by decide) (by omega) ?_
      | with_reducible refine lands_advance (by assumption) (by omega) ?_
      | with_reducible refine lands_advance_ctx _ (by assumption) (by omega) ?_
      | with_reducible refine lands_bind_val (h10 _ (by assumption)) ?_ ?_
      | with_reducible refine lands_bind (h11 _ (by assumption)) ?_
      | with_reducible exact lands_fail _ (by assumption) (by omega)
      | with_reducible exact lands_ret_null (by assumption) (by omega)
      | with_reducible exact lands_ret_lt (by assumption) (by omega)
      | with_reducible exact lands_ret_le (by assumption) (by omega)
      | with_reducible exact lands_ret_lex (by assumption) (by omega) _
      | with_reducible exact lands_crash _ _ _
      | dsimp only
      | split

theorem parseLands (S : Prop) (host : Host) (fuel : Nat) : ParseLands S host fuel := by
  induction fuel with
  | zero => exact lands_zero S host
  | succ n ih => exact lands_succ S host n ih

/-! ### Every parse function returns or crashes -/

theorem lands_expr (S : Prop) (host : Host) (fuel : Nat) (p : Parser) (hg : p.Good S) :
    (parse_expr host fuel p).Lands S p.lex.left true :=
  (parseLands S host fuel).2.2.2.2.2.2.2.2.2.2 p hg

theorem lands_primary (S : Prop) (host : Host) (fuel : Nat) (p : Parser) (hg : p.Good S) :
    (parse_primary host fuel p).Lands S p.lex.left true :=
  (parseLands S host fuel).2.2.2.2.2.2.2.2.2.1 p hg

theorem halts_ret {a : Goon_Value × Parser} :
    (Outcome.ret a : Outcome (Goon_Value × Parser)) ≠ .timeout := by
  intro h
  cases h

theorem halts_crash : (Outcome.crash : Outcome (Goon_Value × Parser)) ≠ .timeout := by
  intro h
  cases h

theorem halts_fail (p : Parser) (msg : List Char) : p.fail msg ≠ .timeout := halts_ret

theorem halts_ret_null (p : Parser) : p.ret_null ≠ .timeout := halts_ret

theorem halts_bind {S : Prop} {a : Nat} {t : Bool} {o : Outcome (Goon_Value × Parser)}
    {k : Goon_Value × Parser → Outcome (Goon_Value × Parser)} (hl : o.Lands S a t)
    (ho : o ≠ .timeout)
    (hk : ∀ r, r.2.Good S → r.2.lex.left ≤ a → k r ≠ .timeout) :
    o.bind k ≠ .timeout := by
  cases o with
  | ret r =>
    obtain ⟨h1, h2, _⟩ := hl r rfl
    exact hk r h1 h2
  | crash => exact halts_crash
  | timeout => exact absurd rfl ho

theorem halts_bind_val {S : Prop} {a : Nat} {o : Outcome (Goon_Value × Parser)}
    {k : Goon_Value × Parser → Outcome (Goon_Value × Parser)} (hl : o.Lands S a true)
    (ho : o ≠ .timeout)
    (hnull : ∀ r, r.1.isNull = true → r.2.Good S → r.2.lex.left ≤ a → k r ≠ .timeout)
    (hval : ∀ r, r.1.isNull = false → r.2.Good S → r.2.lex.left < a → k r ≠ .timeout) :
    o.bind k ≠ .timeout := by
  cases o with
  | ret r =>
    obtain ⟨h1, h2, h3⟩ := hl r rfl
    cases hn : r.1.isNull with
    | true => exact hnull r hn h1 h2
    | false => exact hval r hn h1 (h3 rfl hn)
  | crash => exact halts_crash
  | timeout => exact absurd rfl ho

theorem halts_advance {S : Prop} {p : Parser}
    {k : Parser → Outcome (Goon_Value × Parser)} (hg : p.Good S)
    (hk : ∀ q, q.Good S → q.lex.left ≤ p.lex.left → k q ≠ .timeout) :
    p.advance k ≠ .timeout := by
  by_cases hl : p.lexes
  · rw [advance_eq hl]
    exact hk _ (good_next hg) (left_next_le hg)
  · rw [advance_stops hl]
    exact halts_ret

theorem halts_advance_strict {S : Prop} {p : Parser}
    {k : Parser → Outcome (Goon_Value × Parser)} (hg : p.Good S) (ht : p.tok ≠ TOK_EOF)
    (hk : ∀ q, q.Good S → q.lex.left < p.lex.left → k q ≠ .timeout) :
    p.advance k ≠ .timeout := by
  by_cases hl : p.lexes
  · rw [advance_eq hl]
    exact hk _ (good_next hg) (left_next_lt hg hl ht)
  · rw [advance_stops hl]
    exact halts_ret

theorem halts_advance_eq {S : Prop} {p : Parser} {T : Token_Type}
    {k : Parser → Outcome (Goon_Value × Parser)} (hg : p.Good S) (ht : p.tok = T)
    (hT : T ≠ TOK_EOF)
    (hk : ∀ q, q.Good S → q.lex.left < p.lex.left → k q ≠ .timeout) :
    p.advance k ≠ .timeout :=
  halts_advance_strict hg (tok_ne_of_eq ht hT) hk

theorem halts_advance_type {S : Prop} {p : Parser} {T : Token_Type}
    {k : Parser → Outcome (Goon_Value × Parser)} (hg : p.Good S)
    (ht : p.lex.current.type = T) (hT : T ≠ TOK_EOF)
    (hk : ∀ q, q.Good S → q.lex.left < p.lex.left → k q ≠ .timeout) :
    p.advance k ≠ .timeout :=
  halts_advance_strict hg (tok_ne_of_type ht hT) hk

theorem halts_advance_and {S : Prop} {p : Parser} {A : Prop}
    {k : Parser → Outcome (Goon_Value × Parser)} (hg : p.Good S)
    (ht : A ∧ p.tok ≠ TOK_EOF)
    (hk : ∀ q, q.Good S → q.lex.left < p.lex.left → k q ≠ .timeout) :
    p.advance k ≠ .timeout :=
  halts_advance_strict hg ht.2 hk

theorem halts_advance_ctx {S : Prop} {p : Parser} (c : Goon_Ctx)
    {k : Parser → Outcome (Goon_Value × Parser)} (hg : p.Good S)
    (hk : ∀ q, q.Good S → q.lex.left ≤ p.lex.left → k q ≠ .timeout) :
    Parser.advance { ctx := c, lex := p.lex } k ≠ .timeout :=
  halts_advance (p := { ctx := c, lex := p.lex }) hg hk

theorem halts_zero (S : Prop) (host : Host) : ParseHalts S host 0 := by
  refine ⟨?_, ?_, ?_, ?_, ?_, ?_, ?_, ?_, ?_, ?_⟩ <;> intros <;> omega

set_option maxHeartbeats 4000000 in
theorem halts_succ (S : Prop) (host : Host) (hS : S → ∀ path, host.fopen path = none)
    (fuel : Nat) (ih : ParseHalts S host fuel) : ParseHalts S host (fuel + 1) := by
  obtain ⟨h1, h2, h3, h4, h6, h7, h8, h9, h10, h11⟩ := ih
  refine ⟨?_, ?_, ?_, ?_, ?_, ?_, ?_, ?_, ?_, ?_⟩
  · intro p r hp hf
    rw [parse_record_loop]
    repeat' first
      | with_reducible intro _
      | with_reducible exact null_contra (by assumption) (by assumption)
      | with_reducible refine halts_advance_strict (by assumption) (by assumption) ?_
      | with_reducible refine halts_advance_eq (by assumption) (by assumption) (by decide) ?_
      | with_reducible refine halts_advance_and (by assumption) (by assumption) ?_
      | with_reducible refine halts_advance (by assumption) ?_
      | with_reducible refine halts_advance_ctx _ (by assumption) ?_
      | with_reducible refine halts_bind (lands_expr S host _ _ (by assumption)) (h11 _ (by assumption) (by omega)) ?_
      | with_reducible exact h1 _ _ (by assumption) (by omega)
      | with_reducible exact halts_fail _ _
      | with_reducible exact halts_ret_null _
      | with_reducible exact halts_ret
      | with_reducible exact halts_crash
      | dsimp only
      | split
  · intro p hp ht hf
    rw [parse_record]
    repeat' first
      | with_reducible intro _
      | with_reducible refine halts_advance_strict (by assumption) (by assumption) ?_
      | with_reducible refine halts_advance_and (by assumption) (by assumption) ?_
      | with_reducible refine halts_advance (by assumption) ?_
      | with_reducible refine halts_advance_ctx _ (by assumption) ?_
      | with_reducible exact h1 _ _ (by assumption) (by omega)
  · intro p r hp hf
    rw [parse_list_loop]
    repeat' first
      | with_reducible intro _
      | with_reducible exact null_contra (by assumption) (by assumption)
      | with_reducible refine halts_advance_strict (by assumption) (by assumption) ?_
      | with_reducible refine halts_advance_eq (by assumption) (by assumption) (by decide) ?_
      | with_reducible refine halts_advance_and (by assumption) (by assumption) ?_
      | with_reducible refine halts_advance (by assumption) ?_
      | with_reducible refine halts_advance_ctx _ (by assumption) ?_
      | with_reducible refine halts_bind_val (lands_expr S host _ _ (by assumption)) (h11 _ (by assumption) (by omega)) ?_ ?_
      | with_reducible refine halts_bind (lands_expr S host _ _ (by assumption)) (h11 _ (by assumption) (by omega)) ?_
      | with_reducible exact h3 _ _ (by assumption) (by omega)
      | with_reducible exact halts_fail _ _
      | with_reducible exact halts_ret_null _
      | with_reducible exact halts_ret
      | with_reducible exact halts_crash
      | dsimp only
      | split
  · intro p hp ht hf
    rw [parse_list]
    repeat' first
      | with_reducible intro _
      | with_reducible refine halts_advance_strict (by assumption) (by assumption) ?_
      | with_reducible refine halts_advance_and (by assumption) (by assumption) ?_
      | with_reducible refine halts_advance (by assumption) ?_
      | with_reducible refine halts_advance_ctx _ (by assumption) ?_
      | with_reducible exact h3 _ _ (by assumption) (by omega)
  · intro p hp ht hf
    rw [parse_import]
    have hnone : ∀ path, host.fopen path = none := by
      rcases hp.2 with h | h
      · exact hS h
      · exact absurd ht h.2
    simp only [hnone]
    repeat' first
      | with_reducible intro _
      | with_reducible refine halts_advance_strict (by assumption) (by assumption) ?_
      | with_reducible refine halts_advance_type (by assumption) (by assumption) (by decide) ?_
      | with_reducible refine halts_advance_and (by assumption) (by assumption) ?_
      | with_reducible refine halts_advance (by assumption) ?_
      | with_reducible refine halts_advance_ctx _ (by assumption) ?_
      | with_reducible exact halts_fail _ _
      | with_reducible exact halts_ret_null _
      | with_reducible exact halts_ret
      | with_reducible exact halts_crash
      | dsimp only
      | split
  · intro p f a hp hf
    rw [parse_call_loop]
    repeat' first
      | with_reducible intro _
      | with_reducible refine halts_advance_strict (by assumption) (by assumption) ?_
      | with_reducible refine halts_advance_eq (by assumption) (by assumption) (by decide) ?_
      | with_reducible refine halts_advance_and (by assumption) (by assumption) ?_
      | with_reducible refine halts_advance (by assumption) ?_
      | with_reducible refine halts_advance_ctx _ (by assumption) ?_
      | with_reducible refine halts_bind (lands_expr S host _ _ (by assumption)) (h11 _ (by assumption) (by omega)) ?_
      | with_reducible exact h7 _ _ _ (by assumption) (by simp only [List.length_append, List.length_singleton]; omega)
      | with_reducible exact halts_fail _ _
      | with_reducible exact halts_ret_null _
      | with_reducible exact halts_ret
      | with_reducible exact halts_crash
      | dsimp only
      | split
  · intro p n hp ht hf
    rw [parse_call]
    repeat' first
      | with_reducible intro _
      | with_reducible refine halts_advance_strict (by assumption) (by assumption) ?_
      | with_reducible refine halts_advance_and (by assumption) (by assumption) ?_
      | with_reducible refine halts_advance (by assumption) ?_
      | with_reducible refine halts_advance_ctx _ (by assumption) ?_
      | with_reducible exact h7 _ _ _ (by assumption) (by simp only [List.length_nil]; omega)
  · intro p v hp hf
    rw [parse_primary_fields]
    repeat' first
      | with_reducible intro _
      | with_reducible refine halts_advance_strict (by assumption) (by assumption) ?_
      | with_reducible refine halts_advance_eq (by assumption) (by assumption) (by decide) ?_
      | with_reducible refine halts_advance_and (by assumption) (by assumption) ?_
      | with_reducible refine halts_advance (by assumption) ?_
      | with_reducible refine halts_advance_ctx _ (by assumption) ?_
      | with_reducible exact h9 _ _ (by assumption) (by omega)
      | with_reducible exact halts_fail _ _
      | with_reducible exact halts_ret_null _
      | with_reducible exact halts_ret
      | with_reducible exact halts_crash
      | dsimp only
      | split
  · intro p hp hf
    rw [parse_primary]
    repeat' first
      | with_reducible intro _
      | with_reducible refine halts_advance_strict (by assumption) (by assumption) ?_
      | with_reducible refine halts_advance_eq (by assumption) (by assumption) (by decide) ?_
      | with_reducible refine halts_advance_type (by assumption) (by assumption) (by decide) ?_
      | with_reducible refine halts_advance_and (by assumption) (by assumption) ?_
      | with_reducible refine halts_advance (by assumption) ?_
      | with_reducible refine halts_advance_ctx _ (by assumption) ?_
      | with_reducible refine halts_bind (lands_expr S host _ _ (by assumption)) (h11 _ (by assumption) (by omega)) ?_
      | with_reducible exact h2 _ (by assumption) (tok_ne_of_type (by assumption) (by decide)) (by omega)
      | with_reducible exact h4 _ (by assumption) (tok_ne_of_type (by assumption) (by decide)) (by omega)
      | with_reducible exact h6 _ (by assumption) (by assumption) (by omega)
      | with_reducible exact h8 _ _ (by assumption) (tok_ne_of_eq (by assumption) (by decide)) (by omega)
      | with_reducible exact h9 _ _ (by assumption) (by omega)
      | with_reducible exact halts_fail _ _
      | with_reducible exact halts_ret_null _
      | with_reducible exact halts_ret
      | with_reducible exact halts_crash
      | dsimp only
      | split
  · intro p hp hf
    rw [parse_expr]
    repeat' first
      | with_reducible intro _
      | with_reducible exact null_contra (by assumption) (by assumption)
      | with_reducible refine halts_advance_strict (by assumption) (by assumption) ?_
      | with_reducible refine halts_advance_eq (by assumption) (by assumption) (by decide) ?_
      | with_reducible refine halts_advance_and (by assumption) (by assumption) ?_
      | with_reducible refine halts_advance (by assumption) ?_
      | with_reducible refine halts_advance_ctx _ (by assumption) ?_
      | with_reducible refine halts_bind_val (lands_primary S host _ _ (by assumption)) (h10 _ (by assumption) (by omega)) ?_ ?_
      | with_reducible refine halts_bind (lands_expr S host _ _ (by assumption)) (h11 _ (by assumption) (by omega)) ?_
      | with_reducible exact halts_fail _ _
      | with_reducible exact halts_ret_null _
      | with_reducible exact halts_ret
      | with_reducible exact halts_crash
      | dsimp only
      | split

theorem parseHalts (S : Prop) (host : Host) (hS : S → ∀ path, host.fopen path = none)
    (fuel : Nat) : ParseHalts S host fuel := by
  induction fuel with
  | zero => exact halts_zero S host
  | succ n ih => exact halts_succ S host hS n ih

/-! ### The parser stays on its source -/

theorem behind_refl (L : Lexer) : L.Behind L := ⟨rfl, rfl, Nat.le_refl _⟩

theorem behind_next {L : Lexer} {p : Parser} (h : L.Behind p.lex) : L.Behind p.next.lex := by
  obtain ⟨h1, h2, h3⟩ := h
  obtain ⟨s1, s2, s3, _⟩ := lexer_next_spec p.lex
  exact ⟨s1.trans h1, s2.trans h2, Nat.le_trans h3 s3⟩

theorem ahead_ret {L : Lexer} {v : Goon_Value} {q : Parser} (h : L.Behind q.lex) :
    (Outcome.ret (v, q)).Ahead L := by
  intro r hr
  cases hr
  exact h

theorem ahead_timeout (L : Lexer) :
    (Outcome.timeout : Outcome (Goon_Value × Parser)).Ahead L := by
  intro r hr
  cases hr

theorem ahead_crash (L : Lexer) : (Outcome.crash : Outcome (Goon_Value × Parser)).Ahead L := by
  intro r hr
  cases hr

theorem ahead_fail {L : Lexer} {p : Parser} (msg : List Char) (h : L.Behind p.lex) :
    (p.fail msg).Ahead L :=
  ahead_ret (q := { p with lex := { p.lex with error := some msg } }) h

theorem ahead_ret_null {L : Lexer} {p : Parser} (h : L.Behind p.lex) : p.ret_null.Ahead L :=
  ahead_ret h

theorem ahead_bind {L : Lexer} {o : Outcome (Goon_Value × Parser)}
    {k : Goon_Value × Parser → Outcome (Goon_Value × Parser)} (ho : o.Ahead L)
    (hk : ∀ r, L.Behind r.2.lex → (k r).Ahead L) : (o.bind k).Ahead L := by
  cases o with
  | ret a => exact hk a (ho a rfl)
  | crash => exact ahead_crash L
  | timeout => exact ahead_timeout L

theorem ahead_bind_any {L : Lexer} {o : Outcome (Goon_Value × Parser)}
    {k : Goon_Value × Parser → Outcome (Goon_Value × Parser)}
    (hk : ∀ r, (k r).Ahead L) : (o.bind k).Ahead L := by
  cases o with
  | ret a => exact hk a
  | crash => exact ahead_crash L
  | timeout => exact ahead_timeout L

theorem ahead_advance {L : Lexer} {p : Parser}
    {k : Parser → Outcome (Goon_Value × Parser)} (hp : L.Behind p.lex)
    (hk : ∀ q, L.Behind q.lex → (k q).Ahead L) : (p.advance k).Ahead L := by
  unfold Parser.advance
  split
  · exact hk _ (behind_next hp)
  · exact ahead_ret (behind_next hp)

theorem ahead_zero (host : Host) : ParseAhead host 0 := by
  refine ⟨?_, ?_, ?_, ?_, ?_, ?_, ?_, ?_, ?_, ?_, ?_⟩ <;> intros <;> exact ahead_timeout _

set_option maxHeartbeats 4000000 in
theorem ahead_succ (host : Host) (fuel : Nat) (ih : ParseAhead host fuel) :
    ParseAhead host (fuel + 1) := by
  obtain ⟨h1, h2, h3, h4, h5, h6, h7, h8, h9, h10, h11⟩ := ih
  refine ⟨?_, ?_, ?_, ?_, ?_, ?_, ?_, ?_, ?_, ?_, ?_⟩
  · intro L p r hp
    rw [parse_record_loop]
    repeat' first
      | with_reducible intro _
      | with_reducible refine ahead_advance (by assumption) ?_
      | with_reducible refine ahead_bind (h11 _ _ (by assumption)) ?_
      | with_reducible exact h1 _ _ _ (by assumption)
      | with_reducible exact ahead_fail _ (by assumption)
      | with_reducible exact ahead_ret_null (by assumption)
      | with_reducible exact ahead_ret (by assumption)
      | with_reducible exact ahead_crash _
      | dsimp only
      | split
  · intro L p hp
    rw [parse_record]
    repeat' first
      | with_reducible intro _
      | with_reducible refine ahead_advance (by assumption) ?_
      | with_reducible exact h1 _ _ _ (by assumption)
  · intro L p r hp
    rw [parse_list_loop]
    repeat' first
      | with_reducible intro _
      | with_reducible refine ahead_advance (by assumption) ?_
      | with_reducible refine ahead_bind (h11 _ _ (by assumption)) ?_
      | with_reducible exact h3 _ _ _ (by assumption)
      | with_reducible exact ahead_fail _ (by assumption)
      | with_reducible exact ahead_ret_null (by assumption)
      | with_reducible exact ahead_ret (by assumption)
      | with_reducible exact ahead_crash _
      | dsimp only
      | split
  · intro L p hp
    rw [parse_list]
    repeat' first
      | with_reducible intro _
      | with_reducible refine ahead_advance (by assumption) ?_
      | with_reducible exact h3 _ _ _ (by assumption)
  · intro L p r hp
    rw [parse_import_loop]
    repeat' first
      | with_reducible intro _
      | with_reducible refine ahead_advance (by assumption) ?_
      | with_reducible refine ahead_bind (h11 _ _ (by assumption)) ?_
      | with_reducible exact h5 _ _ _ (by assumption)
      | with_reducible exact ahead_fail _ (by assumption)
      | with_reducible exact ahead_ret_null (by assumption)
      | with_reducible exact ahead_ret (by assumption)
      | with_reducible exact ahead_crash _
      | dsimp only
      | split
  · intro L p hp
    rw [parse_import]
    repeat' first
      | with_reducible intro _
      | with_reducible refine ahead_advance (by assumption) ?_
      | with_reducible refine ahead_bind_any ?_
      | with_reducible exact ahead_fail _ (by assumption)
      | with_reducible exact ahead_ret_null (by assumption)
      | with_reducible exact ahead_ret (by assumption)
      | with_reducible exact ahead_crash _
      | dsimp only
      | split
  · intro L p f a hp
    rw [parse_call_loop]
    repeat' first
      | with_reducible intro _
      | with_reducible refine ahead_advance (by assumption) ?_
      | with_reducible refine ahead_bind (h11 _ _ (by assumption)) ?_
      | with_reducible exact h7 _ _ _ _ (by assumption)
      | with_reducible exact ahead_fail _ (by assumption)
      | with_reducible exact ahead_ret_null (by assumption)
      | with_reducible exact ahead_ret (by assumption)
      | with_reducible exact ahead_crash _
      | dsimp only
      | split
  · intro L p n hp
    rw [parse_call]
    repeat' first
      | with_reducible intro _
      | with_reducible refine ahead_advance (by assumption) ?_
      | with_reducible exact h7 _ _ _ _ (by assumption)
  · intro L p v hp
    rw [parse_primary_fields]
    repeat' first
      | with_reducible intro _
      | with_reducible refine ahead_advance (by assumption) ?_
      | with_reducible exact h9 _ _ _ (by assumption)
      | with_reducible exact ahead_fail _ (by assumption)
      | with_reducible exact ahead_ret_null (by assumption)
      | with_reducible exact ahead_ret (by assumption)
      | with_reducible exact ahead_crash _
      | dsimp only
      | split
  · intro L p hp
    rw [parse_primary]
    repeat' first
      | with_reducible intro _
      | with_reducible refine ahead_advance (by assumption) ?_
      | with_reducible refine ahead_bind (h11 _ _ (by assumption)) ?_
      | with_reducible exact h2 _ _ (by assumption)
      | with_reducible exact h4 _ _ (by assumption)
      | with_reducible exact h6 _ _ (by assumption)
      | with_reducible exact h8 _ _ _ (by assumption)
      | with_reducible exact h9 _ _ _ (by assumption)
      | with_reducible exact ahead_fail _ (by assumption)
      | with_reducible exact ahead_ret_null (by assumption)
      | with_reducible exact ahead_ret (by assumption)
      | with_reducible exact ahead_crash _
      | dsimp only
      | split
  · intro L p hp
    rw [parse_expr]
    repeat' first
      | with_reducible intro _
      | with_reducible refine ahead_advance (by assumption) ?_
      | with_reducible refine ahead_bind (h10 _ _ (by assumption)) ?_
      | with_reducible refine ahead_bind (h11 _ _ (by assumption)) ?_
      | with_reducible exact ahead_fail _ (by assumption)
      | with_reducible exact ahead_ret_null (by assumption)
      | with_reducible exact ahead_ret (by assumption)
      | with_reducible exact ahead_crash _
      | dsimp only
      | split

theorem parseAhead (host : Host) (fuel : Nat) : ParseAhead host fuel := by
  induction fuel with
  | zero => exact ahead_zero host
  | succ n ih => exact ahead_succ host n ih

/-! ### The loops of the tokenizer end by their own conditions -/

theorem skip_line_fuel : ∀ (n m : Nat) (L : Lexer), L.len - L.pos ≤ n → L.len - L.pos ≤ m →
    lexer_skip_whitespace_line n L = lexer_skip_whitespace_line m L := by
  intro n
  induction n with
  | zero =>
    intro m L hn _
    cases m with
    | zero => rfl
    | succ m =>
      rw [lexer_skip_whitespace_line, lexer_skip_whitespace_line,
        if_neg (fun h => by have := h.1; omega)]
  | succ n ih =>
    intro m L hn hm
    cases m with
    | zero =>
      rw [lexer_skip_whitespace_line, lexer_skip_whitespace_line,
        if_neg (fun h => by have := h.1; omega)]
    | succ m =>
      rw [lexer_skip_whitespace_line, lexer_skip_whitespace_line]
      split
      · exact ih m _ (by dsimp only; omega) (by dsimp only; omega)
      · rfl

theorem skip_block_fuel : ∀ (n m : Nat) (L : Lexer), L.len - L.pos ≤ n → L.len - L.pos ≤ m →
    lexer_skip_whitespace_block n L = lexer_skip_whitespace_block m L := by
  intro n
  induction n with
  | zero =>
    intro m L hn _
    cases m with
    | zero => rfl
    | succ m =>
      rw [lexer_skip_whitespace_block, lexer_skip_whitespace_block,
        if_neg (fun h => by omega)]
  | succ n ih =>
    intro m L hn hm
    cases m with
    | zero =>
      rw [lexer_skip_whitespace_block, lexer_skip_whitespace_block,
        if_neg (fun h => by omega)]
    | succ m =>
      rw [lexer_skip_whitespace_block, lexer_skip_whitespace_block]
      split
      · split
        · rfl
        · exact ih m _ (by dsimp only; omega) (by dsimp only; omega)
      · rfl

theorem skip_loop_fuel : ∀ (n m : Nat) (L : Lexer), L.len - L.pos ≤ n → L.len - L.pos ≤ m →
    lexer_skip_whitespace_loop n L = lexer_skip_whitespace_loop m L := by
  intro n
  induction n with
  | zero =>
    intro m L hn _
    cases m with
    | zero => rfl
    | succ m =>
      rw [lexer_skip_whitespace_loop, lexer_skip_whitespace_loop,
        if_neg (fun h => by omega)]
  | succ n ih =>
    intro m L hn hm
    cases m with
    | zero =>
      rw [lexer_skip_whitespace_loop, lexer_skip_whitespace_loop,
        if_neg (fun h => by omega)]
    | succ m =>
      rw [lexer_skip_whitespace_loop, lexer_skip_whitespace_loop]
      split
      · dsimp only
        split
        · exact ih m _ (by dsimp only; omega) (by dsimp only; omega)
        · split
          · rename_i h2
            have hm := skip_line_moves (L.len - (L.pos + 2)) { L with pos := L.pos + 2 }
            obtain ⟨_, m2, _, _, m5, _⟩ := hm
            exact ih m _ (by rw [m2]; dsimp only at m5 ⊢; omega)
              (by rw [m2]; dsimp only at m5 ⊢; omega)
          · split
            · rename_i h2
              have hm := skip_block_moves (L.len - (L.pos + 2)) { L with pos := L.pos + 2 }
              obtain ⟨_, m2, _, _, m5, _⟩ := hm
              exact ih m _ (by rw [m2]; dsimp only at m5 ⊢; omega)
                (by rw [m2]; dsimp only at m5 ⊢; omega)
            · rfl
      · rfl

theorem next_string_fuel : ∀ (n m : Nat) (L : Lexer) (buf : List Char),
    L.len - L.pos ≤ n → L.len - L.pos ≤ m →
    lexer_next_string n L buf = lexer_next_string m L buf := by
  intro n
  induction n with
  | zero =>
    intro m L buf hn _
    cases m with
    | zero => rfl
    | succ m =>
      rw [lexer_next_string, lexer_next_string, if_neg (fun h => by have := h.1; omega)]
  | succ n ih =>
    intro m L buf hn hm
    cases m with
    | zero =>
      rw [lexer_next_string, lexer_next_string, if_neg (fun h => by have := h.1; omega)]
    | succ m =>
      rw [lexer_next_string, lexer_next_string]
      split
      · dsimp only
        split
        · exact ih m _ _ (by dsimp only; omega) (by dsimp only; omega)
        · exact ih m _ _ (by dsimp only; omega) (by dsimp only; omega)
      · rfl

theorem next_digits_fuel : ∀ (n m : Nat) (L : Lexer) (val : Int),
    L.len - L.pos ≤ n → L.len - L.pos ≤ m →
    lexer_next_digits n L val = lexer_next_digits m L val := by
  intro n
  induction n with
  | zero =>
    intro m L val hn _
    cases m with
    | zero => rfl
    | succ m =>
      rw [lexer_next_digits, lexer_next_digits, if_neg (fun h => by have := h.1; omega)]
  | succ n ih =>
    intro m L val hn hm
    cases m with
    | zero =>
      rw [lexer_next_digits, lexer_next_digits, if_neg (fun h => by have := h.1; omega)]
    | succ m =>
      rw [lexer_next_digits, lexer_next_digits]
      split
      · exact ih m _ _ (by dsimp only; omega) (by dsimp only; omega)
      · rfl

theorem next_ident_fuel : ∀ (n m : Nat) (L : Lexer), L.len - L.pos ≤ n → L.len - L.pos ≤ m →
    lexer_next_ident n L = lexer_next_ident m L := by
  intro n
  induction n with
  | zero =>
    intro m L hn _
    cases m with
    | zero => rfl
    | succ m =>
      rw [lexer_next_ident, lexer_next_ident, if_neg (fun h => by have := h.1; omega)]
  | succ n ih =>
    intro m L hn hm
    cases m with
    | zero =>
      rw [lexer_next_ident, lexer_next_ident, if_neg (fun h => by have := h.1; omega)]
    | succ m =>
      rw [lexer_next_ident, lexer_next_ident]
      split
      · exact ih m _ (by dsimp only; omega) (by dsimp only; omega)
      · rfl

/-! ### Tokens, expressions and whole sources -/

/-- From a state with at most `d` characters unread, fewer than `d + 1` calls
of `lexer_next` yield a token other than the end of the input before a call
fails or yields the end of the input. -/
theorem tokens_bounded : ∀ (d : Nat) (L : Lexer), L.pos ≤ L.len → L.len - L.pos ≤ d →
    ∃ k, k ≤ d ∧
      (∀ j, j < k → (lexer_next (lexer_next_iterate j L)).1 = true ∧
        (lexer_next (lexer_next_iterate j L)).2.current.type ≠ TOK_EOF) ∧
      ((lexer_next (lexer_next_iterate k L)).1 = false ∨
        (lexer_next (lexer_next_iterate k L)).2.current.type = TOK_EOF) := by
  intro d
  induction d with
  | zero =>
    intro L h1 h2
    obtain ⟨s1, s2, s3, s4, s5, _⟩ := lexer_next_spec L
    refine ⟨0, Nat.le_refl _, fun j hj => absurd hj (Nat.not_lt_zero j), ?_⟩
    show (lexer_next L).1 = false ∨ (lexer_next L).2.current.type = TOK_EOF
    cases hb : (lexer_next L).1 with
    | false => exact Or.inl rfl
    | true =>
      right
      by_contra he
      have := s5 hb he
      have := s4 h1
      omega
  | succ d ih =>
    intro L h1 h2
    obtain ⟨s1, s2, s3, s4, s5, _⟩ := lexer_next_spec L
    by_cases hgo : (lexer_next L).1 = true ∧ (lexer_next L).2.current.type ≠ TOK_EOF
    · have hlt := s5 hgo.1 hgo.2
      have hle := s4 h1
      obtain ⟨k, hk, hall, hend⟩ := ih (lexer_next L).2 hle (by omega)
      refine ⟨k + 1, by omega, ?_, hend⟩
      intro j hj
      cases j with
      | zero => exact hgo
      | succ j => exact hall j (by omega)
    · refine ⟨0, Nat.zero_le _, fun j hj => absurd hj (Nat.not_lt_zero j), ?_⟩
      show (lexer_next L).1 = false ∨ (lexer_next L).2.current.type = TOK_EOF
      cases hb : (lexer_next L).1 with
      | false => exact Or.inl rfl
      | true =>
        right
        by_contra he
        exact hgo ⟨hb, he⟩

/-- An expression that evaluates has consumed a token: the tokenizer reads the
same source, and either `pos` has moved forward, or it stands where it stood and
the current token, which was not the end of the input, now is. -/
theorem evals_consumes (host : Host) {p q : Parser} {v : Goon_Value}
    (h : Evals host p v q) (hp : p.lex.pos ≤ p.lex.len) :
    q.lex.src = p.lex.src ∧ q.lex.len = p.lex.len ∧ q.lex.pos ≤ q.lex.len ∧
      q.lex.left < p.lex.left ∧
      (p.lex.pos < q.lex.pos ∨
        (p.lex.pos = q.lex.pos ∧ p.tok ≠ TOK_EOF ∧ q.tok = TOK_EOF)) := by
  obtain ⟨hv, n, hn⟩ := h
  obtain ⟨a1, a2, a3⟩ := (parseAhead host n).2.2.2.2.2.2.2.2.2.2 p.lex p (behind_refl _) _ hn
  obtain ⟨⟨b1, _⟩, _, b3⟩ := lands_expr True host n p ⟨hp, Or.inl trivial⟩ _ hn
  have hlt := b3 rfl hv
  refine ⟨a1, a2, b1, hlt, ?_⟩
  unfold Lexer.left at hlt
  unfold Parser.tok
  dsimp only at a1 a2 a3 b1 hlt
  rw [a2] at hlt b1
  by_cases hpos : p.lex.pos < q.lex.pos
  · exact Or.inl hpos
  · right
    have heq : p.lex.pos = q.lex.pos := by omega
    rw [heq] at hlt
    by_cases hq : q.lex.current.type = TOK_EOF
    · by_cases hpe : p.lex.current.type = TOK_EOF
      · rw [if_pos hq, if_pos hpe] at hlt
        omega
      · exact ⟨heq, hpe, hq⟩
    · rw [if_neg hq] at hlt
      split at hlt <;> omega

/-- The loop of `goon_load_string`, run from a `Good` state with fuel in
proportion to what is left to read, returns or crashes. -/
theorem load_loop_halts (S : Prop) (host : Host) (hS : S → ∀ path, host.fopen path = none) :
    ∀ (fuel : Nat) (p : Parser) (last : Goon_Value), p.Good S →
      20 * p.lex.left + 4 ≤ fuel → goon_load_string_loop host fuel p last ≠ .timeout := by
  intro fuel
  induction fuel with
  | zero => intro p last _ hf; omega
  | succ n ih =>
    intro p last hg hf
    rw [goon_load_string_loop]
    by_cases ht : p.tok ≠ TOK_EOF
    · rw [if_pos ht]
      have hE := (parseHalts S host hS n).2.2.2.2.2.2.2.2.2 p hg (by omega)
      have hL := lands_expr S host n p hg
      cases hr : parse_expr host n p with
      | timeout => exact absurd hr hE
      | crash =>
        intro h
        cases h
      | ret r =>
        obtain ⟨h1, h2, h3⟩ := hL r hr
        simp only [Outcome.bind]
        by_cases hn : r.1.isNull = true
        · rw [if_pos hn]
          split <;> (intro h; cases h)
        · rw [if_neg hn]
          have := h3 rfl (by simpa using hn)
          exact ih r.2 r.1 h1 (by omega)
    · rw [if_neg ht]
      intro h
      cases h

/-- Loading a source that performs no import returns or crashes once the fuel
is twenty times the length of the source and four more. -/
theorem load_halts (host : Host) (ctx : Goon_Ctx) (last : Goon_Value) (src : List Char)
    (hsafe : (∀ path, host.fopen path = none) ∨ ¬ "import".toList <:+: src) (fuel : Nat)
    (hf : 20 * src.length + 4 ≤ fuel) :
    goon_load_string host fuel ctx last src ≠ .timeout := by
  unfold goon_load_string
  dsimp only
  split
  · have hg0 : Parser.Good (∀ path, host.fopen path = none)
        { ctx := ctx, lex := lexer_init src } := by
      refine ⟨Nat.zero_le _, ?_⟩
      rcases hsafe with h | h
      · exact Or.inl h
      · refine Or.inr ⟨h, ?_⟩
        intro hi
        cases hi
    have e : ({ ctx := ctx, lex := (lexer_next (lexer_init src)).2 } : Parser) =
        Parser.next { ctx := ctx, lex := lexer_init src } := by
      unfold Parser.next
      with_reducible rfl
    have h0 : Lexer.left (lexer_init src) = src.length := by
      unfold Lexer.left lexer_init
      simp
    have hle := left_next_le hg0
    rw [e]
    refine load_loop_halts _ host (fun h => h) fuel _ _ (good_next hg0) ?_
    have h1 : (Parser.next { ctx := ctx, lex := lexer_init src }).lex.left ≤ src.length := by
      rw [← h0]
      exact hle
    omega
  · intro h
    cases h

/-- C26: the tokenizer makes progress and stays in bounds, and loading
terminates.  From a state with `pos` within `len`, `lexer_skip_whitespace` and
`lexer_next` leave `pos` within `len`; they never move it back and keep the
source and its length.  Each loop of the tokenizer ends by its own condition
within `len - pos` turns: run with any greater number of turns it gives the
same result.  A successful `lexer_next` whose token is not the end of
the input leaves `pos` strictly greater.  So on a source of length n at most n
calls yield such a token before a call fails or yields the end of the input.
An expression that `parse_expr` evaluates has consumed at least one token: the
tokenizer is on the same source, less is left to read, and either `pos` has
moved forward or the current token has become the end of the input.  Hence
`goon_load_string` terminates on every source that performs no import, that is
whenever the host has no file to open or the source does not hold the word
`import`: with fuel twenty times the length of the source and four more the
embedding does not run out of fuel, it returns or it crashes.  The source `f(;`
of three characters, whose argument loop turns sixteen times without reading a
token, returns with the error `expected )` at fuel 64. -/
theorem C26_tokenizer_progress_and_termination :
    (∀ L : Lexer, L.pos ≤ L.len →
        (lexer_skip_whitespace L).pos ≤ (lexer_skip_whitespace L).len ∧
        (lexer_next L).2.pos ≤ (lexer_next L).2.len) ∧
    (∀ L : Lexer,
        L.pos ≤ (lexer_skip_whitespace L).pos ∧ (lexer_skip_whitespace L).len = L.len ∧
        (lexer_skip_whitespace L).src = L.src ∧
        L.pos ≤ (lexer_next L).2.pos ∧ (lexer_next L).2.len = L.len ∧
        (lexer_next L).2.src = L.src) ∧
    (∀ (n : Nat) (L : Lexer), L.len - L.pos ≤ n →
        lexer_skip_whitespace_loop n L = lexer_skip_whitespace L ∧
        lexer_skip_whitespace_line n L = lexer_skip_whitespace_line (L.len - L.pos) L ∧
        lexer_skip_whitespace_block n L = lexer_skip_whitespace_block (L.len - L.pos) L ∧
        lexer_next_ident n L = lexer_next_ident (L.len - L.pos) L ∧
        (∀ buf, lexer_next_string n L buf = lexer_next_string (L.len - L.pos) L buf) ∧
        (∀ val, lexer_next_digits n L val = lexer_next_digits (L.len - L.pos) L val)) ∧
    (∀ L : Lexer, (lexer_next L).1 = true → (lexer_next L).2.current.type ≠ TOK_EOF →
        L.pos < (lexer_next L).2.pos) ∧
    (∀ src : List Char, ∃ k, k ≤ src.length ∧
        (∀ j, j < k → (lexer_next (lexer_next_iterate j (lexer_init src))).1 = true ∧
          (lexer_next (lexer_next_iterate j (lexer_init src))).2.current.type ≠ TOK_EOF) ∧
        ((lexer_next (lexer_next_iterate k (lexer_init src))).1 = false ∨
          (lexer_next (lexer_next_iterate k (lexer_init src))).2.current.type = TOK_EOF)) ∧
    (∀ (host : Host) (p q : Parser) (v : Goon_Value),
        Evals host p v q → p.lex.pos ≤ p.lex.len →
        q.lex.src = p.lex.src ∧ q.lex.len = p.lex.len ∧ q.lex.pos ≤ q.lex.len ∧
          q.lex.left < p.lex.left ∧
          (p.lex.pos < q.lex.pos ∨
            (p.lex.pos = q.lex.pos ∧ p.tok ≠ TOK_EOF ∧ q.tok = TOK_EOF))) ∧
    (∀ (host : Host) (ctx : Goon_Ctx) (last : Goon_Value) (src : List Char) (fuel : Nat),
        ((∀ path, host.fopen path = none) ∨ ¬ "import".toList <:+: src) →
        20 * src.length + 4 ≤ fuel →
        goon_load_string host fuel ctx last src ≠ .timeout ∧
        ((∃ r, goon_load_string host fuel ctx last src = .ret r) ∨
          goon_load_string host fuel ctx last src = .crash)) ∧
    (∀ last, Returns
      (fun fuel => goon_load_string no_host fuel goon_create last "f(;".toList)
      (false, { goon_create with error := some "expected )".toList }, .NULL)) := by
  refine ⟨?_, ?_, ?_, ?_, ?_, ?_, ?_, ?_⟩
  · intro L h
    exact ⟨(skip_whitespace_moves L).2.2.2.2.2 h, (lexer_next_spec L).2.2.2.1 h⟩
  · intro L
    obtain ⟨m1, m2, _, _, m5, _⟩ := skip_whitespace_moves L
    obtain ⟨s1, s2, s3, _⟩ := lexer_next_spec L
    exact ⟨m5, m2, m1, s3, s2, s1⟩
  · intro n L hn
    exact ⟨skip_loop_fuel n _ L hn (Nat.le_refl _), skip_line_fuel n _ L hn (Nat.le_refl _),
      skip_block_fuel n _ L hn (Nat.le_refl _), next_ident_fuel n _ L hn (Nat.le_refl _),
      fun buf => next_string_fuel n _ L buf hn (Nat.le_refl _),
      fun val => next_digits_fuel n _ L val hn (Nat.le_refl _)⟩
  · intro L h1 h2
    exact (lexer_next_spec L).2.2.2.2.1 h1 h2
  · intro src
    exact tokens_bounded src.length (lexer_init src) (Nat.zero_le _) (Nat.le_refl _)
  · intro host p q v h hp
    exact evals_consumes host h hp
  · intro host ctx last src fuel hsafe hf
    have h := load_halts host ctx last src hsafe fuel hf
    refine ⟨h, ?_⟩
    cases hr : goon_load_string host fuel ctx last src with
    | ret r => exact Or.inl ⟨r, rfl⟩
    | crash => exact Or.inr rfl
    | timeout => exact absurd hr h
  · exact loaded_lexed no_host (n := 64) (by decide!) (by decide!)

/-- The tokenizer at the start of `ab 1`, the expression `0` of the source
`if 0 then 7 else 9`, and the source `f(;` on a host without files meet the
hypotheses of the rules of C26. -/
theorem C26_tokenizer_progress_and_termination_witness :
    ((lexer_init "ab 1".toList).pos ≤ (lexer_init "ab 1".toList).len ∧
      (lexer_skip_whitespace (lexer_init "ab 1".toList)).pos ≤
        (lexer_skip_whitespace (lexer_init "ab 1".toList)).len ∧
      (lexer_next (lexer_init "ab 1".toList)).2.pos ≤
        (lexer_next (lexer_init "ab 1".toList)).2.len) ∧
    ((lexer_init "ab 1".toList).len - (lexer_init "ab 1".toList).pos ≤ 10 ∧
      lexer_skip_whitespace_loop 10 (lexer_init "ab 1".toList) =
        lexer_skip_whitespace (lexer_init "ab 1".toList)) ∧
    ((lexer_init "ab 1".toList).pos < (lexer_next (lexer_init "ab 1".toList)).2.pos ∧
      (lexer_next (lexer_init "ab 1".toList)).2.pos = 2) ∧
    (Evals no_host if_demo.next (.int 0) if_demo.next.next ∧
      if_demo.next.next.lex.left < if_demo.next.lex.left ∧
      (if_demo.next.lex.pos < if_demo.next.next.lex.pos ∨
        (if_demo.next.lex.pos = if_demo.next.next.lex.pos ∧ if_demo.next.tok ≠ TOK_EOF ∧
          if_demo.next.next.tok = TOK_EOF))) ∧
    (goon_load_string no_host 64 goon_create .NULL "f(;".toList ≠ .timeout ∧
      ((∃ r, goon_load_string no_host 64 goon_create .NULL "f(;".toList = .ret r) ∨
        goon_load_string no_host 64 goon_create .NULL "f(;".toList = .crash)) :=
  have hc : Evals no_host if_demo.next (.int 0) if_demo.next.next :=
    ⟨rfl, 3, of_returned (by decide!)⟩
  have h5 := C26_tokenizer_progress_and_termination.2.2.2.2.2.1 no_host if_demo.next
    if_demo.next.next (.int 0) hc (by decide!)
  ⟨⟨by decide, C26_tokenizer_progress_and_termination.1 (lexer_init "ab 1".toList)
      (by decide)⟩,
    ⟨by decide, (C26_tokenizer_progress_and_termination.2.2.1 10 (lexer_init "ab 1".toList)
      (by decide)).1⟩,
    ⟨C26_tokenizer_progress_and_termination.2.2.2.1 (lexer_init "ab 1".toList) (by decide)
      (by decide), by decide⟩,
    ⟨hc, h5.2.2.2.1, h5.2.2.2.2⟩,
    C26_tokenizer_progress_and_termination.2.2.2.2.2.2.1 no_host goon_create .NULL "f(;".toList
      64 (Or.inl (fun _ => rfl)) (by decide)⟩

/-! ## C5: placeholders, and the text outside them -/

theorem placeholders_source_append (pieces : List (List Char × List Char))
    (last suffix : List Char) :
    placeholders_source pieces (last ++ suffix) = placeholders_source pieces last ++ suffix := by
  induction pieces with
  | nil => rfl
  | cons piece rest ih =>
    obtain ⟨text, name⟩ := piece
    rw [placeholders_source, placeholders_source, ih]
    simp

/-- C5: a string literal evaluates to `interpolate_string` of its decoded
payload in the context of that moment.  For a payload made of texts that hold
no `${` and of placeholders `${name}` whose names hold no `}`
(`placeholders_source`), the result is the string with every text kept, in
order, and every placeholder replaced by the text of the value bound to its
name (`placeholder_text`): a string verbatim, an integer in base 10, a boolean
as `true` or `false`, and the empty text when the name is unbound or bound to
a value of another kind.  Every payload in which each `${` has a `}` somewhere
after it is of that form.  Every other payload is such texts and placeholders,
then a text without `${`, then a `${` that no `}` follows: its result is the
same string for the part before that `${`, and nothing from that `${` on is
kept.  In a fresh context, with a host that registers no function, the source
`let x = 5; "val=${x}"` loads with result the string `val=5`, and
`"v=${missing}"` with result `v=`; with `x` bound to 5 the payload
`a${x}b${y` gives `a5b`. -/
theorem C5_interpolation_replaces_placeholders (host : Host) :
    (∀ (p : Parser) (str : List Char),
        p.tok = TOK_STRING → p.lex.current.string = some str → p.lexes →
        Returns (fun fuel => parse_primary host fuel p)
          (interpolate_string p.ctx str, p.next)) ∧
    (∀ (ctx : Goon_Ctx) (pieces : List (List Char × List Char)) (last : List Char),
        (∀ piece ∈ pieces, no_marker piece.1 = true ∧ '}' ∉ piece.2) →
        no_marker last = true →
        interpolate_string ctx (placeholders_source pieces last) =
          .string (placeholders_value ctx pieces last)) ∧
    (∀ str : List Char, ¬ dangling str →
        ∃ pieces last, str = placeholders_source pieces last ∧
          (∀ piece ∈ pieces, no_marker piece.1 = true ∧ '}' ∉ piece.2) ∧
          no_marker last = true) ∧
    (∀ last, Returns
      (fun fuel => goon_load_string no_host fuel goon_create last
        "let x = 5; \"val=$\x7bx\x7d\"".toList)
      (true, { env := [("x".toList, .int 5)], error := none, base_path := none },
        .string "val=5".toList)) ∧
    (∀ last, Returns
      (fun fuel => goon_load_string no_host fuel goon_create last
        "\"v=$\x7bmissing\x7d\"".toList)
      (true, goon_create, .string "v=".toList)) ∧
    (∀ str : List Char, dangling str →
        ∃ pieces text tail, str = placeholders_source pieces (text ++ '$' :: '{' :: tail) ∧
          (∀ piece ∈ pieces, no_marker piece.1 = true ∧ '}' ∉ piece.2) ∧
          no_marker text = true ∧ '}' ∉ tail ∧
          ∀ ctx : Goon_Ctx,
            interpolate_string ctx str = .string (placeholders_value ctx pieces text)) ∧
    interpolate_string (define goon_create "x".toList (.int 5)) "a$\x7bx\x7db$\x7by".toList =
      .string "a5b".toList := by
  refine ⟨?_, ?_, ?_, ?_, ?_, ?_, congrArg Goon_Value.string (by decide)⟩
  · intro p str ht hs hl
    exact parse_primary_string host ht hs hl
  · intro ctx pieces last hp hlast
    unfold interpolate_string
    have := interpolate_loop_pieces ctx last hlast pieces hp [] (placeholders_source pieces last)
      [] (placeholders_source pieces last).length (by simp) (Nat.le_refl _)
    simp only [List.length_nil, List.nil_append] at this
    rw [this]
  · intro str hd
    exact placeholders_cover str.length str (Nat.le_refl _) hd
  · exact loaded_true no_host (n := 20) (by decide!)
  · exact loaded_true no_host (n := 20) (by decide!)
  · intro str hd
    obtain ⟨pre, tail, hs, hnd, ht⟩ := first_dangling str.length str (Nat.le_refl _) hd
    obtain ⟨pieces, text, hps, hp, hl⟩ := placeholders_cover pre.length pre (Nat.le_refl _) hnd
    refine ⟨pieces, text, tail, ?_, hp, hl, ht, fun ctx => ?_⟩
    · rw [placeholders_source_append, ← hps, hs]
    · rw [hs, interpolate_first_dangling ctx pre tail hnd ht, hps]
      unfold interpolate_string
      have := interpolate_loop_pieces ctx text hl pieces hp [] (placeholders_source pieces text)
        [] (placeholders_source pieces text).length (by simp) (Nat.le_refl _)
      simp only [List.length_nil, List.nil_append] at this
      rw [this]

/-- The payload `a${x}b${y}` in a context that binds `x` to 5 and leaves `y`
unbound, the string token of the source `"a${x}"`, and the payload `a${x}b${y`,
whose last `${` no `}` follows, meet the hypotheses of C5. -/
theorem C5_interpolation_replaces_placeholders_witness :
    interpolate_string (define goon_create "x".toList (.int 5))
        (placeholders_source [("a".toList, "x".toList), ("b".toList, "y".toList)] []) =
      .string (placeholders_value (define goon_create "x".toList (.int 5))
        [("a".toList, "x".toList), ("b".toList, "y".toList)] []) ∧
    placeholders_source [("a".toList, "x".toList), ("b".toList, "y".toList)] [] =
      "a$\x7bx\x7db$\x7by\x7d".toList ∧
    placeholders_value (define goon_create "x".toList (.int 5))
      [("a".toList, "x".toList), ("b".toList, "y".toList)] [] = "a5b".toList ∧
    Returns
      (fun fuel => parse_primary no_host fuel
        (Parser.start goon_create "\"a$\x7bx\x7d\"".toList))
      (interpolate_string goon_create "a$\x7bx\x7d".toList,
        (Parser.start goon_create "\"a$\x7bx\x7d\"".toList).next) ∧
    dangling "a$\x7bx\x7db$\x7by".toList ∧
    (∃ pieces text tail,
      "a$\x7bx\x7db$\x7by".toList = placeholders_source pieces (text ++ '$' :: '{' :: tail) ∧
      (∀ piece ∈ pieces, no_marker piece.1 = true ∧ '}' ∉ piece.2) ∧
      no_marker text = true ∧ '}' ∉ tail ∧
      ∀ ctx : Goon_Ctx,
        interpolate_string ctx "a$\x7bx\x7db$\x7by".toList =
          .string (placeholders_value ctx pieces text)) :=
  ⟨(C5_interpolation_replaces_placeholders no_host).2.1
      (define goon_create "x".toList (.int 5))
      [("a".toList, "x".toList), ("b".toList, "y".toList)] [] (by decide) (by decide),
    by decide, by decide,
    (C5_interpolation_replaces_placeholders no_host).1
      (Parser.start goon_create "\"a$\x7bx\x7d\"".toList) "a$\x7bx\x7d".toList
      (by decide!) (by decide!) (by decide!),
    ⟨"a$\x7bx\x7db".toList, "y".toList, rfl, by decide⟩,
    (C5_interpolation_replaces_placeholders no_host).2.2.2.2.2.1 "a$\x7bx\x7db$\x7by".toList
      ⟨"a$\x7bx\x7db".toList, "y".toList, rfl, by decide⟩⟩

/-- The claim C5 fails on the payload `a${x}b${y`, whose last `${` has no `}`
after it, so that `b${y` is text outside the one placeholder `${x}`.  With `x`
bound to 5 the claim gives `a5b${y`; `interpolate_string` gives `a5b`, and so
does the source `let x = 5; "a${x}b${y"`.  So it is not true of every payload
made of texts, placeholders and a last text that holds no placeholder, that
the result keeps all the text outside the placeholders. -/
theorem C5_text_outside_placeholders_is_kept_counterexample :
    "a$\x7bx\x7db$\x7by".toList = placeholders_source [("a".toList, "x".toList)] "b$\x7by".toList ∧
    placeholders_value (define goon_create "x".toList (.int 5)) [("a".toList, "x".toList)]
      "b$\x7by".toList = "a5b$\x7by".toList ∧
    interpolate_string (define goon_create "x".toList (.int 5)) "a$\x7bx\x7db$\x7by".toList =
      .string "a5b".toList ∧
    goon_load_string no_host 20 goon_create .NULL
        "let x = 5; \"a$\x7bx\x7db$\x7by\"".toList =
      .ret (true, { env := [("x".toList, .int 5)], error := none, base_path := none },
        .string "a5b".toList) ∧
    ¬ (∀ (ctx : Goon_Ctx) (pieces : List (List Char × List Char)) (last : List Char),
        (∀ piece ∈ pieces, no_marker piece.1 = true ∧ '}' ∉ piece.2) →
        (¬ ∃ pre name post : List Char, last = pre ++ '$' :: '{' :: (name ++ '}' :: post)) →
        interpolate_string ctx (placeholders_source pieces last) =
          .string (placeholders_value ctx pieces last)) :=
  have h : interpolate_string (define goon_create "x".toList (.int 5))
      "a$\x7bx\x7db$\x7by".toList = .string "a5b".toList :=
    congrArg Goon_Value.string (by decide)
  ⟨by decide, by decide, h, of_loaded (by decide!),
    fun hall =>
      absurd (Goon_Value.string.inj (h.symm.trans
        (hall (define goon_create "x".toList (.int 5)) [("a".toList, "x".toList)]
          "b$\x7by".toList (by decide)
          (fun ⟨pre, name, post, e⟩ =>
            absurd (show '}' ∈ "b$\x7by".toList by rw [e]; simp) (by decide)))))
        (by decide)⟩

end Goon
